import Mathlib

/-!
# libconf: the recursive-descent parser of `src/parse.c` and `src/conf.c`

A shallow embedding of the configuration-file parser.  The lexer (`lex.c`) and
`internal.h` are not part of the sources at hand, so a file is given by the
token sequence its lexer hands out; everything the parser does with those
tokens is translated from `parse.c`.

Conventions of the embedding
* `malloc_s`, `ListCreate` and `ListAddBack` always succeed; `free` is not
  modelled.
* The pointer `block` of `_parseBlock` is the cell that was appended last to
  the shared list, the pointer `prop` the cell appended last to that block's
  property list: nothing else is appended while `_parseBlock` runs.
* Loops take a fuel argument; `none` means that the fuel ran out before the C
  function returned.
-/

namespace Libconf

/-! ## Constants and data model (`libconf.h`) -/

/-- The maximum amount of values in a property (`libconf.h`, line 28). -/
def MAX_PROPVAR : Nat := 16

/-- Value of property is an identifier. -/
def DATATYPE_IDENTIFIER : Nat := 0
/-- Value of property is a string. -/
def DATATYPE_STRING : Nat := 1
/-- Value of property is a number. -/
def DATATYPE_NUMBER : Nat := 2

/-- Modelled from the spec: the constant `BLOCK_BUFSZ` of `internal.h`, which is
not among the sources; the spec gives the bounded text buffer 256 code points,
the literal `parse.c` line 152 uses for the block type. -/
def BLOCK_BUFSZ : Nat := 256

/-- Modelled from the spec: the token types of `internal.h` (`LEX_TOKEN_*`),
`LEX_TOKEN_NONE` being the end-of-input token the spec calls `END`.
`LEX_TOKEN_OTHER` stands for any further type code the lexer may define. -/
inductive TokType
  | LEX_TOKEN_NONE
  | LEX_TOKEN_ERROR
  | LEX_TOKEN_OBRACE
  | LEX_TOKEN_EBRACE
  | LEX_TOKEN_COLON
  | LEX_TOKEN_COMMA
  | LEX_TOKEN_SEMICOLON
  | LEX_TOKEN_ID
  | LEX_TOKEN_STR
  | LEX_TOKEN_NUM
  | LEX_TOKEN_INCLUDE
  | LEX_TOKEN_OTHER (code : Nat)
  deriving DecidableEq, Repr, Inhabited

open TokType

/-- Modelled from the spec: `_confToken_t` of `internal.h`, with the fields
`parse.c` reads: `type`, `line`, `semVal` (the text) and `num`. -/
structure _confToken_t where
  type : TokType
  line : Int
  semVal : String
  num : Int
  deriving DecidableEq, Repr, Inhabited

/-- The payload union of `ConfPropVal_t`: a text (`id`/`str`) or `numVal`. -/
inductive Payload
  | text (s : String)
  | numVal (n : Int)
  deriving DecidableEq, Repr, Inhabited

/-- The value of a property (`ConfPropVal_t`). -/
structure ConfPropVal_t where
  lineNo : Int
  payload : Payload
  type : Nat
  deriving DecidableEq, Repr, Inhabited

/-- A property (`ConfProperty_t`).  `vals` is the array of `MAX_PROPVAR` slots;
a slot that was never written is `none`. -/
structure ConfProperty_t where
  lineNo : Int
  name : String
  vals : List (Option ConfPropVal_t)
  nextVal : Nat
  deriving DecidableEq, Repr, Inhabited

/-- A block of the parse tree (`ConfBlock_t`). -/
structure ConfBlock_t where
  lineNo : Int
  blockType : String
  blockName : String
  props : List ConfProperty_t
  deriving DecidableEq, Repr, Inhabited

/-! ## The collaborators of the parser -/

/-- Modelled from the spec: the state of a lexer (`lexState_t` of `lex.c`): the
file it reads, the tokens it has still to hand out before the end of input,
and the line of the end of input. -/
structure lexState_t where
  file : String
  pending : List _confToken_t
  eofLine : Int
  deriving DecidableEq, Repr, Inhabited

/-- Modelled from the spec: `_confLex` of `lex.c`, the pull protocol of the
lexer.  It hands out the next token; at the end of input it hands out the
`END` token, and goes on doing so when asked again. -/
def _confLex (lex : lexState_t) : _confToken_t × lexState_t :=
  match lex.pending with
  | [] => (⟨LEX_TOKEN_NONE, lex.eofLine, "", 0⟩, lex)
  | t :: rest => (t, { lex with pending := rest })

/-- What the parser is run against: the files that `_confLexInit` can open,
each with its token sequence and the line of its end, and the conversion of an
include path to the host encoding (`c32stombs` of libnex, `none` when it
reports a failure). -/
structure Host where
  files : String → Option (List _confToken_t × Int)
  c32stombs : String → Option String

/-- Modelled from the spec: `_confLexInit` of `lex.c`; `none` when the file
cannot be opened. -/
def _confLexInit (host : Host) (file : String) : Option lexState_t :=
  (host.files file).map fun p => ⟨file, p.1, p.2⟩

/-- The function `c32lcpy` of libnex, after `strlcpy`: the destination receives
at most `size - 1` code points of the source, and the length of the source is
returned. -/
def c32lcpy (src : String) (size : Nat) : String × Nat :=
  (String.mk (src.data.take (size - 1)), src.length)

/-! ## Diagnostics -/

def PARSE_ERROR_UNEXPECTED_TOKEN : Nat := 1
def PARSE_ERROR_INTERNAL : Nat := 2
def PARSE_ERROR_OVERFLOW : Nat := 3
def PARSE_ERROR_TOO_MANY_PROPS : Nat := 4

/-- The `extra` argument of `_parseError`: `NULL`, a pointer to a token type,
or a text. -/
inductive Extra
  | null
  | tokType (t : TokType)
  | text (s : String)
  deriving DecidableEq, Repr, Inhabited

/-- What follows the `file:line:` prefix of a message of `_parseError`, by the
arguments that the format strings of the `switch` receive. -/
inductive Detail
  /-- The message `unexpected token X`, with ` after token Y` when there is a
  last token and ` (expected Z)` when `extra` is given. -/
  | unexpected (tok : _confToken_t) (after : Option _confToken_t) (expected : Option TokType)
  /-- The message `string too long on token X`. -/
  | overflow (tok : _confToken_t)
  /-- The message `too many properties on property 'name'`. -/
  | tooManyProps (name : String)
  /-- The message `internal error: msg`. -/
  | internal (msg : String)
  /-- No `case` of the `switch` applies: the prefix alone. -/
  | nothing
  deriving DecidableEq, Repr, Inhabited

/-- One message handed to `error`: `error: <file>:<line>: <detail>`. -/
structure Diag where
  file : Option String
  line : Int
  detail : Detail
  deriving DecidableEq, Repr, Inhabited

/-- What the parser does to the outside, in order. -/
inductive Event
  /-- A successful `_confLexInit` on the file. -/
  | lexInit (file : String)
  /-- A call of `_confLex` on the lexer of the file, and the token it gave. -/
  | lex (file : String) (tok : _confToken_t)
  /-- A call of `_confLexDestroy` on the lexer of the file. -/
  | lexDestroy (file : String)
  /-- A call of `error` with the message. -/
  | error (d : Diag)
  deriving DecidableEq, Repr, Inhabited

/-- The state outside the parser structure: the static `fileName` of `conf.c`,
the list `head` that all parsers of one call share, and the events so far. -/
structure World where
  fileName : Option String
  head : List ConfBlock_t
  trace : List Event
  deriving DecidableEq, Repr, Inhabited

/-- State of the parser (`parseState_t`); `head` is in the `World`. -/
structure parseState_t where
  lex : lexState_t
  lastToken : Option _confToken_t
  deriving DecidableEq, Repr, Inhabited

/-- `ConfGetFileName` (`conf.c`, line 36). -/
def ConfGetFileName (w : World) : Option String := w.fileName

/-- `_confSetFileName` (`conf.c`, line 41). -/
def _confSetFileName (file : Option String) (w : World) : World :=
  { w with fileName := file }

/-- The message of an event that is a call of `error`. -/
def Event.diag : Event → Option Diag
  | Event.error d => some d
  | _ => none

/-- The messages handed to `error` so far. -/
def World.errors (w : World) : List Diag :=
  w.trace.filterMap Event.diag

/-- `_parseError` (`parse.c`, line 49): reports a diagnostic message. -/
def _parseError (parser : parseState_t) (tok : _confToken_t) (err : Nat) (extra : Extra)
    (w : World) : World :=
  let detail : Detail :=
    if err = PARSE_ERROR_UNEXPECTED_TOKEN then
      Detail.unexpected tok parser.lastToken
        (match extra with
          | Extra.tokType t => some t
          | _ => none)
    else if err = PARSE_ERROR_OVERFLOW then Detail.overflow tok
    else if err = PARSE_ERROR_TOO_MANY_PROPS then
      Detail.tooManyProps (match extra with
        | Extra.text s => s
        | _ => "")
    else if err = PARSE_ERROR_INTERNAL then
      Detail.internal (match extra with
        | Extra.text s => s
        | _ => "")
    else Detail.nothing
  { w with trace := w.trace ++ [Event.error ⟨ConfGetFileName w, tok.line, detail⟩] }

/-! ## Access to the cells under construction -/

/-- Apply `f` to the last element of a list. -/
def updLast {α : Type} (f : α → α) : List α → List α
  | [] => []
  | [a] => [f a]
  | a :: b :: l => a :: updLast f (b :: l)

/-- A write through the pointer `block`. -/
def World.updBlock (f : ConfBlock_t → ConfBlock_t) (w : World) : World :=
  { w with head := updLast f w.head }

/-- A write through the pointer `prop`. -/
def World.updProp (f : ConfProperty_t → ConfProperty_t) (w : World) : World :=
  w.updBlock fun b => { b with props := updLast f b.props }

/-- A read through the pointer `prop`. -/
def World.curProp (w : World) : ConfProperty_t :=
  ((w.head.getLast?.getD default).props.getLast?).getD default

/-! ## The parser (`parse.c`) -/

/-- `_parseToken` (`parse.c`, line 112): accepts a new token, saving the last
one.  The result is `none` (`NULL`) when the lexer gave the `ERROR` token. -/
def _parseToken (state : parseState_t) (lastTok : Option _confToken_t) (w : World) :
    Option _confToken_t × parseState_t × World :=
  let r := _confLex state.lex
  let state1 : parseState_t := { lex := r.2, lastToken := lastTok }
  let w1 : World := { w with trace := w.trace ++ [Event.lex state.lex.file r.1] }
  if r.1.type = LEX_TOKEN_ERROR then (none, state1, w1) else (some r.1, state1, w1)

/-- `_parseExpect` (`parse.c`, line 125): expects a specified token to exist. -/
def _parseExpect (state : parseState_t) (lastTok : Option _confToken_t) (tokType : TokType)
    (w : World) : Option _confToken_t × parseState_t × World :=
  match _parseToken state lastTok w with
  | (none, state1, w1) => (none, state1, w1)
  | (some tok, state1, w1) =>
    if tok.type ≠ tokType then
      (none, state1, _parseError state1 tok PARSE_ERROR_UNEXPECTED_TOKEN (Extra.tokType tokType) w1)
    else (some tok, state1, w1)

/-- The three value branches of `_parseBlock` (`parse.c`, lines 217-286), for
the token `tok` in value position: the slot `vals[nextVal]` is written, then
`nextVal` is incremented and compared with `MAX_PROPVAR`.  The result is
`false` where the C code returns `NULL`. -/
def _parseBlock_value (state : parseState_t) (tok : _confToken_t) (w : World) : Bool × World :=
  if tok.type = LEX_TOKEN_STR then
    let valLoc := w.curProp.nextVal
    let c := c32lcpy tok.semVal BLOCK_BUFSZ
    let w1 := w.updProp fun p =>
      { p with vals := p.vals.set valLoc (some ⟨tok.line, Payload.text c.1, DATATYPE_STRING⟩) }
    if c.2 ≥ BLOCK_BUFSZ then
      (false, _parseError state tok PARSE_ERROR_OVERFLOW Extra.null w1)
    else
      let w2 := w1.updProp fun p => { p with nextVal := p.nextVal + 1 }
      if w2.curProp.nextVal ≥ MAX_PROPVAR then
        (false, _parseError state tok PARSE_ERROR_TOO_MANY_PROPS (Extra.text w2.curProp.name) w2)
      else (true, w2)
  else if tok.type = LEX_TOKEN_ID then
    let valLoc := w.curProp.nextVal
    let c := c32lcpy tok.semVal BLOCK_BUFSZ
    let w1 := w.updProp fun p =>
      { p with vals := p.vals.set valLoc (some ⟨tok.line, Payload.text c.1, DATATYPE_IDENTIFIER⟩) }
    if c.2 ≥ BLOCK_BUFSZ then
      (false, _parseError state tok PARSE_ERROR_OVERFLOW Extra.null w1)
    else
      let w2 := w1.updProp fun p => { p with nextVal := p.nextVal + 1 }
      if w2.curProp.nextVal ≥ MAX_PROPVAR then
        (false, _parseError state tok PARSE_ERROR_TOO_MANY_PROPS (Extra.text w2.curProp.name) w2)
      else (true, w2)
  else if tok.type = LEX_TOKEN_NUM then
    let valLoc := w.curProp.nextVal
    let w1 := w.updProp fun p =>
      { p with vals := p.vals.set valLoc (some ⟨tok.line, Payload.numVal tok.num, DATATYPE_NUMBER⟩) }
    let w2 := w1.updProp fun p => { p with nextVal := p.nextVal + 1 }
    if w2.curProp.nextVal ≥ MAX_PROPVAR then
      (false, _parseError state tok PARSE_ERROR_TOO_MANY_PROPS (Extra.text w2.curProp.name) w2)
    else (true, w2)
  else
    (false, _parseError state tok PARSE_ERROR_UNEXPECTED_TOKEN Extra.null w)

/-- The value loop of `_parseBlock` (`parse.c`, lines 212-303); `tok` is the
token consumed last.  The result token is the `;` that ended the property, or
`none` where the C code returns `NULL`. -/
def _parseBlock_values : Nat → parseState_t → _confToken_t → World →
    Option (Option _confToken_t × parseState_t × World)
  | 0, _, _, _ => none
  | fuel + 1, state, tok, w =>
    match _parseToken state (some tok) w with
    | (none, state1, w1) => some (none, state1, w1)
    | (some tok1, state1, w1) =>
      match _parseBlock_value state1 tok1 w1 with
      | (false, w2) => some (none, state1, w2)
      | (true, w2) =>
        -- Check if there is another property
        match _parseToken state1 (some tok1) w2 with
        | (none, state2, w3) => some (none, state2, w3)
        | (some tok2, state2, w3) =>
          if tok2.type = LEX_TOKEN_COMMA then _parseBlock_values fuel state2 tok2 w3
          else if tok2.type = LEX_TOKEN_SEMICOLON then some (some tok2, state2, w3)
          else
            some (none, state2,
              _parseError state2 tok2 PARSE_ERROR_UNEXPECTED_TOKEN Extra.null w3)

/-- The property loop of `_parseBlock` (`parse.c`, lines 183-305); `tok` is the
token consumed last.  The result token is the `}` that ended the block, or
`none` where the C code returns `NULL`.  A token that is neither `}` nor an
identifier falls through both `if`s and the loop goes round again. -/
def _parseBlock_props : Nat → parseState_t → _confToken_t → World →
    Option (Option _confToken_t × parseState_t × World)
  | 0, _, _, _ => none
  | fuel + 1, state, tok, w =>
    match _parseToken state (some tok) w with
    | (none, state1, w1) => some (none, state1, w1)
    | (some tok1, state1, w1) =>
      -- Is this the end of the block?
      if tok1.type = LEX_TOKEN_EBRACE then some (some tok1, state1, w1)
      -- Or a property ID?
      else if tok1.type = LEX_TOKEN_ID then
        let w2 := w1.updBlock fun b =>
          { b with props := b.props ++ [⟨0, "", List.replicate MAX_PROPVAR none, 0⟩] }
        let w3 := w2.updProp fun p => { p with lineNo := tok1.line }
        let c := c32lcpy tok1.semVal BLOCK_BUFSZ
        let w4 := w3.updProp fun p => { p with name := c.1 }
        if c.2 ≥ BLOCK_BUFSZ then
          some (none, state1, _parseError state1 tok1 PARSE_ERROR_OVERFLOW Extra.null w4)
        else
          let w5 := w4.updProp fun p => { p with nextVal := 0 }
          -- Expect a colon
          match _parseExpect state1 (some tok1) LEX_TOKEN_COLON w5 with
          | (none, state2, w6) => some (none, state2, w6)
          | (some tok2, state2, w6) =>
            -- Now parse all the values
            match _parseBlock_values fuel state2 tok2 w6 with
            | none => none
            | some (none, state3, w7) => some (none, state3, w7)
            | some (some tok3, state3, w7) => _parseBlock_props fuel state3 tok3 w7
      else _parseBlock_props fuel state1 tok1 w1

/-- `_parseBlock` (`parse.c`, line 140): parses a block in the configuration
file; `tok` is the identifier that opens it. -/
def _parseBlock (fuel : Nat) (state : parseState_t) (tok : _confToken_t) (w : World) :
    Option (Option _confToken_t × parseState_t × World) :=
  -- Create a new block and add it to list
  let w1 : World := { w with head := w.head ++ [⟨0, "", "", []⟩] }
  -- Initialize it
  let w2 := w1.updBlock fun b => { b with lineNo := tok.line }
  let w3 := w2.updBlock fun b => { b with props := [] }
  -- Set type of block
  let c := c32lcpy tok.semVal 256
  let w4 := w3.updBlock fun b => { b with blockType := c.1 }
  if c.2 ≥ 256 then
    some (none, state, _parseError state tok PARSE_ERROR_OVERFLOW Extra.null w4)
  else
    -- Check if block has a name
    match _parseToken state (some tok) w4 with
    | (none, state1, w5) => some (none, state1, w5)
    | (some tok1, state1, w5) =>
      if tok1.type = LEX_TOKEN_ID then
        -- Set name of block
        let c1 := c32lcpy tok1.semVal BLOCK_BUFSZ
        let w6 := w5.updBlock fun b => { b with blockName := c1.1 }
        if c1.2 ≥ BLOCK_BUFSZ then
          some (none, state1, _parseError state1 tok1 PARSE_ERROR_OVERFLOW Extra.null w6)
        else
          -- Get a opening brace
          match _parseExpect state1 (some tok1) LEX_TOKEN_OBRACE w6 with
          | (none, state2, w7) => some (none, state2, w7)
          | (some tok2, state2, w7) => _parseBlock_props fuel state2 tok2 w7
      else if tok1.type = LEX_TOKEN_OBRACE then
        let w6 := w5.updBlock fun b => { b with blockName := "" }
        _parseBlock_props fuel state1 tok1 w6
      else
        some (none, state1, _parseError state1 tok1 PARSE_ERROR_UNEXPECTED_TOKEN Extra.null w5)

/-- `_parseInclude` (`parse.c`, line 360): includes another file to parse.
`internal` is `_parseInternal`, which the C code declares before it. -/
def _parseInclude (host : Host) (internal : parseState_t → World → Option (Bool × World))
    (state : parseState_t) (tok : _confToken_t) (w : World) :
    Option (Option _confToken_t × parseState_t × World) :=
  match _parseExpect state (some tok) LEX_TOKEN_STR w with
  | (none, state1, w1) => some (none, state1, w1)
  | (some pathTok, state1, w1) =>
    -- Convert string value to multibyte
    match host.c32stombs pathTok.semVal with
    | none =>
      some (none, state1,
        _parseError state1 pathTok PARSE_ERROR_INTERNAL (Extra.text "strerror (errno)") w1)
    | some mbPath =>
      -- Set file name
      let oldFile := ConfGetFileName w1
      let w2 := _confSetFileName (some mbPath) w1
      -- Create a new parser context
      match _confLexInit host mbPath with
      | none => some (none, state1, w2)
      | some lex =>
        let w3 : World := { w2 with trace := w2.trace ++ [Event.lexInit mbPath] }
        let newState : parseState_t := { lex := lex, lastToken := none }
        -- Start parsing the include
        match internal newState w3 with
        | none => none
        | some (false, w4) => some (none, state1, w4)
        | some (true, w4) => some (some pathTok, state1, _confSetFileName oldFile w4)

/-- The step `tok = _parseToken (parser, lastTok)` with its error exit
(`parse.c`, lines 321-326 and 347-348), followed by the `while` loop `loop`. -/
def _parseInternal_next (loop : parseState_t → _confToken_t → World → Option (Bool × World))
    (parser : parseState_t) (lastTok : Option _confToken_t) (w : World) :
    Option (Bool × World) :=
  match _parseToken parser lastTok w with
  | (none, _, w1) => some (false, w1)
  | (some tok, parser1, w1) => loop parser1 tok w1

/-- The `while` loop of `_parseInternal` (`parse.c`, lines 327-356) down to the
`return`; `tok` is the token consumed last.  The parser of an included file
starts like `_parseInternal`: with its first token and this loop. -/
def _parseInternal_loop (host : Host) : Nat → parseState_t → _confToken_t → World →
    Option (Bool × World)
  | 0, _, _, _ => none
  | fuel + 1, parser, tok, w =>
    if tok.type = LEX_TOKEN_NONE then
      -- Destroy the lexer
      some (true, { w with trace := w.trace ++ [Event.lexDestroy parser.lex.file] })
    else
      let r :=
        -- Is it an include statement?
        if tok.type = LEX_TOKEN_INCLUDE then
          _parseInclude host
            (fun newState w0 =>
              _parseInternal_next (_parseInternal_loop host fuel) newState none w0)
            parser tok w
        -- ... or it has to be a block
        else if tok.type = LEX_TOKEN_ID then _parseBlock fuel parser tok w
        else
          some (none, parser, _parseError parser tok PARSE_ERROR_UNEXPECTED_TOKEN Extra.null w)
      match r with
      | none => none
      | some (none, _, w1) => some (false, w1)
      | some (some tok1, parser1, w1) =>
        _parseInternal_next (_parseInternal_loop host fuel) parser1 (some tok1) w1

/-- `_parseInternal` (`parse.c`, line 317): the internal parser. -/
def _parseInternal (host : Host) (fuel : Nat) (parser : parseState_t) (w : World) :
    Option (Bool × World) :=
  -- Start parsing
  _parseInternal_next (_parseInternal_loop host fuel) parser none w

/-- `_confParse` (`parse.c`, line 391).  The result is `none` when the fuel ran
out; otherwise the returned list (`none` for `NULL`) and the world after the
call. -/
def _confParse (host : Host) (fuel : Nat) (file : String) (w : World) :
    Option (Option (List ConfBlock_t) × World) :=
  -- Initialize the lexer
  match _confLexInit host file with
  | none => some (none, w)
  | some lexState =>
    let w1 : World := { w with trace := w.trace ++ [Event.lexInit file], head := [] }
    let state : parseState_t := { lex := lexState, lastToken := none }
    -- Start parsing
    match _parseInternal host fuel state w1 with
    | none => none
    | some (false, w2) => some (none, { w2 with head := [] })
    | some (true, w2) => some (some w2.head, w2)

/-- `ConfInit` (`conf.c`, line 30). -/
def ConfInit (host : Host) (fuel : Nat) (file : String) (w : World) :
    Option (Option (List ConfBlock_t) × World) :=
  _confParse host fuel file (_confSetFileName (some file) w)


/-! ## The grammar of the input and the tree it stands for -/

/-- The property value that the parser stores for a value token. -/
def valueOf (tok : _confToken_t) : ConfPropVal_t :=
  if tok.type = LEX_TOKEN_STR then ⟨tok.line, Payload.text tok.semVal, DATATYPE_STRING⟩
  else if tok.type = LEX_TOKEN_ID then ⟨tok.line, Payload.text tok.semVal, DATATYPE_IDENTIFIER⟩
  else ⟨tok.line, Payload.numVal tok.num, DATATYPE_NUMBER⟩

/-- A token of the rule `value := ID | STRING | NUMBER` whose text fits. -/
def IsValue (tok : _confToken_t) : Prop :=
  tok.type = LEX_TOKEN_NUM ∨
    ((tok.type = LEX_TOKEN_ID ∨ tok.type = LEX_TOKEN_STR) ∧ tok.semVal.length < BLOCK_BUFSZ)

instance (tok : _confToken_t) : Decidable (IsValue tok) := by
  unfold IsValue; infer_instance

/-- The array `vals` holding the values `vs` in its first slots. -/
def slots (vs : List ConfPropVal_t) : List (Option ConfPropVal_t) :=
  vs.map some ++ List.replicate (MAX_PROPVAR - vs.length) none

/-- The tokens of `(value ',')*`. -/
def sepTokens (more : List (_confToken_t × _confToken_t)) : List _confToken_t :=
  more.flatMap fun vc => [vc.1, vc.2]

/-- A property declaration `ID ':' (value ',')* value ';'` by its tokens. -/
structure SrcProp where
  name : _confToken_t
  colon : _confToken_t
  more : List (_confToken_t × _confToken_t)
  last : _confToken_t
  semi : _confToken_t
  deriving DecidableEq, Repr

/-- The token sequence of a property declaration. -/
def SrcProp.tokens (p : SrcProp) : List _confToken_t :=
  p.name :: p.colon :: (sepTokens p.more ++ [p.last, p.semi])

/-- The value tokens of a property declaration, left to right. -/
def SrcProp.values (p : SrcProp) : List _confToken_t :=
  p.more.map (fun vc => vc.1) ++ [p.last]

/-- The declaration follows the rule `property`, its texts are shorter than
`BLOCK_BUFSZ` and it has fewer than `MAX_PROPVAR` values. -/
def SrcProp.WF (p : SrcProp) : Prop :=
  p.name.type = LEX_TOKEN_ID ∧ p.name.semVal.length < BLOCK_BUFSZ ∧
  p.colon.type = LEX_TOKEN_COLON ∧
  (∀ vc ∈ p.more, IsValue vc.1 ∧ vc.2.type = LEX_TOKEN_COMMA) ∧
  IsValue p.last ∧ p.semi.type = LEX_TOKEN_SEMICOLON ∧
  p.values.length < MAX_PROPVAR

instance (p : SrcProp) : Decidable p.WF := by
  unfold SrcProp.WF; infer_instance

/-- The `ConfProperty_t` that a property declaration stands for. -/
def SrcProp.tree (p : SrcProp) : ConfProperty_t :=
  ⟨p.name.line, p.name.semVal, slots (p.values.map valueOf), p.values.length⟩

/-- The token consumed last after `toks`, when `tok` was the one before. -/
def lastOf (tok : _confToken_t) : List _confToken_t → _confToken_t
  | [] => tok
  | t :: ts => lastOf t ts

/-- A block declaration `ID [ID] '{' property* '}'` by its tokens. -/
structure SrcBlock where
  type : _confToken_t
  name : Option _confToken_t
  obrace : _confToken_t
  props : List SrcProp
  ebrace : _confToken_t
  deriving DecidableEq, Repr

/-- The tokens of a block declaration after its type identifier. -/
def SrcBlock.body (b : SrcBlock) : List _confToken_t :=
  b.name.toList ++ b.obrace :: (b.props.flatMap SrcProp.tokens ++ [b.ebrace])

/-- The token sequence of a block declaration. -/
def SrcBlock.tokens (b : SrcBlock) : List _confToken_t :=
  b.type :: b.body

/-- The tokens of a block declaration before its closing brace. -/
def SrcBlock.opening (b : SrcBlock) : List _confToken_t :=
  b.type :: (b.name.toList ++ b.obrace :: b.props.flatMap SrcProp.tokens)

/-- The declaration follows the rule `block`, its texts are shorter than the
buffers and each of its properties is well formed. -/
def SrcBlock.WF (b : SrcBlock) : Prop :=
  b.type.type = LEX_TOKEN_ID ∧ b.type.semVal.length < 256 ∧
  (∀ n ∈ b.name.toList, n.type = LEX_TOKEN_ID ∧ n.semVal.length < BLOCK_BUFSZ) ∧
  b.obrace.type = LEX_TOKEN_OBRACE ∧ (∀ p ∈ b.props, p.WF) ∧
  b.ebrace.type = LEX_TOKEN_EBRACE

instance (b : SrcBlock) : Decidable b.WF := by
  unfold SrcBlock.WF; infer_instance

/-- The `ConfBlock_t` that a block declaration stands for. -/
def SrcBlock.tree (b : SrcBlock) : ConfBlock_t :=
  ⟨b.type.line, b.type.semVal, (b.name.map fun n => n.semVal).getD "", b.props.map SrcProp.tree⟩

/-! ## Relations between the worlds before and after a call -/

/-- The second world has the blocks `pre` in front of those of the first. -/
def Sim (pre : List ConfBlock_t) (w1 w2 : World) : Prop :=
  w2.head = pre ++ w1.head

/-- As `Sim`, inside `_parseBlock`: the block under construction exists. -/
def SimNE (pre : List ConfBlock_t) (w1 w2 : World) : Prop :=
  w2.head = pre ++ w1.head ∧ w1.head ≠ []

/-- The event is neither a message of `error` nor an `ERROR` token. -/
def Event.quiet : Event → Bool
  | Event.error _ => false
  | Event.lex _ tok => decide (tok.type ≠ LEX_TOKEN_ERROR)
  | _ => true

/-- No event of the list is a message or an `ERROR` token. -/
def Quiet (es : List Event) : Prop := ∀ e ∈ es, e.quiet = true

/-- The events of a failed call: quiet ones, then at most one message or
`ERROR` token, and nothing after it. -/
def Ended (es : List Event) : Prop :=
  ∃ qs t, es = qs ++ t ∧ Quiet qs ∧ t.length ≤ 1 ∧ ∀ e ∈ t, e.quiet = false

/-- The events between the worlds `w` and `a` are those of a call that
succeeded (`ok`) or failed. -/
def Good (ok : Bool) (w a : World) : Prop :=
  ∃ es, a.trace = w.trace ++ es ∧ (if ok then Quiet es else Ended es)

/-- What `_parseBlock` can do to the world once its block is appended: the
file name stays, the blocks before the last one stay, no block is added, and
no lexer is created. -/
def BInv (w a : World) : Prop :=
  a.fileName = w.fileName ∧ a.head.length = w.head.length ∧
    a.head.dropLast = w.head.dropLast ∧
    ∃ es, a.trace = w.trace ++ es ∧ ∀ e ∈ es, ∀ f, e ≠ Event.lexInit f

/-- The blocks of the list stay and one block is added behind them; the file
name stays; no lexer is created. -/
def AddsOneBlock (w a : World) : Prop :=
  (∃ b, a.head = w.head ++ [b]) ∧ ConfGetFileName a = ConfGetFileName w ∧
    ∃ es, a.trace = w.trace ++ es ∧ ∀ e ∈ es, ∀ f, e ≠ Event.lexInit f

/-- The header of a block: its line, its type and its name. -/
def ConfBlock_t.header (b : ConfBlock_t) : Int × String × String :=
  (b.lineNo, b.blockType, b.blockName)

/-- The blocks of the second world have the headers of those of the first. -/
def HdrKept (w a : World) : Prop :=
  a.head.map ConfBlock_t.header = w.head.map ConfBlock_t.header

/-- The events hold the declaration of a block with the header `hd`: a lexer
gave the identifier `t`, the block type, and right after it the token `u`,
an identifier that is the block name, or `{`. -/
def Declared (tr : List Event) (hd : Int × String × String) : Prop :=
  ∃ pre post f t u, tr = pre ++ Event.lex f t :: Event.lex f u :: post ∧
    t.type = LEX_TOKEN_ID ∧ hd.1 = t.line ∧ hd.2.1 = t.semVal ∧
    ((u.type = LEX_TOKEN_ID ∧ hd.2.2 = u.semVal) ∨ (u.type = LEX_TOKEN_OBRACE ∧ hd.2.2 = ""))

/-- Each block of the list was declared in the events. -/
def DInv (w : World) : Prop :=
  ∀ hd ∈ w.head.map ConfBlock_t.header, Declared w.trace hd

/-- A lexer that was created and is not yet destroyed, as the events show
it: its file, the token it gave last and the token it gave before that one. -/
structure Frame where
  file : String
  before : Option _confToken_t
  last : Option _confToken_t
  deriving DecidableEq, Repr

/-- The message has the file of the lexer `fr` in front. -/
def fileOk (fr : Frame) (d : Diag) : Bool :=
  decide (d.file = some fr.file)

/-- A message `unexpected token X [after token Y] [(expected Z)]` fits the
lexer `fr`: `X` is the token that `fr` gave last and the line is its line, `Y`
is the token that `fr` gave before `X`, left out when there is none, and `Z`,
when given, is not the type of `X`. -/
def unexpectedOk (fr : Frame) (d : Diag) : Bool :=
  match d.detail with
  | Detail.unexpected x after exp =>
    decide (fr.last = some x ∧ after = fr.before ∧ d.line = x.line) &&
      (match exp with
        | none => true
        | some z => decide (x.type ≠ z))
  | _ => true

/-- A message `string too long on token X` fits the lexer `fr`: `X` is the
token that `fr` gave last, and its text has `BLOCK_BUFSZ` code points or
more. -/
def overflowOk (fr : Frame) (d : Diag) : Bool :=
  match d.detail with
  | Detail.overflow x =>
    decide (fr.last = some x ∧ d.line = x.line ∧ BLOCK_BUFSZ ≤ x.semVal.length)
  | _ => true

/-- The three checks together. -/
def allOk (fr : Frame) (d : Diag) : Bool :=
  fileOk fr d && unexpectedOk fr d && overflowOk fr d

/-- One event against the lexers that are alive, the one created last in
front: a created lexer is put in front, a token has to come from the lexer in
front and is noted there, a destroyed lexer has to be the one in front and is
taken away, and a message has to pass the check `chk` against the lexer in
front.  The result is `none` when the event does not fit. -/
def replayStep (chk : Frame → Diag → Bool) (stk : List Frame) (e : Event) :
    Option (List Frame) :=
  match e, stk with
  | Event.lexInit f, stk => some (⟨f, none, none⟩ :: stk)
  | Event.lex f t, fr :: stk =>
    if f = fr.file then some (⟨f, fr.last, some t⟩ :: stk) else none
  | Event.lexDestroy f, fr :: stk => if f = fr.file then some stk else none
  | Event.error d, fr :: stk => if chk fr d then some (fr :: stk) else none
  | _, [] => none

/-- The events in order against the lexers that are alive; the result is the
lexers alive after them, or `none` when an event does not fit. -/
def replay (chk : Frame → Diag → Bool) : List Frame → List Event → Option (List Frame)
  | stk, [] => some stk
  | stk, e :: es => (replayStep chk stk e).bind fun stk1 => replay chk stk1 es

/-- The events between the worlds `w` and `a` fit the lexers `stk` and leave
the lexers `stk1`. -/
def Runs (stk stk1 : List Frame) (w a : World) : Prop :=
  ∃ es, a.trace = w.trace ++ es ∧ replay allOk stk es = some stk1

/-- The lexer `fr` is the one of the parser state `st`, about to go on behind
the token `tok`, and its file is the current file. -/
def Tracks (fr : Frame) (st : parseState_t) (tok : _confToken_t) (w : World) : Prop :=
  fr.file = st.lex.file ∧ fr.before = st.lastToken ∧ fr.last = some tok ∧
    w.fileName = some fr.file

/-- What a function of the block level leaves: the events fit, the lexers
below the one in front are as before, and when a token is returned the lexer
in front goes on behind it. -/
def After (fr : Frame) (stk : List Frame) (w : World) (x : Option _confToken_t)
    (s : parseState_t) (a : World) : Prop :=
  ∃ stk1, Runs (fr :: stk) stk1 w a ∧
    ∀ t, x = some t → ∃ fr1, stk1 = fr1 :: stk ∧ Tracks fr1 s t a

/-- What a parser of a file leaves: the events fit, and when it succeeded its
lexer is destroyed, the lexers below are as before and the current file name
is as before. -/
def Done (stk0 stk : List Frame) (w : World) (r : Bool) (a : World) : Prop :=
  ∃ stk1, Runs stk0 stk1 w a ∧ (r = true → stk1 = stk ∧ a.fileName = w.fileName)

/-! ## The lexer, as far as the spec describes it -/

/-- Modelled from the spec: a token as the source reader meets it: the
characters skipped in front of it, white space and comments, and the characters
of the token itself. -/
structure Lexeme where
  skipped : List Char
  text : List Char
  deriving DecidableEq, Repr

/-- Modelled from the spec: the number of newlines among the characters. -/
def newlines (cs : List Char) : Nat :=
  cs.count '\n'

/-- Modelled from the spec: the lines of the tokens of a file whose running
line counter stands at `line`.  "Every token records the line number of its
first character, and newlines encountered anywhere (including inside strings
and comments) increment a running line counter shared by the whole file
context." -/
def tokenLines : Int → List Lexeme → List Int
  | _, [] => []
  | line, x :: xs =>
    (line + newlines x.skipped) ::
      tokenLines (line + newlines x.skipped + newlines x.text) xs

/-! ## The value array of a property -/

/-- The field `nextVal` is within the array `vals` or one past its end, and the
array has its `MAX_PROPVAR` slots. -/
def ConfProperty_t.InRange (p : ConfProperty_t) : Prop :=
  p.nextVal ≤ MAX_PROPVAR ∧ p.vals.length = MAX_PROPVAR

instance (p : ConfProperty_t) : Decidable p.InRange := by
  unfold ConfProperty_t.InRange; infer_instance

/-- A property that holds between 1 and `MAX_PROPVAR - 1` values: `nextVal` is
their number, and of the `MAX_PROPVAR` slots of `vals` exactly the ones below
`nextVal` hold a value. -/
def ConfProperty_t.Stored (p : ConfProperty_t) : Prop :=
  1 ≤ p.nextVal ∧ p.nextVal < MAX_PROPVAR ∧ p.vals.length = MAX_PROPVAR ∧
    ∀ i, i < MAX_PROPVAR → (p.vals.getD i none).isSome = decide (i < p.nextVal)

instance (p : ConfProperty_t) : Decidable p.Stored := by
  unfold ConfProperty_t.Stored; infer_instance

/-- The list `head` of `a` is that of `w` with blocks added at its end; in
each of them every property is `InRange`, and `Stored` when the call
succeeded (`ok`). -/
def Grown (ok : Bool) (w a : World) : Prop :=
  ∃ bs : List ConfBlock_t, a.head = w.head ++ bs ∧
    (∀ b ∈ bs, ∀ p ∈ b.props, p.InRange) ∧
    (ok = true → ∀ b ∈ bs, ∀ p ∈ b.props, p.Stored)

/-- The index `valLoc` of the slot of `vals` that `_parseBlock_value` writes
for the token `tok` (`parse.c`, lines 221, 245 and 268: `int valLoc =
prop->nextVal`).  The last branch writes no slot. -/
def _parseBlock_value_valLoc (tok : _confToken_t) (w : World) : Option Nat :=
  if tok.type = LEX_TOKEN_STR then some w.curProp.nextVal
  else if tok.type = LEX_TOKEN_ID then some w.curProp.nextVal
  else if tok.type = LEX_TOKEN_NUM then some w.curProp.nextVal
  else none

/-- The indices at which a run of the value loop writes `vals`, in order: the
control flow of `_parseBlock_values`, with the index of each call of
`_parseBlock_value` recorded.  When the fuel runs out, the indices so far. -/
def _parseBlock_values_valLocs : Nat → parseState_t → _confToken_t → World → List Nat
  | 0, _, _, _ => []
  | fuel + 1, state, tok, w =>
    match _parseToken state (some tok) w with
    | (none, _, _) => []
    | (some tok1, state1, w1) =>
      (_parseBlock_value_valLoc tok1 w1).toList ++
        match _parseBlock_value state1 tok1 w1 with
        | (false, _) => []
        | (true, w2) =>
          match _parseToken state1 (some tok1) w2 with
          | (none, _, _) => []
          | (some tok2, state2, w3) =>
            if tok2.type = LEX_TOKEN_COMMA then _parseBlock_values_valLocs fuel state2 tok2 w3
            else []

/-- The indices at which a run of the property loop writes `vals`, in order:
the control flow of `_parseBlock_props`, with the indices of each run of the
value loop recorded. -/
def _parseBlock_props_valLocs : Nat → parseState_t → _confToken_t → World → List Nat
  | 0, _, _, _ => []
  | fuel + 1, state, tok, w =>
    match _parseToken state (some tok) w with
    | (none, _, _) => []
    | (some tok1, state1, w1) =>
      if tok1.type = LEX_TOKEN_EBRACE then []
      else if tok1.type = LEX_TOKEN_ID then
        let w2 := w1.updBlock fun b =>
          { b with props := b.props ++ [⟨0, "", List.replicate MAX_PROPVAR none, 0⟩] }
        let w3 := w2.updProp fun p => { p with lineNo := tok1.line }
        let c := c32lcpy tok1.semVal BLOCK_BUFSZ
        let w4 := w3.updProp fun p => { p with name := c.1 }
        if c.2 ≥ BLOCK_BUFSZ then []
        else
          let w5 := w4.updProp fun p => { p with nextVal := 0 }
          match _parseExpect state1 (some tok1) LEX_TOKEN_COLON w5 with
          | (none, _, _) => []
          | (some tok2, state2, w6) =>
            _parseBlock_values_valLocs fuel state2 tok2 w6 ++
              match _parseBlock_values fuel state2 tok2 w6 with
              | some (some tok3, state3, w7) => _parseBlock_props_valLocs fuel state3 tok3 w7
              | _ => []
      else _parseBlock_props_valLocs fuel state1 tok1 w1

/-- The indices at which a call of `_parseBlock` writes `vals`, in order: the
control flow of `_parseBlock` down to its property loop. -/
def _parseBlock_valLocs (fuel : Nat) (state : parseState_t) (tok : _confToken_t) (w : World) :
    List Nat :=
  let w1 : World := { w with head := w.head ++ [⟨0, "", "", []⟩] }
  let w2 := w1.updBlock fun b => { b with lineNo := tok.line }
  let w3 := w2.updBlock fun b => { b with props := [] }
  let c := c32lcpy tok.semVal 256
  let w4 := w3.updBlock fun b => { b with blockType := c.1 }
  if c.2 ≥ 256 then []
  else
    match _parseToken state (some tok) w4 with
    | (none, _, _) => []
    | (some tok1, state1, w5) =>
      if tok1.type = LEX_TOKEN_ID then
        let c1 := c32lcpy tok1.semVal BLOCK_BUFSZ
        let w6 := w5.updBlock fun b => { b with blockName := c1.1 }
        if c1.2 ≥ BLOCK_BUFSZ then []
        else
          match _parseExpect state1 (some tok1) LEX_TOKEN_OBRACE w6 with
          | (none, _, _) => []
          | (some tok2, state2, w7) => _parseBlock_props_valLocs fuel state2 tok2 w7
      else if tok1.type = LEX_TOKEN_OBRACE then
        let w6 := w5.updBlock fun b => { b with blockName := "" }
        _parseBlock_props_valLocs fuel state1 tok1 w6
      else []

/-! ## The inputs of the tests -/

/-- The properties of each block of the test file of `tests/parse.c`:
`test: one, 3, "test"; prop: propVal; prop: "string"; prop: 0x20;`, the first
on line `l`. -/
def testProps (l : Int) : List SrcProp :=
  [⟨⟨LEX_TOKEN_ID, l, "test", 0⟩, ⟨LEX_TOKEN_COLON, l, "", 0⟩,
      [(⟨LEX_TOKEN_ID, l, "one", 0⟩, ⟨LEX_TOKEN_COMMA, l, "", 0⟩),
       (⟨LEX_TOKEN_NUM, l, "", 3⟩, ⟨LEX_TOKEN_COMMA, l, "", 0⟩)],
      ⟨LEX_TOKEN_STR, l, "test", 0⟩, ⟨LEX_TOKEN_SEMICOLON, l, "", 0⟩⟩,
   ⟨⟨LEX_TOKEN_ID, l + 1, "prop", 0⟩, ⟨LEX_TOKEN_COLON, l + 1, "", 0⟩, [],
      ⟨LEX_TOKEN_ID, l + 1, "propVal", 0⟩, ⟨LEX_TOKEN_SEMICOLON, l + 1, "", 0⟩⟩,
   ⟨⟨LEX_TOKEN_ID, l + 2, "prop", 0⟩, ⟨LEX_TOKEN_COLON, l + 2, "", 0⟩, [],
      ⟨LEX_TOKEN_STR, l + 2, "string", 0⟩, ⟨LEX_TOKEN_SEMICOLON, l + 2, "", 0⟩⟩,
   ⟨⟨LEX_TOKEN_ID, l + 3, "prop", 0⟩, ⟨LEX_TOKEN_COLON, l + 3, "", 0⟩, [],
      ⟨LEX_TOKEN_NUM, l + 3, "", 32⟩, ⟨LEX_TOKEN_SEMICOLON, l + 3, "", 0⟩⟩]

/-- A block `ty test` of the test file, opened on line `l`. -/
def testBlock (ty : String) (l : Int) : SrcBlock :=
  ⟨⟨LEX_TOKEN_ID, l, ty, 0⟩, some ⟨LEX_TOKEN_ID, l, "test", 0⟩, ⟨LEX_TOKEN_OBRACE, l, "", 0⟩,
    testProps (l + 1), ⟨LEX_TOKEN_EBRACE, l + 5, "", 0⟩⟩

/-- The test file of `tests/parse.c`: `package test`, `package test`,
`block test`. -/
def testParse : List SrcBlock :=
  [testBlock "package" 1, testBlock "package" 8, testBlock "block" 15]

/-- A block `ty` without name and without properties, on line `l`. -/
def emptyBlock (ty : String) (l : Int) : SrcBlock :=
  ⟨⟨LEX_TOKEN_ID, l, ty, 0⟩, none, ⟨LEX_TOKEN_OBRACE, l, "", 0⟩, [], ⟨LEX_TOKEN_EBRACE, l, "", 0⟩⟩

/-- A token without text and number, as the lexer gives for punctuation. -/
def punct (type : TokType) (line : Int) : _confToken_t := ⟨type, line, "", 0⟩

/-- The block `a { p: 1, 1, ..., 1; }` on line 1 whose property has `n + 1`
values. -/
def valuesBlock (n : Nat) : SrcBlock :=
  ⟨⟨LEX_TOKEN_ID, 1, "a", 0⟩, none, punct LEX_TOKEN_OBRACE 1,
    [⟨⟨LEX_TOKEN_ID, 1, "p", 0⟩, punct LEX_TOKEN_COLON 1,
      List.replicate n (⟨LEX_TOKEN_NUM, 1, "", 1⟩, punct LEX_TOKEN_COMMA 1),
      ⟨LEX_TOKEN_NUM, 1, "", 1⟩, punct LEX_TOKEN_SEMICOLON 1⟩],
    punct LEX_TOKEN_EBRACE 1⟩

/-- The files of the tests, each with its tokens and the line of its end. -/
def testFiles : List (String × List _confToken_t × Int) :=
  [ -- the test file of `tests/parse.c`
    ("testParse.testxt", testParse.flatMap SrcBlock.tokens, 21),
    -- a {} include "other.cfg" c {}
    ("root.cfg", (emptyBlock "a" 1).tokens ++ punct LEX_TOKEN_INCLUDE 2 ::
      ⟨LEX_TOKEN_STR, 2, "other.cfg", 0⟩ :: (emptyBlock "c" 3).tokens, 4),
    -- b {}
    ("other.cfg", (emptyBlock "b" 1).tokens, 2),
    -- a {} include "other.cfg"; c {}
    ("semi.cfg", (emptyBlock "a" 1).tokens ++ punct LEX_TOKEN_INCLUDE 2 ::
      ⟨LEX_TOKEN_STR, 2, "other.cfg", 0⟩ :: punct LEX_TOKEN_SEMICOLON 2 ::
      (emptyBlock "c" 3).tokens, 4),
    -- a { include "other.cfg" } c {}
    ("inblock.cfg", [⟨LEX_TOKEN_ID, 1, "a", 0⟩, punct LEX_TOKEN_OBRACE 1,
      punct LEX_TOKEN_INCLUDE 2, ⟨LEX_TOKEN_STR, 2, "other.cfg", 0⟩, punct LEX_TOKEN_EBRACE 3]
      ++ (emptyBlock "c" 4).tokens, 5),
    -- a property with 15 values, and one with 16
    ("values15.cfg", (valuesBlock 14).tokens, 2),
    ("values16.cfg", (valuesBlock 15).tokens, 2),
    -- a { 5 "s" : , ; { include }
    ("garbage.cfg", [⟨LEX_TOKEN_ID, 1, "a", 0⟩, punct LEX_TOKEN_OBRACE 1,
      ⟨LEX_TOKEN_NUM, 2, "", 5⟩, ⟨LEX_TOKEN_STR, 2, "s", 0⟩, punct LEX_TOKEN_COLON 2,
      punct LEX_TOKEN_COMMA 2, punct LEX_TOKEN_SEMICOLON 2, punct LEX_TOKEN_OBRACE 2,
      punct LEX_TOKEN_INCLUDE 2, punct LEX_TOKEN_EBRACE 3], 4),
    -- include "missing.cfg", a file that cannot be opened
    ("incmissing.cfg", [punct LEX_TOKEN_INCLUDE 1, ⟨LEX_TOKEN_STR, 1, "missing.cfg", 0⟩], 2),
    -- include "bad.cfg", a file that does not parse
    ("incbad.cfg", [punct LEX_TOKEN_INCLUDE 1, ⟨LEX_TOKEN_STR, 1, "bad.cfg", 0⟩], 2),
    -- }
    ("bad.cfg", [punct LEX_TOKEN_EBRACE 1], 2),
    -- id { prop ;
    ("nocolon.cfg", [⟨LEX_TOKEN_ID, 1, "id", 0⟩, punct LEX_TOKEN_OBRACE 1,
      ⟨LEX_TOKEN_ID, 1, "prop", 0⟩, punct LEX_TOKEN_SEMICOLON 1], 2),
    -- id { prop, then a character the lexer rejects
    ("lexerror.cfg", [⟨LEX_TOKEN_ID, 1, "id", 0⟩, punct LEX_TOKEN_OBRACE 1,
      ⟨LEX_TOKEN_ID, 1, "prop", 0⟩, punct LEX_TOKEN_ERROR 1], 2),
    -- a {
    ("open.cfg", [⟨LEX_TOKEN_ID, 1, "a", 0⟩, punct LEX_TOKEN_OBRACE 1], 2),
    -- a { p: v;
    ("openprop.cfg", [⟨LEX_TOKEN_ID, 1, "a", 0⟩, punct LEX_TOKEN_OBRACE 1,
      ⟨LEX_TOKEN_ID, 2, "p", 0⟩, punct LEX_TOKEN_COLON 2, ⟨LEX_TOKEN_ID, 2, "v", 0⟩,
      punct LEX_TOKEN_SEMICOLON 2], 3),
    -- a {} "s" c {}
    ("stray.cfg", (emptyBlock "a" 1).tokens ++ ⟨LEX_TOKEN_STR, 2, "s", 0⟩ ::
      (emptyBlock "c" 3).tokens, 4),
    -- a {} include 5
    ("incnum.cfg", (emptyBlock "a" 1).tokens ++ [punct LEX_TOKEN_INCLUDE 2,
      ⟨LEX_TOKEN_NUM, 2, "", 5⟩], 3),
    -- include, then a character the lexer rejects
    ("incerror.cfg", [punct LEX_TOKEN_INCLUDE 1, punct LEX_TOKEN_ERROR 1], 2),
    -- a : {}
    ("shape.cfg", [⟨LEX_TOKEN_ID, 1, "a", 0⟩, punct LEX_TOKEN_COLON 1, punct LEX_TOKEN_OBRACE 1,
      punct LEX_TOKEN_EBRACE 1], 2),
    -- a b ;
    ("nobrace.cfg", [⟨LEX_TOKEN_ID, 1, "a", 0⟩, ⟨LEX_TOKEN_ID, 1, "b", 0⟩,
      punct LEX_TOKEN_SEMICOLON 1], 2),
    -- a, then a character the lexer rejects
    ("typeerror.cfg", [⟨LEX_TOKEN_ID, 1, "a", 0⟩, punct LEX_TOKEN_ERROR 1], 2),
    -- a { p: ; }
    ("emptyvals.cfg", [⟨LEX_TOKEN_ID, 1, "a", 0⟩, punct LEX_TOKEN_OBRACE 1,
      ⟨LEX_TOKEN_ID, 1, "p", 0⟩, punct LEX_TOKEN_COLON 1, punct LEX_TOKEN_SEMICOLON 1,
      punct LEX_TOKEN_EBRACE 1], 2),
    -- a { p: x, ; }
    ("trailing.cfg", [⟨LEX_TOKEN_ID, 1, "a", 0⟩, punct LEX_TOKEN_OBRACE 1,
      ⟨LEX_TOKEN_ID, 1, "p", 0⟩, punct LEX_TOKEN_COLON 1, ⟨LEX_TOKEN_ID, 1, "x", 0⟩,
      punct LEX_TOKEN_COMMA 1, punct LEX_TOKEN_SEMICOLON 1, punct LEX_TOKEN_EBRACE 1], 2),
    -- a { p: x y; }
    ("nocomma.cfg", [⟨LEX_TOKEN_ID, 1, "a", 0⟩, punct LEX_TOKEN_OBRACE 1,
      ⟨LEX_TOKEN_ID, 1, "p", 0⟩, punct LEX_TOKEN_COLON 1, ⟨LEX_TOKEN_ID, 1, "x", 0⟩,
      ⟨LEX_TOKEN_ID, 1, "y", 0⟩, punct LEX_TOKEN_SEMICOLON 1, punct LEX_TOKEN_EBRACE 1], 2),
    -- a { p:, then a character the lexer rejects
    ("valerror.cfg", [⟨LEX_TOKEN_ID, 1, "a", 0⟩, punct LEX_TOKEN_OBRACE 1,
      ⟨LEX_TOKEN_ID, 1, "p", 0⟩, punct LEX_TOKEN_COLON 1, punct LEX_TOKEN_ERROR 1], 2),
    -- include "lexerror.cfg", a file with a character the lexer rejects
    ("inclexerror.cfg", [punct LEX_TOKEN_INCLUDE 1, ⟨LEX_TOKEN_STR, 1, "lexerror.cfg", 0⟩], 2),
    -- a {} include "root.cfg" d {}, where root.cfg includes other.cfg
    ("nest.cfg", (emptyBlock "a" 1).tokens ++ punct LEX_TOKEN_INCLUDE 2 ::
      ⟨LEX_TOKEN_STR, 2, "root.cfg", 0⟩ :: (emptyBlock "d" 3).tokens, 4),
    -- include "nocolon.cfg", a file with a property that lacks its colon
    ("incnocolon.cfg", [punct LEX_TOKEN_INCLUDE 1, ⟨LEX_TOKEN_STR, 1, "nocolon.cfg", 0⟩], 2),
    -- a block whose type has 256 code points, and one whose type has 255
    ("long256.cfg", (emptyBlock (String.mk (List.replicate 256 'a')) 1).tokens, 2),
    ("long255.cfg", (emptyBlock (String.mk (List.replicate 255 'a')) 1).tokens, 2),
    -- a b, then a character the lexer rejects
    ("nameerror.cfg", [⟨LEX_TOKEN_ID, 1, "a", 0⟩, ⟨LEX_TOKEN_ID, 1, "b", 0⟩,
      punct LEX_TOKEN_ERROR 1], 2),
    -- a { p: x, then a character the lexer rejects
    ("seperror.cfg", [⟨LEX_TOKEN_ID, 1, "a", 0⟩, punct LEX_TOKEN_OBRACE 1,
      ⟨LEX_TOKEN_ID, 1, "p", 0⟩, punct LEX_TOKEN_COLON 1, ⟨LEX_TOKEN_ID, 1, "x", 0⟩,
      punct LEX_TOKEN_ERROR 1], 2),
    -- a {}, then a character the lexer rejects
    ("toperror.cfg", (emptyBlock "a" 1).tokens ++ [punct LEX_TOKEN_ERROR 2], 3) ]

/-- The host of the tests: the files of `testFiles`, include paths taken as
they are. -/
def testHost : Host where
  files := fun f => testFiles.lookup f
  c32stombs := some

/-- The world before a call: no file name set, nothing reported. -/
def world0 : World := ⟨none, [], []⟩

/-- A token stream in the manner of the test file of `tests/lex.c`: twelve
tokens, the first on line 10 after nine lines of comment, four more on that
line, then the numbers `25`, `0xAD8B2` and `-34`, the identifier
`test2-test3_` and two strings on the lines 12 to 22, and the include keyword
behind the last string, which is written here with a newline in it. -/
def testLexemes : List Lexeme :=
  [⟨List.replicate 9 '\n', "\x7b".data⟩, ⟨" ".data, "\x7d".data⟩, ⟨" ".data, ":".data⟩,
   ⟨" ".data, ",".data⟩, ⟨" ".data, ";".data⟩,
   ⟨"\n\n".data, "25".data⟩, ⟨"\n\n".data, "0xAD8B2".data⟩, ⟨"\n\n".data, "-34".data⟩,
   ⟨"\n\n".data, "test2-test3_".data⟩, ⟨"\n\n".data, "\"test t \\\\ \\'\"".data⟩,
   ⟨"\n\n".data, "\"test string en_US.UTF-8 $ \\\" \ntest\"".data⟩, ⟨" ".data, "include".data⟩]

/-- The events of `ConfInit` on `incnocolon.cfg`: the message about the
included file `nocolon.cfg` is the last one. -/
def incnocolonTrace : List Event :=
  Event.lexInit "incnocolon.cfg" ::
    [punct LEX_TOKEN_INCLUDE 1, ⟨LEX_TOKEN_STR, 1, "nocolon.cfg", 0⟩].map
      (Event.lex "incnocolon.cfg") ++
  Event.lexInit "nocolon.cfg" ::
    [⟨LEX_TOKEN_ID, 1, "id", 0⟩, punct LEX_TOKEN_OBRACE 1, ⟨LEX_TOKEN_ID, 1, "prop", 0⟩,
      punct LEX_TOKEN_SEMICOLON 1].map (Event.lex "nocolon.cfg") ++
  [Event.error ⟨some "nocolon.cfg", 1, Detail.unexpected (punct LEX_TOKEN_SEMICOLON 1)
    (some ⟨LEX_TOKEN_ID, 1, "prop", 0⟩) (some LEX_TOKEN_COLON)⟩]

/-- The events of `ConfInit` on `nest.cfg`, which includes `root.cfg`, which
includes `other.cfg`. -/
def nestTrace : List Event :=
  Event.lexInit "nest.cfg" ::
    ((emptyBlock "a" 1).tokens ++
      [punct LEX_TOKEN_INCLUDE 2, ⟨LEX_TOKEN_STR, 2, "root.cfg", 0⟩]).map (Event.lex "nest.cfg") ++
  Event.lexInit "root.cfg" ::
    ((emptyBlock "a" 1).tokens ++
      [punct LEX_TOKEN_INCLUDE 2, ⟨LEX_TOKEN_STR, 2, "other.cfg", 0⟩]).map (Event.lex "root.cfg") ++
  Event.lexInit "other.cfg" ::
    ((emptyBlock "b" 1).tokens ++ [punct LEX_TOKEN_NONE 2]).map (Event.lex "other.cfg") ++
  Event.lexDestroy "other.cfg" ::
    ((emptyBlock "c" 3).tokens ++ [punct LEX_TOKEN_NONE 4]).map (Event.lex "root.cfg") ++
  Event.lexDestroy "root.cfg" ::
    ((emptyBlock "d" 3).tokens ++ [punct LEX_TOKEN_NONE 4]).map (Event.lex "nest.cfg") ++
  [Event.lexDestroy "nest.cfg"]

/-- The tree of `nest.cfg`: the blocks in the order of their declarations across
the three files. -/
def nestTree : List ConfBlock_t :=
  [⟨1, "a", "", []⟩, ⟨1, "a", "", []⟩, ⟨1, "b", "", []⟩, ⟨3, "c", "", []⟩, ⟨3, "d", "", []⟩]

/-! ## Lemmas -/

theorem updLast_concat {α : Type} (f : α → α) (l : List α) (a : α) :
    updLast f (l ++ [a]) = l ++ [f a] := by
  induction l with
  | nil => rfl
  | cons x xs ih =>
    cases xs with
    | nil => rfl
    | cons y ys => simpa [updLast] using ih

theorem c32lcpy_fits (s : String) (n : Nat) (h : s.length < n) : c32lcpy s n = (s, s.length) := by
  have h1 : s.data.length ≤ n - 1 := by
    have : s.data.length = s.length := rfl
    omega
  simp [c32lcpy, List.take_of_length_le h1]

@[simp] theorem updBlock_mk (f : ConfBlock_t → ConfBlock_t) (fn : Option String)
    (h : List ConfBlock_t) (b : ConfBlock_t) (tr : List Event) :
    World.updBlock f ⟨fn, h ++ [b], tr⟩ = ⟨fn, h ++ [f b], tr⟩ := by
  simp [World.updBlock, updLast_concat]

@[simp] theorem updProp_mk (f : ConfProperty_t → ConfProperty_t) (fn : Option String)
    (h : List ConfBlock_t) (bl : Int) (bt bn : String) (ps : List ConfProperty_t)
    (p : ConfProperty_t) (tr : List Event) :
    World.updProp f ⟨fn, h ++ [⟨bl, bt, bn, ps ++ [p]⟩], tr⟩
      = ⟨fn, h ++ [⟨bl, bt, bn, ps ++ [f p]⟩], tr⟩ := by
  simp [World.updProp, updLast_concat]

@[simp] theorem curProp_mk (fn : Option String)
    (h : List ConfBlock_t) (bl : Int) (bt bn : String) (ps : List ConfProperty_t)
    (p : ConfProperty_t) (tr : List Event) :
    World.curProp ⟨fn, h ++ [⟨bl, bt, bn, ps ++ [p]⟩], tr⟩ = p := by
  simp [World.curProp]

theorem slots_set (vs : List ConfPropVal_t) (v : ConfPropVal_t) (h : vs.length < MAX_PROPVAR) :
    (slots vs).set vs.length (some v) = slots (vs ++ [v]) := by
  unfold slots
  obtain ⟨k, hk⟩ : ∃ k, MAX_PROPVAR - vs.length = k + 1 := ⟨MAX_PROPVAR - vs.length - 1, by omega⟩
  have hk2 : MAX_PROPVAR - (vs ++ [v]).length = k := by simp; omega
  rw [hk, hk2, List.replicate_succ]
  have : vs.length = (vs.map some).length := by simp
  rw [this, List.set_append_right _ _ (le_refl _)]
  simp

theorem parseBlock_value_ok (state : parseState_t) (tok : _confToken_t) (fn : Option String)
    (h : List ConfBlock_t) (bl : Int) (bt bn : String) (ps : List ConfProperty_t)
    (pl : Int) (pn : String) (vs : List ConfPropVal_t) (tr : List Event)
    (hv : IsValue tok) (hlen : vs.length + 1 < MAX_PROPVAR) :
    _parseBlock_value state tok ⟨fn, h ++ [⟨bl, bt, bn, ps ++ [⟨pl, pn, slots vs, vs.length⟩]⟩], tr⟩
      = (true, ⟨fn, h ++ [⟨bl, bt, bn, ps ++ [⟨pl, pn, slots (vs ++ [valueOf tok]), vs.length + 1⟩]⟩], tr⟩) := by
  have hlt : vs.length < MAX_PROPVAR := by omega
  have hnot : ¬ (MAX_PROPVAR ≤ vs.length + 1) := by omega
  rcases hv with hn | ⟨hi | hs, hl⟩
  · simp [_parseBlock_value, hn, valueOf, slots_set _ _ hlt, hnot]
  · simp [_parseBlock_value, hi, valueOf, c32lcpy_fits _ _ hl, slots_set _ _ hlt, hnot, hl]
  · simp [_parseBlock_value, hs, valueOf, c32lcpy_fits _ _ hl, slots_set _ _ hlt, hnot, hl]

theorem parseToken_cons (file : String) (t : _confToken_t) (rest : List _confToken_t) (eof : Int)
    (lt lastTok : Option _confToken_t) (w : World) (ht : t.type ≠ LEX_TOKEN_ERROR) :
    _parseToken ⟨⟨file, t :: rest, eof⟩, lt⟩ lastTok w
      = (some t, ⟨⟨file, rest, eof⟩, lastTok⟩, { w with trace := w.trace ++ [Event.lex file t] }) := by
  simp [_parseToken, _confLex, ht]

theorem IsValue.ne_error {tok : _confToken_t} (h : IsValue tok) : tok.type ≠ LEX_TOKEN_ERROR := by
  rcases h with h | ⟨h | h, _⟩ <;> simp [h]

theorem parseBlock_values_ok (more : List (_confToken_t × _confToken_t)) :
    ∀ (last semi : _confToken_t) (rest : List _confToken_t) (fuel : Nat) (file : String)
      (eof : Int) (lt : Option _confToken_t) (tok : _confToken_t) (fn : Option String)
      (h : List ConfBlock_t) (bl : Int) (bt bn : String) (ps : List ConfProperty_t)
      (pl : Int) (pn : String) (vs : List ConfPropVal_t) (tr : List Event),
      (∀ vc ∈ more, IsValue vc.1 ∧ vc.2.type = LEX_TOKEN_COMMA) → IsValue last →
      semi.type = LEX_TOKEN_SEMICOLON → vs.length + more.length + 1 < MAX_PROPVAR →
      more.length < fuel →
      _parseBlock_values fuel ⟨⟨file, sepTokens more ++ last :: semi :: rest, eof⟩, lt⟩ tok
          ⟨fn, h ++ [⟨bl, bt, bn, ps ++ [⟨pl, pn, slots vs, vs.length⟩]⟩], tr⟩
        = some (some semi, ⟨⟨file, rest, eof⟩, some last⟩,
            ⟨fn, h ++ [⟨bl, bt, bn, ps ++ [⟨pl, pn,
                slots (vs ++ (more.map (fun vc => valueOf vc.1) ++ [valueOf last])),
                vs.length + (more.length + 1)⟩]⟩],
              tr ++ (sepTokens more ++ [last, semi]).map (Event.lex file)⟩) := by
  induction more with
  | nil =>
    intro last semi rest fuel file eof lt tok fn h bl bt bn ps pl pn vs tr _ hl hs hlen hfuel
    obtain ⟨n, rfl⟩ : ∃ n, fuel = n + 1 := ⟨fuel - 1, by simp at hfuel; omega⟩
    have hs' : semi.type ≠ LEX_TOKEN_ERROR := by simp [hs]
    simp [sepTokens, _parseBlock_values, parseToken_cons _ _ _ _ _ _ _ hl.ne_error,
      parseBlock_value_ok _ _ _ _ _ _ _ _ _ _ _ _ hl (by simpa using hlen),
      parseToken_cons _ _ _ _ _ _ _ hs', hs]
  | cons vc more ih =>
    intro last semi rest fuel file eof lt tok fn h bl bt bn ps pl pn vs tr hm hl hs hlen hfuel
    obtain ⟨n, rfl⟩ : ∃ n, fuel = n + 1 := ⟨fuel - 1, by simp at hfuel; omega⟩
    have hv := (hm vc (by simp)).1
    have hc := (hm vc (by simp)).2
    have hc' : vc.2.type ≠ LEX_TOKEN_ERROR := by simp [hc]
    have hm' : ∀ x ∈ more, IsValue x.1 ∧ x.2.type = LEX_TOKEN_COMMA :=
      fun x hx => hm x (by simp [hx])
    simp only [List.length_cons] at hlen hfuel
    have step := ih last semi rest n file eof (some vc.1) vc.2 fn h bl bt bn ps pl pn
      (vs ++ [valueOf vc.1]) (tr ++ [Event.lex file vc.1] ++ [Event.lex file vc.2]) hm' hl hs
      (by simp; omega) (by omega)
    have e1 : sepTokens (vc :: more) ++ last :: semi :: rest
        = vc.1 :: vc.2 :: (sepTokens more ++ last :: semi :: rest) := by
      simp [sepTokens]
    rw [e1]
    simp only [_parseBlock_values, parseToken_cons _ _ _ _ _ _ _ hv.ne_error,
      parseBlock_value_ok _ _ _ _ _ _ _ _ _ _ _ _ hv (by omega : vs.length + 1 < MAX_PROPVAR),
      parseToken_cons _ _ _ _ _ _ _ hc', hc, if_true]
    simp only [List.length_append, List.length_singleton] at step
    rw [step]
    simp [sepTokens, Nat.add_assoc, Nat.add_comm]

theorem sepTokens_length (more : List (_confToken_t × _confToken_t)) :
    (sepTokens more).length = 2 * more.length := by
  unfold sepTokens
  induction more with
  | nil => rfl
  | cons x xs ih => simp [List.flatMap_cons, ih]; omega

/-- The value loop on a property that was just created. -/
theorem parseBlock_values_new (more : List (_confToken_t × _confToken_t))
    (last semi : _confToken_t) (rest : List _confToken_t) (fuel : Nat) (file : String)
    (eof : Int) (lt : Option _confToken_t) (tok : _confToken_t) (fn : Option String)
    (h : List ConfBlock_t) (bl : Int) (bt bn : String) (ps : List ConfProperty_t)
    (pl : Int) (pn : String) (tr : List Event)
    (hm : ∀ vc ∈ more, IsValue vc.1 ∧ vc.2.type = LEX_TOKEN_COMMA) (hl : IsValue last)
    (hs : semi.type = LEX_TOKEN_SEMICOLON) (hlen : more.length + 1 < MAX_PROPVAR)
    (hfuel : more.length < fuel) :
    _parseBlock_values fuel ⟨⟨file, sepTokens more ++ last :: semi :: rest, eof⟩, lt⟩ tok
        ⟨fn, h ++ [⟨bl, bt, bn, ps ++ [⟨pl, pn, List.replicate MAX_PROPVAR none, 0⟩]⟩], tr⟩
      = some (some semi, ⟨⟨file, rest, eof⟩, some last⟩,
          ⟨fn, h ++ [⟨bl, bt, bn, ps ++ [⟨pl, pn,
              slots (more.map (fun vc => valueOf vc.1) ++ [valueOf last]), more.length + 1⟩]⟩],
            tr ++ (sepTokens more ++ [last, semi]).map (Event.lex file)⟩) := by
  have := parseBlock_values_ok more last semi rest fuel file eof lt tok fn h bl bt bn ps pl pn []
    tr hm hl hs (by simpa using hlen) hfuel
  simpa [slots] using this

theorem parseExpect_cons (file : String) (t : _confToken_t) (rest : List _confToken_t) (eof : Int)
    (lt lastTok : Option _confToken_t) (ty : TokType) (w : World) (ht : t.type = ty)
    (hty : ty ≠ LEX_TOKEN_ERROR) :
    _parseExpect ⟨⟨file, t :: rest, eof⟩, lt⟩ lastTok ty w
      = (some t, ⟨⟨file, rest, eof⟩, lastTok⟩, { w with trace := w.trace ++ [Event.lex file t] }) := by
  have ht' : t.type ≠ LEX_TOKEN_ERROR := by rw [ht]; exact hty
  simp [_parseExpect, parseToken_cons _ _ _ _ _ _ _ ht', ht]

theorem lastOf_append_cons (tok : _confToken_t) (a : List _confToken_t) (b : _confToken_t)
    (c : List _confToken_t) : lastOf tok (a ++ b :: c) = lastOf b c := by
  induction a generalizing tok with
  | nil => rfl
  | cons x xs ih => simpa [lastOf] using ih x

theorem parseBlock_props_ok (props : List SrcProp) :
    ∀ (ebrace : _confToken_t) (rest : List _confToken_t) (fuel : Nat) (file : String)
      (eof : Int) (lt : Option _confToken_t) (tok : _confToken_t) (fn : Option String)
      (h : List ConfBlock_t) (bl : Int) (bt bn : String) (ps : List ConfProperty_t)
      (tr : List Event),
      (∀ p ∈ props, p.WF) → ebrace.type = LEX_TOKEN_EBRACE →
      (props.flatMap SrcProp.tokens).length < fuel →
      _parseBlock_props fuel ⟨⟨file, props.flatMap SrcProp.tokens ++ ebrace :: rest, eof⟩, lt⟩ tok
          ⟨fn, h ++ [⟨bl, bt, bn, ps⟩], tr⟩
        = some (some ebrace,
            ⟨⟨file, rest, eof⟩, some (lastOf tok (props.flatMap SrcProp.tokens))⟩,
            ⟨fn, h ++ [⟨bl, bt, bn, ps ++ props.map SrcProp.tree⟩],
              tr ++ (props.flatMap SrcProp.tokens ++ [ebrace]).map (Event.lex file)⟩) := by
  induction props with
  | nil =>
    intro ebrace rest fuel file eof lt tok fn h bl bt bn ps tr _ he hfuel
    obtain ⟨n, rfl⟩ : ∃ n, fuel = n + 1 := ⟨fuel - 1, by simp at hfuel; omega⟩
    have he' : ebrace.type ≠ LEX_TOKEN_ERROR := by simp [he]
    simp [_parseBlock_props, parseToken_cons _ _ _ _ _ _ _ he', he, lastOf]
  | cons p props ih =>
    intro ebrace rest fuel file eof lt tok fn h bl bt bn ps tr hwf he hfuel
    obtain ⟨n, rfl⟩ : ∃ n, fuel = n + 1 := ⟨fuel - 1, by omega⟩
    obtain ⟨hn, hnl, hc, hm, hl, hs, hcount⟩ := hwf p (by simp)
    have hn' : p.name.type ≠ LEX_TOKEN_ERROR := by simp [hn]
    have hwf' : ∀ q ∈ props, q.WF := fun q hq => hwf q (by simp [hq])
    have hlen : (p :: props).flatMap SrcProp.tokens
        = p.name :: p.colon :: (sepTokens p.more ++ p.last :: p.semi ::
            props.flatMap SrcProp.tokens) := by
      simp [SrcProp.tokens]
    rw [hlen] at hfuel ⊢
    simp only [List.length_cons, List.length_append, sepTokens_length] at hfuel
    simp only [SrcProp.values, List.length_append, List.length_map, List.length_singleton]
      at hcount
    simp only [List.cons_append, List.append_assoc]
    simp only [_parseBlock_props, parseToken_cons _ _ _ _ _ _ _ hn', hn, reduceCtorEq,
      if_true, if_false, updBlock_mk, updProp_mk, c32lcpy_fits _ _ hnl, ge_iff_le,
      Nat.not_le.mpr hnl, parseExpect_cons _ _ _ _ _ _ _ _ hc (by decide)]
    rw [parseBlock_values_new p.more p.last p.semi _ n file eof _ _ fn h bl bt bn ps _ _ _ hm hl
      hs hcount (by omega)]
    simp only []
    refine (ih ebrace rest n file eof _ _ fn h bl bt bn _ _ hwf' he (by omega)).trans ?_
    simp [SrcProp.tree, SrcProp.values, lastOf, lastOf_append_cons, Function.comp_def]

theorem parseBlock_ok (b : SrcBlock) (rest : List _confToken_t) (fuel : Nat) (file : String)
    (eof : Int) (lt : Option _confToken_t) (fn : Option String) (h : List ConfBlock_t)
    (tr : List Event) (hwf : b.WF) (hfuel : b.tokens.length ≤ fuel) :
    _parseBlock fuel ⟨⟨file, b.body ++ rest, eof⟩, lt⟩ b.type ⟨fn, h, tr⟩
      = some (some b.ebrace, ⟨⟨file, rest, eof⟩, some (lastOf b.type (b.tokens.dropLast))⟩,
          ⟨fn, h ++ [b.tree], tr ++ b.body.map (Event.lex file)⟩) := by
  obtain ⟨ht, htl, hname, ho, hps, he⟩ := hwf
  have ho' : b.obrace.type ≠ LEX_TOKEN_ERROR := by simp [ho]
  have hdl : ∀ (l : List _confToken_t) (x : _confToken_t), (l ++ [x]).dropLast = l := by
    intro l x; simp
  cases hnm : b.name with
  | none =>
    simp only [SrcBlock.tokens, SrcBlock.body, hnm, Option.toList, List.length_cons,
      List.nil_append, List.length_append, List.length_singleton] at hfuel
    simp only [SrcBlock.body, hnm, Option.toList, List.nil_append, List.cons_append,
      List.append_assoc, List.singleton_append]
    simp only [_parseBlock, updBlock_mk, c32lcpy_fits _ _ htl, ge_iff_le, Nat.not_le.mpr htl,
      if_false, parseToken_cons _ _ _ _ _ _ _ ho', ho, reduceCtorEq]
    rw [parseBlock_props_ok b.props b.ebrace rest fuel file eof _ _ fn h _ _ _ _ _ hps he
      (by omega)]
    have e : (b.type :: b.obrace :: (b.props.flatMap SrcProp.tokens ++ [b.ebrace])).dropLast
        = b.type :: b.obrace :: b.props.flatMap SrcProp.tokens := by
      rw [← List.cons_append, ← List.cons_append, hdl]
    simp [SrcBlock.tree, SrcBlock.tokens, SrcBlock.body, hnm, e, lastOf]
  | some nm =>
    obtain ⟨hn, hnl⟩ := hname nm (by simp [hnm])
    have hn' : nm.type ≠ LEX_TOKEN_ERROR := by simp [hn]
    simp only [SrcBlock.tokens, SrcBlock.body, hnm, Option.toList, List.length_cons,
      List.singleton_append, List.length_append, List.length_singleton] at hfuel
    simp only [SrcBlock.body, hnm, Option.toList, List.nil_append, List.cons_append,
      List.append_assoc, List.singleton_append]
    simp only [_parseBlock, updBlock_mk, c32lcpy_fits _ _ htl, ge_iff_le, Nat.not_le.mpr htl,
      if_false, parseToken_cons _ _ _ _ _ _ _ hn', hn, if_true, c32lcpy_fits _ _ hnl,
      Nat.not_le.mpr hnl, parseExpect_cons _ _ _ _ _ _ _ _ ho (by decide)]
    rw [parseBlock_props_ok b.props b.ebrace rest fuel file eof _ _ fn h _ _ _ _ _ hps he
      (by omega)]
    have e : (b.type :: nm :: b.obrace :: (b.props.flatMap SrcProp.tokens ++ [b.ebrace])).dropLast
        = b.type :: nm :: b.obrace :: b.props.flatMap SrcProp.tokens := by
      rw [← List.cons_append, ← List.cons_append, ← List.cons_append, hdl]
    simp [SrcBlock.tree, SrcBlock.tokens, SrcBlock.body, hnm, e, lastOf]

theorem next_block (host : Host) (b : SrcBlock) (rest : List _confToken_t) (n : Nat)
    (file : String) (eof : Int) (lt lastTok : Option _confToken_t) (fn : Option String)
    (h : List ConfBlock_t) (tr : List Event) (hwf : b.WF) (hfuel : b.tokens.length ≤ n) :
    _parseInternal_next (_parseInternal_loop host (n + 1)) ⟨⟨file, b.tokens ++ rest, eof⟩, lt⟩ lastTok ⟨fn, h, tr⟩
      = _parseInternal_next (_parseInternal_loop host n) ⟨⟨file, rest, eof⟩, some (lastOf b.type (b.tokens.dropLast))⟩
          (some b.ebrace) ⟨fn, h ++ [b.tree], tr ++ b.tokens.map (Event.lex file)⟩ := by
  have ht : b.type.type = LEX_TOKEN_ID := hwf.1
  have ht' : b.type.type ≠ LEX_TOKEN_ERROR := by simp [ht]
  have e : b.tokens ++ rest = b.type :: (b.body ++ rest) := rfl
  rw [e]
  simp only [_parseInternal_next, parseToken_cons _ _ _ _ _ _ _ ht', _parseInternal_loop, ht, reduceCtorEq,
    if_false, if_true, parseBlock_ok b rest n file eof _ fn h _ hwf hfuel]
  simp [SrcBlock.tokens]

theorem next_blocks (host : Host) (bs : List SrcBlock) :
    ∀ (rest : List _confToken_t) (n : Nat) (file : String) (eof : Int)
      (lt lastTok : Option _confToken_t) (fn : Option String) (h : List ConfBlock_t)
      (tr : List Event), (∀ b ∈ bs, b.WF) → (∀ b ∈ bs, b.tokens.length ≤ n) →
      ∃ lt1 lastTok1,
        _parseInternal_next (_parseInternal_loop host (n + bs.length)) ⟨⟨file, bs.flatMap SrcBlock.tokens ++ rest, eof⟩, lt⟩
            lastTok ⟨fn, h, tr⟩
          = _parseInternal_next (_parseInternal_loop host n) ⟨⟨file, rest, eof⟩, lt1⟩ lastTok1
              ⟨fn, h ++ bs.map SrcBlock.tree,
                tr ++ (bs.flatMap SrcBlock.tokens).map (Event.lex file)⟩ := by
  induction bs with
  | nil =>
    intro rest n file eof lt lastTok fn h tr _ _
    exact ⟨lt, lastTok, by simp⟩
  | cons b bs ih =>
    intro rest n file eof lt lastTok fn h tr hwf hlen
    obtain ⟨lt1, lastTok1, hrec⟩ := ih rest n file eof
      (some (lastOf b.type (b.tokens.dropLast))) (some b.ebrace) fn (h ++ [b.tree])
      (tr ++ b.tokens.map (Event.lex file)) (fun x hx => hwf x (by simp [hx]))
      (fun x hx => hlen x (by simp [hx]))
    refine ⟨lt1, lastTok1, ?_⟩
    have e : (b :: bs).flatMap SrcBlock.tokens ++ rest
        = b.tokens ++ (bs.flatMap SrcBlock.tokens ++ rest) := by simp
    rw [e, List.length_cons, ← Nat.add_assoc,
      next_block host b _ (n + bs.length) file eof lt lastTok fn h tr (hwf b (by simp))
        (le_trans (hlen b (by simp)) (Nat.le_add_right _ _)), hrec]
    simp

theorem next_end (host : Host) (n : Nat) (file : String) (eof : Int)
    (lt lastTok : Option _confToken_t) (w : World) :
    _parseInternal_next (_parseInternal_loop host (n + 1)) ⟨⟨file, [], eof⟩, lt⟩ lastTok w
      = some (true, { w with trace := w.trace ++
          [Event.lex file ⟨LEX_TOKEN_NONE, eof, "", 0⟩, Event.lexDestroy file] }) := by
  simp [_parseInternal_next, _parseToken, _confLex, _parseInternal_loop]

theorem tokens_length_le (bs : List SrcBlock) :
    ∀ b ∈ bs, b.tokens.length + bs.length ≤ (bs.flatMap SrcBlock.tokens).length + 1 := by
  induction bs with
  | nil => intro b hb; simp at hb
  | cons x xs ih =>
    intro b hb
    have hx : 1 ≤ x.tokens.length := by simp [SrcBlock.tokens]
    simp only [List.flatMap_cons, List.length_append, List.length_cons]
    rcases List.mem_cons.mp hb with rfl | hb
    · have : xs.length ≤ (xs.flatMap SrcBlock.tokens).length := by
        clear ih hb
        induction xs with
        | nil => simp
        | cons y ys ihy =>
          have hy : 1 ≤ y.tokens.length := by simp [SrcBlock.tokens]
          simp only [List.flatMap_cons, List.length_append, List.length_cons]
          omega
      omega
    · have := ih b hb
      omega

theorem updLast_ne_nil {α : Type} (f : α → α) (l : List α) (h : l ≠ []) : updLast f l ≠ [] := by
  cases l with
  | nil => exact absurd rfl h
  | cons a t => cases t <;> simp [updLast]

theorem updLast_append {α : Type} (f : α → α) (pre l : List α) (h : l ≠ []) :
    updLast f (pre ++ l) = pre ++ updLast f l := by
  induction pre with
  | nil => rfl
  | cons a t ih =>
    cases hl : t ++ l with
    | nil => simp [h] at hl
    | cons b u => rw [List.cons_append, hl, updLast, ← hl, ih]; rfl

theorem SimNE.updBlock {pre : List ConfBlock_t} {w1 w2 : World} (hs : SimNE pre w1 w2)
    (f : ConfBlock_t → ConfBlock_t) : SimNE pre (w1.updBlock f) (w2.updBlock f) := by
  refine ⟨?_, updLast_ne_nil _ _ hs.2⟩
  simp [World.updBlock, hs.1, updLast_append _ _ _ hs.2]

theorem SimNE.updProp {pre : List ConfBlock_t} {w1 w2 : World} (hs : SimNE pre w1 w2)
    (f : ConfProperty_t → ConfProperty_t) : SimNE pre (w1.updProp f) (w2.updProp f) :=
  hs.updBlock _

theorem SimNE.curProp {pre : List ConfBlock_t} {w1 w2 : World} (hs : SimNE pre w1 w2) :
    w2.curProp = w1.curProp := by
  obtain ⟨h1, h2⟩ := hs
  simp [World.curProp, h1, List.getLast?_append, List.getLast?_eq_none_iff, h2]
  cases h : w1.head.getLast? with
  | none => simp [List.getLast?_eq_none_iff] at h; exact absurd h h2
  | some b => simp

theorem SimNE.ofHeads {pre : List ConfBlock_t} {w1 w2 a b : World} (hs : SimNE pre w1 w2)
    (ha : a.head = w1.head) (hb : b.head = w2.head) : SimNE pre a b := by
  unfold SimNE at *
  rw [ha, hb]; exact hs

theorem SimNE.error {pre : List ConfBlock_t} {w1 w2 : World} (hs : SimNE pre w1 w2)
    (st : parseState_t) (tok : _confToken_t) (err : Nat) (e1 e2 : Extra) :
    SimNE pre (_parseError st tok err e1 w1) (_parseError st tok err e2 w2) :=
  hs.ofHeads rfl rfl

theorem parseToken_rel (st : parseState_t) (lt : Option _confToken_t) (w1 w2 : World) :
    ∃ b, _parseToken st lt w2 = ((_parseToken st lt w1).1, (_parseToken st lt w1).2.1, b) ∧
      b.head = w2.head ∧ (_parseToken st lt w1).2.2.head = w1.head := by
  unfold _parseToken
  by_cases h : (_confLex st.lex).1.type = LEX_TOKEN_ERROR <;> simp [h]

theorem parseExpect_rel (st : parseState_t) (lt : Option _confToken_t) (ty : TokType)
    (w1 w2 : World) :
    ∃ b, _parseExpect st lt ty w2 = ((_parseExpect st lt ty w1).1, (_parseExpect st lt ty w1).2.1, b) ∧
      b.head = w2.head ∧ (_parseExpect st lt ty w1).2.2.head = w1.head := by
  unfold _parseExpect _parseToken
  by_cases h : (_confLex st.lex).1.type = LEX_TOKEN_ERROR
  · simp [h]
  · by_cases h2 : (_confLex st.lex).1.type = ty
    · have h3 : ¬ ty = LEX_TOKEN_ERROR := h2 ▸ h
      simp [h2, h3]
    · simp [h, h2, _parseError]

theorem parseBlock_value_rel {pre : List ConfBlock_t} {w1 w2 : World} (hs : SimNE pre w1 w2)
    (st : parseState_t) (tok : _confToken_t) :
    (_parseBlock_value st tok w2).1 = (_parseBlock_value st tok w1).1 ∧
      SimNE pre (_parseBlock_value st tok w1).2 (_parseBlock_value st tok w2).2 := by
  unfold _parseBlock_value
  simp only [hs.curProp, ((hs.updProp _).updProp _).curProp]
  split_ifs <;> simp only [true_and] <;>
    first
    | exact hs.error _ _ _ _ _
    | exact (hs.updProp _).error _ _ _ _ _
    | exact ((hs.updProp _).updProp _).error _ _ _ _ _
    | exact (hs.updProp _).updProp _

theorem Sim.heads {pre : List ConfBlock_t} {w1 w2 a b : World} (hs : Sim pre w1 w2)
    (ha : a.head = w1.head) (hb : b.head = w2.head) : Sim pre a b := by
  unfold Sim at *
  rw [ha, hb]; exact hs

theorem SimNE.sim {pre : List ConfBlock_t} {w1 w2 : World} (hs : SimNE pre w1 w2) :
    Sim pre w1 w2 := hs.1

theorem parseToken_simNE {pre : List ConfBlock_t} {w1 w2 a : World} (hs : SimNE pre w1 w2)
    {st s : parseState_t} {lt x : Option _confToken_t} (h : _parseToken st lt w1 = (x, s, a)) :
    ∃ b, _parseToken st lt w2 = (x, s, b) ∧ SimNE pre a b := by
  obtain ⟨b, e, hb, ha⟩ := parseToken_rel st lt w1 w2
  rw [h] at e ha
  exact ⟨b, e, hs.ofHeads ha hb⟩

theorem parseToken_sim {pre : List ConfBlock_t} {w1 w2 a : World} (hs : Sim pre w1 w2)
    {st s : parseState_t} {lt x : Option _confToken_t} (h : _parseToken st lt w1 = (x, s, a)) :
    ∃ b, _parseToken st lt w2 = (x, s, b) ∧ Sim pre a b := by
  obtain ⟨b, e, hb, ha⟩ := parseToken_rel st lt w1 w2
  rw [h] at e ha
  exact ⟨b, e, hs.heads ha hb⟩

theorem parseExpect_simNE {pre : List ConfBlock_t} {w1 w2 a : World} (hs : SimNE pre w1 w2)
    {st s : parseState_t} {lt x : Option _confToken_t} {ty : TokType}
    (h : _parseExpect st lt ty w1 = (x, s, a)) :
    ∃ b, _parseExpect st lt ty w2 = (x, s, b) ∧ SimNE pre a b := by
  obtain ⟨b, e, hb, ha⟩ := parseExpect_rel st lt ty w1 w2
  rw [h] at e ha
  exact ⟨b, e, hs.ofHeads ha hb⟩

theorem parseExpect_sim {pre : List ConfBlock_t} {w1 w2 a : World} (hs : Sim pre w1 w2)
    {st s : parseState_t} {lt x : Option _confToken_t} {ty : TokType}
    (h : _parseExpect st lt ty w1 = (x, s, a)) :
    ∃ b, _parseExpect st lt ty w2 = (x, s, b) ∧ Sim pre a b := by
  obtain ⟨b, e, hb, ha⟩ := parseExpect_rel st lt ty w1 w2
  rw [h] at e ha
  exact ⟨b, e, hs.heads ha hb⟩

theorem parseBlock_value_simNE {pre : List ConfBlock_t} {w1 w2 a : World} (hs : SimNE pre w1 w2)
    {st : parseState_t} {tok : _confToken_t} {x : Bool}
    (h : _parseBlock_value st tok w1 = (x, a)) :
    ∃ b, _parseBlock_value st tok w2 = (x, b) ∧ SimNE pre a b := by
  obtain ⟨e, hr⟩ := parseBlock_value_rel hs st tok
  rw [h] at e hr
  exact ⟨(_parseBlock_value st tok w2).2, Prod.ext e rfl, hr⟩

theorem parseBlock_values_sim (pre : List ConfBlock_t) (n : Nat) :
    ∀ (m : Nat) (st : parseState_t) (tok : _confToken_t) (w1 w2 : World)
      (x : Option _confToken_t) (s : parseState_t) (a : World),
      n ≤ m → SimNE pre w1 w2 → _parseBlock_values n st tok w1 = some (x, s, a) →
      ∃ b, _parseBlock_values m st tok w2 = some (x, s, b) ∧ SimNE pre a b := by
  induction n with
  | zero => intro m st tok w1 w2 x s a _ _ h; simp [_parseBlock_values] at h
  | succ n ih =>
    intro m st tok w1 w2 x s a hm hs h
    obtain ⟨m, rfl⟩ : ∃ k, m = k + 1 := ⟨m - 1, by omega⟩
    rw [_parseBlock_values] at h ⊢
    rcases h1 : _parseToken st (some tok) w1 with ⟨_ | tok1, st1, a1⟩
    all_goals obtain ⟨b1, e1, hs1⟩ := parseToken_simNE hs h1
    all_goals simp only [h1, e1] at h ⊢
    · simp only [Option.some.injEq, Prod.mk.injEq] at h
      obtain ⟨rfl, rfl, rfl⟩ := h
      exact ⟨b1, rfl, hs1⟩
    · rcases h2 : _parseBlock_value st1 tok1 a1 with ⟨_ | _, a2⟩
      all_goals obtain ⟨b2, e2, hs2⟩ := parseBlock_value_simNE hs1 h2
      all_goals simp only [h2, e2] at h ⊢
      · simp only [Option.some.injEq, Prod.mk.injEq] at h
        obtain ⟨rfl, rfl, rfl⟩ := h
        exact ⟨b2, rfl, hs2⟩
      · rcases h3 : _parseToken st1 (some tok1) a2 with ⟨_ | tok2, st2, a3⟩
        all_goals obtain ⟨b3, e3, hs3⟩ := parseToken_simNE hs2 h3
        all_goals simp only [h3, e3] at h ⊢
        · simp only [Option.some.injEq, Prod.mk.injEq] at h
          obtain ⟨rfl, rfl, rfl⟩ := h
          exact ⟨b3, rfl, hs3⟩
        · by_cases h4 : tok2.type = LEX_TOKEN_COMMA
          · simp only [h4, if_true] at h ⊢
            exact ih m st2 tok2 a3 b3 x s a (by omega) hs3 h
          · simp only [h4, if_false] at h ⊢
            by_cases h5 : tok2.type = LEX_TOKEN_SEMICOLON
            · simp only [h5, if_true, Option.some.injEq, Prod.mk.injEq] at h ⊢
              obtain ⟨rfl, rfl, rfl⟩ := h
              exact ⟨b3, ⟨rfl, rfl, rfl⟩, hs3⟩
            · simp only [h5, if_false, Option.some.injEq, Prod.mk.injEq] at h ⊢
              obtain ⟨rfl, rfl, rfl⟩ := h
              exact ⟨_, ⟨rfl, rfl, rfl⟩, hs3.error _ _ _ _ _⟩

theorem parseBlock_props_sim (pre : List ConfBlock_t) (n : Nat) :
    ∀ (m : Nat) (st : parseState_t) (tok : _confToken_t) (w1 w2 : World)
      (x : Option _confToken_t) (s : parseState_t) (a : World),
      n ≤ m → SimNE pre w1 w2 → _parseBlock_props n st tok w1 = some (x, s, a) →
      ∃ b, _parseBlock_props m st tok w2 = some (x, s, b) ∧ SimNE pre a b := by
  induction n with
  | zero => intro m st tok w1 w2 x s a _ _ h; simp [_parseBlock_props] at h
  | succ n ih =>
    intro m st tok w1 w2 x s a hm hs h
    obtain ⟨m, rfl⟩ : ∃ k, m = k + 1 := ⟨m - 1, by omega⟩
    rw [_parseBlock_props] at h ⊢
    rcases h1 : _parseToken st (some tok) w1 with ⟨_ | tok1, st1, a1⟩
    all_goals obtain ⟨b1, e1, hs1⟩ := parseToken_simNE hs h1
    all_goals simp only [h1, e1] at h ⊢
    · simp only [Option.some.injEq, Prod.mk.injEq] at h
      obtain ⟨rfl, rfl, rfl⟩ := h
      exact ⟨b1, rfl, hs1⟩
    · by_cases h2 : tok1.type = LEX_TOKEN_EBRACE
      · simp only [h2, if_true, Option.some.injEq, Prod.mk.injEq] at h ⊢
        obtain ⟨rfl, rfl, rfl⟩ := h
        exact ⟨b1, ⟨rfl, rfl, rfl⟩, hs1⟩
      · simp only [h2, if_false] at h ⊢
        by_cases h3 : tok1.type = LEX_TOKEN_ID
        · simp only [h3, if_true] at h ⊢
          have hs4 := (((hs1.updBlock (fun b => { b with props := b.props ++
            [⟨0, "", List.replicate MAX_PROPVAR none, 0⟩] })).updProp
            (fun p => { p with lineNo := tok1.line })).updProp
            (fun p => { p with name := (c32lcpy tok1.semVal BLOCK_BUFSZ).1 }))
          by_cases h4 : (c32lcpy tok1.semVal BLOCK_BUFSZ).2 ≥ BLOCK_BUFSZ
          · simp only [h4, if_true, Option.some.injEq, Prod.mk.injEq] at h ⊢
            obtain ⟨rfl, rfl, rfl⟩ := h
            exact ⟨_, ⟨rfl, rfl, rfl⟩, hs4.error _ _ _ _ _⟩
          · simp only [h4, if_false] at h ⊢
            have hs5 := hs4.updProp (fun p => { p with nextVal := 0 })
            generalize World.updProp _ (World.updProp _ (World.updProp _ (World.updBlock _ a1)))
              = a5 at h hs5
            generalize World.updProp _ (World.updProp _ (World.updProp _ (World.updBlock _ b1)))
              = b5 at hs5 ⊢
            rcases h5 : _parseExpect st1 (some tok1) LEX_TOKEN_COLON a5 with ⟨_ | tok2, st2, a6⟩
            all_goals obtain ⟨b6, e6, hs6⟩ := parseExpect_simNE hs5 h5
            all_goals simp only [h5, e6] at h ⊢
            · simp only [Option.some.injEq, Prod.mk.injEq] at h
              obtain ⟨rfl, rfl, rfl⟩ := h
              exact ⟨b6, rfl, hs6⟩
            · rcases h6 : _parseBlock_values n st2 tok2 a6 with _ | ⟨_ | tok3, st3, a7⟩
              · simp [h6] at h
              · obtain ⟨b7, e7, hs7⟩ := parseBlock_values_sim pre n m st2 tok2 a6 b6 _ _ _
                  (by omega) hs6 h6
                simp only [h6, e7, Option.some.injEq, Prod.mk.injEq] at h ⊢
                obtain ⟨rfl, rfl, rfl⟩ := h
                exact ⟨b7, ⟨rfl, rfl, rfl⟩, hs7⟩
              · obtain ⟨b7, e7, hs7⟩ := parseBlock_values_sim pre n m st2 tok2 a6 b6 _ _ _
                  (by omega) hs6 h6
                simp only [h6, e7] at h ⊢
                exact ih m st3 tok3 a7 b7 x s a (by omega) hs7 h
        · simp only [h3, if_false] at h ⊢
          exact ih m st1 tok1 a1 b1 x s a (by omega) hs1 h

theorem parseBlock_sim (pre : List ConfBlock_t) (n m : Nat) (st : parseState_t)
    (tok : _confToken_t) (w1 w2 : World) (x : Option _confToken_t) (s : parseState_t)
    (a : World) (hm : n ≤ m) (hs : Sim pre w1 w2)
    (h : _parseBlock n st tok w1 = some (x, s, a)) :
    ∃ b, _parseBlock m st tok w2 = some (x, s, b) ∧ Sim pre a b := by
  have hs1 : SimNE pre { w1 with head := w1.head ++ [⟨0, "", "", []⟩] }
      { w2 with head := w2.head ++ [⟨0, "", "", []⟩] } := by
    refine ⟨?_, by simp⟩
    show w2.head ++ _ = pre ++ (w1.head ++ _)
    rw [hs, List.append_assoc]
  have hs4 := ((hs1.updBlock (fun b => { b with lineNo := tok.line })).updBlock
    (fun b => { b with props := [] })).updBlock
    (fun b => { b with blockType := (c32lcpy tok.semVal 256).1 })
  unfold _parseBlock at h ⊢
  simp only [] at h ⊢
  generalize World.updBlock _ (World.updBlock _ (World.updBlock _ _)) = a4 at h hs4
  generalize World.updBlock _ (World.updBlock _ (World.updBlock _ _)) = b4 at hs4 ⊢
  by_cases h0 : (c32lcpy tok.semVal 256).2 ≥ 256
  · simp only [h0, if_true, Option.some.injEq, Prod.mk.injEq] at h ⊢
    obtain ⟨rfl, rfl, rfl⟩ := h
    exact ⟨_, ⟨rfl, rfl, rfl⟩, (hs4.error _ _ _ _ _).sim⟩
  · simp only [h0, if_false] at h ⊢
    rcases h1 : _parseToken st (some tok) a4 with ⟨_ | tok1, st1, a5⟩
    all_goals obtain ⟨b5, e5, hs5⟩ := parseToken_simNE hs4 h1
    all_goals simp only [h1, e5] at h ⊢
    · simp only [Option.some.injEq, Prod.mk.injEq] at h
      obtain ⟨rfl, rfl, rfl⟩ := h
      exact ⟨b5, rfl, hs5.sim⟩
    · by_cases h2 : tok1.type = LEX_TOKEN_ID
      · simp only [h2, if_true] at h ⊢
        have hs6 := hs5.updBlock
          (fun b => { b with blockName := (c32lcpy tok1.semVal BLOCK_BUFSZ).1 })
        by_cases h3 : (c32lcpy tok1.semVal BLOCK_BUFSZ).2 ≥ BLOCK_BUFSZ
        · simp only [h3, if_true, Option.some.injEq, Prod.mk.injEq] at h ⊢
          obtain ⟨rfl, rfl, rfl⟩ := h
          exact ⟨_, ⟨rfl, rfl, rfl⟩, (hs6.error _ _ _ _ _).sim⟩
        · simp only [h3, if_false] at h ⊢
          generalize World.updBlock _ a5 = a6 at h hs6
          generalize World.updBlock _ b5 = b6 at hs6 ⊢
          rcases h4 : _parseExpect st1 (some tok1) LEX_TOKEN_OBRACE a6 with ⟨_ | tok2, st2, a7⟩
          all_goals obtain ⟨b7, e7, hs7⟩ := parseExpect_simNE hs6 h4
          all_goals simp only [h4, e7] at h ⊢
          · simp only [Option.some.injEq, Prod.mk.injEq] at h
            obtain ⟨rfl, rfl, rfl⟩ := h
            exact ⟨b7, rfl, hs7.sim⟩
          · obtain ⟨b, e, hb⟩ := parseBlock_props_sim pre n m st2 tok2 a7 b7 x s a hm hs7 h
            exact ⟨b, e, hb.sim⟩
      · simp only [h2, if_false] at h ⊢
        by_cases h3 : tok1.type = LEX_TOKEN_OBRACE
        · simp only [h3, if_true] at h ⊢
          obtain ⟨b, e, hb⟩ := parseBlock_props_sim pre n m st1 tok1 _ _ x s a hm
            (hs5.updBlock (fun b => { b with blockName := "" })) h
          exact ⟨b, e, hb.sim⟩
        · simp only [h3, if_false, Option.some.injEq, Prod.mk.injEq] at h ⊢
          obtain ⟨rfl, rfl, rfl⟩ := h
          exact ⟨_, ⟨rfl, rfl, rfl⟩, (hs5.error _ _ _ _ _).sim⟩

theorem parseInclude_sim (host : Host) (pre : List ConfBlock_t)
    (int1 int2 : parseState_t → World → Option (Bool × World))
    (hint : ∀ (ns : parseState_t) (w1 w2 : World) (r : Bool) (a : World), Sim pre w1 w2 →
      int1 ns w1 = some (r, a) → ∃ b, int2 ns w2 = some (r, b) ∧ Sim pre a b)
    (st : parseState_t) (tok : _confToken_t) (w1 w2 : World) (x : Option _confToken_t)
    (s : parseState_t) (a : World) (hs : Sim pre w1 w2)
    (h : _parseInclude host int1 st tok w1 = some (x, s, a)) :
    ∃ b, _parseInclude host int2 st tok w2 = some (x, s, b) ∧ Sim pre a b := by
  unfold _parseInclude at h ⊢
  rcases h1 : _parseExpect st (some tok) LEX_TOKEN_STR w1 with ⟨_ | pathTok, st1, a1⟩
  all_goals obtain ⟨b1, e1, hs1⟩ := parseExpect_sim hs h1
  all_goals simp only [h1, e1] at h ⊢
  · simp only [Option.some.injEq, Prod.mk.injEq] at h
    obtain ⟨rfl, rfl, rfl⟩ := h
    exact ⟨b1, rfl, hs1⟩
  · cases h2 : host.c32stombs pathTok.semVal with
    | none =>
      simp only [h2, Option.some.injEq, Prod.mk.injEq] at h ⊢
      obtain ⟨rfl, rfl, rfl⟩ := h
      exact ⟨_, ⟨rfl, rfl, rfl⟩, hs1.heads rfl rfl⟩
    | some mbPath =>
      simp only [h2] at h ⊢
      cases h3 : _confLexInit host mbPath with
      | none =>
        simp only [h3, Option.some.injEq, Prod.mk.injEq] at h ⊢
        obtain ⟨rfl, rfl, rfl⟩ := h
        exact ⟨_, ⟨rfl, rfl, rfl⟩, hs1.heads rfl rfl⟩
      | some lex =>
        simp only [h3] at h ⊢
        have hs3 : Sim pre
            ({ (_confSetFileName (some mbPath) a1) with
                trace := (_confSetFileName (some mbPath) a1).trace ++ [Event.lexInit mbPath] })
            ({ (_confSetFileName (some mbPath) b1) with
                trace := (_confSetFileName (some mbPath) b1).trace ++ [Event.lexInit mbPath] }) :=
          hs1.heads rfl rfl
        generalize ({ (_confSetFileName (some mbPath) a1) with
                trace := (_confSetFileName (some mbPath) a1).trace ++ [Event.lexInit mbPath] }
                  : World) = a3 at h hs3
        generalize ({ (_confSetFileName (some mbPath) b1) with
                trace := (_confSetFileName (some mbPath) b1).trace ++ [Event.lexInit mbPath] }
                  : World) = b3 at hs3 ⊢
        rcases h4 : int1 ⟨lex, none⟩ a3 with _ | ⟨_ | _, a4⟩
        · simp [h4] at h
        · obtain ⟨b4, e4, hs4⟩ := hint _ _ _ _ _ hs3 h4
          simp only [h4, e4, Option.some.injEq, Prod.mk.injEq] at h ⊢
          obtain ⟨rfl, rfl, rfl⟩ := h
          exact ⟨b4, ⟨rfl, rfl, rfl⟩, hs4⟩
        · obtain ⟨b4, e4, hs4⟩ := hint _ _ _ _ _ hs3 h4
          simp only [h4, e4, Option.some.injEq, Prod.mk.injEq] at h ⊢
          obtain ⟨rfl, rfl, rfl⟩ := h
          exact ⟨_, ⟨rfl, rfl, rfl⟩, hs4.heads rfl rfl⟩

theorem parseInternal_next_sim (pre : List ConfBlock_t)
    (loop1 loop2 : parseState_t → _confToken_t → World → Option (Bool × World))
    (hloop : ∀ (st : parseState_t) (tok : _confToken_t) (w1 w2 : World) (r : Bool) (a : World),
      Sim pre w1 w2 → loop1 st tok w1 = some (r, a) →
      ∃ b, loop2 st tok w2 = some (r, b) ∧ Sim pre a b)
    (st : parseState_t) (lt : Option _confToken_t) (w1 w2 : World) (r : Bool) (a : World)
    (hs : Sim pre w1 w2) (h : _parseInternal_next loop1 st lt w1 = some (r, a)) :
    ∃ b, _parseInternal_next loop2 st lt w2 = some (r, b) ∧ Sim pre a b := by
  unfold _parseInternal_next at h ⊢
  rcases h1 : _parseToken st lt w1 with ⟨_ | tok2, st2, a2⟩
  all_goals obtain ⟨b2, e2, hs2⟩ := parseToken_sim hs h1
  all_goals simp only [h1, e2] at h ⊢
  · simp only [Option.some.injEq, Prod.mk.injEq] at h
    obtain ⟨rfl, rfl⟩ := h
    exact ⟨b2, rfl, hs2⟩
  · exact hloop st2 tok2 a2 b2 r a hs2 h

theorem parseInternal_loop_sim (host : Host) (pre : List ConfBlock_t) (n : Nat) :
    ∀ (m : Nat) (st : parseState_t) (tok : _confToken_t) (w1 w2 : World) (r : Bool) (a : World),
      n ≤ m → Sim pre w1 w2 → _parseInternal_loop host n st tok w1 = some (r, a) →
      ∃ b, _parseInternal_loop host m st tok w2 = some (r, b) ∧ Sim pre a b := by
  induction n with
  | zero => intro m st tok w1 w2 r a _ _ h; simp [_parseInternal_loop] at h
  | succ n ih =>
    intro m st tok w1 w2 r a hm hs h
    obtain ⟨m, rfl⟩ : ∃ k, m = k + 1 := ⟨m - 1, by omega⟩
    have hmn : n ≤ m := by omega
    have hnext := parseInternal_next_sim pre (_parseInternal_loop host n)
      (_parseInternal_loop host m) (fun st tok w1 w2 r a hs h => ih m st tok w1 w2 r a hmn hs h)
    have hinc := parseInclude_sim host pre
      (fun newState w0 => _parseInternal_next (_parseInternal_loop host n) newState none w0)
      (fun newState w0 => _parseInternal_next (_parseInternal_loop host m) newState none w0)
      (fun ns v1 v2 r a hv hrun => hnext ns none v1 v2 r a hv hrun)
    rw [_parseInternal_loop] at h ⊢
    by_cases h0 : tok.type = LEX_TOKEN_NONE
    · simp only [h0, if_true, Option.some.injEq, Prod.mk.injEq] at h ⊢
      obtain ⟨rfl, rfl⟩ := h
      exact ⟨_, ⟨rfl, rfl⟩, hs.heads rfl rfl⟩
    · simp only [h0, if_false] at h ⊢
      by_cases h1 : tok.type = LEX_TOKEN_INCLUDE
      · simp only [h1, if_true] at h ⊢
        rcases h2 : _parseInclude host (fun newState w0 =>
            _parseInternal_next (_parseInternal_loop host n) newState none w0)
            st tok w1 with _ | ⟨_ | tok1, st1, a1⟩
        · simp [h2] at h
        all_goals obtain ⟨b1, e1, hs1⟩ := hinc st tok w1 w2 _ _ _ hs h2
        all_goals simp only [h2, e1] at h ⊢
        · simp only [Option.some.injEq, Prod.mk.injEq] at h
          obtain ⟨rfl, rfl⟩ := h
          exact ⟨b1, rfl, hs1⟩
        · exact hnext st1 (some tok1) a1 b1 r a hs1 h
      · simp only [h1, if_false] at h ⊢
        by_cases h2 : tok.type = LEX_TOKEN_ID
        · simp only [h2, if_true] at h ⊢
          rcases h3 : _parseBlock n st tok w1 with _ | ⟨_ | tok1, st1, a1⟩
          · simp [h3] at h
          all_goals obtain ⟨b1, e1, hs1⟩ := parseBlock_sim pre n m st tok w1 w2 _ _ _ hmn hs h3
          all_goals simp only [h3, e1] at h ⊢
          · simp only [Option.some.injEq, Prod.mk.injEq] at h
            obtain ⟨rfl, rfl⟩ := h
            exact ⟨b1, rfl, hs1⟩
          · exact hnext st1 (some tok1) a1 b1 r a hs1 h
        · simp only [h2, if_false, Option.some.injEq, Prod.mk.injEq] at h ⊢
          obtain ⟨rfl, rfl⟩ := h
          exact ⟨_, ⟨rfl, rfl⟩, hs.heads rfl rfl⟩

theorem parseInternal_sim (host : Host) (pre : List ConfBlock_t) (n m : Nat)
    (st : parseState_t) (w1 w2 : World) (r : Bool) (a : World) (hnm : n ≤ m)
    (hs : Sim pre w1 w2) (h : _parseInternal host n st w1 = some (r, a)) :
    ∃ b, _parseInternal host m st w2 = some (r, b) ∧ Sim pre a b :=
  parseInternal_next_sim pre _ _
    (fun st tok w1 w2 r a hs h => parseInternal_loop_sim host pre n m st tok w1 w2 r a hnm hs h)
    st none w1 w2 r a hs h

/-- What a successful `_confParse` of a file says about `_parseInternal`. -/
theorem confParse_some (host : Host) (n : Nat) (f : String) (w0 w0' : World)
    (F : List ConfBlock_t) (h : _confParse host n f w0 = some (some F, w0')) :
    ∃ toks eof, host.files f = some (toks, eof) ∧
      _parseInternal host n ⟨⟨f, toks, eof⟩, none⟩
        ⟨w0.fileName, [], w0.trace ++ [Event.lexInit f]⟩ = some (true, w0') ∧ w0'.head = F := by
  unfold _confParse _confLexInit at h
  cases hf : host.files f with
  | none => simp [hf] at h
  | some p =>
    obtain ⟨toks, eof⟩ := p
    refine ⟨toks, eof, rfl, ?_⟩
    simp only [hf, Option.map_some'] at h
    rcases hi : _parseInternal host n ⟨⟨f, toks, eof⟩, none⟩
      ⟨w0.fileName, [], w0.trace ++ [Event.lexInit f]⟩ with _ | ⟨_ | _, w2⟩
    · simp [hi] at h
    · simp [hi] at h
    · simp only [hi, Option.some.injEq, Prod.mk.injEq] at h
      obtain ⟨h1, h2⟩ := h
      subst h2
      exact ⟨rfl, h1⟩

/-- The include directive at the top level of a file: the blocks `F` of the
included file are appended and the loop goes on behind the path token. -/
theorem next_include (host : Host) (incl str : _confToken_t) (rest : List _confToken_t)
    (k nF : Nat) (file f : String) (eof : Int) (lt lastTok : Option _confToken_t)
    (fn : Option String) (h : List ConfBlock_t) (tr : List Event) (w0 w0' : World)
    (F : List ConfBlock_t) (hi : incl.type = LEX_TOKEN_INCLUDE) (hs : str.type = LEX_TOKEN_STR)
    (hpath : host.c32stombs str.semVal = some f)
    (hF : _confParse host nF f w0 = some (some F, w0')) (hk : nF ≤ k) :
    ∃ tr', _parseInternal_next (_parseInternal_loop host (k + 1))
        ⟨⟨file, incl :: str :: rest, eof⟩, lt⟩ lastTok ⟨fn, h, tr⟩
      = _parseInternal_next (_parseInternal_loop host k) ⟨⟨file, rest, eof⟩, some incl⟩
          (some str) ⟨fn, h ++ F, tr'⟩ := by
  obtain ⟨toks, eofF, hfile, hrun, hhead⟩ := confParse_some host nF f w0 w0' F hF
  have hi' : incl.type ≠ LEX_TOKEN_ERROR := by simp [hi]
  obtain ⟨b, hb, hsim⟩ := parseInternal_sim host h nF k ⟨⟨f, toks, eofF⟩, none⟩
    ⟨w0.fileName, [], w0.trace ++ [Event.lexInit f]⟩
    ⟨some f, h, tr ++ [Event.lex file incl] ++ [Event.lex file str] ++ [Event.lexInit f]⟩
    true w0' hk (by simp [Sim]) hrun
  refine ⟨b.trace, ?_⟩
  have hbh : b.head = h ++ F := by rw [← hhead]; exact hsim
  have hb' : _parseInternal_next (_parseInternal_loop host k) ⟨⟨f, toks, eofF⟩, none⟩ none
      ⟨some f, h, tr ++ [Event.lex file incl] ++ [Event.lex file str] ++ [Event.lexInit f]⟩
      = some (true, b) := hb
  conv_lhs =>
    simp only [_parseInternal_next, parseToken_cons _ _ _ _ _ _ _ hi']
    simp only [_parseInternal_loop, hi, reduceCtorEq, if_false, if_true, _parseInclude,
      parseExpect_cons _ _ _ _ _ _ _ _ hs (by decide), hpath, _confLexInit, hfile,
      Option.map_some', ConfGetFileName, _confSetFileName]
  simp only [List.append_assoc, List.singleton_append] at hb'
  simp only [List.append_assoc, List.singleton_append, hb', ← hbh]

theorem length_le_tokens (bs : List SrcBlock) :
    bs.length ≤ (bs.flatMap SrcBlock.tokens).length := by
  induction bs with
  | nil => simp
  | cons y ys ih =>
    have hy : 1 ≤ y.tokens.length := by simp [SrcBlock.tokens]
    simp only [List.flatMap_cons, List.length_append, List.length_cons]
    omega

/-- The run of `_confParse` on a single file of well-formed blocks, with the
world it leaves. -/
theorem confParse_blocks_exact (host : Host) (file : String) (bs : List SrcBlock) (eof : Int)
    (fuel : Nat) (w : World) (hfile : host.files file = some (bs.flatMap SrcBlock.tokens, eof))
    (hwf : ∀ b ∈ bs, b.WF) (hfuel : (bs.flatMap SrcBlock.tokens).length < fuel) :
    _confParse host fuel file w
      = some (some (bs.map SrcBlock.tree),
          ⟨w.fileName, bs.map SrcBlock.tree,
            w.trace ++ Event.lexInit file :: ((bs.flatMap SrcBlock.tokens).map (Event.lex file)
              ++ [Event.lex file ⟨LEX_TOKEN_NONE, eof, "", 0⟩, Event.lexDestroy file])⟩) := by
  obtain ⟨n, rfl⟩ : ∃ n, fuel = (n + 1) + bs.length := by
    have : bs.length ≤ (bs.flatMap SrcBlock.tokens).length := by
      cases bs with
      | nil => simp
      | cons b bs' =>
        have := tokens_length_le (b :: bs') b (by simp)
        have hb : 1 ≤ b.tokens.length := by simp [SrcBlock.tokens]
        omega
    exact ⟨fuel - bs.length - 1, by omega⟩
  have hlen : ∀ b ∈ bs, b.tokens.length ≤ n + 1 := by
    intro b hb
    have := tokens_length_le bs b hb
    omega
  obtain ⟨lt1, lastTok1, hrun⟩ := next_blocks host bs [] (n + 1) file eof none none
    w.fileName [] (w.trace ++ [Event.lexInit file]) hwf hlen
  simp only [List.append_nil] at hrun
  simp only [_confParse, _confLexInit, hfile, Option.map_some', _parseInternal, hrun,
    next_end]
  simp

theorem diag_lex (file : String) (toks : List _confToken_t) :
    (toks.map (Event.lex file)).filterMap Event.diag = [] := by
  induction toks with
  | nil => rfl
  | cons t ts ih => simp [Event.diag]

theorem diag_comp_lex (file : String) (toks : List _confToken_t) :
    toks.filterMap (Event.diag ∘ Event.lex file) = [] := by
  induction toks with
  | nil => rfl
  | cons t ts ih => simp [Event.diag]

theorem Quiet.ended {es : List Event} (h : Quiet es) : Ended es :=
  ⟨es, [], by simp, h, by simp, by simp⟩

theorem Quiet.append {a b : List Event} (ha : Quiet a) (hb : Quiet b) : Quiet (a ++ b) := by
  intro e he
  rcases List.mem_append.mp he with h | h
  · exact ha e h
  · exact hb e h

theorem Ended.prepend {a b : List Event} (ha : Quiet a) (hb : Ended b) : Ended (a ++ b) := by
  obtain ⟨qs, t, rfl, hq, hl, ht⟩ := hb
  exact ⟨a ++ qs, t, by simp, ha.append hq, hl, ht⟩

theorem Good.same {w a : World} (h : a.trace = w.trace) : Good true w a :=
  ⟨[], by simp [h], by simp [Quiet]⟩

theorem Good.step {ok : Bool} {w a b : World} (h1 : Good true w a) (h2 : Good ok a b) :
    Good ok w b := by
  obtain ⟨e1, t1, q1⟩ := h1
  obtain ⟨e2, t2, q2⟩ := h2
  refine ⟨e1 ++ e2, by rw [t2, t1, List.append_assoc], ?_⟩
  simp only [if_true] at q1
  cases ok
  · simp only [Bool.false_eq_true, if_false] at q2 ⊢
    exact q2.prepend q1
  · simp only [if_true] at q2 ⊢
    exact q1.append q2

theorem Good.trace {ok : Bool} {w a b : World} (h1 : Good ok w a) (h : b.trace = a.trace) :
    Good ok w b := by
  obtain ⟨e1, t1, q1⟩ := h1
  exact ⟨e1, by rw [h, t1], q1⟩

theorem Good.weaken {w a : World} (h : Good true w a) : Good false w a := by
  obtain ⟨e1, t1, q1⟩ := h
  exact ⟨e1, t1, by simpa using Quiet.ended (by simpa using q1)⟩

theorem good_error (st : parseState_t) (tok : _confToken_t) (err : Nat) (ex : Extra)
    (w : World) : Good false w (_parseError st tok err ex w) :=
  ⟨[Event.error ⟨ConfGetFileName w, tok.line, _⟩], rfl,
    by simpa using ⟨[], [_], rfl, by simp [Quiet], by simp, by simp [Event.quiet]⟩⟩

theorem good_parseToken {st s : parseState_t} {lt x : Option _confToken_t} {w a : World}
    (h : _parseToken st lt w = (x, s, a)) : Good x.isSome w a := by
  unfold _parseToken at h
  by_cases hc : (_confLex st.lex).1.type = LEX_TOKEN_ERROR
  · simp only [hc, if_true, Prod.mk.injEq] at h
    obtain ⟨rfl, rfl, rfl⟩ := h
    exact ⟨[_], rfl, by simpa using ⟨[], [_], rfl, by simp [Quiet], by simp,
      by simp [Event.quiet, hc]⟩⟩
  · simp only [hc, if_false, Prod.mk.injEq] at h
    obtain ⟨rfl, rfl, rfl⟩ := h
    exact ⟨[_], rfl, by simp [Quiet, Event.quiet, hc]⟩

theorem good_parseExpect {st s : parseState_t} {lt x : Option _confToken_t} {ty : TokType}
    {w a : World} (h : _parseExpect st lt ty w = (x, s, a)) : Good x.isSome w a := by
  unfold _parseExpect at h
  rcases h1 : _parseToken st lt w with ⟨_ | tok, s1, a1⟩
  all_goals have g1 := good_parseToken h1
  all_goals simp only [h1] at h
  · simp only [Prod.mk.injEq] at h
    obtain ⟨rfl, rfl, rfl⟩ := h
    exact g1
  · by_cases hc : tok.type = ty
    · simp only [hc, ne_eq, not_true_eq_false, if_false, Prod.mk.injEq] at h
      obtain ⟨rfl, rfl, rfl⟩ := h
      exact g1
    · simp only [ne_eq, hc, not_false_eq_true, if_true, Prod.mk.injEq] at h
      obtain ⟨rfl, rfl, rfl⟩ := h
      exact g1.step (good_error _ _ _ _ _)

theorem good_parseBlock_value {st : parseState_t} {tok : _confToken_t} {x : Bool} {w a : World}
    (h : _parseBlock_value st tok w = (x, a)) : Good x w a := by
  unfold _parseBlock_value at h
  simp only [] at h
  split_ifs at h
  all_goals simp only [Prod.mk.injEq] at h
  all_goals obtain ⟨rfl, rfl⟩ := h
  all_goals first
    | exact Good.same rfl
    | exact (Good.same (a := World.updProp _ w) rfl).step (good_error _ _ _ _ _)
    | exact (Good.same (a := World.updProp _ (World.updProp _ w)) rfl).step (good_error _ _ _ _ _)
    | exact good_error _ _ _ _ _

theorem good_parseBlock_values (n : Nat) :
    ∀ (st : parseState_t) (tok : _confToken_t) (w : World) (x : Option _confToken_t)
      (s : parseState_t) (a : World),
      _parseBlock_values n st tok w = some (x, s, a) → Good x.isSome w a := by
  induction n with
  | zero => intro st tok w x s a h; simp [_parseBlock_values] at h
  | succ n ih =>
    intro st tok w x s a h
    rw [_parseBlock_values] at h
    rcases h1 : _parseToken st (some tok) w with ⟨_ | tok1, st1, a1⟩
    all_goals have g1 := good_parseToken h1
    all_goals simp only [h1] at h
    · simp only [Option.some.injEq, Prod.mk.injEq] at h
      obtain ⟨rfl, rfl, rfl⟩ := h
      exact g1
    · rcases h2 : _parseBlock_value st1 tok1 a1 with ⟨_ | _, a2⟩
      all_goals have g2 := g1.step (good_parseBlock_value h2)
      all_goals simp only [h2] at h
      · simp only [Option.some.injEq, Prod.mk.injEq] at h
        obtain ⟨rfl, rfl, rfl⟩ := h
        exact g2
      · rcases h3 : _parseToken st1 (some tok1) a2 with ⟨_ | tok2, st2, a3⟩
        all_goals have g3 := g2.step (good_parseToken h3)
        all_goals simp only [h3] at h
        · simp only [Option.some.injEq, Prod.mk.injEq] at h
          obtain ⟨rfl, rfl, rfl⟩ := h
          exact g3
        · by_cases h4 : tok2.type = LEX_TOKEN_COMMA
          · simp only [h4, if_true] at h
            exact g3.step (ih _ _ _ _ _ _ h)
          · simp only [h4, if_false] at h
            by_cases h5 : tok2.type = LEX_TOKEN_SEMICOLON
            · simp only [h5, if_true, Option.some.injEq, Prod.mk.injEq] at h
              obtain ⟨rfl, rfl, rfl⟩ := h
              exact g3
            · simp only [h5, if_false, Option.some.injEq, Prod.mk.injEq] at h
              obtain ⟨rfl, rfl, rfl⟩ := h
              exact g3.step (good_error _ _ _ _ _)

theorem good_parseBlock_props (n : Nat) :
    ∀ (st : parseState_t) (tok : _confToken_t) (w : World) (x : Option _confToken_t)
      (s : parseState_t) (a : World),
      _parseBlock_props n st tok w = some (x, s, a) → Good x.isSome w a := by
  induction n with
  | zero => intro st tok w x s a h; simp [_parseBlock_props] at h
  | succ n ih =>
    intro st tok w x s a h
    rw [_parseBlock_props] at h
    rcases h1 : _parseToken st (some tok) w with ⟨_ | tok1, st1, a1⟩
    all_goals have g1 := good_parseToken h1
    all_goals simp only [h1] at h
    · simp only [Option.some.injEq, Prod.mk.injEq] at h
      obtain ⟨rfl, rfl, rfl⟩ := h
      exact g1
    · by_cases h2 : tok1.type = LEX_TOKEN_EBRACE
      · simp only [h2, if_true, Option.some.injEq, Prod.mk.injEq] at h
        obtain ⟨rfl, rfl, rfl⟩ := h
        exact g1
      · simp only [h2, if_false] at h
        by_cases h3 : tok1.type = LEX_TOKEN_ID
        · simp only [h3, if_true] at h
          have g4 : Good true w (World.updProp
              (fun p => { p with name := (c32lcpy tok1.semVal BLOCK_BUFSZ).1 })
              (World.updProp (fun p => { p with lineNo := tok1.line })
                (World.updBlock (fun b => { b with props := b.props ++
                  [⟨0, "", List.replicate MAX_PROPVAR none, 0⟩] }) a1))) := g1.trace rfl
          by_cases h4 : (c32lcpy tok1.semVal BLOCK_BUFSZ).2 ≥ BLOCK_BUFSZ
          · simp only [h4, if_true, Option.some.injEq, Prod.mk.injEq] at h
            obtain ⟨rfl, rfl, rfl⟩ := h
            exact g4.step (good_error _ _ _ _ _)
          · simp only [h4, if_false] at h
            have g5 : Good true w (World.updProp (fun p => { p with nextVal := 0 })
                (World.updProp (fun p => { p with name := (c32lcpy tok1.semVal BLOCK_BUFSZ).1 })
                  (World.updProp (fun p => { p with lineNo := tok1.line })
                    (World.updBlock (fun b => { b with props := b.props ++
                      [⟨0, "", List.replicate MAX_PROPVAR none, 0⟩] }) a1)))) := g1.trace rfl
            generalize World.updProp _ (World.updProp _ (World.updProp _ (World.updBlock _ a1)))
              = a5 at h g5
            rcases h5 : _parseExpect st1 (some tok1) LEX_TOKEN_COLON a5 with ⟨_ | tok2, st2, a6⟩
            all_goals have g6 := g5.step (good_parseExpect h5)
            all_goals simp only [h5] at h
            · simp only [Option.some.injEq, Prod.mk.injEq] at h
              obtain ⟨rfl, rfl, rfl⟩ := h
              exact g6
            · rcases h6 : _parseBlock_values n st2 tok2 a6 with _ | ⟨_ | tok3, st3, a7⟩
              · simp [h6] at h
              all_goals have g7 := g6.step (good_parseBlock_values n _ _ _ _ _ _ h6)
              all_goals simp only [h6] at h
              · simp only [Option.some.injEq, Prod.mk.injEq] at h
                obtain ⟨rfl, rfl, rfl⟩ := h
                exact g7
              · exact g7.step (ih _ _ _ _ _ _ h)
        · simp only [h3, if_false] at h
          exact g1.step (ih _ _ _ _ _ _ h)

theorem good_parseBlock (n : Nat) (st : parseState_t) (tok : _confToken_t) (w : World)
    (x : Option _confToken_t) (s : parseState_t) (a : World)
    (h : _parseBlock n st tok w = some (x, s, a)) : Good x.isSome w a := by
  unfold _parseBlock at h
  simp only [] at h
  have g4 : Good true w (World.updBlock
      (fun b => { b with blockType := (c32lcpy tok.semVal 256).1 })
      (World.updBlock (fun b => { b with props := [] })
        (World.updBlock (fun b => { b with lineNo := tok.line })
          { w with head := w.head ++ [⟨0, "", "", []⟩] }))) := Good.same rfl
  generalize World.updBlock _ (World.updBlock _ (World.updBlock _ _)) = a4 at h g4
  by_cases h0 : (c32lcpy tok.semVal 256).2 ≥ 256
  · simp only [h0, if_true, Option.some.injEq, Prod.mk.injEq] at h
    obtain ⟨rfl, rfl, rfl⟩ := h
    exact g4.step (good_error _ _ _ _ _)
  · simp only [h0, if_false] at h
    rcases h1 : _parseToken st (some tok) a4 with ⟨_ | tok1, st1, a5⟩
    all_goals have g5 := g4.step (good_parseToken h1)
    all_goals simp only [h1] at h
    · simp only [Option.some.injEq, Prod.mk.injEq] at h
      obtain ⟨rfl, rfl, rfl⟩ := h
      exact g5
    · by_cases h2 : tok1.type = LEX_TOKEN_ID
      · simp only [h2, if_true] at h
        have g6 := g5.trace
          (b := World.updBlock (fun b => { b with blockName := (c32lcpy tok1.semVal BLOCK_BUFSZ).1 }) a5)
          rfl
        by_cases h3 : (c32lcpy tok1.semVal BLOCK_BUFSZ).2 ≥ BLOCK_BUFSZ
        · simp only [h3, if_true, Option.some.injEq, Prod.mk.injEq] at h
          obtain ⟨rfl, rfl, rfl⟩ := h
          exact g6.step (good_error _ _ _ _ _)
        · simp only [h3, if_false] at h
          generalize World.updBlock _ a5 = a6 at h g6
          rcases h4 : _parseExpect st1 (some tok1) LEX_TOKEN_OBRACE a6 with ⟨_ | tok2, st2, a7⟩
          all_goals have g7 := g6.step (good_parseExpect h4)
          all_goals simp only [h4] at h
          · simp only [Option.some.injEq, Prod.mk.injEq] at h
            obtain ⟨rfl, rfl, rfl⟩ := h
            exact g7
          · exact g7.step (good_parseBlock_props n _ _ _ _ _ _ h)
      · simp only [h2, if_false] at h
        by_cases h3 : tok1.type = LEX_TOKEN_OBRACE
        · simp only [h3, if_true] at h
          have g6 := g5.trace (b := World.updBlock (fun b => { b with blockName := "" }) a5) rfl
          exact g6.step (good_parseBlock_props n _ _ _ _ _ _ h)
        · simp only [h3, if_false, Option.some.injEq, Prod.mk.injEq] at h
          obtain ⟨rfl, rfl, rfl⟩ := h
          exact g5.step (good_error _ _ _ _ _)

theorem good_parseInclude (host : Host) (internal : parseState_t → World → Option (Bool × World))
    (hint : ∀ (ns : parseState_t) (w : World) (r : Bool) (a : World),
      internal ns w = some (r, a) → Good r w a)
    (st : parseState_t) (tok : _confToken_t) (w : World) (x : Option _confToken_t)
    (s : parseState_t) (a : World) (h : _parseInclude host internal st tok w = some (x, s, a)) :
    Good x.isSome w a := by
  unfold _parseInclude at h
  rcases h1 : _parseExpect st (some tok) LEX_TOKEN_STR w with ⟨_ | pathTok, st1, a1⟩
  all_goals have g1 := good_parseExpect h1
  all_goals simp only [h1] at h
  · simp only [Option.some.injEq, Prod.mk.injEq] at h
    obtain ⟨rfl, rfl, rfl⟩ := h
    exact g1
  · cases h2 : host.c32stombs pathTok.semVal with
    | none =>
      simp only [h2, Option.some.injEq, Prod.mk.injEq] at h
      obtain ⟨rfl, rfl, rfl⟩ := h
      exact g1.step (good_error _ _ _ _ _)
    | some mbPath =>
      simp only [h2] at h
      cases h3 : _confLexInit host mbPath with
      | none =>
        simp only [h3, Option.some.injEq, Prod.mk.injEq] at h
        obtain ⟨rfl, rfl, rfl⟩ := h
        exact (g1.trace (b := _confSetFileName (some mbPath) a1) rfl).weaken
      | some lex =>
        simp only [h3] at h
        have g3 : Good true w ({ (_confSetFileName (some mbPath) a1) with
            trace := (_confSetFileName (some mbPath) a1).trace ++ [Event.lexInit mbPath] }) :=
          g1.step ⟨[Event.lexInit mbPath], rfl, by simp [Quiet, Event.quiet]⟩
        generalize ({ (_confSetFileName (some mbPath) a1) with
            trace := (_confSetFileName (some mbPath) a1).trace ++ [Event.lexInit mbPath] }
              : World) = a3 at h g3
        rcases h4 : internal ⟨lex, none⟩ a3 with _ | ⟨_ | _, a4⟩
        · simp [h4] at h
        all_goals have g4 := g3.step (hint _ _ _ _ h4)
        all_goals simp only [h4, Option.some.injEq, Prod.mk.injEq] at h
        all_goals obtain ⟨rfl, rfl, rfl⟩ := h
        · exact g4
        · exact g4.trace rfl

theorem good_parseInternal_next
    (loop : parseState_t → _confToken_t → World → Option (Bool × World))
    (hloop : ∀ (st : parseState_t) (tok : _confToken_t) (w : World) (r : Bool) (a : World),
      loop st tok w = some (r, a) → Good r w a)
    (st : parseState_t) (lt : Option _confToken_t) (w : World) (r : Bool) (a : World)
    (h : _parseInternal_next loop st lt w = some (r, a)) : Good r w a := by
  unfold _parseInternal_next at h
  rcases h1 : _parseToken st lt w with ⟨_ | tok2, st2, a2⟩
  all_goals have g1 := good_parseToken h1
  all_goals simp only [h1] at h
  · simp only [Option.some.injEq, Prod.mk.injEq] at h
    obtain ⟨rfl, rfl⟩ := h
    exact g1
  · exact g1.step (hloop _ _ _ _ _ h)

theorem good_parseInternal_loop (host : Host) (n : Nat) :
    ∀ (st : parseState_t) (tok : _confToken_t) (w : World) (r : Bool) (a : World),
      _parseInternal_loop host n st tok w = some (r, a) → Good r w a := by
  induction n with
  | zero => intro st tok w r a h; simp [_parseInternal_loop] at h
  | succ n ih =>
    intro st tok w r a h
    have hnext := good_parseInternal_next (_parseInternal_loop host n) ih
    have hinc := good_parseInclude host
      (fun newState w0 => _parseInternal_next (_parseInternal_loop host n) newState none w0)
      (fun ns v r a hrun => hnext ns none v r a hrun)
    rw [_parseInternal_loop] at h
    by_cases h0 : tok.type = LEX_TOKEN_NONE
    · simp only [h0, if_true, Option.some.injEq, Prod.mk.injEq] at h
      obtain ⟨rfl, rfl⟩ := h
      exact ⟨[_], rfl, by simp [Quiet, Event.quiet]⟩
    · simp only [h0, if_false] at h
      by_cases h1 : tok.type = LEX_TOKEN_INCLUDE
      · simp only [h1, if_true] at h
        rcases h2 : _parseInclude host (fun newState w0 =>
            _parseInternal_next (_parseInternal_loop host n) newState none w0)
            st tok w with _ | ⟨_ | tok1, st1, a1⟩
        · simp [h2] at h
        all_goals have g1 := hinc st tok w _ _ _ h2
        all_goals simp only [h2] at h
        · simp only [Option.some.injEq, Prod.mk.injEq] at h
          obtain ⟨rfl, rfl⟩ := h
          exact g1
        · exact g1.step (hnext _ _ _ _ _ h)
      · simp only [h1, if_false] at h
        by_cases h2 : tok.type = LEX_TOKEN_ID
        · simp only [h2, if_true] at h
          rcases h3 : _parseBlock n st tok w with _ | ⟨_ | tok1, st1, a1⟩
          · simp [h3] at h
          all_goals have g1 := good_parseBlock n st tok w _ _ _ h3
          all_goals simp only [h3] at h
          · simp only [Option.some.injEq, Prod.mk.injEq] at h
            obtain ⟨rfl, rfl⟩ := h
            exact g1
          · exact g1.step (hnext _ _ _ _ _ h)
        · simp only [h2, if_false, Option.some.injEq, Prod.mk.injEq] at h
          obtain ⟨rfl, rfl⟩ := h
          exact good_error _ _ _ _ _

theorem good_parseInternal (host : Host) (n : Nat) (st : parseState_t) (w : World) (r : Bool)
    (a : World) (h : _parseInternal host n st w = some (r, a)) : Good r w a :=
  good_parseInternal_next _ (good_parseInternal_loop host n) st none w r a h

theorem good_confParse (host : Host) (n : Nat) (file : String) (w : World)
    (t : Option (List ConfBlock_t)) (a : World) (h : _confParse host n file w = some (t, a)) :
    Good t.isSome w a := by
  unfold _confParse at h
  cases h1 : _confLexInit host file with
  | none =>
    simp only [h1, Option.some.injEq, Prod.mk.injEq] at h
    obtain ⟨rfl, rfl⟩ := h
    exact (Good.same rfl).weaken
  | some lexState =>
    simp only [h1] at h
    have g1 : Good true w { w with trace := w.trace ++ [Event.lexInit file], head := [] } :=
      ⟨[Event.lexInit file], rfl, by simp [Quiet, Event.quiet]⟩
    rcases h2 : _parseInternal host n ⟨lexState, none⟩
      { w with trace := w.trace ++ [Event.lexInit file], head := [] } with _ | ⟨_ | _, a2⟩
    · simp [h2] at h
    all_goals have g2 := g1.step (good_parseInternal host n _ _ _ _ h2)
    all_goals simp only [h2, Option.some.injEq, Prod.mk.injEq] at h
    all_goals obtain ⟨rfl, rfl⟩ := h
    · exact g2.trace rfl
    · exact g2

theorem BInv.refl (w : World) : BInv w w :=
  ⟨rfl, rfl, rfl, [], by simp, by simp⟩

theorem BInv.trans {w a b : World} (h1 : BInv w a) (h2 : BInv a b) : BInv w b := by
  obtain ⟨f1, l1, d1, e1, t1, n1⟩ := h1
  obtain ⟨f2, l2, d2, e2, t2, n2⟩ := h2
  refine ⟨f2.trans f1, l2.trans l1, d2.trans d1, e1 ++ e2, by rw [t2, t1, List.append_assoc], ?_⟩
  intro e he
  rcases List.mem_append.mp he with h | h
  · exact n1 e h
  · exact n2 e h

theorem updLast_length {α : Type} (f : α → α) : ∀ l : List α, (updLast f l).length = l.length
  | [] => rfl
  | [_] => rfl
  | a :: b :: l => by simp [updLast, updLast_length f (b :: l)]

theorem updLast_dropLast {α : Type} (f : α → α) :
    ∀ l : List α, (updLast f l).dropLast = l.dropLast
  | [] => rfl
  | [_] => rfl
  | a :: b :: l => by
    have ih := updLast_dropLast f (b :: l)
    cases h : updLast f (b :: l) with
    | nil =>
      have := updLast_length f (b :: l)
      simp [h] at this
    | cons c m =>
      rw [updLast, h, List.dropLast_cons₂, ← h, ih]
      simp

theorem BInv.ofUpdBlock (w : World) (f : ConfBlock_t → ConfBlock_t) : BInv w (w.updBlock f) :=
  ⟨rfl, updLast_length _ _, updLast_dropLast _ _, [], by simp [World.updBlock], by simp⟩

theorem BInv.ofUpdProp (w : World) (f : ConfProperty_t → ConfProperty_t) :
    BInv w (w.updProp f) := BInv.ofUpdBlock w _

theorem BInv.ofError (st : parseState_t) (tok : _confToken_t) (err : Nat) (ex : Extra)
    (w : World) : BInv w (_parseError st tok err ex w) :=
  ⟨rfl, rfl, rfl, [_], rfl, by simp⟩

theorem binv_parseToken {st s : parseState_t} {lt x : Option _confToken_t} {w a : World}
    (h : _parseToken st lt w = (x, s, a)) : BInv w a := by
  unfold _parseToken at h
  simp only [] at h
  split_ifs at h
  all_goals simp only [Prod.mk.injEq] at h
  all_goals obtain ⟨rfl, rfl, rfl⟩ := h
  all_goals exact ⟨rfl, rfl, rfl, [_], rfl, by simp⟩

theorem binv_parseExpect {st s : parseState_t} {lt x : Option _confToken_t} {ty : TokType}
    {w a : World} (h : _parseExpect st lt ty w = (x, s, a)) : BInv w a := by
  unfold _parseExpect at h
  rcases h1 : _parseToken st lt w with ⟨_ | tok, s1, a1⟩
  all_goals have g1 := binv_parseToken h1
  all_goals simp only [h1] at h
  · simp only [Prod.mk.injEq] at h
    obtain ⟨rfl, rfl, rfl⟩ := h
    exact g1
  · split_ifs at h
    all_goals simp only [Prod.mk.injEq] at h
    all_goals obtain ⟨rfl, rfl, rfl⟩ := h
    · exact g1.trans (BInv.ofError _ _ _ _ _)
    · exact g1

theorem binv_parseBlock_value {st : parseState_t} {tok : _confToken_t} {x : Bool} {w a : World}
    (h : _parseBlock_value st tok w = (x, a)) : BInv w a := by
  unfold _parseBlock_value at h
  simp only [] at h
  split_ifs at h
  all_goals simp only [Prod.mk.injEq] at h
  all_goals obtain ⟨rfl, rfl⟩ := h
  all_goals first
    | exact (BInv.ofUpdProp _ _).trans (BInv.ofUpdProp _ _)
    | exact (BInv.ofUpdProp _ _).trans (BInv.ofError _ _ _ _ _)
    | exact ((BInv.ofUpdProp _ _).trans (BInv.ofUpdProp _ _)).trans (BInv.ofError _ _ _ _ _)
    | exact BInv.ofError _ _ _ _ _

theorem binv_parseBlock_values (n : Nat) :
    ∀ (st : parseState_t) (tok : _confToken_t) (w : World) (x : Option _confToken_t)
      (s : parseState_t) (a : World),
      _parseBlock_values n st tok w = some (x, s, a) → BInv w a := by
  induction n with
  | zero => intro st tok w x s a h; simp [_parseBlock_values] at h
  | succ n ih =>
    intro st tok w x s a h
    rw [_parseBlock_values] at h
    rcases h1 : _parseToken st (some tok) w with ⟨_ | tok1, st1, a1⟩
    all_goals have g1 := binv_parseToken h1
    all_goals simp only [h1] at h
    · simp only [Option.some.injEq, Prod.mk.injEq] at h
      obtain ⟨rfl, rfl, rfl⟩ := h
      exact g1
    · rcases h2 : _parseBlock_value st1 tok1 a1 with ⟨_ | _, a2⟩
      all_goals have g2 := g1.trans (binv_parseBlock_value h2)
      all_goals simp only [h2] at h
      · simp only [Option.some.injEq, Prod.mk.injEq] at h
        obtain ⟨rfl, rfl, rfl⟩ := h
        exact g2
      · rcases h3 : _parseToken st1 (some tok1) a2 with ⟨_ | tok2, st2, a3⟩
        all_goals have g3 := g2.trans (binv_parseToken h3)
        all_goals simp only [h3] at h
        · simp only [Option.some.injEq, Prod.mk.injEq] at h
          obtain ⟨rfl, rfl, rfl⟩ := h
          exact g3
        · split_ifs at h
          · exact g3.trans (ih _ _ _ _ _ _ h)
          all_goals simp only [Option.some.injEq, Prod.mk.injEq] at h
          all_goals obtain ⟨rfl, rfl, rfl⟩ := h
          · exact g3
          · exact g3.trans (BInv.ofError _ _ _ _ _)

theorem binv_parseBlock_props (n : Nat) :
    ∀ (st : parseState_t) (tok : _confToken_t) (w : World) (x : Option _confToken_t)
      (s : parseState_t) (a : World),
      _parseBlock_props n st tok w = some (x, s, a) → BInv w a := by
  induction n with
  | zero => intro st tok w x s a h; simp [_parseBlock_props] at h
  | succ n ih =>
    intro st tok w x s a h
    rw [_parseBlock_props] at h
    rcases h1 : _parseToken st (some tok) w with ⟨_ | tok1, st1, a1⟩
    all_goals have g1 := binv_parseToken h1
    all_goals simp only [h1] at h
    · simp only [Option.some.injEq, Prod.mk.injEq] at h
      obtain ⟨rfl, rfl, rfl⟩ := h
      exact g1
    · by_cases h2 : tok1.type = LEX_TOKEN_EBRACE
      · simp only [h2, if_true, Option.some.injEq, Prod.mk.injEq] at h
        obtain ⟨rfl, rfl, rfl⟩ := h
        exact g1
      · simp only [h2, if_false] at h
        by_cases h3 : tok1.type = LEX_TOKEN_ID
        · simp only [h3, if_true] at h
          have g4 : BInv w (World.updProp
              (fun p => { p with name := (c32lcpy tok1.semVal BLOCK_BUFSZ).1 })
              (World.updProp (fun p => { p with lineNo := tok1.line })
                (World.updBlock (fun b => { b with props := b.props ++
                  [⟨0, "", List.replicate MAX_PROPVAR none, 0⟩] }) a1))) :=
            ((g1.trans (BInv.ofUpdBlock _ _)).trans (BInv.ofUpdProp _ _)).trans (BInv.ofUpdProp _ _)
          by_cases h4 : (c32lcpy tok1.semVal BLOCK_BUFSZ).2 ≥ BLOCK_BUFSZ
          · simp only [h4, if_true, Option.some.injEq, Prod.mk.injEq] at h
            obtain ⟨rfl, rfl, rfl⟩ := h
            exact g4.trans (BInv.ofError _ _ _ _ _)
          · simp only [h4, if_false] at h
            have g5 := g4.trans (BInv.ofUpdProp _ (fun p => { p with nextVal := 0 }))
            generalize World.updProp _ (World.updProp _ (World.updProp _ (World.updBlock _ a1)))
              = a5 at h g5
            rcases h5 : _parseExpect st1 (some tok1) LEX_TOKEN_COLON a5 with ⟨_ | tok2, st2, a6⟩
            all_goals have g6 := g5.trans (binv_parseExpect h5)
            all_goals simp only [h5] at h
            · simp only [Option.some.injEq, Prod.mk.injEq] at h
              obtain ⟨rfl, rfl, rfl⟩ := h
              exact g6
            · rcases h6 : _parseBlock_values n st2 tok2 a6 with _ | ⟨_ | tok3, st3, a7⟩
              · simp [h6] at h
              all_goals have g7 := g6.trans (binv_parseBlock_values n _ _ _ _ _ _ h6)
              all_goals simp only [h6] at h
              · simp only [Option.some.injEq, Prod.mk.injEq] at h
                obtain ⟨rfl, rfl, rfl⟩ := h
                exact g7
              · exact g7.trans (ih _ _ _ _ _ _ h)
        · simp only [h3, if_false] at h
          exact g1.trans (ih _ _ _ _ _ _ h)

theorem BInv.addsOne {w a : World} (b0 : ConfBlock_t)
    (h : BInv { w with head := w.head ++ [b0] } a) : AddsOneBlock w a := by
  obtain ⟨f1, l1, d1, e1, t1, n1⟩ := h
  refine ⟨?_, f1, e1, t1, n1⟩
  have hne : a.head ≠ [] := by
    intro h0
    rw [h0] at l1
    simp at l1
  refine ⟨a.head.getLast hne, ?_⟩
  have := List.dropLast_append_getLast hne
  rw [d1] at this
  simpa using this.symm

@[simp] theorem updBlock_trace (f : ConfBlock_t → ConfBlock_t) (w : World) :
    (w.updBlock f).trace = w.trace := rfl

@[simp] theorem updBlock_fileName (f : ConfBlock_t → ConfBlock_t) (w : World) :
    (w.updBlock f).fileName = w.fileName := rfl

@[simp] theorem updProp_trace (f : ConfProperty_t → ConfProperty_t) (w : World) :
    (w.updProp f).trace = w.trace := rfl

@[simp] theorem updProp_fileName (f : ConfProperty_t → ConfProperty_t) (w : World) :
    (w.updProp f).fileName = w.fileName := rfl

/-- The property loop at a property name that is not followed by `:`. -/
theorem parseBlock_props_no_colon (n : Nat) (file : String) (p t : _confToken_t)
    (rest : List _confToken_t) (eof : Int) (lt : Option _confToken_t) (tok : _confToken_t)
    (w : World) (hp : p.type = LEX_TOKEN_ID) (hpl : p.semVal.length < BLOCK_BUFSZ)
    (ht : t.type ≠ LEX_TOKEN_COLON) (hte : t.type ≠ LEX_TOKEN_ERROR) :
    ∃ a, _parseBlock_props (n + 1) ⟨⟨file, p :: t :: rest, eof⟩, lt⟩ tok w
        = some (none, ⟨⟨file, rest, eof⟩, some p⟩, a) ∧
      a.trace = w.trace ++ [Event.lex file p, Event.lex file t,
        Event.error ⟨ConfGetFileName w, t.line,
          Detail.unexpected t (some p) (some LEX_TOKEN_COLON)⟩] ∧
      ConfGetFileName a = ConfGetFileName w := by
  have hp' : p.type ≠ LEX_TOKEN_ERROR := by simp [hp]
  simp only [_parseBlock_props, parseToken_cons _ _ _ _ _ _ _ hp', hp, reduceCtorEq,
    if_true, if_false, c32lcpy_fits _ _ hpl, ge_iff_le, Nat.not_le.mpr hpl, _parseExpect,
    parseToken_cons _ _ _ _ _ _ _ hte, ne_eq, ht, not_false_eq_true]
  exact ⟨_, rfl, by simp [_parseError, ConfGetFileName, PARSE_ERROR_UNEXPECTED_TOKEN], rfl⟩

/-- The property loop on well-formed properties: it goes round once for each
and is then in front of the tokens that follow. -/
theorem parseBlock_props_reach (props : List SrcProp) :
    ∀ (rest : List _confToken_t) (n : Nat) (file : String)
      (eof : Int) (lt : Option _confToken_t) (tok : _confToken_t) (fn : Option String)
      (h : List ConfBlock_t) (bl : Int) (bt bn : String) (ps : List ConfProperty_t)
      (tr : List Event),
      (∀ p ∈ props, p.WF) → (∀ p ∈ props, p.more.length < n) →
      ∃ lt1 tok1,
      _parseBlock_props (n + props.length)
          ⟨⟨file, props.flatMap SrcProp.tokens ++ rest, eof⟩, lt⟩ tok
          ⟨fn, h ++ [⟨bl, bt, bn, ps⟩], tr⟩
        = _parseBlock_props n ⟨⟨file, rest, eof⟩, lt1⟩ tok1
            ⟨fn, h ++ [⟨bl, bt, bn, ps ++ props.map SrcProp.tree⟩],
              tr ++ (props.flatMap SrcProp.tokens).map (Event.lex file)⟩ := by
  induction props with
  | nil =>
    intro rest n file eof lt tok fn h bl bt bn ps tr _ _
    exact ⟨lt, tok, by simp⟩
  | cons p props ih =>
    intro rest n file eof lt tok fn h bl bt bn ps tr hwf hfuel
    obtain ⟨hn, hnl, hc, hm, hl, hs, hcount⟩ := hwf p (by simp)
    have hn' : p.name.type ≠ LEX_TOKEN_ERROR := by simp [hn]
    have hwf' : ∀ q ∈ props, q.WF := fun q hq => hwf q (by simp [hq])
    have hlen : (p :: props).flatMap SrcProp.tokens
        = p.name :: p.colon :: (sepTokens p.more ++ p.last :: p.semi ::
            props.flatMap SrcProp.tokens) := by
      simp [SrcProp.tokens]
    simp only [SrcProp.values, List.length_append, List.length_map, List.length_singleton]
      at hcount
    obtain ⟨lt1, tok1, hrec⟩ := ih rest n file eof (some p.last) p.semi fn h bl bt bn
      (ps ++ [p.tree])
      (tr ++ [Event.lex file p.name] ++ [Event.lex file p.colon]
        ++ (sepTokens p.more ++ [p.last, p.semi]).map (Event.lex file)) hwf'
      (fun q hq => hfuel q (by simp [hq]))
    refine ⟨lt1, tok1, ?_⟩
    have hp := hfuel p (by simp)
    rw [hlen, List.length_cons, ← Nat.add_assoc]
    simp only [List.cons_append, List.append_assoc]
    simp only [_parseBlock_props, parseToken_cons _ _ _ _ _ _ _ hn', hn, reduceCtorEq,
      if_true, if_false, updBlock_mk, updProp_mk, c32lcpy_fits _ _ hnl, ge_iff_le,
      Nat.not_le.mpr hnl, parseExpect_cons _ _ _ _ _ _ _ _ hc (by decide)]
    rw [parseBlock_values_new p.more p.last p.semi _ (n + props.length) file eof _ _ fn h bl bt
      bn ps _ _ _ hm hl hs hcount (by omega)]
    simp only []
    have e1 : ps ++ [p.tree] = ps ++ [⟨p.name.line, p.name.semVal,
        slots (List.map (fun vc => valueOf vc.1) p.more ++ [valueOf p.last]),
        p.more.length + 1⟩] := by
      simp [SrcProp.tree, SrcProp.values, Function.comp_def]
    rw [e1] at hrec
    simp only [List.append_assoc, List.singleton_append, List.cons_append, List.nil_append,
      List.map_append, List.map_cons, List.map_nil] at hrec ⊢
    rw [hrec]
    simp [SrcProp.tree, SrcProp.values, Function.comp_def]

theorem props_length_le (ps : List SrcProp) :
    ∀ p ∈ ps, p.tokens.length + ps.length ≤ (ps.flatMap SrcProp.tokens).length + 1 := by
  induction ps with
  | nil => intro p hp; simp at hp
  | cons x xs ih =>
    intro p hp
    have hx : 1 ≤ x.tokens.length := by simp [SrcProp.tokens]
    have hxs : xs.length ≤ (xs.flatMap SrcProp.tokens).length := by
      clear ih hp
      induction xs with
      | nil => simp
      | cons y ys ihy =>
        have hy : 1 ≤ y.tokens.length := by simp [SrcProp.tokens]
        simp only [List.flatMap_cons, List.length_append, List.length_cons]
        omega
    simp only [List.flatMap_cons, List.length_append, List.length_cons]
    rcases List.mem_cons.mp hp with rfl | hp
    · omega
    · have := ih p hp
      omega

theorem parseBlock_header (b : SrcBlock) (rest : List _confToken_t) (fuel : Nat) (file : String)
    (eof : Int) (lt : Option _confToken_t) (fn : Option String) (h : List ConfBlock_t)
    (tr : List Event) (hwf : b.WF) :
    ∃ lt1, _parseBlock fuel ⟨⟨file, b.name.toList ++ b.obrace :: rest, eof⟩, lt⟩ b.type
        ⟨fn, h, tr⟩
      = _parseBlock_props fuel ⟨⟨file, rest, eof⟩, lt1⟩ b.obrace
          ⟨fn, h ++ [⟨b.type.line, b.type.semVal, (b.name.map fun n => n.semVal).getD "", []⟩],
            tr ++ (b.name.toList ++ [b.obrace]).map (Event.lex file)⟩ := by
  obtain ⟨ht, htl, hname, ho, hps, he⟩ := hwf
  have ho' : b.obrace.type ≠ LEX_TOKEN_ERROR := by simp [ho]
  cases hnm : b.name with
  | none =>
    refine ⟨some b.type, ?_⟩
    simp only [Option.toList, List.nil_append]
    simp only [_parseBlock, updBlock_mk, c32lcpy_fits _ _ htl, ge_iff_le, Nat.not_le.mpr htl,
      if_false, parseToken_cons _ _ _ _ _ _ _ ho', ho, reduceCtorEq]
    simp
  | some nm =>
    obtain ⟨hn, hnl⟩ := hname nm (by simp [hnm])
    have hn' : nm.type ≠ LEX_TOKEN_ERROR := by simp [hn]
    refine ⟨some nm, ?_⟩
    simp only [Option.toList, List.singleton_append]
    simp only [_parseBlock, updBlock_mk, c32lcpy_fits _ _ htl, ge_iff_le, Nat.not_le.mpr htl,
      if_false, parseToken_cons _ _ _ _ _ _ _ hn', hn, if_true, c32lcpy_fits _ _ hnl,
      Nat.not_le.mpr hnl, parseExpect_cons _ _ _ _ _ _ _ _ ho (by decide)]
    simp

/-- The property loop at the end of input: the `END` token is neither `}` nor
an identifier, and the loop asks the lexer again. -/
theorem parseBlock_props_eof_step (n : Nat) (file : String) (eof : Int)
    (lt : Option _confToken_t) (tok : _confToken_t) (w : World) :
    _parseBlock_props (n + 1) ⟨⟨file, [], eof⟩, lt⟩ tok w
      = _parseBlock_props n ⟨⟨file, [], eof⟩, some tok⟩ ⟨LEX_TOKEN_NONE, eof, "", 0⟩
          { w with trace := w.trace ++ [Event.lex file ⟨LEX_TOKEN_NONE, eof, "", 0⟩] } := by
  simp [_parseBlock_props, _parseToken, _confLex]

theorem parseBlock_props_eof (file : String) (eof : Int) (n : Nat) :
    ∀ (lt : Option _confToken_t) (tok : _confToken_t) (w : World),
      _parseBlock_props n ⟨⟨file, [], eof⟩, lt⟩ tok w = none := by
  induction n with
  | zero => intro lt tok w; rfl
  | succ n ih => intro lt tok w; rw [parseBlock_props_eof_step, ih]

/-- More fuel does not change what `_confParse` returns. -/
theorem confParse_mono (host : Host) (n m : Nat) (file : String) (w : World)
    (t : Option (List ConfBlock_t)) (a : World) (hnm : n ≤ m)
    (h : _confParse host n file w = some (t, a)) :
    ∃ b, _confParse host m file w = some (t, b) := by
  unfold _confParse at h ⊢
  cases h1 : _confLexInit host file with
  | none =>
    simp only [h1] at h ⊢
    exact ⟨_, h⟩
  | some lexState =>
    simp only [h1] at h ⊢
    have hm := fun (r : Bool) (a : World) => parseInternal_sim host [] n m ⟨lexState, none⟩
      { w with trace := w.trace ++ [Event.lexInit file], head := [] }
      { w with trace := w.trace ++ [Event.lexInit file], head := [] } r a hnm rfl
    rcases h2 : _parseInternal host n ⟨lexState, none⟩
      { w with trace := w.trace ++ [Event.lexInit file], head := [] } with _ | ⟨_ | _, a2⟩
    · simp [h2] at h
    all_goals obtain ⟨b2, e2, hs2⟩ := hm _ _ h2
    all_goals simp only [h2, e2, Option.some.injEq, Prod.mk.injEq] at h ⊢
    all_goals obtain ⟨rfl, rfl⟩ := h
    · exact ⟨_, rfl, rfl⟩
    · refine ⟨_, ?_, rfl⟩
      have : b2.head = a2.head := hs2
      rw [this]

/-- A file that ends inside a block: well-formed blocks, then a block that is
well formed up to the end of the file, with its closing brace missing.  With
enough fuel the call is still running when the fuel is used up. -/
theorem confParse_eof_large (host : Host) (file : String) (A : List SrcBlock) (b : SrcBlock)
    (eof : Int) (fuel : Nat) (w : World)
    (hfile : host.files file = some (A.flatMap SrcBlock.tokens ++ b.opening, eof))
    (hA : ∀ x ∈ A, x.WF) (hb : b.WF)
    (hfuel : (A.flatMap SrcBlock.tokens ++ b.opening).length + 2 ≤ fuel) :
    _confParse host fuel file w = none := by
  have hAl := length_le_tokens A
  have hPl : b.props.length ≤ (b.props.flatMap SrcProp.tokens).length := by
    cases hps : b.props with
    | nil => simp
    | cons x xs =>
      have := props_length_le (x :: xs) x (by simp)
      have hx : 1 ≤ x.tokens.length := by simp [SrcProp.tokens]
      omega
  simp only [List.length_append, SrcBlock.opening, List.length_cons] at hfuel
  obtain ⟨m, rfl⟩ : ∃ m, fuel = (((m + 1) + b.props.length) + 1) + A.length :=
    ⟨fuel - A.length - 1 - b.props.length - 1, by omega⟩
  have hlenA : ∀ x ∈ A, x.tokens.length ≤ ((m + 1) + b.props.length) + 1 := by
    intro x hx
    have := tokens_length_le A x hx
    omega
  have hlenP : ∀ q ∈ b.props, q.more.length < m + 1 := by
    intro q hq
    have := props_length_le b.props q hq
    have hq2 : q.tokens.length = 2 * q.more.length + 4 := by
      simp [SrcProp.tokens, sepTokens_length]
    omega
  have hty : b.type.type = LEX_TOKEN_ID := hb.1
  have hty' : b.type.type ≠ LEX_TOKEN_ERROR := by simp [hty]
  obtain ⟨lt1, lastTok1, hrunA⟩ := next_blocks host A (b.opening ++ [])
    (((m + 1) + b.props.length) + 1) file eof none none w.fileName []
    (w.trace ++ [Event.lexInit file]) hA hlenA
  obtain ⟨lt2, hhdr⟩ := parseBlock_header b (b.props.flatMap SrcProp.tokens ++ [])
    ((m + 1) + b.props.length) file eof lastTok1 w.fileName ([] ++ A.map SrcBlock.tree)
    (w.trace ++ [Event.lexInit file] ++ (A.flatMap SrcBlock.tokens).map (Event.lex file)
      ++ [Event.lex file b.type]) hb
  obtain ⟨lt3, tok3, hreach⟩ := parseBlock_props_reach b.props [] (m + 1) file eof
    lt2 b.obrace w.fileName ([] ++ A.map SrcBlock.tree) b.type.line b.type.semVal
    ((b.name.map fun n => n.semVal).getD "") []
    (w.trace ++ [Event.lexInit file] ++ (A.flatMap SrcBlock.tokens).map (Event.lex file)
      ++ [Event.lex file b.type] ++ (b.name.toList ++ [b.obrace]).map (Event.lex file))
    hb.2.2.2.2.1 hlenP
  have e1 : b.opening ++ []
      = b.type :: (b.name.toList ++ b.obrace :: (b.props.flatMap SrcProp.tokens ++ [])) := by
    simp [SrcBlock.opening]
  rw [e1] at hrunA
  have e2 : A.flatMap SrcBlock.tokens ++ b.opening = A.flatMap SrcBlock.tokens ++
      b.type :: (b.name.toList ++ b.obrace :: (b.props.flatMap SrcProp.tokens ++ [])) := by
    rw [← e1, List.append_nil]
  rw [e2] at hfile
  simp only [_confParse, _confLexInit, hfile, Option.map_some', _parseInternal, hrunA]
  simp only [_parseInternal_next, parseToken_cons _ _ _ _ _ _ _ hty', _parseInternal_loop, hty,
    reduceCtorEq, if_false, if_true, hhdr, hreach, parseBlock_props_eof]

/-- A root file `A include "f" B`: the blocks of `f` come between those of `A`
and those of `B`. -/
theorem confParse_include_ok (host : Host) (root f : String) (A B : List SrcBlock)
    (incl str : _confToken_t) (eof : Int) (nF : Nat) (F : List ConfBlock_t) (w0 : World)
    (fuel : Nat) (w : World)
    (hroot : host.files root
      = some (A.flatMap SrcBlock.tokens ++ incl :: str :: B.flatMap SrcBlock.tokens, eof))
    (hA : ∀ b ∈ A, b.WF) (hB : ∀ b ∈ B, b.WF)
    (hi : incl.type = LEX_TOKEN_INCLUDE) (hs : str.type = LEX_TOKEN_STR)
    (hpath : host.c32stombs str.semVal = some f)
    (hF : (_confParse host nF f w0).map Prod.fst = some (some F))
    (hfuel : nF + (A.flatMap SrcBlock.tokens ++ incl :: str :: B.flatMap SrcBlock.tokens).length
      ≤ fuel) :
    (_confParse host fuel root w).map Prod.fst
      = some (some (A.map SrcBlock.tree ++ F ++ B.map SrcBlock.tree)) := by
  obtain ⟨w0', hF'⟩ : ∃ w0', _confParse host nF f w0 = some (some F, w0') := by
    cases hr : _confParse host nF f w0 with
    | none => simp [hr] at hF
    | some r =>
      obtain ⟨t, w0'⟩ := r
      simp only [hr, Option.map_some', Option.some.injEq] at hF
      exact ⟨w0', by rw [← hF]⟩
  simp only [List.length_append, List.length_cons] at hfuel
  have hAl := length_le_tokens A
  have hBl := length_le_tokens B
  obtain ⟨j, rfl⟩ : ∃ j, fuel = (((j + 1) + B.length) + 1) + A.length :=
    ⟨fuel - A.length - 1 - B.length - 1, by omega⟩
  have hlenA : ∀ b ∈ A, b.tokens.length ≤ ((j + 1) + B.length) + 1 := by
    intro b hb
    have := tokens_length_le A b hb
    omega
  have hlenB : ∀ b ∈ B, b.tokens.length ≤ j + 1 := by
    intro b hb
    have := tokens_length_le B b hb
    omega
  obtain ⟨lt1, lastTok1, hrunA⟩ := next_blocks host A
    (incl :: str :: B.flatMap SrcBlock.tokens) (((j + 1) + B.length) + 1) root eof none none
    w.fileName [] (w.trace ++ [Event.lexInit root]) hA hlenA
  obtain ⟨tr2, hrunI⟩ := next_include host incl str (B.flatMap SrcBlock.tokens)
    ((j + 1) + B.length) nF root f eof lt1 lastTok1 w.fileName ([] ++ A.map SrcBlock.tree)
    (w.trace ++ [Event.lexInit root] ++ (A.flatMap SrcBlock.tokens).map (Event.lex root))
    w0 w0' F hi hs hpath hF' (by omega)
  obtain ⟨lt3, lastTok3, hrunB⟩ := next_blocks host B [] (j + 1) root eof (some incl)
    (some str) w.fileName ([] ++ A.map SrcBlock.tree ++ F) tr2 hB hlenB
  simp only [List.append_nil] at hrunB
  simp only [_confParse, _confLexInit, hroot, Option.map_some', _parseInternal, hrunA, hrunI,
    hrunB, next_end]
  rfl

/-- A root file `A include "f" ; ...`: the file `f` is parsed, then the `;`
is an unexpected token. -/
theorem confParse_include_semi (host : Host) (root f : String) (A : List SrcBlock)
    (incl str semi : _confToken_t) (rest : List _confToken_t) (eof : Int) (nF : Nat)
    (F : List ConfBlock_t) (w0 : World) (fuel : Nat) (w : World)
    (hroot : host.files root
      = some (A.flatMap SrcBlock.tokens ++ incl :: str :: semi :: rest, eof))
    (hA : ∀ b ∈ A, b.WF)
    (hi : incl.type = LEX_TOKEN_INCLUDE) (hs : str.type = LEX_TOKEN_STR)
    (hsemi : semi.type = LEX_TOKEN_SEMICOLON)
    (hpath : host.c32stombs str.semVal = some f)
    (hF : (_confParse host nF f w0).map Prod.fst = some (some F))
    (hfuel : nF + (A.flatMap SrcBlock.tokens).length + 2 ≤ fuel) :
    ∃ w', _confParse host fuel root w = some (none, w') ∧
      w'.trace.getLast? = some (Event.error ⟨ConfGetFileName w, semi.line,
        Detail.unexpected semi (some str) none⟩) := by
  obtain ⟨w0', hF'⟩ : ∃ w0', _confParse host nF f w0 = some (some F, w0') := by
    cases hr : _confParse host nF f w0 with
    | none => simp [hr] at hF
    | some r =>
      obtain ⟨t, w0'⟩ := r
      simp only [hr, Option.map_some', Option.some.injEq] at hF
      exact ⟨w0', by rw [← hF]⟩
  have hAl := length_le_tokens A
  obtain ⟨k, rfl⟩ : ∃ k, fuel = ((k + 1) + 1) + A.length :=
    ⟨fuel - A.length - 2, by omega⟩
  have hlenA : ∀ b ∈ A, b.tokens.length ≤ (k + 1) + 1 := by
    intro b hb
    have := tokens_length_le A b hb
    omega
  have hsemi' : semi.type ≠ LEX_TOKEN_ERROR := by simp [hsemi]
  obtain ⟨lt1, lastTok1, hrunA⟩ := next_blocks host A (incl :: str :: semi :: rest)
    ((k + 1) + 1) root eof none none w.fileName [] (w.trace ++ [Event.lexInit root]) hA hlenA
  obtain ⟨tr2, hrunI⟩ := next_include host incl str (semi :: rest) (k + 1) nF root f eof lt1
    lastTok1 w.fileName ([] ++ A.map SrcBlock.tree)
    (w.trace ++ [Event.lexInit root] ++ (A.flatMap SrcBlock.tokens).map (Event.lex root))
    w0 w0' F hi hs hpath hF' (by omega)
  simp only [_confParse, _confLexInit, hroot, Option.map_some', _parseInternal, hrunA, hrunI]
  simp only [_parseInternal_next, parseToken_cons _ _ _ _ _ _ _ hsemi', _parseInternal_loop,
    hsemi, reduceCtorEq, if_false]
  exact ⟨_, rfl, by simp [_parseError, ConfGetFileName, PARSE_ERROR_UNEXPECTED_TOKEN]⟩

theorem parseToken_lex (st : parseState_t) (lt : Option _confToken_t) (w : World)
    (t : _confToken_t) (lx : lexState_t) (h : _confLex st.lex = (t, lx))
    (hte : t.type ≠ LEX_TOKEN_ERROR) :
    _parseToken st lt w
      = (some t, ⟨lx, lt⟩, { w with trace := w.trace ++ [Event.lex st.lex.file t] }) := by
  simp [_parseToken, h, hte]

theorem parseToken_lex_error (st : parseState_t) (lt : Option _confToken_t) (w : World)
    (t : _confToken_t) (lx : lexState_t) (h : _confLex st.lex = (t, lx))
    (hte : t.type = LEX_TOKEN_ERROR) :
    _parseToken st lt w
      = (none, ⟨lx, lt⟩, { w with trace := w.trace ++ [Event.lex st.lex.file t] }) := by
  simp [_parseToken, h, hte]

theorem parseExpect_lex (st : parseState_t) (lt : Option _confToken_t) (ty : TokType) (w : World)
    (t : _confToken_t) (lx : lexState_t) (h : _confLex st.lex = (t, lx))
    (hte : t.type ≠ LEX_TOKEN_ERROR) (hty : t.type ≠ ty) :
    _parseExpect st lt ty w
      = (none, ⟨lx, lt⟩, { w with trace := w.trace ++ [Event.lex st.lex.file t,
          Event.error ⟨ConfGetFileName w, t.line, Detail.unexpected t lt (some ty)⟩] }) := by
  simp [_parseExpect, parseToken_lex st lt w t lx h hte, hty, _parseError, ConfGetFileName,
    PARSE_ERROR_UNEXPECTED_TOKEN]

theorem parseExpect_lex_ok (st : parseState_t) (lt : Option _confToken_t) (ty : TokType) (w : World)
    (t : _confToken_t) (lx : lexState_t) (h : _confLex st.lex = (t, lx))
    (hte : t.type ≠ LEX_TOKEN_ERROR) (hty : t.type = ty) :
    _parseExpect st lt ty w
      = (some t, ⟨lx, lt⟩, { w with trace := w.trace ++ [Event.lex st.lex.file t] }) := by
  simp [_parseExpect, parseToken_lex st lt w t lx h hte, hty]

theorem parseExpect_lex_error (st : parseState_t) (lt : Option _confToken_t) (ty : TokType) (w : World)
    (t : _confToken_t) (lx : lexState_t) (h : _confLex st.lex = (t, lx))
    (hte : t.type = LEX_TOKEN_ERROR) :
    _parseExpect st lt ty w
      = (none, ⟨lx, lt⟩, { w with trace := w.trace ++ [Event.lex st.lex.file t] }) := by
  simp [_parseExpect, parseToken_lex_error st lt w t lx h hte]

/-- The top-level loop on a token that starts neither an include nor a block. -/
theorem parseInternal_next_stray (host : Host) (n : Nat) (parser : parseState_t)
    (lastTok : Option _confToken_t) (w : World) (t : _confToken_t) (lx : lexState_t)
    (h : _confLex parser.lex = (t, lx)) (hte : t.type ≠ LEX_TOKEN_ERROR)
    (h1 : t.type ≠ LEX_TOKEN_NONE) (h2 : t.type ≠ LEX_TOKEN_INCLUDE) (h3 : t.type ≠ LEX_TOKEN_ID) :
    _parseInternal_next (_parseInternal_loop host (n + 1)) parser lastTok w
      = some (false, { w with trace := w.trace ++ [Event.lex parser.lex.file t,
          Event.error ⟨ConfGetFileName w, t.line, Detail.unexpected t lastTok none⟩] }) := by
  simp [_parseInternal_next, parseToken_lex parser lastTok w t lx h hte, _parseInternal_loop, h1, h2,
    h3, _parseError, ConfGetFileName, PARSE_ERROR_UNEXPECTED_TOKEN]

/-- The top-level loop on the include keyword followed by a token that is not a string. -/
theorem parseInternal_next_include (host : Host) (n : Nat) (parser : parseState_t)
    (lastTok : Option _confToken_t) (w : World) (t u : _confToken_t) (lx lx' : lexState_t)
    (h : _confLex parser.lex = (t, lx)) (ht : t.type = LEX_TOKEN_INCLUDE)
    (hu : _confLex lx = (u, lx')) (hue : u.type ≠ LEX_TOKEN_ERROR) (hus : u.type ≠ LEX_TOKEN_STR) :
    _parseInternal_next (_parseInternal_loop host (n + 1)) parser lastTok w
      = some (false, { w with trace := w.trace ++ [Event.lex parser.lex.file t,
          Event.lex lx.file u,
          Event.error ⟨ConfGetFileName w, u.line,
            Detail.unexpected u (some t) (some LEX_TOKEN_STR)⟩] }) := by
  have hte : t.type ≠ LEX_TOKEN_ERROR := by simp [ht]
  simp [_parseInternal_next, parseToken_lex parser lastTok w t lx h hte, _parseInternal_loop, ht,
    _parseInclude, parseExpect_lex ⟨lx, lastTok⟩ (some t) LEX_TOKEN_STR _ u lx' hu hue hus,
    ConfGetFileName]

theorem confLex_file (lex : lexState_t) : (_confLex lex).2.file = lex.file := by
  unfold _confLex
  cases lex.pending <;> rfl

/-- The block header on a token that is neither a name nor `{`. -/
theorem parseBlock_stray (n : Nat) (st : parseState_t) (tok : _confToken_t) (w : World)
    (t : _confToken_t) (lx : lexState_t) (hl : tok.semVal.length < 256)
    (h : _confLex st.lex = (t, lx)) (hte : t.type ≠ LEX_TOKEN_ERROR)
    (h1 : t.type ≠ LEX_TOKEN_ID) (h2 : t.type ≠ LEX_TOKEN_OBRACE) :
    _parseBlock n st tok w
      = some (none, ⟨lx, some tok⟩,
          ⟨w.fileName, w.head ++ [⟨tok.line, tok.semVal, "", []⟩],
            w.trace ++ [Event.lex st.lex.file t,
              Event.error ⟨ConfGetFileName w, t.line, Detail.unexpected t (some tok) none⟩]⟩) := by
  simp [_parseBlock, updBlock_mk, c32lcpy_fits _ _ hl, Nat.not_le.mpr hl,
    parseToken_lex st (some tok) _ t lx h hte, h1, h2, _parseError, ConfGetFileName,
    PARSE_ERROR_UNEXPECTED_TOKEN]

/-- The block header on a name that is not followed by `{`. -/
theorem parseBlock_no_brace (n : Nat) (st : parseState_t) (tok : _confToken_t) (w : World)
    (t u : _confToken_t) (lx lx' : lexState_t) (hl : tok.semVal.length < 256)
    (h : _confLex st.lex = (t, lx)) (ht : t.type = LEX_TOKEN_ID)
    (htl : t.semVal.length < BLOCK_BUFSZ)
    (hu : _confLex lx = (u, lx')) (hue : u.type ≠ LEX_TOKEN_ERROR)
    (huo : u.type ≠ LEX_TOKEN_OBRACE) :
    _parseBlock n st tok w
      = some (none, ⟨lx', some t⟩,
          ⟨w.fileName, w.head ++ [⟨tok.line, tok.semVal, t.semVal, []⟩],
            w.trace ++ [Event.lex st.lex.file t, Event.lex lx.file u,
              Event.error ⟨ConfGetFileName w, u.line,
                Detail.unexpected u (some t) (some LEX_TOKEN_OBRACE)⟩]⟩) := by
  have hte : t.type ≠ LEX_TOKEN_ERROR := by simp [ht]
  simp [_parseBlock, updBlock_mk, c32lcpy_fits _ _ hl, Nat.not_le.mpr hl,
    parseToken_lex st (some tok) _ t lx h hte, ht, c32lcpy_fits _ _ htl, Nat.not_le.mpr htl,
    parseExpect_lex ⟨lx, some tok⟩ (some t) LEX_TOKEN_OBRACE _ u lx' hu hue huo, ConfGetFileName]

/-- The value loop on a token in value position that is no value. -/
theorem parseBlock_values_stray (n : Nat) (st : parseState_t) (tok : _confToken_t) (w : World)
    (v : _confToken_t) (lx : lexState_t)
    (h : _confLex st.lex = (v, lx)) (hve : v.type ≠ LEX_TOKEN_ERROR)
    (h1 : v.type ≠ LEX_TOKEN_STR) (h2 : v.type ≠ LEX_TOKEN_ID) (h3 : v.type ≠ LEX_TOKEN_NUM) :
    _parseBlock_values (n + 1) st tok w
      = some (none, ⟨lx, some tok⟩,
          { w with trace := w.trace ++ [Event.lex st.lex.file v,
              Event.error ⟨ConfGetFileName w, v.line, Detail.unexpected v (some tok) none⟩] }) := by
  simp [_parseBlock_values, parseToken_lex st (some tok) _ v lx h hve, _parseBlock_value, h1, h2,
    h3, _parseError, ConfGetFileName, PARSE_ERROR_UNEXPECTED_TOKEN]

/-- The value loop on a value that is followed by neither `,` nor `;`. -/
theorem parseBlock_values_no_sep (n : Nat) (st : parseState_t) (tok : _confToken_t) (w w2 : World)
    (v s : _confToken_t) (lx lx' : lexState_t)
    (h : _confLex st.lex = (v, lx)) (hve : v.type ≠ LEX_TOKEN_ERROR)
    (hv : _parseBlock_value ⟨lx, some tok⟩ v
      { w with trace := w.trace ++ [Event.lex st.lex.file v] } = (true, w2))
    (hs : _confLex lx = (s, lx')) (hse : s.type ≠ LEX_TOKEN_ERROR)
    (h1 : s.type ≠ LEX_TOKEN_COMMA) (h2 : s.type ≠ LEX_TOKEN_SEMICOLON) :
    _parseBlock_values (n + 1) st tok w
      = some (none, ⟨lx', some v⟩,
          { w2 with trace := w2.trace ++ [Event.lex lx.file s,
              Event.error ⟨ConfGetFileName w2, s.line, Detail.unexpected s (some v) none⟩] }) := by
  simp [_parseBlock_values, parseToken_lex st (some tok) _ v lx h hve, hv,
    parseToken_lex ⟨lx, some tok⟩ (some v) _ s lx' hs hse, h1, h2, _parseError, ConfGetFileName,
    PARSE_ERROR_UNEXPECTED_TOKEN]

/-- The value loop after a value and `,`: it goes round again, so that a
value has to follow; after a value and `;` it ends. -/
theorem parseBlock_values_sep (n : Nat) (st : parseState_t) (tok : _confToken_t) (w w2 : World)
    (v s : _confToken_t) (lx lx' : lexState_t)
    (h : _confLex st.lex = (v, lx)) (hve : v.type ≠ LEX_TOKEN_ERROR)
    (hv : _parseBlock_value ⟨lx, some tok⟩ v
      { w with trace := w.trace ++ [Event.lex st.lex.file v] } = (true, w2))
    (hs : _confLex lx = (s, lx')) :
    (s.type = LEX_TOKEN_COMMA → _parseBlock_values (n + 1) st tok w
      = _parseBlock_values n ⟨lx', some v⟩ s
          { w2 with trace := w2.trace ++ [Event.lex lx.file s] }) ∧
    (s.type = LEX_TOKEN_SEMICOLON → _parseBlock_values (n + 1) st tok w
      = some (some s, ⟨lx', some v⟩, { w2 with trace := w2.trace ++ [Event.lex lx.file s] })) := by
  constructor
  · intro hc
    have hse : s.type ≠ LEX_TOKEN_ERROR := by simp [hc]
    simp [_parseBlock_values, parseToken_lex st (some tok) _ v lx h hve, hv,
      parseToken_lex ⟨lx, some tok⟩ (some v) _ s lx' hs hse, hc]
  · intro hc
    have hse : s.type ≠ LEX_TOKEN_ERROR := by simp [hc]
    simp [_parseBlock_values, parseToken_lex st (some tok) _ v lx h hve, hv,
      parseToken_lex ⟨lx, some tok⟩ (some v) _ s lx' hs hse, hc]


theorem getLastD_ebrace (b : SrcBlock) (bs : List SrcBlock) (d : Option _confToken_t) :
    ((b :: bs).map fun x => some x.ebrace).getLastD d
      = (bs.map fun x => some x.ebrace).getLastD (some b.ebrace) := by
  cases bs <;> simp [List.getLastD]

/-- As `next_blocks`, with the token that was consumed last. -/
theorem next_blocks_last (host : Host) (bs : List SrcBlock) :
    ∀ (rest : List _confToken_t) (n : Nat) (file : String) (eof : Int)
      (lt lastTok : Option _confToken_t) (fn : Option String) (h : List ConfBlock_t)
      (tr : List Event), (∀ b ∈ bs, b.WF) → (∀ b ∈ bs, b.tokens.length ≤ n) →
      ∃ lt1,
        _parseInternal_next (_parseInternal_loop host (n + bs.length)) ⟨⟨file, bs.flatMap SrcBlock.tokens ++ rest, eof⟩, lt⟩
            lastTok ⟨fn, h, tr⟩
          = _parseInternal_next (_parseInternal_loop host n) ⟨⟨file, rest, eof⟩, lt1⟩
              ((bs.map fun x => some x.ebrace).getLastD lastTok)
              ⟨fn, h ++ bs.map SrcBlock.tree,
                tr ++ (bs.flatMap SrcBlock.tokens).map (Event.lex file)⟩ := by
  induction bs with
  | nil =>
    intro rest n file eof lt lastTok fn h tr _ _
    exact ⟨lt, by simp [List.getLastD]⟩
  | cons b bs ih =>
    intro rest n file eof lt lastTok fn h tr hwf hlen
    obtain ⟨lt1, hrec⟩ := ih rest n file eof
      (some (lastOf b.type (b.tokens.dropLast))) (some b.ebrace) fn (h ++ [b.tree])
      (tr ++ b.tokens.map (Event.lex file)) (fun x hx => hwf x (by simp [hx]))
      (fun x hx => hlen x (by simp [hx]))
    refine ⟨lt1, ?_⟩
    have e : (b :: bs).flatMap SrcBlock.tokens ++ rest
        = b.tokens ++ (bs.flatMap SrcBlock.tokens ++ rest) := by simp
    rw [e, List.length_cons, ← Nat.add_assoc,
      next_block host b _ (n + bs.length) file eof lt lastTok fn h tr (hwf b (by simp))
        (le_trans (hlen b (by simp)) (Nat.le_add_right _ _)), hrec, getLastD_ebrace]
    simp

theorem fuel_split (A : List SrcBlock) (k fuel : Nat)
    (h : (A.flatMap SrcBlock.tokens).length + k ≤ fuel) (hk : 1 ≤ k) :
    ∃ n, fuel = (n + k) + A.length ∧ ∀ b ∈ A, b.tokens.length ≤ n + k := by
  have hAl := length_le_tokens A
  refine ⟨fuel - A.length - k, by omega, ?_⟩
  intro b hb
  have := tokens_length_le A b hb
  omega

/-- A file of well-formed blocks `A` and the tokens `rest`: when the top-level
loop fails on `rest`, so does `_confParse`. -/
theorem confParse_top_fail (host : Host) (file : String) (A : List SrcBlock)
    (rest : List _confToken_t) (eof : Int) (n : Nat) (w : World)
    (hfile : host.files file = some (A.flatMap SrcBlock.tokens ++ rest, eof))
    (hA : ∀ x ∈ A, x.WF) (hlen : ∀ b ∈ A, b.tokens.length ≤ n) :
    ∃ lt1, ∀ a, _parseInternal_next (_parseInternal_loop host n) ⟨⟨file, rest, eof⟩, lt1⟩
          ((A.map fun x => some x.ebrace).getLastD none)
          ⟨w.fileName, A.map SrcBlock.tree,
            w.trace ++ Event.lexInit file :: (A.flatMap SrcBlock.tokens).map (Event.lex file)⟩
        = some (false, a) →
      _confParse host (n + A.length) file w = some (none, { a with head := [] }) := by
  obtain ⟨lt1, hrun⟩ := next_blocks_last host A rest n file eof none none w.fileName []
    (w.trace ++ [Event.lexInit file]) hA hlen
  refine ⟨lt1, fun a ha => ?_⟩
  simp only [List.nil_append, List.append_assoc, List.singleton_append] at hrun
  simp only [_confParse, _confLexInit, hfile, Option.map_some', _parseInternal, hrun, ha]

/-- The top-level loop on an identifier whose block fails. -/
theorem parseInternal_next_block_fail (host : Host) (n : Nat) (file : String)
    (ty : _confToken_t) (rest : List _confToken_t) (eof : Int)
    (lt lastTok : Option _confToken_t) (w : World) (s : parseState_t) (a : World)
    (hty : ty.type = LEX_TOKEN_ID)
    (hb : _parseBlock n ⟨⟨file, rest, eof⟩, lastTok⟩ ty
      { w with trace := w.trace ++ [Event.lex file ty] } = some (none, s, a)) :
    _parseInternal_next (_parseInternal_loop host (n + 1)) ⟨⟨file, ty :: rest, eof⟩, lt⟩ lastTok w
      = some (false, a) := by
  have hte : ty.type ≠ LEX_TOKEN_ERROR := by simp [hty]
  simp only [_parseInternal_next, parseToken_cons _ _ _ _ _ _ _ hte, _parseInternal_loop, hty,
    reduceCtorEq, if_false, if_true, hb]

/-- The value loop on well-formed values, each followed by a comma: it goes
round once for each and is then in front of the tokens that follow. -/
theorem parseBlock_values_reach (more : List (_confToken_t × _confToken_t)) :
    ∀ (rest : List _confToken_t) (fuel : Nat) (file : String)
      (eof : Int) (lt : Option _confToken_t) (tok : _confToken_t) (fn : Option String)
      (h : List ConfBlock_t) (bl : Int) (bt bn : String) (ps : List ConfProperty_t)
      (pl : Int) (pn : String) (vs : List ConfPropVal_t) (tr : List Event),
      (∀ vc ∈ more, IsValue vc.1 ∧ vc.2.type = LEX_TOKEN_COMMA) →
      vs.length + more.length < MAX_PROPVAR →
      ∃ lt1, _parseBlock_values (fuel + more.length)
          ⟨⟨file, sepTokens more ++ rest, eof⟩, lt⟩ tok
          ⟨fn, h ++ [⟨bl, bt, bn, ps ++ [⟨pl, pn, slots vs, vs.length⟩]⟩], tr⟩
        = _parseBlock_values fuel ⟨⟨file, rest, eof⟩, lt1⟩ (lastOf tok (sepTokens more))
            ⟨fn, h ++ [⟨bl, bt, bn, ps ++ [⟨pl, pn,
                slots (vs ++ more.map (fun vc => valueOf vc.1)),
                vs.length + more.length⟩]⟩],
              tr ++ (sepTokens more).map (Event.lex file)⟩ := by
  induction more with
  | nil =>
    intro rest fuel file eof lt tok fn h bl bt bn ps pl pn vs tr _ _
    exact ⟨lt, by simp [sepTokens, lastOf]⟩
  | cons vc more ih =>
    intro rest fuel file eof lt tok fn h bl bt bn ps pl pn vs tr hm hlen
    have hv := (hm vc (by simp)).1
    have hc := (hm vc (by simp)).2
    have hc' : vc.2.type ≠ LEX_TOKEN_ERROR := by simp [hc]
    have hm' : ∀ x ∈ more, IsValue x.1 ∧ x.2.type = LEX_TOKEN_COMMA :=
      fun x hx => hm x (by simp [hx])
    simp only [List.length_cons] at hlen
    obtain ⟨lt1, step⟩ := ih rest fuel file eof (some vc.1) vc.2 fn h bl bt bn ps pl pn
      (vs ++ [valueOf vc.1]) (tr ++ [Event.lex file vc.1] ++ [Event.lex file vc.2]) hm'
      (by simp; omega)
    refine ⟨lt1, ?_⟩
    have e1 : sepTokens (vc :: more) ++ rest = vc.1 :: vc.2 :: (sepTokens more ++ rest) := by
      simp [sepTokens]
    have e2 : lastOf tok (sepTokens (vc :: more)) = lastOf vc.2 (sepTokens more) := by
      rfl
    rw [e1, e2, List.length_cons, ← Nat.add_assoc]
    simp only [_parseBlock_values, parseToken_cons _ _ _ _ _ _ _ hv.ne_error,
      parseBlock_value_ok _ _ _ _ _ _ _ _ _ _ _ _ hv (by omega : vs.length + 1 < MAX_PROPVAR),
      parseToken_cons _ _ _ _ _ _ _ hc', hc, if_true]
    simp only [List.length_append, List.length_singleton] at step
    rw [step]
    simp [sepTokens, Nat.add_assoc, Nat.add_comm, Nat.add_left_comm]

/-- The property loop on a property name and `:` whose value list fails. -/
theorem parseBlock_props_values_fail (m : Nat) (file : String) (p c : _confToken_t)
    (toks : List _confToken_t) (eof : Int) (lt : Option _confToken_t) (tok : _confToken_t)
    (fn : Option String) (h : List ConfBlock_t) (bl : Int) (bt bn : String)
    (ps : List ConfProperty_t) (tr : List Event) (s : parseState_t) (a : World)
    (hp : p.type = LEX_TOKEN_ID) (hpl : p.semVal.length < BLOCK_BUFSZ)
    (hc : c.type = LEX_TOKEN_COLON)
    (hv : _parseBlock_values m ⟨⟨file, toks, eof⟩, some p⟩ c
      ⟨fn, h ++ [⟨bl, bt, bn, ps ++ [⟨p.line, p.semVal, slots [], 0⟩]⟩],
        tr ++ [Event.lex file p, Event.lex file c]⟩ = some (none, s, a)) :
    _parseBlock_props (m + 1) ⟨⟨file, p :: c :: toks, eof⟩, lt⟩ tok ⟨fn, h ++ [⟨bl, bt, bn, ps⟩], tr⟩
      = some (none, s, a) := by
  have hp' : p.type ≠ LEX_TOKEN_ERROR := by simp [hp]
  simp only [slots, List.map_nil, List.length_nil, Nat.sub_zero, List.nil_append] at hv
  simp only [_parseBlock_props, parseToken_cons _ _ _ _ _ _ _ hp', hp, reduceCtorEq,
    if_true, if_false, updBlock_mk, updProp_mk, c32lcpy_fits _ _ hpl, ge_iff_le,
    Nat.not_le.mpr hpl, parseExpect_cons _ _ _ _ _ _ _ _ hc (by decide)]
  simp only [List.append_assoc, List.singleton_append] at hv ⊢
  rw [hv]

/-- A file of well-formed blocks `A` and a block that is well formed up to the
tokens `rest`: when the property loop fails on `rest`, so does `_confParse`. -/
theorem confParse_props_fail (host : Host) (file : String) (A : List SrcBlock) (b : SrcBlock)
    (rest : List _confToken_t) (eof : Int) (m : Nat) (w : World)
    (hfile : host.files file = some (A.flatMap SrcBlock.tokens ++ (b.opening ++ rest), eof))
    (hA : ∀ x ∈ A, x.WF) (hb : b.WF)
    (hlenA : ∀ x ∈ A, x.tokens.length ≤ (m + b.props.length) + 1)
    (hlenP : ∀ q ∈ b.props, q.more.length < m) :
    ∃ lt tok, ∀ s a, _parseBlock_props m ⟨⟨file, rest, eof⟩, lt⟩ tok
          ⟨w.fileName, A.map SrcBlock.tree ++ [⟨b.type.line, b.type.semVal,
              (b.name.map fun n => n.semVal).getD "", b.props.map SrcProp.tree⟩],
            w.trace ++ Event.lexInit file :: ((A.flatMap SrcBlock.tokens).map (Event.lex file)
              ++ b.opening.map (Event.lex file))⟩
        = some (none, s, a) →
      _confParse host (((m + b.props.length) + 1) + A.length) file w
        = some (none, { a with head := [] }) := by
  have hty : b.type.type = LEX_TOKEN_ID := hb.1
  obtain ⟨lt1, hprop⟩ := confParse_top_fail host file A (b.opening ++ rest) eof
    ((m + b.props.length) + 1) w hfile hA hlenA
  obtain ⟨lt2, hhdr⟩ := parseBlock_header b (b.props.flatMap SrcProp.tokens ++ rest)
    (m + b.props.length) file eof ((A.map fun x => some x.ebrace).getLastD none) w.fileName
    (A.map SrcBlock.tree)
    (w.trace ++ Event.lexInit file :: (A.flatMap SrcBlock.tokens).map (Event.lex file)
      ++ [Event.lex file b.type]) hb
  obtain ⟨lt3, tok3, hreach⟩ := parseBlock_props_reach b.props rest m file eof
    lt2 b.obrace w.fileName (A.map SrcBlock.tree) b.type.line b.type.semVal
    ((b.name.map fun n => n.semVal).getD "") []
    (w.trace ++ Event.lexInit file :: (A.flatMap SrcBlock.tokens).map (Event.lex file)
      ++ [Event.lex file b.type] ++ (b.name.toList ++ [b.obrace]).map (Event.lex file))
    hb.2.2.2.2.1 hlenP
  refine ⟨lt3, tok3, fun s a ha => ?_⟩
  apply hprop
  have e1 : b.opening ++ rest
      = b.type :: (b.name.toList ++ b.obrace :: (b.props.flatMap SrcProp.tokens ++ rest)) := by
    simp [SrcBlock.opening]
  rw [e1]
  apply parseInternal_next_block_fail host _ file b.type _ eof lt1 _ _ s a hty
  rw [hhdr, hreach]
  simp only [List.nil_append] 
  rw [← ha]
  simp [SrcBlock.opening]

/-- A block header that is not followed by what it needs, behind well-formed
blocks, in a file. -/
theorem confParse_block_shape (host : Host) (file : String) (A : List SrcBlock)
    (ty : _confToken_t) (rest : List _confToken_t) (eof : Int) (fuel : Nat) (w : World)
    (t : _confToken_t) (lx : lexState_t)
    (hfile : host.files file = some (A.flatMap SrcBlock.tokens ++ ty :: rest, eof))
    (hA : ∀ x ∈ A, x.WF) (hty : ty.type = LEX_TOKEN_ID) (htl : ty.semVal.length < 256)
    (hfuel : (A.flatMap SrcBlock.tokens).length + 1 ≤ fuel)
    (ht : _confLex ⟨file, rest, eof⟩ = (t, lx)) :
    (t.type ≠ LEX_TOKEN_ID → t.type ≠ LEX_TOKEN_OBRACE → t.type ≠ LEX_TOKEN_ERROR →
      ∃ w', _confParse host fuel file w = some (none, w') ∧
        w'.errors = w.errors ++ [⟨ConfGetFileName w, t.line,
          Detail.unexpected t (some ty) none⟩]) ∧
    (t.type = LEX_TOKEN_ID → t.semVal.length < BLOCK_BUFSZ → ∀ u lx', _confLex lx = (u, lx') →
      u.type ≠ LEX_TOKEN_OBRACE → u.type ≠ LEX_TOKEN_ERROR →
      ∃ w', _confParse host fuel file w = some (none, w') ∧
        w'.errors = w.errors ++ [⟨ConfGetFileName w, u.line,
          Detail.unexpected u (some t) (some LEX_TOKEN_OBRACE)⟩]) := by
  obtain ⟨n, rfl, hlen⟩ := fuel_split A 1 fuel hfuel (le_refl 1)
  obtain ⟨lt1, hprop⟩ := confParse_top_fail host file A (ty :: rest) eof (n + 1) w hfile hA hlen
  constructor
  · intro h1 h2 hte
    refine ⟨_, hprop _ (parseInternal_next_block_fail host n file ty rest eof lt1 _ _ _ _ hty
      (parseBlock_stray n ⟨⟨file, rest, eof⟩, _⟩ ty _ t lx htl ht hte h1 h2)), ?_⟩
    simp [World.errors, List.filterMap_append, diag_lex, diag_comp_lex, Event.diag,
      ConfGetFileName]
  · intro hi hil u lx' hu huo hue
    refine ⟨_, hprop _ (parseInternal_next_block_fail host n file ty rest eof lt1 _ _ _ _ hty
      (parseBlock_no_brace n ⟨⟨file, rest, eof⟩, _⟩ ty _ t u lx lx' htl ht hi hil hu hue huo)), ?_⟩
    simp [World.errors, List.filterMap_append, diag_lex, diag_comp_lex, Event.diag,
      ConfGetFileName]

theorem HdrKept.kept (w : World) : HdrKept w w := rfl

theorem HdrKept.comp {w a b : World} (h1 : HdrKept w a) (h2 : HdrKept a b) : HdrKept w b :=
  Eq.trans h2 h1

theorem updLast_map {α β : Type} (f : α → α) (g : α → β) (hg : ∀ a, g (f a) = g a) :
    ∀ l : List α, (updLast f l).map g = l.map g
  | [] => rfl
  | [a] => by simp [updLast, hg]
  | a :: b :: l => by simp [updLast, updLast_map f g hg (b :: l)]

theorem HdrKept.keptBlock (w : World) (f : ConfBlock_t → ConfBlock_t)
    (hf : ∀ b, (f b).header = b.header) : HdrKept w (w.updBlock f) :=
  updLast_map f ConfBlock_t.header hf w.head

theorem HdrKept.keptProp (w : World) (f : ConfProperty_t → ConfProperty_t) :
    HdrKept w (w.updProp f) := HdrKept.keptBlock w _ (fun _ => rfl)

theorem HdrKept.keptError (st : parseState_t) (tok : _confToken_t) (err : Nat) (ex : Extra)
    (w : World) : HdrKept w (_parseError st tok err ex w) := rfl

theorem hdr_parseToken {st s : parseState_t} {lt x : Option _confToken_t} {w a : World}
    (h : _parseToken st lt w = (x, s, a)) : HdrKept w a := by
  unfold _parseToken at h
  simp only [] at h
  split_ifs at h
  all_goals simp only [Prod.mk.injEq] at h
  all_goals obtain ⟨rfl, rfl, rfl⟩ := h
  all_goals exact rfl

theorem hdr_parseExpect {st s : parseState_t} {lt x : Option _confToken_t} {ty : TokType}
    {w a : World} (h : _parseExpect st lt ty w = (x, s, a)) : HdrKept w a := by
  unfold _parseExpect at h
  rcases h1 : _parseToken st lt w with ⟨_ | tok, s1, a1⟩
  all_goals have g1 := hdr_parseToken h1
  all_goals simp only [h1] at h
  · simp only [Prod.mk.injEq] at h
    obtain ⟨rfl, rfl, rfl⟩ := h
    exact g1
  · split_ifs at h
    all_goals simp only [Prod.mk.injEq] at h
    all_goals obtain ⟨rfl, rfl, rfl⟩ := h
    · exact g1.comp (HdrKept.keptError _ _ _ _ _)
    · exact g1

theorem hdr_parseBlock_value {st : parseState_t} {tok : _confToken_t} {x : Bool} {w a : World}
    (h : _parseBlock_value st tok w = (x, a)) : HdrKept w a := by
  unfold _parseBlock_value at h
  simp only [] at h
  split_ifs at h
  all_goals simp only [Prod.mk.injEq] at h
  all_goals obtain ⟨rfl, rfl⟩ := h
  all_goals first
    | exact (HdrKept.keptProp _ _).comp (HdrKept.keptProp _ _)
    | exact (HdrKept.keptProp _ _).comp (HdrKept.keptError _ _ _ _ _)
    | exact ((HdrKept.keptProp _ _).comp (HdrKept.keptProp _ _)).comp (HdrKept.keptError _ _ _ _ _)
    | exact HdrKept.keptError _ _ _ _ _

theorem hdr_parseBlock_values (n : Nat) :
    ∀ (st : parseState_t) (tok : _confToken_t) (w : World) (x : Option _confToken_t)
      (s : parseState_t) (a : World),
      _parseBlock_values n st tok w = some (x, s, a) → HdrKept w a := by
  induction n with
  | zero => intro st tok w x s a h; simp [_parseBlock_values] at h
  | succ n ih =>
    intro st tok w x s a h
    rw [_parseBlock_values] at h
    rcases h1 : _parseToken st (some tok) w with ⟨_ | tok1, st1, a1⟩
    all_goals have g1 := hdr_parseToken h1
    all_goals simp only [h1] at h
    · simp only [Option.some.injEq, Prod.mk.injEq] at h
      obtain ⟨rfl, rfl, rfl⟩ := h
      exact g1
    · rcases h2 : _parseBlock_value st1 tok1 a1 with ⟨_ | _, a2⟩
      all_goals have g2 := g1.comp (hdr_parseBlock_value h2)
      all_goals simp only [h2] at h
      · simp only [Option.some.injEq, Prod.mk.injEq] at h
        obtain ⟨rfl, rfl, rfl⟩ := h
        exact g2
      · rcases h3 : _parseToken st1 (some tok1) a2 with ⟨_ | tok2, st2, a3⟩
        all_goals have g3 := g2.comp (hdr_parseToken h3)
        all_goals simp only [h3] at h
        · simp only [Option.some.injEq, Prod.mk.injEq] at h
          obtain ⟨rfl, rfl, rfl⟩ := h
          exact g3
        · split_ifs at h
          · exact g3.comp (ih _ _ _ _ _ _ h)
          all_goals simp only [Option.some.injEq, Prod.mk.injEq] at h
          all_goals obtain ⟨rfl, rfl, rfl⟩ := h
          · exact g3
          · exact g3.comp (HdrKept.keptError _ _ _ _ _)

theorem hdr_parseBlock_props (n : Nat) :
    ∀ (st : parseState_t) (tok : _confToken_t) (w : World) (x : Option _confToken_t)
      (s : parseState_t) (a : World),
      _parseBlock_props n st tok w = some (x, s, a) → HdrKept w a := by
  induction n with
  | zero => intro st tok w x s a h; simp [_parseBlock_props] at h
  | succ n ih =>
    intro st tok w x s a h
    rw [_parseBlock_props] at h
    rcases h1 : _parseToken st (some tok) w with ⟨_ | tok1, st1, a1⟩
    all_goals have g1 := hdr_parseToken h1
    all_goals simp only [h1] at h
    · simp only [Option.some.injEq, Prod.mk.injEq] at h
      obtain ⟨rfl, rfl, rfl⟩ := h
      exact g1
    · by_cases h2 : tok1.type = LEX_TOKEN_EBRACE
      · simp only [h2, if_true, Option.some.injEq, Prod.mk.injEq] at h
        obtain ⟨rfl, rfl, rfl⟩ := h
        exact g1
      · simp only [h2, if_false] at h
        by_cases h3 : tok1.type = LEX_TOKEN_ID
        · simp only [h3, if_true] at h
          have g4 : HdrKept w (World.updProp
              (fun p => { p with name := (c32lcpy tok1.semVal BLOCK_BUFSZ).1 })
              (World.updProp (fun p => { p with lineNo := tok1.line })
                (World.updBlock (fun b => { b with props := b.props ++
                  [⟨0, "", List.replicate MAX_PROPVAR none, 0⟩] }) a1))) :=
            ((g1.comp (HdrKept.keptBlock a1 (fun b => { b with props := b.props ++
              [⟨0, "", List.replicate MAX_PROPVAR none, 0⟩] }) (fun _ => rfl))).comp
              (HdrKept.keptProp _ _)).comp (HdrKept.keptProp _ _)
          by_cases h4 : (c32lcpy tok1.semVal BLOCK_BUFSZ).2 ≥ BLOCK_BUFSZ
          · simp only [h4, if_true, Option.some.injEq, Prod.mk.injEq] at h
            obtain ⟨rfl, rfl, rfl⟩ := h
            exact g4.comp (HdrKept.keptError _ _ _ _ _)
          · simp only [h4, if_false] at h
            have g5 := g4.comp (HdrKept.keptProp _ (fun p => { p with nextVal := 0 }))
            generalize World.updProp _ (World.updProp _ (World.updProp _ (World.updBlock _ a1)))
              = a5 at h g5
            rcases h5 : _parseExpect st1 (some tok1) LEX_TOKEN_COLON a5 with ⟨_ | tok2, st2, a6⟩
            all_goals have g6 := g5.comp (hdr_parseExpect h5)
            all_goals simp only [h5] at h
            · simp only [Option.some.injEq, Prod.mk.injEq] at h
              obtain ⟨rfl, rfl, rfl⟩ := h
              exact g6
            · rcases h6 : _parseBlock_values n st2 tok2 a6 with _ | ⟨_ | tok3, st3, a7⟩
              · simp [h6] at h
              all_goals have g7 := g6.comp (hdr_parseBlock_values n _ _ _ _ _ _ h6)
              all_goals simp only [h6] at h
              · simp only [Option.some.injEq, Prod.mk.injEq] at h
                obtain ⟨rfl, rfl, rfl⟩ := h
                exact g7
              · exact g7.comp (ih _ _ _ _ _ _ h)
        · simp only [h3, if_false] at h
          exact g1.comp (ih _ _ _ _ _ _ h)

theorem parseToken_some {st s : parseState_t} {lt : Option _confToken_t} {t : _confToken_t}
    {w a : World} (h : _parseToken st lt w = (some t, s, a)) :
    a = { w with trace := w.trace ++ [Event.lex st.lex.file t] } ∧ s.lex.file = st.lex.file ∧
      s.lastToken = lt ∧ _confLex st.lex = (t, s.lex) ∧ t.type ≠ LEX_TOKEN_ERROR := by
  unfold _parseToken at h
  simp only [] at h
  split_ifs at h with h0
  · simp at h
  · simp only [Prod.mk.injEq, Option.some.injEq] at h
    obtain ⟨rfl, rfl, rfl⟩ := h
    exact ⟨rfl, confLex_file _, rfl, rfl, h0⟩

theorem Declared.mono {tr : List Event} {hd : Int × String × String} (h : Declared tr hd)
    (es : List Event) : Declared (tr ++ es) hd := by
  obtain ⟨pre, post, f, t, u, e, hr⟩ := h
  exact ⟨pre, post ++ es, f, t, u, by simp [e], hr⟩

theorem DInv.extend {w a : World} (h : DInv w) (hh : HdrKept w a)
    (ht : ∃ es, a.trace = w.trace ++ es) : DInv a := by
  obtain ⟨es, ht⟩ := ht
  intro hd hm
  rw [hh] at hm
  rw [ht]
  exact (h hd hm).mono es

/-- A block that `_parseBlock` parsed to its end: the header it gave the block,
by the token that followed the type. -/
theorem parseBlock_declares (n : Nat) (st : parseState_t) (tok : _confToken_t) (w : World)
    (x : _confToken_t) (s : parseState_t) (a : World)
    (h : _parseBlock n st tok w = some (some x, s, a)) :
    ∃ es, a.trace = w.trace ++ Event.lex st.lex.file (_confLex st.lex).1 :: es ∧
      (((_confLex st.lex).1.type = LEX_TOKEN_ID ∧
          a.head.map ConfBlock_t.header = w.head.map ConfBlock_t.header
            ++ [(tok.line, tok.semVal, (_confLex st.lex).1.semVal)]) ∨
        ((_confLex st.lex).1.type = LEX_TOKEN_OBRACE ∧
          a.head.map ConfBlock_t.header = w.head.map ConfBlock_t.header
            ++ [(tok.line, tok.semVal, "")])) := by
  unfold _parseBlock at h
  simp only [] at h
  by_cases h0 : (c32lcpy tok.semVal 256).2 ≥ 256
  · simp [h0] at h
  · simp only [h0, if_false] at h
    have hl : tok.semVal.length < 256 := by simpa [c32lcpy] using h0
    rw [c32lcpy_fits _ _ hl] at h
    have g4 : (World.updBlock (fun b => { b with blockType := (tok.semVal, tok.semVal.length).1 })
        (World.updBlock (fun b => { b with props := [] })
          (World.updBlock (fun b => { b with lineNo := tok.line })
            { w with head := w.head ++ [⟨0, "", "", []⟩] }))).head.map ConfBlock_t.header
        = w.head.map ConfBlock_t.header ++ [(tok.line, tok.semVal, "")] := by
      simp [World.updBlock, updLast_concat, ConfBlock_t.header]
    have t4 : (World.updBlock (fun b => { b with blockType := (tok.semVal, tok.semVal.length).1 })
        (World.updBlock (fun b => { b with props := [] })
          (World.updBlock (fun b => { b with lineNo := tok.line })
            { w with head := w.head ++ [⟨0, "", "", []⟩] }))).trace = w.trace := rfl
    generalize World.updBlock _ (World.updBlock _ (World.updBlock _ _)) = a4 at h g4 t4
    rcases h1 : _parseToken st (some tok) a4 with ⟨_ | tok1, st1, a5⟩
    all_goals simp only [h1] at h
    · simp at h
    · obtain ⟨rfl, -, -, hlex, -⟩ := parseToken_some h1
      have e1 : (_confLex st.lex).1 = tok1 := by rw [hlex]
      rw [e1]
      by_cases h2 : tok1.type = LEX_TOKEN_ID
      · simp only [h2, if_true] at h
        by_cases h3 : (c32lcpy tok1.semVal BLOCK_BUFSZ).2 ≥ BLOCK_BUFSZ
        · simp [h3] at h
        · simp only [h3, if_false] at h
          have hl1 : tok1.semVal.length < BLOCK_BUFSZ := by simpa [c32lcpy] using h3
          rw [c32lcpy_fits _ _ hl1] at h
          have g6 : (World.updBlock (fun b => { b with blockName := (tok1.semVal, tok1.semVal.length).1 })
              { a4 with trace := a4.trace ++ [Event.lex st.lex.file tok1] }).head.map
                ConfBlock_t.header
              = w.head.map ConfBlock_t.header ++ [(tok.line, tok.semVal, tok1.semVal)] := by
            cases hh : a4.head using List.reverseRecOn with
            | nil => simp [hh] at g4
            | append_singleton l b _ =>
              rw [hh] at g4
              simp only [List.map_append, List.map_cons, List.map_nil] at g4
              obtain ⟨gl, gb⟩ := List.append_inj' g4 rfl
              simp only [List.cons.injEq, and_true, ConfBlock_t.header, Prod.mk.injEq] at gb
              simp [World.updBlock, hh, updLast_concat, ConfBlock_t.header, gl, gb.1, gb.2.1]
          have t6 : (World.updBlock (fun b => { b with blockName := (tok1.semVal, tok1.semVal.length).1 })
              { a4 with trace := a4.trace ++ [Event.lex st.lex.file tok1] }).trace
              = w.trace ++ [Event.lex st.lex.file tok1] := by
            simp [t4]
          generalize World.updBlock _ _ = a6 at h g6 t6
          rcases h4 : _parseExpect st1 (some tok1) LEX_TOKEN_OBRACE a6 with ⟨_ | tok2, st2, a7⟩
          all_goals simp only [h4] at h
          · simp at h
          · have k7 := hdr_parseExpect h4
            obtain ⟨-, -, -, es7, t7, -⟩ := binv_parseExpect h4
            have k8 := hdr_parseBlock_props n _ _ _ _ _ _ h
            obtain ⟨-, -, -, es8, t8, -⟩ := binv_parseBlock_props n _ _ _ _ _ _ h
            refine ⟨es7 ++ es8, ?_, Or.inl ⟨h2, ?_⟩⟩
            · rw [t8, t7, t6]; simp
            · have k8' : a.head.map ConfBlock_t.header = a7.head.map ConfBlock_t.header := k8
              have k7' : a7.head.map ConfBlock_t.header = a6.head.map ConfBlock_t.header := k7
              rw [k8', k7', g6]
      · simp only [h2, if_false] at h
        by_cases h3 : tok1.type = LEX_TOKEN_OBRACE
        · simp only [h3, if_true] at h
          have g6 : (World.updBlock (fun b => { b with blockName := "" })
              { a4 with trace := a4.trace ++ [Event.lex st.lex.file tok1] }).head.map
                ConfBlock_t.header
              = w.head.map ConfBlock_t.header ++ [(tok.line, tok.semVal, "")] := by
            cases hh : a4.head using List.reverseRecOn with
            | nil => simp [hh] at g4
            | append_singleton l b _ =>
              rw [hh] at g4
              simp only [List.map_append, List.map_cons, List.map_nil] at g4
              obtain ⟨gl, gb⟩ := List.append_inj' g4 rfl
              simp only [List.cons.injEq, and_true, ConfBlock_t.header, Prod.mk.injEq] at gb
              simp [World.updBlock, hh, updLast_concat, ConfBlock_t.header, gl, gb.1, gb.2.1]
          have t6 : (World.updBlock (fun b => { b with blockName := "" })
              { a4 with trace := a4.trace ++ [Event.lex st.lex.file tok1] }).trace
              = w.trace ++ [Event.lex st.lex.file tok1] := by
            simp [t4]
          generalize World.updBlock _ _ = a6 at h g6 t6
          have k8 := hdr_parseBlock_props n _ _ _ _ _ _ h
          obtain ⟨-, -, -, es8, t8, -⟩ := binv_parseBlock_props n _ _ _ _ _ _ h
          refine ⟨es8, ?_, Or.inr ⟨h3, ?_⟩⟩
          · rw [t8, t6]; simp
          · have k8' : a.head.map ConfBlock_t.header = a6.head.map ConfBlock_t.header := k8
            rw [k8', g6]
        · simp [h3] at h

theorem declared_parseBlock (n : Nat) (st : parseState_t) (tok : _confToken_t) (w : World)
    (x : _confToken_t) (s : parseState_t) (a : World) (hw : DInv w)
    (hlast : ∃ pre, w.trace = pre ++ [Event.lex st.lex.file tok])
    (hty : tok.type = LEX_TOKEN_ID)
    (h : _parseBlock n st tok w = some (some x, s, a)) : DInv a := by
  obtain ⟨es, ht, hh⟩ := parseBlock_declares n st tok w x s a h
  obtain ⟨pre, hpre⟩ := hlast
  have hnew : ∀ nm, (((_confLex st.lex).1.type = LEX_TOKEN_ID ∧ nm = (_confLex st.lex).1.semVal) ∨
      ((_confLex st.lex).1.type = LEX_TOKEN_OBRACE ∧ nm = "")) →
      Declared a.trace (tok.line, tok.semVal, nm) := by
    intro nm hnm
    refine ⟨pre, es, st.lex.file, tok, (_confLex st.lex).1, ?_, hty, rfl, rfl, hnm⟩
    rw [ht, hpre]
    simp
  intro hd hm
  rcases hh with ⟨h1, h2⟩ | ⟨h1, h2⟩
  all_goals rw [h2] at hm
  all_goals rcases List.mem_append.mp hm with hm | hm
  · rw [ht]; exact (hw hd hm).mono _
  · simp only [List.mem_singleton] at hm
    rw [hm]
    exact hnew _ (Or.inl ⟨h1, rfl⟩)
  · rw [ht]; exact (hw hd hm).mono _
  · simp only [List.mem_singleton] at hm
    rw [hm]
    exact hnew _ (Or.inr ⟨h1, rfl⟩)

theorem declared_parseInclude (host : Host)
    (internal : parseState_t → World → Option (Bool × World))
    (hint : ∀ (ns : parseState_t) (w : World) (a : World),
      DInv w → internal ns w = some (true, a) → DInv a)
    (st : parseState_t) (tok : _confToken_t) (w : World) (x : _confToken_t)
    (s : parseState_t) (a : World) (hw : DInv w)
    (h : _parseInclude host internal st tok w = some (some x, s, a)) : DInv a := by
  unfold _parseInclude at h
  rcases h1 : _parseExpect st (some tok) LEX_TOKEN_STR w with ⟨_ | pathTok, st1, a1⟩
  all_goals simp only [h1] at h
  · simp at h
  · have g1 : DInv a1 := by
      obtain ⟨-, -, -, es, t1, -⟩ := binv_parseExpect h1
      exact hw.extend (hdr_parseExpect h1) ⟨es, t1⟩
    cases h2 : host.c32stombs pathTok.semVal with
    | none => simp [h2] at h
    | some mbPath =>
      simp only [h2] at h
      cases h3 : _confLexInit host mbPath with
      | none => simp [h3] at h
      | some lex =>
        simp only [h3] at h
        have g3 : DInv ({ (_confSetFileName (some mbPath) a1) with
            trace := (_confSetFileName (some mbPath) a1).trace ++ [Event.lexInit mbPath] }) :=
          g1.extend rfl ⟨[Event.lexInit mbPath], rfl⟩
        generalize ({ (_confSetFileName (some mbPath) a1) with
            trace := (_confSetFileName (some mbPath) a1).trace ++ [Event.lexInit mbPath] }
              : World) = a3 at h g3
        rcases h4 : internal ⟨lex, none⟩ a3 with _ | ⟨_ | _, a4⟩
        · simp [h4] at h
        all_goals simp only [h4, Option.some.injEq, Prod.mk.injEq] at h
        · simp at h
        · obtain ⟨-, -, rfl⟩ := h
          exact (hint _ _ _ g3 h4).extend rfl ⟨[], by simp [_confSetFileName]⟩

theorem declared_parseInternal_next
    (loop : parseState_t → _confToken_t → World → Option (Bool × World))
    (hloop : ∀ (st : parseState_t) (tok : _confToken_t) (w : World) (a : World),
      DInv w → (∃ pre, w.trace = pre ++ [Event.lex st.lex.file tok]) →
      loop st tok w = some (true, a) → DInv a)
    (st : parseState_t) (lt : Option _confToken_t) (w : World) (a : World) (hw : DInv w)
    (h : _parseInternal_next loop st lt w = some (true, a)) : DInv a := by
  unfold _parseInternal_next at h
  rcases h1 : _parseToken st lt w with ⟨_ | tok2, st2, a2⟩
  all_goals simp only [h1] at h
  · simp at h
  · obtain ⟨rfl, hf, -, -, -⟩ := parseToken_some h1
    refine hloop _ _ _ _ (DInv.extend (a := { w with trace := w.trace ++ [Event.lex st.lex.file tok2] })
      hw rfl ⟨[_], rfl⟩) ⟨w.trace, ?_⟩ h
    rw [hf]

theorem declared_parseInternal_loop (host : Host) (n : Nat) :
    ∀ (st : parseState_t) (tok : _confToken_t) (w : World) (a : World),
      DInv w → (∃ pre, w.trace = pre ++ [Event.lex st.lex.file tok]) →
      _parseInternal_loop host n st tok w = some (true, a) → DInv a := by
  induction n with
  | zero => intro st tok w a _ _ h; simp [_parseInternal_loop] at h
  | succ n ih =>
    intro st tok w a hw hlast h
    have hnext := declared_parseInternal_next (_parseInternal_loop host n) ih
    have hinc := declared_parseInclude host
      (fun newState w0 => _parseInternal_next (_parseInternal_loop host n) newState none w0)
      (fun ns v a hv hrun => hnext ns none v a hv hrun)
    rw [_parseInternal_loop] at h
    by_cases h0 : tok.type = LEX_TOKEN_NONE
    · simp only [h0, if_true, Option.some.injEq, Prod.mk.injEq] at h
      obtain ⟨-, rfl⟩ := h
      exact hw.extend rfl ⟨[_], rfl⟩
    · simp only [h0, if_false] at h
      by_cases h1 : tok.type = LEX_TOKEN_INCLUDE
      · simp only [h1, if_true] at h
        rcases h2 : _parseInclude host (fun newState w0 =>
            _parseInternal_next (_parseInternal_loop host n) newState none w0)
            st tok w with _ | ⟨_ | tok1, st1, a1⟩
        all_goals simp only [h2] at h
        · simp at h
        · simp at h
        · exact hnext _ _ _ _ (hinc st tok w _ _ _ hw h2) h
      · simp only [h1, if_false] at h
        by_cases h2 : tok.type = LEX_TOKEN_ID
        · simp only [h2, if_true] at h
          rcases h3 : _parseBlock n st tok w with _ | ⟨_ | tok1, st1, a1⟩
          all_goals simp only [h3] at h
          · simp at h
          · simp at h
          · exact hnext _ _ _ _ (declared_parseBlock n st tok w _ _ _ hw hlast h2 h3) h
        · simp [h2] at h

/-- Every block of a tree that `_confParse` returns was declared in the events
of the call. -/
theorem declared_confParse (host : Host) (n : Nat) (file : String) (w : World)
    (tree : List ConfBlock_t) (w' : World)
    (h : _confParse host n file w = some (some tree, w')) :
    ∀ b ∈ tree, Declared w'.trace b.header := by
  unfold _confParse at h
  cases h1 : _confLexInit host file with
  | none => simp [h1] at h
  | some lexState =>
    simp only [h1] at h
    rcases h2 : _parseInternal host n ⟨lexState, none⟩
        { w with trace := w.trace ++ [Event.lexInit file], head := [] } with _ | ⟨_ | _, a2⟩
    all_goals simp only [h2] at h
    · simp at h
    · simp at h
    · simp only [Option.some.injEq, Prod.mk.injEq] at h
      obtain ⟨rfl, rfl⟩ := h
      have hd : DInv a2 := declared_parseInternal_next _ (declared_parseInternal_loop host n)
        _ none _ _ (by intro hd hm; simp at hm) h2
      intro b hb
      exact hd _ (List.mem_map_of_mem _ hb)

theorem replay_append (chk : Frame → Diag → Bool) (es1 es2 : List Event) :
    ∀ stk, replay chk stk (es1 ++ es2)
      = (replay chk stk es1).bind fun stk1 => replay chk stk1 es2 := by
  induction es1 with
  | nil => intro stk; simp [replay]
  | cons e es ih =>
    intro stk
    simp only [List.cons_append, replay]
    cases replayStep chk stk e with
    | none => simp
    | some stk1 => simp [ih]

theorem Runs.ofTrace (stk : List Frame) {w a : World} (h : a.trace = w.trace) : Runs stk stk w a :=
  ⟨[], by simp [h], rfl⟩

theorem Runs.seq {s1 s2 s3 : List Frame} {w a b : World} (h1 : Runs s1 s2 w a)
    (h2 : Runs s2 s3 a b) : Runs s1 s3 w b := by
  obtain ⟨e1, t1, r1⟩ := h1
  obtain ⟨e2, t2, r2⟩ := h2
  exact ⟨e1 ++ e2, by rw [t2, t1, List.append_assoc], by simp [replay_append, r1, r2]⟩

theorem Runs.checked (fr : Frame) (stk : List Frame) (st : parseState_t) (tok : _confToken_t)
    (err : Nat) (ex : Extra) (w : World)
    (h : ∀ d, (_parseError st tok err ex w).trace = w.trace ++ [Event.error d] →
      allOk fr d = true) :
    Runs (fr :: stk) (fr :: stk) w (_parseError st tok err ex w) := by
  refine ⟨[_], rfl, ?_⟩
  simp [replay, replayStep, h _ rfl]

theorem Runs.unexpected (fr : Frame) (stk : List Frame) (st : parseState_t)
    (tok : _confToken_t) (ex : Extra) (w : World) (hf : w.fileName = some fr.file)
    (hl : fr.last = some tok) (hb : fr.before = st.lastToken)
    (hx : ∀ t, ex = Extra.tokType t → tok.type ≠ t) :
    Runs (fr :: stk) (fr :: stk) w (_parseError st tok PARSE_ERROR_UNEXPECTED_TOKEN ex w) := by
  apply Runs.checked
  intro d hd
  simp only [_parseError, if_true, List.append_cancel_left_eq, List.cons.injEq, and_true,
    Event.error.injEq] at hd
  subst hd
  cases ex with
  | tokType t =>
    simp [allOk, fileOk, unexpectedOk, overflowOk, ConfGetFileName, hf, hl, hb, hx t rfl]
  | null => simp [allOk, fileOk, unexpectedOk, overflowOk, ConfGetFileName, hf, hl, hb]
  | text s => simp [allOk, fileOk, unexpectedOk, overflowOk, ConfGetFileName, hf, hl, hb]

theorem Runs.overflow (fr : Frame) (stk : List Frame) (st : parseState_t)
    (tok : _confToken_t) (ex : Extra) (w : World) (hf : w.fileName = some fr.file)
    (hl : fr.last = some tok) (hlen : BLOCK_BUFSZ ≤ tok.semVal.length) :
    Runs (fr :: stk) (fr :: stk) w (_parseError st tok PARSE_ERROR_OVERFLOW ex w) := by
  apply Runs.checked
  intro d hd
  simp only [_parseError, PARSE_ERROR_OVERFLOW, PARSE_ERROR_UNEXPECTED_TOKEN, OfNat.ofNat_ne_one,
    if_false, if_true, List.append_cancel_left_eq, List.cons.injEq, and_true,
    Event.error.injEq] at hd
  subst hd
  simp [allOk, fileOk, unexpectedOk, overflowOk, ConfGetFileName, hf, hl, hlen]

theorem Runs.tooMany (fr : Frame) (stk : List Frame) (st : parseState_t)
    (tok : _confToken_t) (ex : Extra) (w : World) (hf : w.fileName = some fr.file) :
    Runs (fr :: stk) (fr :: stk) w (_parseError st tok PARSE_ERROR_TOO_MANY_PROPS ex w) := by
  apply Runs.checked
  intro d hd
  simp only [_parseError, PARSE_ERROR_OVERFLOW, PARSE_ERROR_UNEXPECTED_TOKEN,
    PARSE_ERROR_TOO_MANY_PROPS, OfNat.ofNat_ne_one, if_false, if_true,
    List.append_cancel_left_eq, List.cons.injEq, and_true, Event.error.injEq] at hd
  simp at hd
  subst hd
  simp [allOk, fileOk, unexpectedOk, overflowOk, ConfGetFileName, hf]

theorem Runs.internal (fr : Frame) (stk : List Frame) (st : parseState_t)
    (tok : _confToken_t) (ex : Extra) (w : World) (hf : w.fileName = some fr.file) :
    Runs (fr :: stk) (fr :: stk) w (_parseError st tok PARSE_ERROR_INTERNAL ex w) := by
  apply Runs.checked
  intro d hd
  simp only [_parseError, PARSE_ERROR_OVERFLOW, PARSE_ERROR_UNEXPECTED_TOKEN,
    PARSE_ERROR_TOO_MANY_PROPS, PARSE_ERROR_INTERNAL, OfNat.ofNat_ne_one, if_false, if_true,
    List.append_cancel_left_eq, List.cons.injEq, and_true, Event.error.injEq] at hd
  simp at hd
  subst hd
  simp [allOk, fileOk, unexpectedOk, overflowOk, ConfGetFileName, hf]

theorem Runs.lex (fr : Frame) (stk : List Frame) (w : World) (t : _confToken_t) :
    Runs (fr :: stk) (⟨fr.file, fr.last, some t⟩ :: stk) w
      { w with trace := w.trace ++ [Event.lex fr.file t] } :=
  ⟨[_], rfl, by simp [replay, replayStep]⟩

theorem After.fail {fr : Frame} {stk stk1 : List Frame} {w a : World} {s : parseState_t}
    (h : Runs (fr :: stk) stk1 w a) : After fr stk w none s a :=
  ⟨stk1, h, fun t ht => by simp at ht⟩

theorem After.chain {fr fr1 : Frame} {stk : List Frame} {w a b : World}
    {x : Option _confToken_t} {s : parseState_t}
    (h1 : Runs (fr :: stk) (fr1 :: stk) w a) (h2 : After fr1 stk a x s b) :
    After fr stk w x s b := by
  obtain ⟨stk1, r, hx⟩ := h2
  exact ⟨stk1, h1.seq r, hx⟩

/-- The lexer in front after `_parseToken`, and what it tracks. -/
theorem follows_parseToken {fr : Frame} {k : List Frame} {st s : parseState_t}
    {lt x : Option _confToken_t} {w a : World}
    (hfile : fr.file = st.lex.file) (hlast : fr.last = lt) (hname : w.fileName = some fr.file)
    (h : _parseToken st lt w = (x, s, a)) :
    ∃ fr1, Runs (fr :: k) (fr1 :: k) w a ∧ fr1.file = fr.file ∧ a.fileName = w.fileName ∧
      ∀ t, x = some t → Tracks fr1 s t a := by
  unfold _parseToken at h
  simp only [] at h
  refine ⟨⟨fr.file, fr.last, some (_confLex st.lex).1⟩, ?_, rfl, ?_, ?_⟩
  · split_ifs at h
    all_goals simp only [Prod.mk.injEq] at h
    all_goals obtain ⟨-, -, rfl⟩ := h
    all_goals rw [← hfile]
    all_goals exact Runs.lex fr k w _
  · split_ifs at h
    all_goals simp only [Prod.mk.injEq] at h
    all_goals obtain ⟨-, -, rfl⟩ := h
    all_goals rfl
  · intro t ht
    split_ifs at h
    all_goals simp only [Prod.mk.injEq] at h
    all_goals obtain ⟨rfl, rfl, rfl⟩ := h
    · simp at ht
    · simp only [Option.some.injEq] at ht
      subst ht
      exact ⟨by simpa using hfile.trans (confLex_file _).symm, hlast, rfl, hname⟩

theorem follows_parseExpect {fr : Frame} {k : List Frame} {st s : parseState_t}
    {lt x : Option _confToken_t} {ty : TokType} {w a : World}
    (hfile : fr.file = st.lex.file) (hlast : fr.last = lt) (hname : w.fileName = some fr.file)
    (h : _parseExpect st lt ty w = (x, s, a)) : After fr k w x s a := by
  unfold _parseExpect at h
  rcases h1 : _parseToken st lt w with ⟨_ | tok, s1, a1⟩
  all_goals obtain ⟨fr1, g1, gf, gn, gt⟩ := follows_parseToken (k := k) hfile hlast hname h1
  all_goals simp only [h1] at h
  · simp only [Prod.mk.injEq] at h
    obtain ⟨rfl, rfl, rfl⟩ := h
    exact After.fail g1
  · obtain ⟨t1, t2, t3, t4⟩ := gt tok rfl
    split_ifs at h with h2
    all_goals simp only [Prod.mk.injEq] at h
    all_goals obtain ⟨rfl, rfl, rfl⟩ := h
    · exact After.fail (g1.seq (Runs.unexpected fr1 k _ tok _ _ t4 t3 t2
        (fun t ht => by simp only [Extra.tokType.injEq] at ht; subst ht; exact h2)))
    · exact ⟨_, g1, fun t ht => ⟨fr1, rfl, by
        simp only [Option.some.injEq] at ht; subst ht; exact ⟨t1, t2, t3, t4⟩⟩⟩

theorem Tracks.ofWorld {fr : Frame} {st : parseState_t} {tok : _confToken_t} {w a : World}
    (h : Tracks fr st tok w) (hn : a.fileName = w.fileName) : Tracks fr st tok a :=
  ⟨h.1, h.2.1, h.2.2.1, hn.trans h.2.2.2⟩

theorem follows_parseBlock_value {fr : Frame} {k : List Frame} {st : parseState_t}
    {tok : _confToken_t} {x : Bool} {w a : World} (ht : Tracks fr st tok w)
    (h : _parseBlock_value st tok w = (x, a)) :
    Runs (fr :: k) (fr :: k) w a ∧ a.fileName = w.fileName := by
  obtain ⟨t1, t2, t3, t4⟩ := ht
  unfold _parseBlock_value at h
  simp only [] at h
  split_ifs at h with h1 h2 h3 h4 h5 h6 h7 h8
  all_goals simp only [Prod.mk.injEq] at h
  all_goals obtain ⟨-, rfl⟩ := h
  all_goals refine ⟨?_, rfl⟩
  all_goals first
    | exact Runs.ofTrace _ rfl
    | exact (Runs.ofTrace (a := World.updProp _ w) _ rfl).seq
        (Runs.overflow fr k st tok _ _ t4 t3 (by simpa [c32lcpy] using ‹_ ≥ BLOCK_BUFSZ›))
    | exact (Runs.ofTrace (a := World.updProp _ (World.updProp _ w)) _ rfl).seq
        (Runs.tooMany fr k st tok _ _ t4)
    | exact Runs.unexpected fr k st tok _ _ t4 t3 t2 (fun t ht => by simp at ht)

theorem follows_parseBlock_values (n : Nat) :
    ∀ (fr : Frame) (stk : List Frame) (st : parseState_t) (tok : _confToken_t) (w : World)
      (x : Option _confToken_t) (s : parseState_t) (a : World), Tracks fr st tok w →
      _parseBlock_values n st tok w = some (x, s, a) → After fr stk w x s a := by
  induction n with
  | zero => intro fr stk st tok w x s a _ h; simp [_parseBlock_values] at h
  | succ n ih =>
    intro fr stk st tok w x s a ht h
    rw [_parseBlock_values] at h
    rcases h1 : _parseToken st (some tok) w with ⟨_ | tok1, st1, a1⟩
    all_goals obtain ⟨fr1, g1, -, -, gt⟩ :=
      follows_parseToken (k := stk) ht.1 ht.2.2.1 ht.2.2.2 h1
    all_goals simp only [h1] at h
    · simp only [Option.some.injEq, Prod.mk.injEq] at h
      obtain ⟨rfl, rfl, rfl⟩ := h
      exact After.fail g1
    · have k1 := gt tok1 rfl
      rcases h2 : _parseBlock_value st1 tok1 a1 with ⟨_ | _, a2⟩
      all_goals obtain ⟨g2, n2⟩ := follows_parseBlock_value (k := stk) k1 h2
      all_goals simp only [h2] at h
      · simp only [Option.some.injEq, Prod.mk.injEq] at h
        obtain ⟨rfl, rfl, rfl⟩ := h
        exact After.fail (g1.seq g2)
      · have k2 := k1.ofWorld n2
        rcases h3 : _parseToken st1 (some tok1) a2 with ⟨_ | tok2, st2, a3⟩
        all_goals obtain ⟨fr3, g3, -, -, gt3⟩ :=
          follows_parseToken (k := stk) k2.1 k2.2.2.1 k2.2.2.2 h3
        all_goals simp only [h3] at h
        · simp only [Option.some.injEq, Prod.mk.injEq] at h
          obtain ⟨rfl, rfl, rfl⟩ := h
          exact After.fail ((g1.seq g2).seq g3)
        · have k3 := gt3 tok2 rfl
          split_ifs at h
          · exact After.chain ((g1.seq g2).seq g3) (ih _ _ _ _ _ _ _ _ k3 h)
          all_goals simp only [Option.some.injEq, Prod.mk.injEq] at h
          all_goals obtain ⟨rfl, rfl, rfl⟩ := h
          · exact ⟨_, (g1.seq g2).seq g3, fun t ht => ⟨fr3, rfl, by
              simp only [Option.some.injEq] at ht; subst ht; exact k3⟩⟩
          · exact After.fail (((g1.seq g2).seq g3).seq
              (Runs.unexpected fr3 stk _ tok2 _ _ k3.2.2.2 k3.2.2.1 k3.2.1
                (fun t ht => by simp at ht)))

theorem follows_parseBlock_props (n : Nat) :
    ∀ (fr : Frame) (stk : List Frame) (st : parseState_t) (tok : _confToken_t) (w : World)
      (x : Option _confToken_t) (s : parseState_t) (a : World), Tracks fr st tok w →
      _parseBlock_props n st tok w = some (x, s, a) → After fr stk w x s a := by
  induction n with
  | zero => intro fr stk st tok w x s a _ h; simp [_parseBlock_props] at h
  | succ n ih =>
    intro fr stk st tok w x s a ht h
    rw [_parseBlock_props] at h
    rcases h1 : _parseToken st (some tok) w with ⟨_ | tok1, st1, a1⟩
    all_goals obtain ⟨fr1, g1, -, -, gt⟩ :=
      follows_parseToken (k := stk) ht.1 ht.2.2.1 ht.2.2.2 h1
    all_goals simp only [h1] at h
    · simp only [Option.some.injEq, Prod.mk.injEq] at h
      obtain ⟨rfl, rfl, rfl⟩ := h
      exact After.fail g1
    · have k1 := gt tok1 rfl
      by_cases h2 : tok1.type = LEX_TOKEN_EBRACE
      · simp only [h2, if_true, Option.some.injEq, Prod.mk.injEq] at h
        obtain ⟨rfl, rfl, rfl⟩ := h
        exact ⟨_, g1, fun t ht => ⟨fr1, rfl, by
          simp only [Option.some.injEq] at ht; subst ht; exact k1⟩⟩
      · simp only [h2, if_false] at h
        by_cases h3 : tok1.type = LEX_TOKEN_ID
        · simp only [h3, if_true] at h
          have g4 : Runs (fr :: stk) (fr1 :: stk) w (World.updProp
              (fun p => { p with name := (c32lcpy tok1.semVal BLOCK_BUFSZ).1 })
              (World.updProp (fun p => { p with lineNo := tok1.line })
                (World.updBlock (fun b => { b with props := b.props ++
                  [⟨0, "", List.replicate MAX_PROPVAR none, 0⟩] }) a1))) :=
            g1.seq (Runs.ofTrace _ rfl)
          have k4 : Tracks fr1 st1 tok1 (World.updProp
              (fun p => { p with name := (c32lcpy tok1.semVal BLOCK_BUFSZ).1 })
              (World.updProp (fun p => { p with lineNo := tok1.line })
                (World.updBlock (fun b => { b with props := b.props ++
                  [⟨0, "", List.replicate MAX_PROPVAR none, 0⟩] }) a1))) := k1.ofWorld rfl
          generalize World.updProp _ (World.updProp _ (World.updBlock _ a1)) = a4 at h g4 k4
          by_cases h4 : (c32lcpy tok1.semVal BLOCK_BUFSZ).2 ≥ BLOCK_BUFSZ
          · simp only [h4, if_true, Option.some.injEq, Prod.mk.injEq] at h
            obtain ⟨rfl, rfl, rfl⟩ := h
            exact After.fail (g4.seq (Runs.overflow fr1 stk _ tok1 _ _ k4.2.2.2 k4.2.2.1
              (by simpa [c32lcpy] using h4)))
          · simp only [h4, if_false] at h
            have g5 : Runs (fr :: stk) (fr1 :: stk) w
                (World.updProp (fun p => { p with nextVal := 0 }) a4) :=
              g4.seq (Runs.ofTrace _ rfl)
            have k5 : Tracks fr1 st1 tok1 (World.updProp (fun p => { p with nextVal := 0 }) a4) :=
              k4.ofWorld rfl
            generalize World.updProp _ a4 = a5 at h g5 k5
            rcases h5 : _parseExpect st1 (some tok1) LEX_TOKEN_COLON a5 with ⟨_ | tok2, st2, a6⟩
            all_goals have g6 := After.chain g5 (follows_parseExpect (k := stk) k5.1 k5.2.2.1 k5.2.2.2 h5)
            all_goals simp only [h5] at h
            · simp only [Option.some.injEq, Prod.mk.injEq] at h
              obtain ⟨rfl, rfl, rfl⟩ := h
              exact g6
            · obtain ⟨stk6, r6, hx6⟩ := g6
              obtain ⟨fr6, rfl, k6⟩ := hx6 tok2 rfl
              rcases h6 : _parseBlock_values n st2 tok2 a6 with _ | ⟨_ | tok3, st3, a7⟩
              · simp [h6] at h
              all_goals have g7 := After.chain r6 (follows_parseBlock_values n _ stk _ _ _ _ _ _ k6 h6)
              all_goals simp only [h6] at h
              · simp only [Option.some.injEq, Prod.mk.injEq] at h
                obtain ⟨rfl, rfl, rfl⟩ := h
                exact g7
              · obtain ⟨stk7, r7, hx7⟩ := g7
                obtain ⟨fr7, rfl, k7⟩ := hx7 tok3 rfl
                exact After.chain r7 (ih _ _ _ _ _ _ _ _ k7 h)
        · simp only [h3, if_false] at h
          exact After.chain g1 (ih _ _ _ _ _ _ _ _ k1 h)

theorem follows_parseBlock (n : Nat) (fr : Frame) (stk : List Frame) (st : parseState_t)
    (tok : _confToken_t) (w : World) (x : Option _confToken_t) (s : parseState_t) (a : World)
    (ht : Tracks fr st tok w) (h : _parseBlock n st tok w = some (x, s, a)) :
    After fr stk w x s a := by
  unfold _parseBlock at h
  simp only [] at h
  have g4 : Runs (fr :: stk) (fr :: stk) w (World.updBlock
      (fun b => { b with blockType := (c32lcpy tok.semVal 256).1 })
      (World.updBlock (fun b => { b with props := [] })
        (World.updBlock (fun b => { b with lineNo := tok.line })
          { w with head := w.head ++ [⟨0, "", "", []⟩] }))) := Runs.ofTrace _ rfl
  have k4 : Tracks fr st tok (World.updBlock
      (fun b => { b with blockType := (c32lcpy tok.semVal 256).1 })
      (World.updBlock (fun b => { b with props := [] })
        (World.updBlock (fun b => { b with lineNo := tok.line })
          { w with head := w.head ++ [⟨0, "", "", []⟩] }))) := ht.ofWorld rfl
  generalize World.updBlock _ (World.updBlock _ (World.updBlock _ _)) = a4 at h g4 k4
  by_cases h0 : (c32lcpy tok.semVal 256).2 ≥ 256
  · simp only [h0, if_true, Option.some.injEq, Prod.mk.injEq] at h
    obtain ⟨rfl, rfl, rfl⟩ := h
    exact After.fail (g4.seq (Runs.overflow fr stk _ tok _ _ k4.2.2.2 k4.2.2.1
      (by simpa [c32lcpy, BLOCK_BUFSZ] using h0)))
  · simp only [h0, if_false] at h
    rcases h1 : _parseToken st (some tok) a4 with ⟨_ | tok1, st1, a5⟩
    all_goals obtain ⟨fr1, g1, -, -, gt⟩ := follows_parseToken (k := stk) k4.1 k4.2.2.1 k4.2.2.2 h1
    all_goals have g5 := g4.seq g1
    all_goals simp only [h1] at h
    · simp only [Option.some.injEq, Prod.mk.injEq] at h
      obtain ⟨rfl, rfl, rfl⟩ := h
      exact After.fail g5
    · have k5 := gt tok1 rfl
      by_cases h2 : tok1.type = LEX_TOKEN_ID
      · simp only [h2, if_true] at h
        have g6 : Runs (fr :: stk) (fr1 :: stk) w (World.updBlock
            (fun b => { b with blockName := (c32lcpy tok1.semVal BLOCK_BUFSZ).1 }) a5) :=
          g5.seq (Runs.ofTrace _ rfl)
        have k6 : Tracks fr1 st1 tok1 (World.updBlock
            (fun b => { b with blockName := (c32lcpy tok1.semVal BLOCK_BUFSZ).1 }) a5) :=
          k5.ofWorld rfl
        generalize World.updBlock _ a5 = a6 at h g6 k6
        by_cases h3 : (c32lcpy tok1.semVal BLOCK_BUFSZ).2 ≥ BLOCK_BUFSZ
        · simp only [h3, if_true, Option.some.injEq, Prod.mk.injEq] at h
          obtain ⟨rfl, rfl, rfl⟩ := h
          exact After.fail (g6.seq (Runs.overflow fr1 stk _ tok1 _ _ k6.2.2.2 k6.2.2.1
            (by simpa [c32lcpy] using h3)))
        · simp only [h3, if_false] at h
          rcases h4 : _parseExpect st1 (some tok1) LEX_TOKEN_OBRACE a6 with ⟨_ | tok2, st2, a7⟩
          all_goals have g7 := After.chain g6 (follows_parseExpect (k := stk) k6.1 k6.2.2.1 k6.2.2.2 h4)
          all_goals simp only [h4] at h
          · simp only [Option.some.injEq, Prod.mk.injEq] at h
            obtain ⟨rfl, rfl, rfl⟩ := h
            exact g7
          · obtain ⟨stk7, r7, hx7⟩ := g7
            obtain ⟨fr7, rfl, k7⟩ := hx7 tok2 rfl
            exact After.chain r7 (follows_parseBlock_props n _ _ _ _ _ _ _ _ k7 h)
      · simp only [h2, if_false] at h
        by_cases h3 : tok1.type = LEX_TOKEN_OBRACE
        · simp only [h3, if_true] at h
          have g6 : Runs (fr :: stk) (fr1 :: stk) w (World.updBlock
              (fun b => { b with blockName := "" }) a5) := g5.seq (Runs.ofTrace _ rfl)
          have k6 : Tracks fr1 st1 tok1 (World.updBlock
              (fun b => { b with blockName := "" }) a5) := k5.ofWorld rfl
          generalize World.updBlock _ a5 = a6 at h g6 k6
          exact After.chain g6 (follows_parseBlock_props n _ _ _ _ _ _ _ _ k6 h)
        · simp only [h3, if_false, Option.some.injEq, Prod.mk.injEq] at h
          obtain ⟨rfl, rfl, rfl⟩ := h
          exact After.fail (g5.seq (Runs.unexpected fr1 stk _ tok1 _ _ k5.2.2.2 k5.2.2.1 k5.2.1
            (fun t ht => by simp at ht)))

theorem Runs.lexInit (stk : List Frame) (w : World) (f : String) :
    Runs stk (⟨f, none, none⟩ :: stk) w { w with trace := w.trace ++ [Event.lexInit f] } :=
  ⟨[_], rfl, by simp [replay, replayStep]⟩

theorem confLexInit_file {host : Host} {f : String} {lex : lexState_t}
    (h : _confLexInit host f = some lex) : lex.file = f := by
  unfold _confLexInit at h
  cases hf : host.files f with
  | none => simp [hf] at h
  | some p =>
    simp only [hf, Option.map_some', Option.some.injEq] at h
    rw [← h]

theorem follows_parseInclude (host : Host)
    (internal : parseState_t → World → Option (Bool × World))
    (hint : ∀ (ns : parseState_t) (w : World) (r : Bool) (a : World) (stk : List Frame),
      ns.lastToken = none → w.fileName = some ns.lex.file → internal ns w = some (r, a) →
      Done (⟨ns.lex.file, none, none⟩ :: stk) stk w r a)
    (fr : Frame) (stk : List Frame) (st : parseState_t) (tok : _confToken_t) (w : World)
    (x : Option _confToken_t) (s : parseState_t) (a : World) (ht : Tracks fr st tok w)
    (h : _parseInclude host internal st tok w = some (x, s, a)) : After fr stk w x s a := by
  unfold _parseInclude at h
  rcases h1 : _parseExpect st (some tok) LEX_TOKEN_STR w with ⟨_ | pathTok, st1, a1⟩
  all_goals have g1 := follows_parseExpect (k := stk) ht.1 ht.2.2.1 ht.2.2.2 h1
  all_goals simp only [h1] at h
  · simp only [Option.some.injEq, Prod.mk.injEq] at h
    obtain ⟨rfl, rfl, rfl⟩ := h
    exact g1
  · obtain ⟨stk1, r1, hx1⟩ := g1
    obtain ⟨fr1, rfl, k1⟩ := hx1 pathTok rfl
    cases h2 : host.c32stombs pathTok.semVal with
    | none =>
      simp only [h2, Option.some.injEq, Prod.mk.injEq] at h
      obtain ⟨rfl, rfl, rfl⟩ := h
      exact After.fail (r1.seq (Runs.internal fr1 stk _ pathTok _ _ k1.2.2.2))
    | some mbPath =>
      simp only [h2] at h
      cases h3 : _confLexInit host mbPath with
      | none =>
        simp only [h3, Option.some.injEq, Prod.mk.injEq] at h
        obtain ⟨rfl, rfl, rfl⟩ := h
        exact After.fail (r1.seq (Runs.ofTrace _ rfl))
      | some lex =>
        simp only [h3] at h
        have hlf := confLexInit_file h3
        have g3 : Runs (fr :: stk) (⟨mbPath, none, none⟩ :: fr1 :: stk) w
            ({ (_confSetFileName (some mbPath) a1) with
              trace := (_confSetFileName (some mbPath) a1).trace ++ [Event.lexInit mbPath] }) :=
          r1.seq ((Runs.ofTrace (a := _confSetFileName (some mbPath) a1) _ rfl).seq
            (Runs.lexInit _ _ _))
        have n3 : ({ (_confSetFileName (some mbPath) a1) with
              trace := (_confSetFileName (some mbPath) a1).trace ++ [Event.lexInit mbPath] }
                : World).fileName = some mbPath := rfl
        generalize ({ (_confSetFileName (some mbPath) a1) with
            trace := (_confSetFileName (some mbPath) a1).trace ++ [Event.lexInit mbPath] }
              : World) = a3 at h g3 n3
        rcases h4 : internal ⟨lex, none⟩ a3 with _ | ⟨_ | _, a4⟩
        · simp [h4] at h
        all_goals obtain ⟨stk4, r4, hx4⟩ := hint ⟨lex, none⟩ a3 _ a4 (fr1 :: stk) rfl (by simpa [hlf] using n3) h4
        all_goals simp only [hlf] at r4
        all_goals simp only [h4, Option.some.injEq, Prod.mk.injEq] at h
        all_goals obtain ⟨rfl, rfl, rfl⟩ := h
        · exact After.fail (g3.seq r4)
        · obtain ⟨rfl, n4⟩ := hx4 rfl
          refine ⟨_, (g3.seq r4).seq (Runs.ofTrace (a := _confSetFileName (ConfGetFileName a1) a4)
            _ rfl), fun t ht => ⟨fr1, rfl, ?_⟩⟩
          simp only [Option.some.injEq] at ht
          subst ht
          exact ⟨k1.1, k1.2.1, k1.2.2.1, by simpa [_confSetFileName, ConfGetFileName] using k1.2.2.2⟩

theorem Done.behind {s0 s1 stk : List Frame} {w a b : World} {r : Bool}
    (h1 : Runs s0 s1 w a) (hn : a.fileName = w.fileName) (h2 : Done s1 stk a r b) :
    Done s0 stk w r b := by
  obtain ⟨s2, r2, hx⟩ := h2
  exact ⟨s2, h1.seq r2, fun hr => ⟨(hx hr).1, (hx hr).2.trans hn⟩⟩

theorem Done.failed {s0 s1 stk : List Frame} {w a : World} (h : Runs s0 s1 w a) :
    Done s0 stk w false a :=
  ⟨s1, h, fun hr => by simp at hr⟩

theorem follows_parseInternal_next
    (loop : parseState_t → _confToken_t → World → Option (Bool × World))
    (hloop : ∀ (fr : Frame) (stk : List Frame) (st : parseState_t) (tok : _confToken_t)
      (w : World) (r : Bool) (a : World),
      Tracks fr st tok w → loop st tok w = some (r, a) → Done (fr :: stk) stk w r a)
    (fr : Frame) (stk : List Frame) (st : parseState_t) (lt : Option _confToken_t) (w : World)
    (r : Bool) (a : World) (hfile : fr.file = st.lex.file) (hlast : fr.last = lt)
    (hname : w.fileName = some fr.file)
    (h : _parseInternal_next loop st lt w = some (r, a)) : Done (fr :: stk) stk w r a := by
  unfold _parseInternal_next at h
  rcases h1 : _parseToken st lt w with ⟨_ | tok2, st2, a2⟩
  all_goals obtain ⟨fr1, g1, -, gn, gt⟩ := follows_parseToken (k := stk) hfile hlast hname h1
  all_goals simp only [h1] at h
  · simp only [Option.some.injEq, Prod.mk.injEq] at h
    obtain ⟨rfl, rfl⟩ := h
    exact Done.failed g1
  · exact Done.behind g1 gn (hloop _ _ _ _ _ _ _ (gt tok2 rfl) h)

theorem Runs.lexDestroy (fr : Frame) (stk : List Frame) (w : World) :
    Runs (fr :: stk) stk w { w with trace := w.trace ++ [Event.lexDestroy fr.file] } :=
  ⟨[_], rfl, by simp [replay, replayStep]⟩

theorem fileName_parseBlock (n : Nat) (st : parseState_t) (tok : _confToken_t) (w : World)
    (x : Option _confToken_t) (s : parseState_t) (a : World)
    (h : _parseBlock n st tok w = some (x, s, a)) : a.fileName = w.fileName := by
  unfold _parseBlock at h
  simp only [] at h
  have g4 : (World.updBlock
      (fun b => { b with blockType := (c32lcpy tok.semVal 256).1 })
      (World.updBlock (fun b => { b with props := [] })
        (World.updBlock (fun b => { b with lineNo := tok.line })
          { w with head := w.head ++ [⟨0, "", "", []⟩] }))).fileName = w.fileName := rfl
  generalize World.updBlock _ (World.updBlock _ (World.updBlock _ _)) = a4 at h g4
  by_cases h0 : (c32lcpy tok.semVal 256).2 ≥ 256
  · simp only [h0, if_true, Option.some.injEq, Prod.mk.injEq] at h
    obtain ⟨rfl, rfl, rfl⟩ := h
    exact g4
  · simp only [h0, if_false] at h
    rcases h1 : _parseToken st (some tok) a4 with ⟨_ | tok1, st1, a5⟩
    all_goals have g5 := (binv_parseToken h1).1.trans g4
    all_goals simp only [h1] at h
    · simp only [Option.some.injEq, Prod.mk.injEq] at h
      obtain ⟨rfl, rfl, rfl⟩ := h
      exact g5
    · by_cases h2 : tok1.type = LEX_TOKEN_ID
      · simp only [h2, if_true] at h
        have g6 : (World.updBlock
            (fun b => { b with blockName := (c32lcpy tok1.semVal BLOCK_BUFSZ).1 }) a5).fileName
            = w.fileName := g5
        generalize World.updBlock _ a5 = a6 at h g6
        by_cases h3 : (c32lcpy tok1.semVal BLOCK_BUFSZ).2 ≥ BLOCK_BUFSZ
        · simp only [h3, if_true, Option.some.injEq, Prod.mk.injEq] at h
          obtain ⟨rfl, rfl, rfl⟩ := h
          exact g6
        · simp only [h3, if_false] at h
          rcases h4 : _parseExpect st1 (some tok1) LEX_TOKEN_OBRACE a6 with ⟨_ | tok2, st2, a7⟩
          all_goals have g7 := (binv_parseExpect h4).1.trans g6
          all_goals simp only [h4] at h
          · simp only [Option.some.injEq, Prod.mk.injEq] at h
            obtain ⟨rfl, rfl, rfl⟩ := h
            exact g7
          · exact (binv_parseBlock_props n _ _ _ _ _ _ h).1.trans g7
      · simp only [h2, if_false] at h
        by_cases h3 : tok1.type = LEX_TOKEN_OBRACE
        · simp only [h3, if_true] at h
          have g6 : (World.updBlock (fun b => { b with blockName := "" }) a5).fileName
              = w.fileName := g5
          generalize World.updBlock _ a5 = a6 at h g6
          exact (binv_parseBlock_props n _ _ _ _ _ _ h).1.trans g6
        · simp only [h3, if_false, Option.some.injEq, Prod.mk.injEq] at h
          obtain ⟨rfl, rfl, rfl⟩ := h
          exact g5

theorem fileName_parseInclude (host : Host)
    (internal : parseState_t → World → Option (Bool × World))
    (st : parseState_t) (tok : _confToken_t) (w : World) (x : _confToken_t)
    (s : parseState_t) (a : World)
    (h : _parseInclude host internal st tok w = some (some x, s, a)) :
    a.fileName = w.fileName := by
  unfold _parseInclude at h
  rcases h1 : _parseExpect st (some tok) LEX_TOKEN_STR w with ⟨_ | pathTok, st1, a1⟩
  all_goals have g1 := (binv_parseExpect h1).1
  all_goals simp only [h1] at h
  · simp at h
  · cases h2 : host.c32stombs pathTok.semVal with
    | none => simp [h2] at h
    | some mbPath =>
      simp only [h2] at h
      cases h3 : _confLexInit host mbPath with
      | none => simp [h3] at h
      | some lex =>
        simp only [h3] at h
        generalize ({ (_confSetFileName (some mbPath) a1) with
            trace := (_confSetFileName (some mbPath) a1).trace ++ [Event.lexInit mbPath] }
              : World) = a3 at h
        rcases h4 : internal ⟨lex, none⟩ a3 with _ | ⟨_ | _, a4⟩
        all_goals simp only [h4, Option.some.injEq, Prod.mk.injEq] at h
        · simp at h
        · simp at h
        · obtain ⟨-, -, rfl⟩ := h
          exact g1

theorem follows_parseInternal_loop (host : Host) (n : Nat) :
    ∀ (fr : Frame) (stk : List Frame) (st : parseState_t) (tok : _confToken_t)
      (w : World) (r : Bool) (a : World),
      Tracks fr st tok w → _parseInternal_loop host n st tok w = some (r, a) →
      Done (fr :: stk) stk w r a := by
  induction n with
  | zero => intro fr stk st tok w r a _ h; simp [_parseInternal_loop] at h
  | succ n ih =>
    intro fr stk st tok w r a ht h
    have hnext := follows_parseInternal_next (_parseInternal_loop host n) ih
    have hinc := follows_parseInclude host
      (fun newState w0 => _parseInternal_next (_parseInternal_loop host n) newState none w0)
      (fun ns v r a stk _ hn hrun => hnext ⟨ns.lex.file, none, none⟩ stk ns none v r a rfl rfl
        hn hrun)
    rw [_parseInternal_loop] at h
    by_cases h0 : tok.type = LEX_TOKEN_NONE
    · simp only [h0, if_true, Option.some.injEq, Prod.mk.injEq] at h
      obtain ⟨rfl, rfl⟩ := h
      refine ⟨stk, ?_, fun _ => ⟨rfl, rfl⟩⟩
      rw [← ht.1]
      exact Runs.lexDestroy fr stk w
    · simp only [h0, if_false] at h
      by_cases h1 : tok.type = LEX_TOKEN_INCLUDE
      · simp only [h1, if_true] at h
        rcases h2 : _parseInclude host (fun newState w0 =>
            _parseInternal_next (_parseInternal_loop host n) newState none w0)
            st tok w with _ | ⟨_ | tok1, st1, a1⟩
        · simp [h2] at h
        all_goals obtain ⟨stk1, r1, hx1⟩ := hinc fr stk st tok w _ _ _ ht h2
        all_goals simp only [h2] at h
        · simp only [Option.some.injEq, Prod.mk.injEq] at h
          obtain ⟨rfl, rfl⟩ := h
          exact Done.failed r1
        · obtain ⟨fr1, rfl, k1⟩ := hx1 tok1 rfl
          exact Done.behind r1 (fileName_parseInclude host _ st tok w _ _ _ h2)
            (hnext fr1 stk _ _ _ _ _ k1.1 k1.2.2.1 k1.2.2.2 h)
      · simp only [h1, if_false] at h
        by_cases h2 : tok.type = LEX_TOKEN_ID
        · simp only [h2, if_true] at h
          rcases h3 : _parseBlock n st tok w with _ | ⟨_ | tok1, st1, a1⟩
          · simp [h3] at h
          all_goals obtain ⟨stk1, r1, hx1⟩ := follows_parseBlock n fr stk st tok w _ _ _ ht h3
          all_goals simp only [h3] at h
          · simp only [Option.some.injEq, Prod.mk.injEq] at h
            obtain ⟨rfl, rfl⟩ := h
            exact Done.failed r1
          · obtain ⟨fr1, rfl, k1⟩ := hx1 tok1 rfl
            exact Done.behind r1 (fileName_parseBlock n st tok w _ _ _ h3)
              (hnext fr1 stk _ _ _ _ _ k1.1 k1.2.2.1 k1.2.2.2 h)
        · simp only [h2, if_false, Option.some.injEq, Prod.mk.injEq] at h
          obtain ⟨rfl, rfl⟩ := h
          exact Done.failed (Runs.unexpected fr stk _ tok _ _ ht.2.2.2 ht.2.2.1 ht.2.1
            (fun t ht => by simp at ht))

/-- The events of a call of `ConfInit` fit the lexers: each token comes from
the lexer created last among those alive, each message passes the checks
against that lexer, and after a call that returned a tree every lexer created
is destroyed and the current file name is the file of the call. -/
theorem follows_confInit (host : Host) (n : Nat) (file : String) (w : World)
    (r : Option (List ConfBlock_t)) (w' : World) (stk : List Frame)
    (h : ConfInit host n file w = some (r, w')) :
    ∃ es stk1, w'.trace = w.trace ++ es ∧ replay allOk stk es = some stk1 ∧
      (r.isSome → stk1 = stk ∧ ConfGetFileName w' = some file) := by
  unfold ConfInit _confParse at h
  cases h1 : _confLexInit host file with
  | none =>
    simp only [h1, Option.some.injEq, Prod.mk.injEq] at h
    obtain ⟨rfl, rfl⟩ := h
    exact ⟨[], stk, by simp [_confSetFileName], rfl, fun hr => by simp at hr⟩
  | some lexState =>
    simp only [h1] at h
    have hlf := confLexInit_file h1
    have g1 : Runs stk (⟨file, none, none⟩ :: stk) w
        { (_confSetFileName (some file) w) with
          trace := (_confSetFileName (some file) w).trace ++ [Event.lexInit file], head := [] } :=
      (Runs.ofTrace (a := _confSetFileName (some file) w) _ rfl).seq
        ((Runs.lexInit _ _ _).seq (Runs.ofTrace _ rfl))
    have n1 : ({ (_confSetFileName (some file) w) with
          trace := (_confSetFileName (some file) w).trace ++ [Event.lexInit file], head := [] }
            : World).fileName = some file := rfl
    generalize ({ (_confSetFileName (some file) w) with
          trace := (_confSetFileName (some file) w).trace ++ [Event.lexInit file], head := [] }
            : World) = a1 at h g1 n1
    rcases h2 : _parseInternal host n ⟨lexState, none⟩ a1 with _ | ⟨_ | _, a2⟩
    · simp [h2] at h
    all_goals obtain ⟨stk2, r2, hx2⟩ := follows_parseInternal_next _ (follows_parseInternal_loop host n) ⟨file, none, none⟩ stk ⟨lexState, none⟩ none a1 _ a2 hlf.symm rfl n1 h2
    all_goals simp only [h2, Option.some.injEq, Prod.mk.injEq] at h
    all_goals obtain ⟨rfl, rfl⟩ := h
    · obtain ⟨es, t, hr⟩ := g1.seq (r2.seq (Runs.ofTrace (a := { a2 with head := [] }) _ rfl))
      exact ⟨es, stk2, t, hr, fun hr => by simp at hr⟩
    · obtain ⟨es, t, hr⟩ := g1.seq r2
      obtain ⟨rfl, n2⟩ := hx2 rfl
      exact ⟨es, _, t, hr, fun _ => ⟨rfl, by rw [ConfGetFileName, n2, n1]⟩⟩

theorem tokenLines_ge (xs : List Lexeme) : ∀ line, ∀ l ∈ tokenLines line xs, line ≤ l := by
  induction xs with
  | nil => intro line l hl; simp [tokenLines] at hl
  | cons x xs ih =>
    intro line l hl
    simp only [tokenLines, List.mem_cons] at hl
    rcases hl with rfl | hl
    · omega
    · have := ih _ l hl
      omega

theorem tokenLines_sorted (xs : List Lexeme) :
    ∀ line, (tokenLines line xs).Pairwise (· ≤ ·) := by
  induction xs with
  | nil => intro line; simp [tokenLines]
  | cons x xs ih =>
    intro line
    simp only [tokenLines, List.pairwise_cons]
    refine ⟨fun l hl => ?_, ih _⟩
    have := tokenLines_ge xs _ l hl
    omega

theorem tokenLines_length (xs : List Lexeme) : ∀ line, (tokenLines line xs).length = xs.length := by
  induction xs with
  | nil => intro line; rfl
  | cons x xs ih => intro line; simp [tokenLines, ih]

theorem Quiet.spec {qs : List Event} (h : Quiet qs) :
    ∀ e ∈ qs, (∀ d, e ≠ Event.error d) ∧
      ∀ g t, e = Event.lex g t → t.type ≠ LEX_TOKEN_ERROR := by
  intro e he
  have hq := h e he
  constructor
  · intro d hd
    rw [hd] at hq
    simp [Event.quiet] at hq
  · intro g t hd
    rw [hd] at hq
    simpa [Event.quiet] using hq

theorem replayStep_weaken (c1 c2 : Frame → Diag → Bool)
    (hc : ∀ fr d, c1 fr d = true → c2 fr d = true) (stk stk1 : List Frame) (e : Event)
    (h : replayStep c1 stk e = some stk1) : replayStep c2 stk e = some stk1 := by
  cases e with
  | lexInit f => simpa [replayStep] using h
  | lex f t =>
    cases stk with
    | nil => simp [replayStep] at h
    | cons fr stk => simpa [replayStep] using h
  | lexDestroy f =>
    cases stk with
    | nil => simp [replayStep] at h
    | cons fr stk => simpa [replayStep] using h
  | error d =>
    cases stk with
    | nil => simp [replayStep] at h
    | cons fr stk =>
      simp only [replayStep] at h ⊢
      split_ifs at h with h0
      simp only [hc fr d h0, if_true]
      exact h

/-- A weaker check passes where a stronger one does. -/
theorem replay_weaken (c1 c2 : Frame → Diag → Bool)
    (hc : ∀ fr d, c1 fr d = true → c2 fr d = true) (es : List Event) :
    ∀ stk stk1, replay c1 stk es = some stk1 → replay c2 stk es = some stk1 := by
  induction es with
  | nil => intro stk stk1 h; simpa [replay] using h
  | cons e es ih =>
    intro stk stk1 h
    simp only [replay] at h ⊢
    cases h1 : replayStep c1 stk e with
    | none => simp [h1] at h
    | some s1 =>
      rw [h1] at h
      rw [replayStep_weaken c1 c2 hc stk s1 e h1]
      exact ih s1 stk1 h

theorem allOk_fileOk (fr : Frame) (d : Diag) (h : allOk fr d = true) : fileOk fr d = true := by
  simp only [allOk, Bool.and_eq_true] at h
  exact h.1.1

theorem allOk_unexpectedOk (fr : Frame) (d : Diag) (h : allOk fr d = true) :
    unexpectedOk fr d = true := by
  simp only [allOk, Bool.and_eq_true] at h
  exact h.1.2

theorem allOk_overflowOk (fr : Frame) (d : Diag) (h : allOk fr d = true) :
    overflowOk fr d = true := by
  simp only [allOk, Bool.and_eq_true] at h
  exact h.2

theorem c32lcpy_long (s : String) (n : Nat) (h : n ≤ s.length) : (c32lcpy s n).2 ≥ n := by
  simpa [c32lcpy] using h

theorem newlines_append (a b : List Char) : newlines (a ++ b) = newlines a + newlines b := by
  simp [newlines, List.count_append]

/-- The characters of the tokens, with those skipped in front of each. -/
theorem tokenLines_append_exact (pre : List Lexeme) :
    ∀ line rest, tokenLines line (pre ++ rest)
      = tokenLines line pre ++
          tokenLines (line + newlines (pre.flatMap fun p => p.skipped ++ p.text)) rest := by
  induction pre with
  | nil => intro line rest; simp [tokenLines, newlines]
  | cons x xs ih =>
    intro line rest
    have e : line + newlines x.skipped + newlines x.text
          + newlines (xs.flatMap fun p => p.skipped ++ p.text)
        = line + newlines ((x :: xs).flatMap fun p => p.skipped ++ p.text) := by
      simp only [List.flatMap_cons, newlines_append]
      push_cast
      ring
    show (line + newlines x.skipped) ::
        tokenLines (line + newlines x.skipped + newlines x.text) (xs ++ rest) = _
    rw [ih, e]
    rfl

theorem Quiet.noDiag {qs : List Event} (h : Quiet qs) : qs.filterMap Event.diag = [] := by
  induction qs with
  | nil => rfl
  | cons e t ih =>
    have he := h e (by simp)
    have ht : Quiet t := fun x hx => h x (by simp [hx])
    cases e with
    | error d => simp [Event.quiet] at he
    | lexInit f => simpa [List.filterMap_cons, Event.diag] using ih ht
    | lex f tok => simpa [List.filterMap_cons, Event.diag] using ih ht
    | lexDestroy f => simpa [List.filterMap_cons, Event.diag] using ih ht

theorem good_diag {r : Bool} {w a : World} (h : Good r w a) :
    ∃ es, a.trace = w.trace ++ es ∧ a.errors = w.errors ++ es.filterMap Event.diag ∧
      (es.filterMap Event.diag).length ≤ 1 ∧
      ∀ d, Event.error d ∈ es →
        r = false ∧ es.filterMap Event.diag = [d] ∧
          ∃ qs, es = qs ++ [Event.error d] ∧ Quiet qs := by
  obtain ⟨es, ht, hg⟩ := h
  refine ⟨es, ht, by simp [World.errors, ht], ?_, fun d hm => ?_⟩
  · cases r with
    | true =>
      have hq : Quiet es := by simpa using hg
      simp [hq.noDiag]
    | false =>
      have he : Ended es := by simpa using hg
      obtain ⟨qs, t, rfl, hq, hl, hn⟩ := he
      rw [List.filterMap_append, hq.noDiag, List.nil_append]
      exact le_trans (List.length_filterMap_le _ _) hl
  · have hnq : (Event.error d).quiet = false := by simp [Event.quiet]
    cases r with
    | true =>
      have hq : Quiet es := by simpa using hg
      have := hq _ hm
      rw [hnq] at this
      exact absurd this (by decide)
    | false =>
      have he : Ended es := by simpa using hg
      obtain ⟨qs, t, rfl, hq, hl, hn⟩ := he
      rcases List.mem_append.mp hm with h1 | h1
      · have := hq _ h1
        rw [hnq] at this
        exact absurd this (by decide)
      · cases t with
        | nil => simp at h1
        | cons e t1 =>
          cases t1 with
          | nil =>
            simp only [List.mem_singleton] at h1
            subst h1
            refine ⟨rfl, ?_, qs, rfl, hq⟩
            rw [List.filterMap_append, hq.noDiag]
            rfl
          | cons e1 t2 => simp at hl

theorem parseError_one (st : parseState_t) (tok : _confToken_t) (err : Nat) (ex : Extra)
    (v : World) :
    ∃ d, (_parseError st tok err ex v).trace = v.trace ++ [Event.error d] ∧
      (_parseError st tok err ex v).errors = v.errors ++ [d] ∧
      d.file = ConfGetFileName v ∧ d.line = tok.line ∧
      (err = PARSE_ERROR_UNEXPECTED_TOKEN → ∃ e, d.detail = Detail.unexpected tok st.lastToken e) ∧
      (err = PARSE_ERROR_OVERFLOW → d.detail = Detail.overflow tok) ∧
      (err = PARSE_ERROR_TOO_MANY_PROPS → ∃ s, d.detail = Detail.tooManyProps s) := by
  refine ⟨_, rfl, by simp [World.errors, _parseError, Event.diag], rfl, rfl, ?_, ?_, ?_⟩
  · intro h
    subst h
    exact ⟨_, rfl⟩
  · intro h
    subst h
    rfl
  · intro h
    subst h
    exact ⟨_, rfl⟩

theorem parseBlock_value_fail (st : parseState_t) (tok : _confToken_t) (v b : World)
    (h : _parseBlock_value st tok v = (false, b)) :
    ∃ d, b.trace = v.trace ++ [Event.error d] ∧ b.errors = v.errors ++ [d] ∧
      ((∃ lt e, d.detail = Detail.unexpected tok lt e) ∨ d.detail = Detail.overflow tok ∨
        ∃ s, d.detail = Detail.tooManyProps s) := by
  unfold _parseBlock_value at h
  simp only [] at h
  split_ifs at h
  all_goals simp only [Prod.mk.injEq, true_and, false_and, reduceCtorEq] at h
  all_goals subst h
  all_goals refine ⟨_, by simp only [_parseError, updProp_trace]; rfl, by simp [World.errors, _parseError, Event.diag], ?_⟩
  all_goals first
    | exact Or.inl ⟨_, _, rfl⟩
    | exact Or.inr (Or.inl rfl)
    | exact Or.inr (Or.inr ⟨_, rfl⟩)

theorem slots_length (vs : List ConfPropVal_t) (h : vs.length ≤ MAX_PROPVAR) :
    (slots vs).length = MAX_PROPVAR := by
  simp [slots]; omega

theorem slots_getD (vs : List ConfPropVal_t) (i : Nat) :
    ((slots vs).getD i none).isSome = decide (i < vs.length) := by
  unfold slots
  by_cases h : i < vs.length
  · rw [List.getD_append _ _ _ _ (by simpa using h)]
    simp [h, List.getD_eq_getElem?_getD]
  · have h1 : (vs.map some).length ≤ i := by simpa using h
    rw [List.getD_append_right _ _ _ _ h1]
    simp [h, List.getD_eq_getElem?_getD, List.getElem?_replicate]
    split_ifs <;> rfl

theorem stored_slots (pl : Int) (pn : String) (vs : List ConfPropVal_t)
    (h1 : 1 ≤ vs.length) (h2 : vs.length < MAX_PROPVAR) :
    ConfProperty_t.Stored ⟨pl, pn, slots vs, vs.length⟩ :=
  ⟨h1, h2, slots_length vs (le_of_lt h2), fun i _ => slots_getD vs i⟩

theorem c32lcpy_short (s : String) (n : Nat) (h : ¬ (c32lcpy s n).2 ≥ n) :
    (c32lcpy s n).1 = s := by
  have h1 : s.length < n := by simpa [c32lcpy] using h
  rw [c32lcpy_fits s n h1]

theorem parseBlock_value_shape (st : parseState_t) (tok : _confToken_t) (fn : Option String)
    (hs : List ConfBlock_t) (bl : Int) (bt bn : String) (ps : List ConfProperty_t)
    (pl : Int) (pn : String) (vs : List ConfPropVal_t) (tr : List Event) (x : Bool) (a : World)
    (hlen : vs.length < MAX_PROPVAR)
    (h : _parseBlock_value st tok
      ⟨fn, hs ++ [⟨bl, bt, bn, ps ++ [⟨pl, pn, slots vs, vs.length⟩]⟩], tr⟩ = (x, a)) :
    ∃ cur tr1, a = ⟨fn, hs ++ [⟨bl, bt, bn, ps ++ [cur]⟩], tr1⟩ ∧ cur.InRange ∧
      (x = true → cur = ⟨pl, pn, slots (vs ++ [valueOf tok]), vs.length + 1⟩ ∧
        vs.length + 1 < MAX_PROPVAR) := by
  have hl : (slots vs).length = MAX_PROPVAR := slots_length vs (le_of_lt hlen)
  unfold _parseBlock_value at h
  simp only [updProp_mk, curProp_mk] at h
  split_ifs at h with h1 h2 h3 h4 h5 h6 h7 h8
  all_goals simp only [Prod.mk.injEq] at h
  all_goals obtain ⟨rfl, rfl⟩ := h
  all_goals refine ⟨_, _, rfl, ⟨?_, ?_⟩, ?_⟩
  all_goals try simp only [List.length_set, hl]
  all_goals try omega
  all_goals try (intro hx; exact absurd hx (by decide))
  · intro _
    refine ⟨?_, by omega⟩
    rw [c32lcpy_short _ _ h2, slots_set _ _ hlen]
    simp [valueOf, h1]
  · intro _
    refine ⟨?_, by omega⟩
    rw [c32lcpy_short _ _ h5, slots_set _ _ hlen]
    simp [valueOf, h1, h4]
  · intro _
    refine ⟨?_, by omega⟩
    rw [slots_set _ _ hlen]
    simp [valueOf, h1, h4]

theorem parseToken_world {st s : parseState_t} {lt x : Option _confToken_t} {w a : World}
    (h : _parseToken st lt w = (x, s, a)) : ∃ tr1, a = ⟨w.fileName, w.head, tr1⟩ := by
  unfold _parseToken at h
  simp only [] at h
  split_ifs at h
  all_goals simp only [Prod.mk.injEq] at h
  all_goals obtain ⟨-, -, rfl⟩ := h
  all_goals exact ⟨_, rfl⟩

theorem parseExpect_world {st s : parseState_t} {lt x : Option _confToken_t} {ty : TokType}
    {w a : World} (h : _parseExpect st lt ty w = (x, s, a)) :
    ∃ tr1, a = ⟨w.fileName, w.head, tr1⟩ := by
  unfold _parseExpect at h
  rcases h1 : _parseToken st lt w with ⟨_ | tok, st1, a1⟩
  all_goals obtain ⟨tr1, rfl⟩ := parseToken_world h1
  all_goals simp only [h1] at h
  · simp only [Prod.mk.injEq] at h
    obtain ⟨-, -, rfl⟩ := h
    exact ⟨_, rfl⟩
  · split_ifs at h
    all_goals simp only [Prod.mk.injEq] at h
    all_goals obtain ⟨-, -, rfl⟩ := h
    all_goals exact ⟨_, rfl⟩

theorem inRange_slots (pl : Int) (pn : String) (vs : List ConfPropVal_t)
    (h : vs.length ≤ MAX_PROPVAR) : ConfProperty_t.InRange ⟨pl, pn, slots vs, vs.length⟩ :=
  ⟨h, slots_length vs h⟩

theorem parseBlock_values_shape (n : Nat) :
    ∀ (st : parseState_t) (tok : _confToken_t) (fn : Option String)
      (hs : List ConfBlock_t) (bl : Int) (bt bn : String) (ps : List ConfProperty_t)
      (pl : Int) (pn : String) (vs : List ConfPropVal_t) (tr : List Event)
      (x : Option _confToken_t) (s : parseState_t) (a : World),
      vs.length < MAX_PROPVAR →
      _parseBlock_values n st tok
        ⟨fn, hs ++ [⟨bl, bt, bn, ps ++ [⟨pl, pn, slots vs, vs.length⟩]⟩], tr⟩ = some (x, s, a) →
      ∃ cur tr1, a = ⟨fn, hs ++ [⟨bl, bt, bn, ps ++ [cur]⟩], tr1⟩ ∧ cur.InRange ∧
        (x.isSome = true → cur.Stored) := by
  induction n with
  | zero => intro st tok fn hs bl bt bn ps pl pn vs tr x s a _ h; simp [_parseBlock_values] at h
  | succ n ih =>
    intro st tok fn hs bl bt bn ps pl pn vs tr x s a hlen h
    rw [_parseBlock_values] at h
    rcases h1 : _parseToken st (some tok)
      ⟨fn, hs ++ [⟨bl, bt, bn, ps ++ [⟨pl, pn, slots vs, vs.length⟩]⟩], tr⟩ with ⟨_ | tok1, st1, a1⟩
    all_goals obtain ⟨tr1, rfl⟩ := parseToken_world h1
    all_goals simp only [h1] at h
    · simp only [Option.some.injEq, Prod.mk.injEq] at h
      obtain ⟨rfl, rfl, rfl⟩ := h
      exact ⟨_, _, rfl, inRange_slots pl pn vs (le_of_lt hlen), by simp⟩
    · rcases h2 : _parseBlock_value st1 tok1
        ⟨fn, hs ++ [⟨bl, bt, bn, ps ++ [⟨pl, pn, slots vs, vs.length⟩]⟩], tr1⟩ with ⟨_ | _, a2⟩
      all_goals obtain ⟨cur, tr2, rfl, hin, hok⟩ :=
        parseBlock_value_shape st1 tok1 fn hs bl bt bn ps pl pn vs tr1 _ _ hlen h2
      all_goals simp only [h2] at h
      · simp only [Option.some.injEq, Prod.mk.injEq] at h
        obtain ⟨rfl, rfl, rfl⟩ := h
        exact ⟨_, _, rfl, hin, by simp⟩
      · obtain ⟨rfl, hlt⟩ := hok rfl
        have hlen2 : (vs ++ [valueOf tok1]).length < MAX_PROPVAR := by simpa using hlt
        have hl2 : vs.length + 1 = (vs ++ [valueOf tok1]).length := by simp
        rw [hl2] at h h2
        rcases h3 : _parseToken st1 (some tok1)
          ⟨fn, hs ++ [⟨bl, bt, bn, ps ++ [⟨pl, pn, slots (vs ++ [valueOf tok1]),
            (vs ++ [valueOf tok1]).length⟩]⟩], tr2⟩ with ⟨_ | tok2, st2, a3⟩
        all_goals obtain ⟨tr3, rfl⟩ := parseToken_world h3
        all_goals simp only [h3] at h
        · simp only [Option.some.injEq, Prod.mk.injEq] at h
          obtain ⟨rfl, rfl, rfl⟩ := h
          exact ⟨_, _, rfl, inRange_slots pl pn _ (le_of_lt hlen2), by simp⟩
        · by_cases hc : tok2.type = LEX_TOKEN_COMMA
          · simp only [hc, if_true] at h
            exact ih _ _ _ _ _ _ _ _ _ _ _ _ _ _ _ hlen2 h
          · by_cases hsc : tok2.type = LEX_TOKEN_SEMICOLON
            · simp only [hsc, reduceCtorEq, if_false, if_true, Option.some.injEq,
                Prod.mk.injEq] at h
              obtain ⟨rfl, rfl, rfl⟩ := h
              exact ⟨_, _, rfl, inRange_slots pl pn _ (le_of_lt hlen2),
                fun _ => stored_slots pl pn _ (by simp) hlen2⟩
            · simp only [hc, hsc, if_false, Option.some.injEq, Prod.mk.injEq] at h
              obtain ⟨rfl, rfl, rfl⟩ := h
              exact ⟨_, _, rfl, inRange_slots pl pn _ (le_of_lt hlen2), by simp⟩

theorem slots_nil : slots [] = List.replicate MAX_PROPVAR none := rfl

theorem inRange_new (l : Int) (nm : String) :
    ConfProperty_t.InRange ⟨l, nm, List.replicate MAX_PROPVAR none, 0⟩ :=
  ⟨Nat.zero_le _, by simp⟩

theorem parseBlock_props_shape (n : Nat) :
    ∀ (st : parseState_t) (tok : _confToken_t) (fn : Option String)
      (hs : List ConfBlock_t) (bl : Int) (bt bn : String) (ps : List ConfProperty_t)
      (tr : List Event) (x : Option _confToken_t) (s : parseState_t) (a : World),
      _parseBlock_props n st tok ⟨fn, hs ++ [⟨bl, bt, bn, ps⟩], tr⟩ = some (x, s, a) →
      ∃ new tr1, a = ⟨fn, hs ++ [⟨bl, bt, bn, ps ++ new⟩], tr1⟩ ∧ (∀ p ∈ new, p.InRange) ∧
        (x.isSome = true → ∀ p ∈ new, p.Stored) := by
  induction n with
  | zero => intro st tok fn hs bl bt bn ps tr x s a h; simp [_parseBlock_props] at h
  | succ n ih =>
    intro st tok fn hs bl bt bn ps tr x s a h
    rw [_parseBlock_props] at h
    rcases h1 : _parseToken st (some tok) ⟨fn, hs ++ [⟨bl, bt, bn, ps⟩], tr⟩
      with ⟨_ | tok1, st1, a1⟩
    all_goals obtain ⟨tr1, rfl⟩ := parseToken_world h1
    all_goals simp only [h1] at h
    · simp only [Option.some.injEq, Prod.mk.injEq] at h
      obtain ⟨rfl, rfl, rfl⟩ := h
      exact ⟨[], tr1, by simp, by simp, by simp⟩
    · by_cases he : tok1.type = LEX_TOKEN_EBRACE
      · simp only [he, if_true, Option.some.injEq, Prod.mk.injEq] at h
        obtain ⟨rfl, rfl, rfl⟩ := h
        exact ⟨[], tr1, by simp, by simp, by simp⟩
      · by_cases hi : tok1.type = LEX_TOKEN_ID
        · simp only [hi, reduceCtorEq, if_false, if_true, updBlock_mk, updProp_mk] at h
          by_cases ho : (c32lcpy tok1.semVal BLOCK_BUFSZ).2 ≥ BLOCK_BUFSZ
          · simp only [ho, if_true, Option.some.injEq, Prod.mk.injEq] at h
            obtain ⟨rfl, rfl, rfl⟩ := h
            refine ⟨[_], _, rfl, ?_, by simp⟩
            intro p hp
            simp only [List.mem_singleton] at hp
            subst hp
            exact inRange_new _ _
          · simp only [ho, if_false] at h
            rcases h2 : _parseExpect st1 (some tok1) LEX_TOKEN_COLON
              ⟨fn, hs ++ [⟨bl, bt, bn, ps ++ [⟨tok1.line, (c32lcpy tok1.semVal BLOCK_BUFSZ).1,
                List.replicate MAX_PROPVAR none, 0⟩]⟩], tr1⟩ with ⟨_ | tok2, st2, a2⟩
            all_goals obtain ⟨tr2, rfl⟩ := parseExpect_world h2
            all_goals simp only [h2] at h
            · simp only [Option.some.injEq, Prod.mk.injEq] at h
              obtain ⟨rfl, rfl, rfl⟩ := h
              refine ⟨[_], _, rfl, ?_, by simp⟩
              intro p hp
              simp only [List.mem_singleton] at hp
              subst hp
              exact inRange_new _ _
            · rcases h3 : _parseBlock_values n st2 tok2
                ⟨fn, hs ++ [⟨bl, bt, bn, ps ++ [⟨tok1.line, (c32lcpy tok1.semVal BLOCK_BUFSZ).1,
                  List.replicate MAX_PROPVAR none, 0⟩]⟩], tr2⟩ with _ | ⟨_ | tok3, st3, a3⟩
              · simp [h3] at h
              all_goals obtain ⟨cur, tr3, rfl, hin, hok⟩ := parseBlock_values_shape n st2 tok2 fn hs bl bt bn ps tok1.line (c32lcpy tok1.semVal BLOCK_BUFSZ).1 [] tr2 _ _ _ (by decide) h3
              all_goals simp only [h3] at h
              · simp only [Option.some.injEq, Prod.mk.injEq] at h
                obtain ⟨rfl, rfl, rfl⟩ := h
                refine ⟨[cur], _, rfl, ?_, by simp⟩
                intro p hp
                simp only [List.mem_singleton] at hp
                subst hp
                exact hin
              · obtain ⟨new, tr4, rfl, hn, hst⟩ := ih _ _ _ _ _ _ _ _ _ _ _ _ h
                refine ⟨cur :: new, tr4, by simp, ?_, fun hx => ?_⟩
                · intro p hp
                  rcases List.mem_cons.mp hp with rfl | hp
                  · exact hin
                  · exact hn p hp
                · intro p hp
                  rcases List.mem_cons.mp hp with rfl | hp
                  · exact hok rfl
                  · exact hst hx p hp
        · simp only [he, hi, if_false] at h
          exact ih _ _ _ _ _ _ _ _ _ _ _ _ h

theorem parseBlock_shape (n : Nat) (st : parseState_t) (tok : _confToken_t) (w : World)
    (x : Option _confToken_t) (s : parseState_t) (a : World)
    (h : _parseBlock n st tok w = some (x, s, a)) :
    ∃ b, a.head = w.head ++ [b] ∧ a.fileName = w.fileName ∧ (∀ p ∈ b.props, p.InRange) ∧
      (x.isSome = true → ∀ p ∈ b.props, p.Stored) := by
  obtain ⟨fn, hd, tr⟩ := w
  unfold _parseBlock at h
  simp only [updBlock_mk] at h
  by_cases ho : (c32lcpy tok.semVal 256).2 ≥ 256
  · simp only [ho, if_true, Option.some.injEq, Prod.mk.injEq] at h
    obtain ⟨rfl, rfl, rfl⟩ := h
    exact ⟨_, rfl, rfl, by simp, by simp⟩
  · simp only [ho, if_false] at h
    rcases h1 : _parseToken st (some tok)
      ⟨fn, hd ++ [⟨tok.line, (c32lcpy tok.semVal 256).1, "", []⟩], tr⟩ with ⟨_ | tok1, st1, a1⟩
    all_goals obtain ⟨tr1, rfl⟩ := parseToken_world h1
    all_goals simp only [h1] at h
    · simp only [Option.some.injEq, Prod.mk.injEq] at h
      obtain ⟨rfl, rfl, rfl⟩ := h
      exact ⟨_, rfl, rfl, by simp, by simp⟩
    · by_cases hi : tok1.type = LEX_TOKEN_ID
      · simp only [hi, if_true, updBlock_mk] at h
        by_cases ho1 : (c32lcpy tok1.semVal BLOCK_BUFSZ).2 ≥ BLOCK_BUFSZ
        · simp only [ho1, if_true, Option.some.injEq, Prod.mk.injEq] at h
          obtain ⟨rfl, rfl, rfl⟩ := h
          exact ⟨_, rfl, rfl, by simp, by simp⟩
        · simp only [ho1, if_false] at h
          rcases h2 : _parseExpect st1 (some tok1) LEX_TOKEN_OBRACE
            ⟨fn, hd ++ [⟨tok.line, (c32lcpy tok.semVal 256).1,
              (c32lcpy tok1.semVal BLOCK_BUFSZ).1, []⟩], tr1⟩ with ⟨_ | tok2, st2, a2⟩
          all_goals obtain ⟨tr2, rfl⟩ := parseExpect_world h2
          all_goals simp only [h2] at h
          · simp only [Option.some.injEq, Prod.mk.injEq] at h
            obtain ⟨rfl, rfl, rfl⟩ := h
            exact ⟨_, rfl, rfl, by simp, by simp⟩
          · obtain ⟨new, tr3, rfl, hn, hst⟩ := parseBlock_props_shape n _ _ _ _ _ _ _ _ _ _ _ _ h
            exact ⟨_, rfl, rfl, by simpa using hn, by simpa using hst⟩
      · by_cases hb : tok1.type = LEX_TOKEN_OBRACE
        · simp only [hb, reduceCtorEq, if_false, if_true, updBlock_mk] at h
          obtain ⟨new, tr3, rfl, hn, hst⟩ := parseBlock_props_shape n _ _ _ _ _ _ _ _ _ _ _ _ h
          exact ⟨_, rfl, rfl, by simpa using hn, by simpa using hst⟩
        · simp only [hi, hb, if_false, Option.some.injEq, Prod.mk.injEq] at h
          obtain ⟨rfl, rfl, rfl⟩ := h
          exact ⟨_, rfl, rfl, by simp, by simp⟩

theorem Grown.sameHead {ok : Bool} {w a : World} (h : a.head = w.head) : Grown ok w a :=
  ⟨[], by simp [h], by simp, by simp⟩

theorem Grown.andThen {ok : Bool} {w a b : World} (h1 : Grown true w a) (h2 : Grown ok a b) :
    Grown ok w b := by
  obtain ⟨b1, e1, r1, s1⟩ := h1
  obtain ⟨b2, e2, r2, s2⟩ := h2
  refine ⟨b1 ++ b2, by rw [e2, e1, List.append_assoc], ?_, ?_⟩
  · intro b hb
    rcases List.mem_append.mp hb with hb | hb
    · exact r1 b hb
    · exact r2 b hb
  · intro hok b hb
    rcases List.mem_append.mp hb with hb | hb
    · exact s1 rfl b hb
    · exact s2 hok b hb

theorem Grown.onHead {ok : Bool} {w a b : World} (h1 : Grown ok w a) (h : b.head = a.head) :
    Grown ok w b := by
  obtain ⟨b1, e1, r1, s1⟩ := h1
  exact ⟨b1, by rw [h, e1], r1, s1⟩

theorem grown_parseToken {st s : parseState_t} {lt x : Option _confToken_t} {w a : World}
    (h : _parseToken st lt w = (x, s, a)) (ok : Bool) : Grown ok w a := by
  obtain ⟨tr1, rfl⟩ := parseToken_world h
  exact Grown.sameHead rfl

theorem grown_parseExpect {st s : parseState_t} {lt x : Option _confToken_t} {ty : TokType}
    {w a : World} (h : _parseExpect st lt ty w = (x, s, a)) (ok : Bool) : Grown ok w a := by
  obtain ⟨tr1, rfl⟩ := parseExpect_world h
  exact Grown.sameHead rfl

theorem grown_parseBlock (n : Nat) (st : parseState_t) (tok : _confToken_t) (w : World)
    (x : Option _confToken_t) (s : parseState_t) (a : World)
    (h : _parseBlock n st tok w = some (x, s, a)) : Grown x.isSome w a := by
  obtain ⟨b, hb, -, hr, hs⟩ := parseBlock_shape n st tok w x s a h
  refine ⟨[b], hb, ?_, ?_⟩
  · intro c hc
    simp only [List.mem_singleton] at hc
    subst hc
    exact hr
  · intro hx c hc
    simp only [List.mem_singleton] at hc
    subst hc
    exact hs hx

theorem grown_parseInclude (host : Host)
    (internal : parseState_t → World → Option (Bool × World))
    (hint : ∀ (ns : parseState_t) (w : World) (r : Bool) (a : World),
      internal ns w = some (r, a) → Grown r w a)
    (st : parseState_t) (tok : _confToken_t) (w : World) (x : Option _confToken_t)
    (s : parseState_t) (a : World) (h : _parseInclude host internal st tok w = some (x, s, a)) :
    Grown x.isSome w a := by
  unfold _parseInclude at h
  rcases h1 : _parseExpect st (some tok) LEX_TOKEN_STR w with ⟨_ | pathTok, st1, a1⟩
  all_goals have g1 := grown_parseExpect h1
  all_goals simp only [h1] at h
  · simp only [Option.some.injEq, Prod.mk.injEq] at h
    obtain ⟨rfl, rfl, rfl⟩ := h
    exact g1 _
  · cases h2 : host.c32stombs pathTok.semVal with
    | none =>
      simp only [h2, Option.some.injEq, Prod.mk.injEq] at h
      obtain ⟨rfl, rfl, rfl⟩ := h
      exact (g1 _).onHead rfl
    | some mbPath =>
      simp only [h2] at h
      cases h3 : _confLexInit host mbPath with
      | none =>
        simp only [h3, Option.some.injEq, Prod.mk.injEq] at h
        obtain ⟨rfl, rfl, rfl⟩ := h
        exact (g1 _).onHead rfl
      | some lex =>
        simp only [h3] at h
        have g3 : Grown true w ({ (_confSetFileName (some mbPath) a1) with
            trace := (_confSetFileName (some mbPath) a1).trace ++ [Event.lexInit mbPath] }) :=
          (g1 true).onHead rfl
        generalize ({ (_confSetFileName (some mbPath) a1) with
            trace := (_confSetFileName (some mbPath) a1).trace ++ [Event.lexInit mbPath] }
              : World) = a3 at h g3
        rcases h4 : internal ⟨lex, none⟩ a3 with _ | ⟨_ | _, a4⟩
        · simp [h4] at h
        all_goals have g4 := g3.andThen (hint _ _ _ _ h4)
        all_goals simp only [h4, Option.some.injEq, Prod.mk.injEq] at h
        all_goals obtain ⟨rfl, rfl, rfl⟩ := h
        · exact g4
        · exact g4.onHead rfl

theorem grown_parseInternal_next
    (loop : parseState_t → _confToken_t → World → Option (Bool × World))
    (hloop : ∀ (st : parseState_t) (tok : _confToken_t) (w : World) (r : Bool) (a : World),
      loop st tok w = some (r, a) → Grown r w a)
    (st : parseState_t) (lt : Option _confToken_t) (w : World) (r : Bool) (a : World)
    (h : _parseInternal_next loop st lt w = some (r, a)) : Grown r w a := by
  unfold _parseInternal_next at h
  rcases h1 : _parseToken st lt w with ⟨_ | tok2, st2, a2⟩
  all_goals have g1 := grown_parseToken h1
  all_goals simp only [h1] at h
  · simp only [Option.some.injEq, Prod.mk.injEq] at h
    obtain ⟨rfl, rfl⟩ := h
    exact g1 _
  · exact (g1 true).andThen (hloop _ _ _ _ _ h)

theorem grown_parseInternal_loop (host : Host) (n : Nat) :
    ∀ (st : parseState_t) (tok : _confToken_t) (w : World) (r : Bool) (a : World),
      _parseInternal_loop host n st tok w = some (r, a) → Grown r w a := by
  induction n with
  | zero => intro st tok w r a h; simp [_parseInternal_loop] at h
  | succ n ih =>
    intro st tok w r a h
    have hnext := grown_parseInternal_next (_parseInternal_loop host n) ih
    have hinc := grown_parseInclude host
      (fun newState w0 => _parseInternal_next (_parseInternal_loop host n) newState none w0)
      (fun ns v r a hrun => hnext ns none v r a hrun)
    rw [_parseInternal_loop] at h
    by_cases h0 : tok.type = LEX_TOKEN_NONE
    · simp only [h0, if_true, Option.some.injEq, Prod.mk.injEq] at h
      obtain ⟨rfl, rfl⟩ := h
      exact Grown.sameHead rfl
    · simp only [h0, if_false] at h
      by_cases h1 : tok.type = LEX_TOKEN_INCLUDE
      · simp only [h1, if_true] at h
        rcases h2 : _parseInclude host (fun newState w0 =>
            _parseInternal_next (_parseInternal_loop host n) newState none w0)
            st tok w with _ | ⟨_ | tok1, st1, a1⟩
        · simp [h2] at h
        all_goals have g1 := hinc st tok w _ _ _ h2
        all_goals simp only [h2] at h
        · simp only [Option.some.injEq, Prod.mk.injEq] at h
          obtain ⟨rfl, rfl⟩ := h
          exact g1
        · exact g1.andThen (hnext _ _ _ _ _ h)
      · simp only [h1, if_false] at h
        by_cases h2 : tok.type = LEX_TOKEN_ID
        · simp only [h2, if_true] at h
          rcases h3 : _parseBlock n st tok w with _ | ⟨_ | tok1, st1, a1⟩
          · simp [h3] at h
          all_goals have g1 := grown_parseBlock n st tok w _ _ _ h3
          all_goals simp only [h3] at h
          · simp only [Option.some.injEq, Prod.mk.injEq] at h
            obtain ⟨rfl, rfl⟩ := h
            exact g1
          · exact g1.andThen (hnext _ _ _ _ _ h)
        · simp only [h2, if_false, Option.some.injEq, Prod.mk.injEq] at h
          obtain ⟨rfl, rfl⟩ := h
          exact Grown.sameHead rfl

theorem grown_parseInternal (host : Host) (n : Nat) (st : parseState_t) (w : World) (r : Bool)
    (a : World) (h : _parseInternal host n st w = some (r, a)) : Grown r w a :=
  grown_parseInternal_next _ (grown_parseInternal_loop host n) st none w r a h

theorem stored_confParse (host : Host) (n : Nat) (file : String) (w : World)
    (tree : List ConfBlock_t) (a : World)
    (h : _confParse host n file w = some (some tree, a)) :
    a.head = tree ∧ ∀ b ∈ tree, ∀ p ∈ b.props, p.Stored := by
  unfold _confParse at h
  cases h1 : _confLexInit host file with
  | none => simp [h1] at h
  | some lexState =>
    simp only [h1] at h
    rcases h2 : _parseInternal host n ⟨lexState, none⟩
      { w with trace := w.trace ++ [Event.lexInit file], head := [] } with _ | ⟨_ | _, a2⟩
    · simp [h2] at h
    all_goals have g2 := grown_parseInternal host n _ _ _ _ h2
    all_goals simp only [h2, Option.some.injEq, Prod.mk.injEq] at h
    · simp at h
    · obtain ⟨rfl, rfl⟩ := h
      obtain ⟨bs, e, -, hs⟩ := g2
      refine ⟨rfl, ?_⟩
      simp only [List.nil_append] at e
      rw [e]
      exact hs rfl

theorem getLast_updLast {α : Type} (f : α → α) (l : List α) :
    (updLast f l).getLast? = l.getLast?.map f := by
  rcases List.eq_nil_or_concat l with rfl | ⟨l1, a, rfl⟩
  · rfl
  · rw [List.concat_eq_append, updLast_concat]
    simp

theorem curProp_reset (w : World) :
    (World.updProp (fun p => { p with nextVal := 0 }) w).curProp.nextVal = 0 := by
  unfold World.curProp World.updProp World.updBlock
  simp only [getLast_updLast]
  cases h1 : w.head.getLast? with
  | none => rfl
  | some b =>
    simp only [Option.map_some', Option.getD_some, getLast_updLast]
    cases h2 : b.props.getLast? with
    | none => rfl
    | some p => rfl

theorem parseBlock_value_lt {st : parseState_t} {tok : _confToken_t} {w a : World}
    (h : _parseBlock_value st tok w = (true, a)) : a.curProp.nextVal < MAX_PROPVAR := by
  unfold _parseBlock_value at h
  simp only [] at h
  split_ifs at h with h1 h2 h3 h4 h5 h6 h7 h8
  all_goals simp only [Prod.mk.injEq, true_and, false_and, reduceCtorEq] at h
  all_goals subst h
  all_goals omega

theorem valLoc_eq {tok : _confToken_t} {w : World} {i : Nat}
    (h : i ∈ (_parseBlock_value_valLoc tok w).toList) : i = w.curProp.nextVal := by
  unfold _parseBlock_value_valLoc at h
  split_ifs at h
  all_goals simp at h
  all_goals exact h

theorem parseBlock_values_valLocs_lt (n : Nat) :
    ∀ (st : parseState_t) (tok : _confToken_t) (w : World),
      w.curProp.nextVal < MAX_PROPVAR →
      ∀ i ∈ _parseBlock_values_valLocs n st tok w, i < MAX_PROPVAR := by
  induction n with
  | zero => intro st tok w _ i hi; simp [_parseBlock_values_valLocs] at hi
  | succ n ih =>
    intro st tok w hw i hi
    rw [_parseBlock_values_valLocs] at hi
    rcases h1 : _parseToken st (some tok) w with ⟨_ | tok1, st1, a1⟩
    all_goals obtain ⟨tr1, rfl⟩ := parseToken_world h1
    all_goals simp only [h1] at hi
    · simp at hi
    · rcases List.mem_append.mp hi with hi | hi
      · rw [valLoc_eq hi]
        exact hw
      · rcases h2 : _parseBlock_value st1 tok1 ⟨w.fileName, w.head, tr1⟩ with ⟨_ | _, a2⟩
        all_goals simp only [h2] at hi
        · simp at hi
        · have g2 := parseBlock_value_lt h2
          rcases h3 : _parseToken st1 (some tok1) a2 with ⟨_ | tok2, st2, a3⟩
          all_goals obtain ⟨tr3, rfl⟩ := parseToken_world h3
          all_goals simp only [h3] at hi
          · simp at hi
          · by_cases hc : tok2.type = LEX_TOKEN_COMMA
            · simp only [hc, if_true] at hi
              exact ih _ _ ⟨a2.fileName, a2.head, tr3⟩ g2 i hi
            · simp [hc] at hi

theorem parseBlock_props_valLocs_lt (n : Nat) :
    ∀ (st : parseState_t) (tok : _confToken_t) (w : World),
      ∀ i ∈ _parseBlock_props_valLocs n st tok w, i < MAX_PROPVAR := by
  induction n with
  | zero => intro st tok w i hi; simp [_parseBlock_props_valLocs] at hi
  | succ n ih =>
    intro st tok w i hi
    rw [_parseBlock_props_valLocs] at hi
    rcases h1 : _parseToken st (some tok) w with ⟨_ | tok1, st1, a1⟩
    all_goals simp only [h1] at hi
    · simp at hi
    · by_cases he : tok1.type = LEX_TOKEN_EBRACE
      · simp [he] at hi
      · by_cases hid : tok1.type = LEX_TOKEN_ID
        · simp only [hid, reduceCtorEq, if_false, if_true] at hi
          by_cases ho : (c32lcpy tok1.semVal BLOCK_BUFSZ).2 ≥ BLOCK_BUFSZ
          · simp [ho] at hi
          · simp only [ho, if_false] at hi
            have g5 := curProp_reset (World.updProp (fun p => { p with name := (c32lcpy tok1.semVal BLOCK_BUFSZ).1 }) (World.updProp (fun p => { p with lineNo := tok1.line }) (World.updBlock (fun b => { b with props := b.props ++ [⟨0, "", List.replicate MAX_PROPVAR none, 0⟩] }) a1)))
            generalize World.updProp (fun p => { p with nextVal := 0 }) _ = a5 at hi g5
            rcases h2 : _parseExpect st1 (some tok1) LEX_TOKEN_COLON a5 with ⟨_ | tok2, st2, a6⟩
            all_goals obtain ⟨tr2, rfl⟩ := parseExpect_world h2
            all_goals simp only [h2] at hi
            · simp at hi
            · rcases List.mem_append.mp hi with hi | hi
              · refine parseBlock_values_valLocs_lt n _ _ _ ?_ i hi
                show a5.curProp.nextVal < MAX_PROPVAR
                rw [g5]
                decide
              · rcases h3 : _parseBlock_values n st2 tok2 ⟨a5.fileName, a5.head, tr2⟩
                  with _ | ⟨_ | tok3, st3, a7⟩
                all_goals simp only [h3] at hi
                · simp at hi
                · simp at hi
                · exact ih _ _ _ i hi
        · simp only [he, hid, if_false] at hi
          exact ih _ _ _ i hi

theorem parseBlock_valLocs_lt (n : Nat) (st : parseState_t) (tok : _confToken_t) (w : World) :
    ∀ i ∈ _parseBlock_valLocs n st tok w, i < MAX_PROPVAR := by
  intro i hi
  unfold _parseBlock_valLocs at hi
  simp only [] at hi
  split_ifs at hi with h0
  · simp at hi
  · rcases h1 : _parseToken st (some tok) (World.updBlock (fun b => { b with blockType := (c32lcpy tok.semVal 256).1 }) (World.updBlock (fun b => { b with props := [] }) (World.updBlock (fun b => { b with lineNo := tok.line }) { w with head := w.head ++ [⟨0, "", "", []⟩] }))) with ⟨_ | tok1, st1, a1⟩
    all_goals simp only [h1] at hi
    · simp at hi
    · split_ifs at hi with h2 h3 h4
      · simp at hi
      · rcases h5 : _parseExpect st1 (some tok1) LEX_TOKEN_OBRACE (World.updBlock (fun b => { b with blockName := (c32lcpy tok1.semVal BLOCK_BUFSZ).1 }) a1) with ⟨_ | tok2, st2, a2⟩
        all_goals simp only [h5] at hi
        · simp at hi
        · exact parseBlock_props_valLocs_lt n _ _ _ i hi
      · exact parseBlock_props_valLocs_lt n _ _ _ i hi
      · simp at hi

theorem parseBlock_value_writes (st : parseState_t) (tok : _confToken_t) (fn : Option String)
    (hs : List ConfBlock_t) (bl : Int) (bt bn : String) (ps : List ConfProperty_t)
    (p : ConfProperty_t) (tr : List Event) :
    (∀ i, _parseBlock_value_valLoc tok ⟨fn, hs ++ [⟨bl, bt, bn, ps ++ [p]⟩], tr⟩ = some i →
      i = p.nextVal ∧
      ∃ v, (_parseBlock_value st tok ⟨fn, hs ++ [⟨bl, bt, bn, ps ++ [p]⟩], tr⟩).2.curProp.vals
        = p.vals.set i (some v)) ∧
    (_parseBlock_value_valLoc tok ⟨fn, hs ++ [⟨bl, bt, bn, ps ++ [p]⟩], tr⟩ = none →
      (_parseBlock_value st tok ⟨fn, hs ++ [⟨bl, bt, bn, ps ++ [p]⟩], tr⟩).2.head
        = hs ++ [⟨bl, bt, bn, ps ++ [p]⟩]) := by
  unfold _parseBlock_value_valLoc _parseBlock_value
  simp only [updProp_mk, curProp_mk]
  refine ⟨fun i hi => ?_, fun hi => ?_⟩
  · split_ifs at hi ⊢
    all_goals simp only [Option.some.injEq, reduceCtorEq] at hi
    all_goals subst hi
    all_goals exact ⟨rfl, _, by simp only [_parseError, curProp_mk]; rfl⟩
  · split_ifs at hi ⊢
    all_goals simp only [reduceCtorEq] at hi
    rfl

theorem parseBlock_value_last (st : parseState_t) (tok : _confToken_t) (fn : Option String)
    (hs : List ConfBlock_t) (bl : Int) (bt bn : String) (ps : List ConfProperty_t)
    (pl : Int) (pn : String) (vs : List ConfPropVal_t) (tr : List Event)
    (hv : IsValue tok) (hlen : vs.length + 1 = MAX_PROPVAR) :
    _parseBlock_value_valLoc tok
        ⟨fn, hs ++ [⟨bl, bt, bn, ps ++ [⟨pl, pn, slots vs, vs.length⟩]⟩], tr⟩
      = some (MAX_PROPVAR - 1) ∧
    _parseBlock_value st tok ⟨fn, hs ++ [⟨bl, bt, bn, ps ++ [⟨pl, pn, slots vs, vs.length⟩]⟩], tr⟩
      = (false, ⟨fn, hs ++ [⟨bl, bt, bn,
          ps ++ [⟨pl, pn, slots (vs ++ [valueOf tok]), MAX_PROPVAR⟩]⟩],
          tr ++ [Event.error ⟨fn, tok.line, Detail.tooManyProps pn⟩]⟩) := by
  have hlt : vs.length < MAX_PROPVAR := by omega
  have hge : MAX_PROPVAR ≤ vs.length + 1 := by omega
  have hidx : vs.length = MAX_PROPVAR - 1 := by omega
  refine ⟨?_, ?_⟩
  · unfold _parseBlock_value_valLoc
    simp only [curProp_mk, ← hidx]
    rcases hv with hn | ⟨hi | hs1, -⟩
    · simp [hn]
    · simp [hi]
    · simp [hs1]
  · rcases hv with hn | ⟨hi | hs1, hl⟩
    · simp [_parseBlock_value, hn, valueOf, slots_set _ _ hlt, hge, _parseError, hlen,
        ConfGetFileName, PARSE_ERROR_TOO_MANY_PROPS, PARSE_ERROR_UNEXPECTED_TOKEN,
        PARSE_ERROR_OVERFLOW]
    · simp [_parseBlock_value, hi, valueOf, c32lcpy_fits _ _ hl, slots_set _ _ hlt, hge, hl,
        _parseError, hlen, ConfGetFileName, PARSE_ERROR_TOO_MANY_PROPS,
        PARSE_ERROR_UNEXPECTED_TOKEN, PARSE_ERROR_OVERFLOW]
    · simp [_parseBlock_value, hs1, valueOf, c32lcpy_fits _ _ hl, slots_set _ _ hlt, hge, hl,
        _parseError, hlen, ConfGetFileName, PARSE_ERROR_TOO_MANY_PROPS,
        PARSE_ERROR_UNEXPECTED_TOKEN, PARSE_ERROR_OVERFLOW]

theorem good_loud {r : Bool} {w a : World} (h : Good r w a) :
    ∃ es, a.trace = w.trace ++ es ∧
      ∀ e ∈ es, e.quiet = false → r = false ∧ ∃ qs, es = qs ++ [e] ∧ Quiet qs := by
  obtain ⟨es, ht, hg⟩ := h
  refine ⟨es, ht, fun e hm hnq => ?_⟩
  cases r with
  | true =>
    have hq : Quiet es := by simpa using hg
    have := hq _ hm
    rw [hnq] at this
    exact absurd this (by decide)
  | false =>
    have he : Ended es := by simpa using hg
    obtain ⟨qs, t, rfl, hq, hl, hn⟩ := he
    refine ⟨rfl, qs, ?_, hq⟩
    rcases List.mem_append.mp hm with h1 | h1
    · have := hq _ h1
      rw [hnq] at this
      exact absurd this (by decide)
    · cases t with
      | nil => simp at h1
      | cons e1 t1 =>
        cases t1 with
        | nil =>
          simp only [List.mem_singleton] at h1
          rw [h1]
        | cons e2 t2 => simp at hl

/-- In a call of `_confParse` that has returned, an event that is a message
or an `ERROR` token is the last event, the call returned `NULL`, and no event
before it is a message or an `ERROR` token. -/
theorem confParse_loud_last (host : Host) (n : Nat) (file : String) (w : World)
    (t : Option (List ConfBlock_t)) (a : World) (h : _confParse host n file w = some (t, a)) :
    ∃ es, a.trace = w.trace ++ es ∧
      ∀ e ∈ es, ((∃ d, e = Event.error d) ∨
          ∃ f tk, e = Event.lex f tk ∧ tk.type = LEX_TOKEN_ERROR) →
        t = none ∧ ∃ qs, es = qs ++ [e] ∧
          ∀ x ∈ qs, (∀ d, x ≠ Event.error d) ∧
            ∀ g tk, x = Event.lex g tk → tk.type ≠ LEX_TOKEN_ERROR := by
  obtain ⟨es, ht, hl⟩ := good_loud (good_confParse host n file w t a h)
  refine ⟨es, ht, fun e he hk => ?_⟩
  have hnq : e.quiet = false := by
    rcases hk with ⟨d, rfl⟩ | ⟨f, tk, rfl, hty⟩
    · simp [Event.quiet]
    · simp [Event.quiet, hty]
  obtain ⟨hr, qs, hq, hs⟩ := hl e he hnq
  exact ⟨by simpa using hr, qs, hq, hs.spec⟩

/-- The property loop at a property name and the token behind it, when that
token is not `:`. -/
theorem parseBlock_props_after_name (n : Nat) (st : parseState_t) (tok : _confToken_t)
    (v : World) (p t : _confToken_t) (lx lx' : lexState_t)
    (hp : _confLex st.lex = (p, lx)) (hpt : p.type = LEX_TOKEN_ID)
    (hpl : p.semVal.length < BLOCK_BUFSZ)
    (ht : _confLex lx = (t, lx')) (htc : t.type ≠ LEX_TOKEN_COLON) :
    ∃ a, _parseBlock_props (n + 1) st tok v = some (none, ⟨lx', some p⟩, a) ∧
      ConfGetFileName a = ConfGetFileName v ∧
      (t.type ≠ LEX_TOKEN_ERROR →
        a.trace = v.trace ++ [Event.lex st.lex.file p, Event.lex lx.file t,
          Event.error ⟨ConfGetFileName v, t.line,
            Detail.unexpected t (some p) (some LEX_TOKEN_COLON)⟩] ∧
        a.errors = v.errors ++ [⟨ConfGetFileName v, t.line,
          Detail.unexpected t (some p) (some LEX_TOKEN_COLON)⟩]) ∧
      (t.type = LEX_TOKEN_ERROR →
        a.trace = v.trace ++ [Event.lex st.lex.file p, Event.lex lx.file t] ∧
        a.errors = v.errors) := by
  have hp' : p.type ≠ LEX_TOKEN_ERROR := by simp [hpt]
  by_cases hte : t.type = LEX_TOKEN_ERROR
  · simp only [_parseBlock_props, parseToken_lex st (some tok) v p lx hp hp', hpt, reduceCtorEq,
      if_true, if_false, c32lcpy_fits _ _ hpl, ge_iff_le, Nat.not_le.mpr hpl,
      parseExpect_lex_error ⟨lx, some tok⟩ (some p) LEX_TOKEN_COLON _ t lx' ht hte]
    refine ⟨_, rfl, rfl, fun h => absurd hte h, fun _ => ⟨by simp, ?_⟩⟩
    simp [World.errors, List.filterMap_append, Event.diag]
  · simp only [_parseBlock_props, parseToken_lex st (some tok) v p lx hp hp', hpt, reduceCtorEq,
      if_true, if_false, c32lcpy_fits _ _ hpl, ge_iff_le, Nat.not_le.mpr hpl,
      parseExpect_lex ⟨lx, some tok⟩ (some p) LEX_TOKEN_COLON _ t lx' ht hte htc]
    refine ⟨_, rfl, rfl, fun _ => ⟨by simp [ConfGetFileName], ?_⟩, fun h => absurd h hte⟩
    simp [World.errors, List.filterMap_append, Event.diag, ConfGetFileName]

/-- The property loop at a property name of `BLOCK_BUFSZ` code points or
more. -/
theorem parseBlock_props_long_name (n : Nat) (st : parseState_t) (tok : _confToken_t)
    (v : World) (p : _confToken_t) (lx : lexState_t)
    (hp : _confLex st.lex = (p, lx)) (hpt : p.type = LEX_TOKEN_ID)
    (hpl : BLOCK_BUFSZ ≤ p.semVal.length) :
    ∃ a, _parseBlock_props (n + 1) st tok v = some (none, ⟨lx, some tok⟩, a) ∧
      a.trace = v.trace ++ [Event.lex st.lex.file p,
        Event.error ⟨ConfGetFileName v, p.line, Detail.overflow p⟩] ∧
      a.errors = v.errors ++ [⟨ConfGetFileName v, p.line, Detail.overflow p⟩] := by
  have hp' : p.type ≠ LEX_TOKEN_ERROR := by simp [hpt]
  have ho : (c32lcpy p.semVal BLOCK_BUFSZ).2 ≥ BLOCK_BUFSZ := c32lcpy_long _ _ hpl
  simp only [_parseBlock_props, parseToken_lex st (some tok) v p lx hp hp', hpt, reduceCtorEq,
    if_true, if_false, ho]
  refine ⟨_, rfl, by simp [_parseError, ConfGetFileName, PARSE_ERROR_OVERFLOW,
    PARSE_ERROR_UNEXPECTED_TOKEN], ?_⟩
  simp [World.errors, List.filterMap_append, Event.diag, _parseError, ConfGetFileName,
    PARSE_ERROR_OVERFLOW, PARSE_ERROR_UNEXPECTED_TOKEN]

/-- The block header at an `ERROR` token behind the block type. -/
theorem parseBlock_header_error (n : Nat) (st : parseState_t) (tok : _confToken_t) (w : World)
    (t : _confToken_t) (lx : lexState_t) (hl : tok.semVal.length < 256)
    (h : _confLex st.lex = (t, lx)) (hte : t.type = LEX_TOKEN_ERROR) :
    _parseBlock n st tok w
      = some (none, ⟨lx, some tok⟩,
          ⟨w.fileName, w.head ++ [⟨tok.line, tok.semVal, "", []⟩],
            w.trace ++ [Event.lex st.lex.file t]⟩) := by
  obtain ⟨fn, hd, tr⟩ := w
  simp [_parseBlock, updBlock_mk, c32lcpy_fits _ _ hl, Nat.not_le.mpr hl,
    parseToken_lex_error st (some tok) _ t lx h hte]

/-- The block header at an `ERROR` token behind the block name. -/
theorem parseBlock_brace_error (n : Nat) (st : parseState_t) (tok : _confToken_t) (w : World)
    (t u : _confToken_t) (lx lx' : lexState_t) (hl : tok.semVal.length < 256)
    (h : _confLex st.lex = (t, lx)) (ht : t.type = LEX_TOKEN_ID)
    (htl : t.semVal.length < BLOCK_BUFSZ)
    (hu : _confLex lx = (u, lx')) (hue : u.type = LEX_TOKEN_ERROR) :
    _parseBlock n st tok w
      = some (none, ⟨lx', some t⟩,
          ⟨w.fileName, w.head ++ [⟨tok.line, tok.semVal, t.semVal, []⟩],
            w.trace ++ [Event.lex st.lex.file t, Event.lex lx.file u]⟩) := by
  have hte : t.type ≠ LEX_TOKEN_ERROR := by simp [ht]
  obtain ⟨fn, hd, tr⟩ := w
  simp [_parseBlock, updBlock_mk, c32lcpy_fits _ _ hl, Nat.not_le.mpr hl,
    parseToken_lex st (some tok) _ t lx h hte, ht, c32lcpy_fits _ _ htl, Nat.not_le.mpr htl,
    parseExpect_lex_error ⟨lx, some tok⟩ (some t) LEX_TOKEN_OBRACE _ u lx' hu hue]

/-- The value loop at an `ERROR` token in value position. -/
theorem parseBlock_values_error (n : Nat) (st : parseState_t) (tok : _confToken_t) (w : World)
    (v : _confToken_t) (lx : lexState_t)
    (h : _confLex st.lex = (v, lx)) (hve : v.type = LEX_TOKEN_ERROR) :
    _parseBlock_values (n + 1) st tok w
      = some (none, ⟨lx, some tok⟩,
          { w with trace := w.trace ++ [Event.lex st.lex.file v] }) := by
  simp [_parseBlock_values, parseToken_lex_error st (some tok) _ v lx h hve]

/-- The value loop at an `ERROR` token behind a value that was stored. -/
theorem parseBlock_values_sep_error (n : Nat) (st : parseState_t) (tok : _confToken_t)
    (w w2 : World) (v s : _confToken_t) (lx lx' : lexState_t)
    (h : _confLex st.lex = (v, lx)) (hve : v.type ≠ LEX_TOKEN_ERROR)
    (hv : _parseBlock_value ⟨lx, some tok⟩ v
      { w with trace := w.trace ++ [Event.lex st.lex.file v] } = (true, w2))
    (hs : _confLex lx = (s, lx')) (hse : s.type = LEX_TOKEN_ERROR) :
    _parseBlock_values (n + 1) st tok w
      = some (none, ⟨lx', some v⟩,
          { w2 with trace := w2.trace ++ [Event.lex lx.file s] }) := by
  simp [_parseBlock_values, parseToken_lex st (some tok) _ v lx h hve, hv,
    parseToken_lex_error ⟨lx, some tok⟩ (some v) _ s lx' hs hse]

/-- The top level at an `ERROR` token. -/
theorem parseInternal_next_error
    (loop : parseState_t → _confToken_t → World → Option (Bool × World))
    (parser : parseState_t) (lastTok : Option _confToken_t) (w : World) (t : _confToken_t)
    (lx : lexState_t) (h : _confLex parser.lex = (t, lx)) (hte : t.type = LEX_TOKEN_ERROR) :
    _parseInternal_next loop parser lastTok w
      = some (false, { w with trace := w.trace ++ [Event.lex parser.lex.file t] }) := by
  simp [_parseInternal_next, parseToken_lex_error parser lastTok w t lx h hte]

/-- The top level at the include keyword followed by an `ERROR` token. -/
theorem parseInternal_next_include_error (host : Host) (n : Nat) (parser : parseState_t)
    (lastTok : Option _confToken_t) (w : World) (t u : _confToken_t) (lx lx' : lexState_t)
    (h : _confLex parser.lex = (t, lx)) (ht : t.type = LEX_TOKEN_INCLUDE)
    (hu : _confLex lx = (u, lx')) (hue : u.type = LEX_TOKEN_ERROR) :
    _parseInternal_next (_parseInternal_loop host (n + 1)) parser lastTok w
      = some (false, { w with trace := w.trace ++ [Event.lex parser.lex.file t,
          Event.lex lx.file u] }) := by
  have hte : t.type ≠ LEX_TOKEN_ERROR := by simp [ht]
  simp [_parseInternal_next, parseToken_lex parser lastTok w t lx h hte, _parseInternal_loop, ht,
    _parseInclude, parseExpect_lex_error ⟨lx, lastTok⟩ (some t) LEX_TOKEN_STR _ u lx' hu hue]

/-! ## The claims -/

/-- C1. For every single file whose token stream is `(block)* END`, with every
text shorter than 256 code points and every property holding fewer than 16
values, `_confParse` succeeds: it returns one `ConfBlock_t` per block
declaration, in declaration order, each with the type text, the name text
(empty when omitted), the line of its type token and its properties in
declaration order, each property with its name, the line of its name token and
its values left to right, tagged 0, 1 or 2 by token type and holding the text
or number of the token.  Nothing is reported and the file name is left as it
was. -/
theorem confParse_single_file (host : Host) (file : String) (bs : List SrcBlock) (eof : Int)
    (fuel : Nat) (w : World) (hfile : host.files file = some (bs.flatMap SrcBlock.tokens, eof))
    (hwf : ∀ b ∈ bs, b.WF) (hfuel : (bs.flatMap SrcBlock.tokens).length < fuel) :
    ∃ w', _confParse host fuel file w = some (some (bs.map SrcBlock.tree), w') ∧
      w'.errors = w.errors ∧ ConfGetFileName w' = ConfGetFileName w := by
  refine ⟨_, confParse_blocks_exact host file bs eof fuel w hfile hwf hfuel, ?_, rfl⟩
  simp [World.errors, List.filterMap_append, diag_lex, diag_comp_lex, Event.diag]

/-- C1, on the test file of `tests/parse.c`: the three blocks `package test`,
`package test`, `block test` are returned in this order. -/
theorem confParse_single_file_witness :
    (∀ b ∈ testParse, b.WF) ∧
    (∃ w', _confParse testHost 100 "testParse.testxt" world0
        = some (some (testParse.map SrcBlock.tree), w') ∧
      w'.errors = world0.errors ∧ ConfGetFileName w' = ConfGetFileName world0) ∧
    (testParse.map SrcBlock.tree).map (fun b => (b.blockType, b.blockName))
      = [("package", "test"), ("package", "test"), ("block", "test")] :=
  ⟨by decide,
   confParse_single_file testHost "testParse.testxt" testParse 21 100 world0 rfl (by decide)
     (by decide),
   by decide⟩

/-- C2. A root file whose token stream is the blocks `A`, the directive
`include "f"`, then the blocks `B`, where the file `f` parses successfully to
the block list `F`, parses to the flat list `A ++ F ++ B`. -/
theorem confParse_include_splice (host : Host) (root f : String) (A B : List SrcBlock)
    (incl str : _confToken_t) (eof : Int) (nF : Nat) (F : List ConfBlock_t) (w0 : World)
    (fuel : Nat) (w : World)
    (hroot : host.files root
      = some (A.flatMap SrcBlock.tokens ++ incl :: str :: B.flatMap SrcBlock.tokens, eof))
    (hA : ∀ b ∈ A, b.WF) (hB : ∀ b ∈ B, b.WF)
    (hi : incl.type = LEX_TOKEN_INCLUDE) (hs : str.type = LEX_TOKEN_STR)
    (hpath : host.c32stombs str.semVal = some f)
    (hF : (_confParse host nF f w0).map Prod.fst = some (some F))
    (hfuel : nF + (A.flatMap SrcBlock.tokens ++ incl :: str :: B.flatMap SrcBlock.tokens).length
      ≤ fuel) :
    (_confParse host fuel root w).map Prod.fst
      = some (some (A.map SrcBlock.tree ++ F ++ B.map SrcBlock.tree)) :=
  confParse_include_ok host root f A B incl str eof nF F w0 fuel w hroot hA hB hi hs hpath hF
    hfuel

/-- C2, on `root.cfg`, that is `a`, `include "other.cfg"`, `c`, with `other.cfg`
holding the block `b`: the tree is `a`, `b`, `c`. -/
theorem confParse_include_splice_witness :
    testHost.files "root.cfg"
      = some ([emptyBlock "a" 1].flatMap SrcBlock.tokens ++ punct LEX_TOKEN_INCLUDE 2 ::
          ⟨LEX_TOKEN_STR, 2, "other.cfg", 0⟩ :: [emptyBlock "c" 3].flatMap SrcBlock.tokens, 4) ∧
    (_confParse testHost 10 "other.cfg" world0).map Prod.fst
      = some (some [(emptyBlock "b" 1).tree]) ∧
    (_confParse testHost 20 "root.cfg" world0).map Prod.fst
      = some (some ([emptyBlock "a" 1].map SrcBlock.tree ++ [(emptyBlock "b" 1).tree]
          ++ [emptyBlock "c" 3].map SrcBlock.tree)) :=
  ⟨by decide, by decide,
   confParse_include_splice testHost "root.cfg" "other.cfg" [emptyBlock "a" 1]
     [emptyBlock "c" 3] (punct LEX_TOKEN_INCLUDE 2) ⟨LEX_TOKEN_STR, 2, "other.cfg", 0⟩ 4 10
     [(emptyBlock "b" 1).tree] world0 20 world0 (by decide) (by decide) (by decide) rfl rfl rfl
     (by decide) (by decide)⟩

/-- C3 (the code on a property with exactly 16 values).  The file
`a { p: 1, ..., 1; }` whose property has 16 values ended by `;` is
rejected: `ConfInit` returns `NULL` and the message is `too many properties on
property 'p'`, reported at the 16th value.  With 15 values the file is
accepted. -/
theorem confInit_sixteen_values :
    (ConfInit testHost 100 "values16.cfg" world0).map (fun r => (r.1, r.2.errors))
      = some (none, [⟨some "values16.cfg", 1, Detail.tooManyProps "p"⟩]) ∧
    (ConfInit testHost 100 "values15.cfg" world0).map (fun r => (r.1, r.2.errors))
      = some (some [(valuesBlock 14).tree], []) := by
  decide

/-- C4 (the code on tokens that are neither an identifier nor `}` in a block
body).  The file `a { 5 "s" : , ; { include }` is accepted: `ConfInit`
returns the block `a` without properties and nothing is reported; the seven
tokens between the braces are skipped. -/
theorem confInit_garbage_in_block :
    (ConfInit testHost 100 "garbage.cfg" world0).map (fun r => (r.1, r.2.errors))
      = some (some [⟨1, "a", "", []⟩], []) := by
  decide

/-- C5. `_confParse` returns a tree only when no error occurred anywhere: when
it returns a tree, none of the events of the call, those of the included files
among them, is a message of `_parseError` or an `ERROR` token of a lexer. -/
theorem confParse_tree_without_error (host : Host) (fuel : Nat) (file : String) (w : World)
    (tree : List ConfBlock_t) (w' : World)
    (h : _confParse host fuel file w = some (some tree, w')) :
    ∃ es, w'.trace = w.trace ++ es ∧
      ∀ e ∈ es, (∀ d, e ≠ Event.error d) ∧
        ∀ f tok, e = Event.lex f tok → tok.type ≠ LEX_TOKEN_ERROR := by
  obtain ⟨es, ht, hq⟩ := good_confParse host fuel file w (some tree) w' h
  refine ⟨es, ht, fun e he => ?_⟩
  have hqe : e.quiet = true := by
    have : Quiet es := by simpa using hq
    exact this e he
  constructor
  · intro d hd
    rw [hd] at hqe
    simp [Event.quiet] at hqe
  · intro f tok hd
    rw [hd] at hqe
    simpa [Event.quiet] using hqe

/-- C5, on `other.cfg`, the block `b`: the tree is returned, and the events are
the creation of the lexer, its four tokens and its destruction.  On
`values16.cfg`, where the block was appended before the error, no tree is
returned. -/
theorem confParse_tree_without_error_witness :
    _confParse testHost 10 "other.cfg" world0
      = some (some [⟨1, "b", "", []⟩],
          ⟨none, [⟨1, "b", "", []⟩],
            [Event.lexInit "other.cfg", Event.lex "other.cfg" ⟨LEX_TOKEN_ID, 1, "b", 0⟩,
              Event.lex "other.cfg" (punct LEX_TOKEN_OBRACE 1),
              Event.lex "other.cfg" (punct LEX_TOKEN_EBRACE 1),
              Event.lex "other.cfg" (punct LEX_TOKEN_NONE 2), Event.lexDestroy "other.cfg"]⟩) ∧
    (∃ es, [Event.lexInit "other.cfg", Event.lex "other.cfg" ⟨LEX_TOKEN_ID, 1, "b", 0⟩,
          Event.lex "other.cfg" (punct LEX_TOKEN_OBRACE 1),
          Event.lex "other.cfg" (punct LEX_TOKEN_EBRACE 1),
          Event.lex "other.cfg" (punct LEX_TOKEN_NONE 2), Event.lexDestroy "other.cfg"]
        = world0.trace ++ es ∧
      ∀ e ∈ es, (∀ d, e ≠ Event.error d) ∧
        ∀ f tok, e = Event.lex f tok → tok.type ≠ LEX_TOKEN_ERROR) ∧
    (_confParse testHost 100 "values16.cfg" world0).map Prod.fst = some none :=
  ⟨by decide,
   confParse_tree_without_error testHost 10 "other.cfg" world0 [⟨1, "b", "", []⟩]
     ⟨none, [⟨1, "b", "", []⟩],
       [Event.lexInit "other.cfg", Event.lex "other.cfg" ⟨LEX_TOKEN_ID, 1, "b", 0⟩,
         Event.lex "other.cfg" (punct LEX_TOKEN_OBRACE 1),
         Event.lex "other.cfg" (punct LEX_TOKEN_EBRACE 1),
         Event.lex "other.cfg" (punct LEX_TOKEN_NONE 2), Event.lexDestroy "other.cfg"]⟩
     (by decide),
   by decide⟩

/-- C6 (the code on an include that fails).  `ConfInit` on `incmissing.cfg`,
which includes a file that cannot be opened, and on `incbad.cfg`, which
includes a file that does not parse, returns `NULL` and leaves the current
file name at the name of the included file, not at the name of the includer:
`_parseInclude` returns before `_confSetFileName (oldFile)`. -/
theorem confInit_include_failure_file_name :
    (ConfInit testHost 100 "incmissing.cfg" world0).map (fun r => (r.1, ConfGetFileName r.2))
      = some (none, some "missing.cfg") ∧
    (ConfInit testHost 100 "incbad.cfg" world0).map (fun r => (r.1, ConfGetFileName r.2))
      = some (none, some "bad.cfg") := by
  decide

/-- C7 (as stated, at a lexer error).  In `lexerror.cfg` the property name
`prop` is followed by a token other than `:`, the `ERROR` token: the parse
fails, and the parser reports no message at all. -/
theorem confInit_no_colon_lex_error :
    (ConfInit testHost 100 "lexerror.cfg" world0).map (fun r => (r.1, r.2.errors))
      = some (none, []) := by
  decide

/-- C7, amended.  Whenever the property loop, in whatever state, reads a
property name `q` shorter than 256 code points and the lexer then gives a
token `u` that is not `:`, the loop returns `NULL` without reading on (in the
C code a `return NULL` of `_parseBlock`).  When `u` is not the `ERROR` token
of the lexer, exactly one message is reported: it has the current file name
and the line of `u`, and names `u` as the unexpected token, `q` as the token
it came after and `:` as the expected token.  When `u` is the `ERROR` token,
nothing is reported.  A name of 256 code points or more is reported as too
long before the next token is read.  In every call of `_confParse` that has returned, a message or an
`ERROR` token is the last event, and the call returned `NULL`.  And for a file
of well-formed blocks followed by a block that is well formed up to the name
`p` and the token `t` behind it, `_confParse` returns `NULL` with that one
message, or with none when `t` is the `ERROR` token, and leaves the current
file name as it was. -/
theorem confParse_no_colon (host : Host) (file : String) (A : List SrcBlock) (b : SrcBlock)
    (p t : _confToken_t) (rest : List _confToken_t) (eof : Int) (fuel : Nat) (w : World)
    (hfile : host.files file
      = some (A.flatMap SrcBlock.tokens ++ (b.opening ++ p :: t :: rest), eof))
    (hA : ∀ x ∈ A, x.WF) (hb : b.WF) (hp : p.type = LEX_TOKEN_ID)
    (hpl : p.semVal.length < BLOCK_BUFSZ) (ht : t.type ≠ LEX_TOKEN_COLON)
    (hfuel : (A.flatMap SrcBlock.tokens ++ b.opening).length + 2 ≤ fuel) :
    (∃ w', _confParse host fuel file w = some (none, w') ∧
      ConfGetFileName w' = ConfGetFileName w ∧
      (t.type ≠ LEX_TOKEN_ERROR →
        w'.errors = w.errors ++ [⟨ConfGetFileName w, t.line,
          Detail.unexpected t (some p) (some LEX_TOKEN_COLON)⟩]) ∧
      (t.type = LEX_TOKEN_ERROR → w'.errors = w.errors)) ∧
    (∀ (n : Nat) (st : parseState_t) (tok : _confToken_t) (v : World) (q u : _confToken_t)
      (lx lx' : lexState_t),
      _confLex st.lex = (q, lx) → q.type = LEX_TOKEN_ID → q.semVal.length < BLOCK_BUFSZ →
      _confLex lx = (u, lx') → u.type ≠ LEX_TOKEN_COLON →
      ∃ a, _parseBlock_props (n + 1) st tok v = some (none, ⟨lx', some q⟩, a) ∧
        ConfGetFileName a = ConfGetFileName v ∧
        (u.type ≠ LEX_TOKEN_ERROR →
          a.trace = v.trace ++ [Event.lex st.lex.file q, Event.lex lx.file u,
            Event.error ⟨ConfGetFileName v, u.line,
              Detail.unexpected u (some q) (some LEX_TOKEN_COLON)⟩] ∧
          a.errors = v.errors ++ [⟨ConfGetFileName v, u.line,
            Detail.unexpected u (some q) (some LEX_TOKEN_COLON)⟩]) ∧
        (u.type = LEX_TOKEN_ERROR →
          a.trace = v.trace ++ [Event.lex st.lex.file q, Event.lex lx.file u] ∧
          a.errors = v.errors)) ∧
    (∀ (n : Nat) (st : parseState_t) (tok : _confToken_t) (v : World) (q : _confToken_t)
      (lx : lexState_t),
      _confLex st.lex = (q, lx) → q.type = LEX_TOKEN_ID → BLOCK_BUFSZ ≤ q.semVal.length →
      ∃ a, _parseBlock_props (n + 1) st tok v = some (none, ⟨lx, some tok⟩, a) ∧
        a.trace = v.trace ++ [Event.lex st.lex.file q,
          Event.error ⟨ConfGetFileName v, q.line, Detail.overflow q⟩] ∧
        a.errors = v.errors ++ [⟨ConfGetFileName v, q.line, Detail.overflow q⟩]) ∧
    (∀ (file2 : String) (n2 : Nat) (v : World) (r : Option (List ConfBlock_t)) (c : World),
      _confParse host n2 file2 v = some (r, c) →
      ∃ es, c.trace = v.trace ++ es ∧
        ∀ e ∈ es, ((∃ d, e = Event.error d) ∨
            ∃ f tk, e = Event.lex f tk ∧ tk.type = LEX_TOKEN_ERROR) →
          r = none ∧ ∃ qs, es = qs ++ [e] ∧
            ∀ x ∈ qs, (∀ d, x ≠ Event.error d) ∧
              ∀ g tk, x = Event.lex g tk → tk.type ≠ LEX_TOKEN_ERROR) := by
  refine ⟨?_, parseBlock_props_after_name, parseBlock_props_long_name,
    fun file2 n2 v r c hc => confParse_loud_last host n2 file2 v r c hc⟩
  have hAl := length_le_tokens A
  have hPl : b.props.length ≤ (b.props.flatMap SrcProp.tokens).length := by
    cases hps : b.props with
    | nil => simp
    | cons x xs =>
      have := props_length_le (x :: xs) x (by simp)
      have hx : 1 ≤ x.tokens.length := by simp [SrcProp.tokens]
      omega
  simp only [List.length_append, SrcBlock.opening, List.length_cons] at hfuel
  obtain ⟨m, rfl⟩ : ∃ m, fuel = (((m + 1) + b.props.length) + 1) + A.length :=
    ⟨fuel - A.length - 1 - b.props.length - 1, by omega⟩
  have hlenA : ∀ x ∈ A, x.tokens.length ≤ ((m + 1) + b.props.length) + 1 := by
    intro x hx
    have := tokens_length_le A x hx
    omega
  have hlenP : ∀ q ∈ b.props, q.more.length < m + 1 := by
    intro q hq
    have := props_length_le b.props q hq
    have hq2 : q.tokens.length = 2 * q.more.length + 4 := by
      simp [SrcProp.tokens, sepTokens_length]
    omega
  obtain ⟨lt3, tok3, hprop⟩ := confParse_props_fail host file A b (p :: t :: rest) eof (m + 1) w
    hfile hA hb hlenA hlenP
  obtain ⟨a, hfail, hname, hmsg, hnone⟩ := parseBlock_props_after_name m
    ⟨⟨file, p :: t :: rest, eof⟩, lt3⟩ tok3
    ⟨w.fileName, A.map SrcBlock.tree ++ [⟨b.type.line, b.type.semVal,
        (b.name.map fun n => n.semVal).getD "", b.props.map SrcProp.tree⟩],
      w.trace ++ Event.lexInit file :: ((A.flatMap SrcBlock.tokens).map (Event.lex file)
        ++ b.opening.map (Event.lex file))⟩
    p t ⟨file, t :: rest, eof⟩ ⟨file, rest, eof⟩ rfl hp hpl rfl ht
  have hW : World.errors ⟨w.fileName, A.map SrcBlock.tree ++ [⟨b.type.line, b.type.semVal,
        (b.name.map fun n => n.semVal).getD "", b.props.map SrcProp.tree⟩],
      w.trace ++ Event.lexInit file :: ((A.flatMap SrcBlock.tokens).map (Event.lex file)
        ++ b.opening.map (Event.lex file))⟩ = w.errors := by
    simp [World.errors, List.filterMap_append, diag_lex, diag_comp_lex, Event.diag]
  refine ⟨{ a with head := [] }, hprop _ _ hfail, hname, fun hte => ?_, fun hte => ?_⟩
  · show World.errors a = _
    rw [(hmsg hte).2, hW]
    rfl
  · show World.errors a = _
    rw [(hnone hte).2, hW]

/-- C7, amended, on `nocolon.cfg`, the input `id { prop ;`, and on
`lexerror.cfg`, the input `id { prop` and a character that the lexer
rejects. -/
theorem confParse_no_colon_witness :
    testHost.files "nocolon.cfg"
      = some (([] : List SrcBlock).flatMap SrcBlock.tokens ++
          ((emptyBlock "id" 1).opening ++ ⟨LEX_TOKEN_ID, 1, "prop", 0⟩ ::
            punct LEX_TOKEN_SEMICOLON 1 :: []), 2) ∧
    (∃ w', _confParse testHost 100 "nocolon.cfg" (_confSetFileName (some "nocolon.cfg") world0)
        = some (none, w') ∧
      ConfGetFileName w' = ConfGetFileName (_confSetFileName (some "nocolon.cfg") world0) ∧
      ((punct LEX_TOKEN_SEMICOLON 1).type ≠ LEX_TOKEN_ERROR →
        w'.errors = (_confSetFileName (some "nocolon.cfg") world0).errors ++
          [⟨ConfGetFileName (_confSetFileName (some "nocolon.cfg") world0),
            (punct LEX_TOKEN_SEMICOLON 1).line,
            Detail.unexpected (punct LEX_TOKEN_SEMICOLON 1) (some ⟨LEX_TOKEN_ID, 1, "prop", 0⟩)
              (some LEX_TOKEN_COLON)⟩]) ∧
      ((punct LEX_TOKEN_SEMICOLON 1).type = LEX_TOKEN_ERROR →
        w'.errors = (_confSetFileName (some "nocolon.cfg") world0).errors)) ∧
    (ConfInit testHost 100 "nocolon.cfg" world0).map (fun r => (r.1, r.2.errors))
      = some (none, [⟨some "nocolon.cfg", 1, Detail.unexpected (punct LEX_TOKEN_SEMICOLON 1)
          (some ⟨LEX_TOKEN_ID, 1, "prop", 0⟩) (some LEX_TOKEN_COLON)⟩]) ∧
    (∃ w', _confParse testHost 100 "lexerror.cfg" (_confSetFileName (some "lexerror.cfg") world0)
        = some (none, w') ∧
      w'.errors = (_confSetFileName (some "lexerror.cfg") world0).errors) :=
  ⟨by decide,
   (confParse_no_colon testHost "nocolon.cfg" [] (emptyBlock "id" 1)
     ⟨LEX_TOKEN_ID, 1, "prop", 0⟩ (punct LEX_TOKEN_SEMICOLON 1) [] 2 100
     (_confSetFileName (some "nocolon.cfg") world0)
     (by decide) (by decide) (by decide) rfl (by decide) (by decide) (by decide)).1,
   by decide,
   (confParse_no_colon testHost "lexerror.cfg" [] (emptyBlock "id" 1)
     ⟨LEX_TOKEN_ID, 1, "prop", 0⟩ (punct LEX_TOKEN_ERROR 1) [] 2 100
     (_confSetFileName (some "lexerror.cfg") world0)
     (by decide) (by decide) (by decide) rfl (by decide) (by decide) (by decide)).1.elim
     fun w' h => ⟨w', h.1, h.2.2.2 rfl⟩⟩

/-- C8 (the code at the end of input inside a block).  When the token stream
of a file ends while a block is open, after its `{` or after the `;` of a
property, `_confParse` does not return, whatever the fuel: the `END` token is
neither `}` nor an identifier, so the property loop skips it and asks the
lexer for the next token, again and again. -/
theorem confParse_eof_never (host : Host) (file : String) (A : List SrcBlock) (b : SrcBlock)
    (eof : Int) (fuel : Nat) (w : World)
    (hfile : host.files file = some (A.flatMap SrcBlock.tokens ++ b.opening, eof))
    (hA : ∀ x ∈ A, x.WF) (hb : b.WF) :
    _confParse host fuel file w = none := by
  cases h : _confParse host fuel file w with
  | none => rfl
  | some r =>
    obtain ⟨t, a⟩ := r
    obtain ⟨b', hb'⟩ := confParse_mono host fuel
      (max fuel ((A.flatMap SrcBlock.tokens ++ b.opening).length + 2)) file w t a
      (le_max_left _ _) h
    rw [confParse_eof_large host file A b eof _ w hfile hA hb (le_max_right _ _)] at hb'
    exact absurd hb' (by simp)

/-- C8, on `open.cfg`, the input `a {`, and on `openprop.cfg`, the input
`a { p: v;`. -/
theorem confParse_eof_never_witness :
    (testHost.files "open.cfg"
        = some (([] : List SrcBlock).flatMap SrcBlock.tokens ++ (emptyBlock "a" 1).opening, 2) ∧
      _confParse testHost 1000 "open.cfg" world0 = none) ∧
    _confParse testHost 50 "openprop.cfg" world0 = none :=
  ⟨⟨by decide,
    confParse_eof_never testHost "open.cfg" [] (emptyBlock "a" 1) 2 1000 world0 (by decide)
      (by decide) (by decide)⟩,
   by decide⟩

/-- C9 (as stated).  In `semi.cfg`, the input `a {} include "other.cfg"; c {}`,
the include statement is written with a trailing semicolon: `ConfInit` returns
`NULL`, with the message `unexpected token ; after token "other.cfg"`. -/
theorem confInit_include_semicolon :
    (ConfInit testHost 100 "semi.cfg" world0).map (fun r => (r.1, r.2.errors))
      = some (none, [⟨some "semi.cfg", 2,
          Detail.unexpected (punct LEX_TOKEN_SEMICOLON 2)
            (some ⟨LEX_TOKEN_STR, 2, "other.cfg", 0⟩) none⟩]) := by
  decide

/-- C9, amended.  An include statement at the top level of a file, beside
well-formed blocks, naming a file that parses to the blocks `F`: written
without a semicolon it is accepted and `F` stands in the tree at the include
point, between the blocks before and the blocks after it; written with a
trailing semicolon the included file is parsed and the `;` then makes the
parse fail with the message `unexpected token ; after` the path token, and no
tree is returned. -/
theorem confParse_include_statement (host : Host) (root f : String) (A B : List SrcBlock)
    (incl str semi : _confToken_t) (rest : List _confToken_t) (eof : Int) (nF : Nat)
    (F : List ConfBlock_t) (w0 : World) (fuel : Nat) (w : World)
    (hA : ∀ b ∈ A, b.WF) (hB : ∀ b ∈ B, b.WF)
    (hi : incl.type = LEX_TOKEN_INCLUDE) (hs : str.type = LEX_TOKEN_STR)
    (hsemi : semi.type = LEX_TOKEN_SEMICOLON)
    (hpath : host.c32stombs str.semVal = some f)
    (hF : (_confParse host nF f w0).map Prod.fst = some (some F))
    (hfuel : nF + (A.flatMap SrcBlock.tokens ++ incl :: str :: B.flatMap SrcBlock.tokens).length
      ≤ fuel) :
    (host.files root
        = some (A.flatMap SrcBlock.tokens ++ incl :: str :: B.flatMap SrcBlock.tokens, eof) →
      (_confParse host fuel root w).map Prod.fst
        = some (some (A.map SrcBlock.tree ++ F ++ B.map SrcBlock.tree))) ∧
    (host.files root
        = some (A.flatMap SrcBlock.tokens ++ incl :: str :: semi :: rest, eof) →
      ∃ w', _confParse host fuel root w = some (none, w') ∧
        w'.trace.getLast? = some (Event.error ⟨ConfGetFileName w, semi.line,
          Detail.unexpected semi (some str) none⟩)) := by
  constructor
  · intro hroot
    exact confParse_include_ok host root f A B incl str eof nF F w0 fuel w hroot hA hB hi hs
      hpath hF hfuel
  · intro hroot
    refine confParse_include_semi host root f A incl str semi rest eof nF F w0 fuel w hroot hA
      hi hs hsemi hpath hF ?_
    simp only [List.length_append, List.length_cons] at hfuel
    omega

/-- C9, amended, on `root.cfg`, the input `a {} include "other.cfg" c {}`,
and on `semi.cfg`, the same with `;` behind the path. -/
theorem confParse_include_statement_witness :
    (∀ b ∈ [emptyBlock "a" 1], b.WF) ∧ (∀ b ∈ [emptyBlock "c" 3], b.WF) ∧
    (_confParse testHost 10 "other.cfg" world0).map Prod.fst
      = some (some [(emptyBlock "b" 1).tree]) ∧
    (_confParse testHost 20 "root.cfg" world0).map Prod.fst
      = some (some ([emptyBlock "a" 1].map SrcBlock.tree ++ [(emptyBlock "b" 1).tree]
          ++ [emptyBlock "c" 3].map SrcBlock.tree)) ∧
    (∃ w', _confParse testHost 20 "semi.cfg" world0 = some (none, w') ∧
      w'.trace.getLast? = some (Event.error ⟨ConfGetFileName world0,
        (punct LEX_TOKEN_SEMICOLON 2).line,
        Detail.unexpected (punct LEX_TOKEN_SEMICOLON 2)
          (some ⟨LEX_TOKEN_STR, 2, "other.cfg", 0⟩) none⟩)) :=
  ⟨by decide, by decide, by decide,
   (confParse_include_statement testHost "root.cfg" "other.cfg" [emptyBlock "a" 1]
     [emptyBlock "c" 3] (punct LEX_TOKEN_INCLUDE 2) ⟨LEX_TOKEN_STR, 2, "other.cfg", 0⟩
     (punct LEX_TOKEN_SEMICOLON 2) (emptyBlock "c" 3).tokens 4 10 [(emptyBlock "b" 1).tree]
     world0 20 world0 (by decide) (by decide) rfl rfl rfl rfl (by decide) (by decide)).1
     (by decide),
   (confParse_include_statement testHost "semi.cfg" "other.cfg" [emptyBlock "a" 1]
     [emptyBlock "c" 3] (punct LEX_TOKEN_INCLUDE 2) ⟨LEX_TOKEN_STR, 2, "other.cfg", 0⟩
     (punct LEX_TOKEN_SEMICOLON 2) (emptyBlock "c" 3).tokens 4 10 [(emptyBlock "b" 1).tree]
     world0 20 world0 (by decide) (by decide) rfl rfl rfl rfl (by decide) (by decide)).2
     (by decide)⟩

/-- C10 (as stated).  In `inblock.cfg`, the input
`a { include "other.cfg" } c {}`, the include directive stands in a
block body: the tree returned holds `a` and `c` only; the block `b` of
`other.cfg` is not in it. -/
theorem confInit_include_in_block :
    (ConfInit testHost 100 "inblock.cfg" world0).map (fun r => (r.1, r.2.errors))
      = some (some [⟨1, "a", "", []⟩, ⟨4, "c", "", []⟩], []) := by
  decide

/-- C10, amended.  Whatever tokens a block holds, an include directive among
them, `_parseBlock` creates no lexer and so parses no other file; it leaves
the blocks of the list as they are and adds the one block it parses behind
them, and leaves the current file name as it is.  The blocks of a file named
in a block body are therefore not added at that point. -/
theorem parseBlock_addsOne (n : Nat) (st : parseState_t) (tok : _confToken_t) (w : World)
    (x : Option _confToken_t) (s : parseState_t) (a : World)
    (h : _parseBlock n st tok w = some (x, s, a)) : AddsOneBlock w a := by
  apply BInv.addsOne ⟨0, "", "", []⟩
  unfold _parseBlock at h
  simp only [] at h
  have g4 : BInv { w with head := w.head ++ [⟨0, "", "", []⟩] } (World.updBlock
      (fun b => { b with blockType := (c32lcpy tok.semVal 256).1 })
      (World.updBlock (fun b => { b with props := [] })
        (World.updBlock (fun b => { b with lineNo := tok.line })
          { w with head := w.head ++ [⟨0, "", "", []⟩] }))) :=
    ((BInv.ofUpdBlock _ _).trans (BInv.ofUpdBlock _ _)).trans (BInv.ofUpdBlock _ _)
  generalize World.updBlock _ (World.updBlock _ (World.updBlock _ _)) = a4 at h g4
  by_cases h0 : (c32lcpy tok.semVal 256).2 ≥ 256
  · simp only [h0, if_true, Option.some.injEq, Prod.mk.injEq] at h
    obtain ⟨rfl, rfl, rfl⟩ := h
    exact g4.trans (BInv.ofError _ _ _ _ _)
  · simp only [h0, if_false] at h
    rcases h1 : _parseToken st (some tok) a4 with ⟨_ | tok1, st1, a5⟩
    all_goals have g5 := g4.trans (binv_parseToken h1)
    all_goals simp only [h1] at h
    · simp only [Option.some.injEq, Prod.mk.injEq] at h
      obtain ⟨rfl, rfl, rfl⟩ := h
      exact g5
    · by_cases h2 : tok1.type = LEX_TOKEN_ID
      · simp only [h2, if_true] at h
        have g6 := g5.trans (BInv.ofUpdBlock a5
          (fun b => { b with blockName := (c32lcpy tok1.semVal BLOCK_BUFSZ).1 }))
        by_cases h3 : (c32lcpy tok1.semVal BLOCK_BUFSZ).2 ≥ BLOCK_BUFSZ
        · simp only [h3, if_true, Option.some.injEq, Prod.mk.injEq] at h
          obtain ⟨rfl, rfl, rfl⟩ := h
          exact g6.trans (BInv.ofError _ _ _ _ _)
        · simp only [h3, if_false] at h
          generalize World.updBlock _ a5 = a6 at h g6
          rcases h4 : _parseExpect st1 (some tok1) LEX_TOKEN_OBRACE a6 with ⟨_ | tok2, st2, a7⟩
          all_goals have g7 := g6.trans (binv_parseExpect h4)
          all_goals simp only [h4] at h
          · simp only [Option.some.injEq, Prod.mk.injEq] at h
            obtain ⟨rfl, rfl, rfl⟩ := h
            exact g7
          · exact g7.trans (binv_parseBlock_props n _ _ _ _ _ _ h)
      · simp only [h2, if_false] at h
        by_cases h3 : tok1.type = LEX_TOKEN_OBRACE
        · simp only [h3, if_true] at h
          have g6 := g5.trans (BInv.ofUpdBlock a5 (fun b => { b with blockName := "" }))
          exact g6.trans (binv_parseBlock_props n _ _ _ _ _ _ h)
        · simp only [h3, if_false, Option.some.injEq, Prod.mk.injEq] at h
          obtain ⟨rfl, rfl, rfl⟩ := h
          exact g5.trans (BInv.ofError _ _ _ _ _)

/-- C10, amended, on the block `a { include "other.cfg" }` of
`inblock.cfg`. -/
theorem parseBlock_addsOne_witness :
    _parseBlock 10
        ⟨⟨"inblock.cfg", [punct LEX_TOKEN_OBRACE 1, punct LEX_TOKEN_INCLUDE 2,
          ⟨LEX_TOKEN_STR, 2, "other.cfg", 0⟩, punct LEX_TOKEN_EBRACE 3], 5⟩, none⟩
        ⟨LEX_TOKEN_ID, 1, "a", 0⟩ world0
      = some (some (punct LEX_TOKEN_EBRACE 3),
          ⟨⟨"inblock.cfg", [], 5⟩, some ⟨LEX_TOKEN_STR, 2, "other.cfg", 0⟩⟩,
          ⟨none, [⟨1, "a", "", []⟩],
            [Event.lex "inblock.cfg" (punct LEX_TOKEN_OBRACE 1),
              Event.lex "inblock.cfg" (punct LEX_TOKEN_INCLUDE 2),
              Event.lex "inblock.cfg" ⟨LEX_TOKEN_STR, 2, "other.cfg", 0⟩,
              Event.lex "inblock.cfg" (punct LEX_TOKEN_EBRACE 3)]⟩) ∧
    AddsOneBlock world0
      ⟨none, [⟨1, "a", "", []⟩],
        [Event.lex "inblock.cfg" (punct LEX_TOKEN_OBRACE 1),
          Event.lex "inblock.cfg" (punct LEX_TOKEN_INCLUDE 2),
          Event.lex "inblock.cfg" ⟨LEX_TOKEN_STR, 2, "other.cfg", 0⟩,
          Event.lex "inblock.cfg" (punct LEX_TOKEN_EBRACE 3)]⟩ :=
  ⟨by decide,
   parseBlock_addsOne 10
     ⟨⟨"inblock.cfg", [punct LEX_TOKEN_OBRACE 1, punct LEX_TOKEN_INCLUDE 2,
       ⟨LEX_TOKEN_STR, 2, "other.cfg", 0⟩, punct LEX_TOKEN_EBRACE 3], 5⟩, none⟩
     ⟨LEX_TOKEN_ID, 1, "a", 0⟩ world0 (some (punct LEX_TOKEN_EBRACE 3))
     ⟨⟨"inblock.cfg", [], 5⟩, some ⟨LEX_TOKEN_STR, 2, "other.cfg", 0⟩⟩
     ⟨none, [⟨1, "a", "", []⟩],
       [Event.lex "inblock.cfg" (punct LEX_TOKEN_OBRACE 1),
         Event.lex "inblock.cfg" (punct LEX_TOKEN_INCLUDE 2),
         Event.lex "inblock.cfg" ⟨LEX_TOKEN_STR, 2, "other.cfg", 0⟩,
         Event.lex "inblock.cfg" (punct LEX_TOKEN_EBRACE 3)]⟩
     (by decide)⟩

/-- C11 (as stated, at a lexer error).  In `typeerror.cfg` the block type `a`
is followed by a token that is neither an identifier nor `{`, the `ERROR`
token: the parse fails, and the parser reports no message at all. -/
theorem confInit_block_type_lex_error :
    (ConfInit testHost 100 "typeerror.cfg" world0).map (fun r => (r.1, r.2.errors))
      = some (none, []) := by
  decide

/-- C11, amended.  Whenever `_parseBlock`, in whatever state, is called on a
block type `ty` shorter than 256 code points, the token `t` that the lexer
gives next decides.  When `t` is neither an identifier nor `{`, the call
returns `NULL`: with the one message that names `t` as the unexpected token
after `ty`, with no expected token, or, when `t` is the `ERROR` token of the
lexer, with no message.  When `t` is an identifier shorter than 256 code
points and the token `u` behind it is not `{`, the call returns `NULL`: with
the one message that names `u` as the unexpected token after `t`, with `{` as
the expected token, or, when `u` is the `ERROR` token, with no message.  In
every call of `_confParse` that has returned, a message or an `ERROR` token is
the last event, and the call returned `NULL`.  For a file of well-formed
blocks followed by such a block type, `_confParse` returns `NULL` in these
four cases, with the one message or with none.  And each block `b` of a tree
that `_confParse` returns, for whatever file, was declared in the events of
the call by an identifier `x` and the token `u` that a lexer gave right after
it: `b` has the line and the text of `x` as its line and its type, and either
`u` is an identifier and its text is the name of `b`, or `u` is `{` and the
name of `b` is empty.  So when no identifier that a lexer gave has the empty
text, the type of `b` is not empty, and the name of `b` is empty exactly when
`u` is `{`. -/
theorem confParse_block_header (host : Host) (file : String) (A : List SrcBlock)
    (ty : _confToken_t) (rest : List _confToken_t) (eof : Int) (fuel : Nat) (w : World)
    (t : _confToken_t) (lx : lexState_t)
    (hfile : host.files file = some (A.flatMap SrcBlock.tokens ++ ty :: rest, eof))
    (hA : ∀ x ∈ A, x.WF) (hty : ty.type = LEX_TOKEN_ID) (htl : ty.semVal.length < 256)
    (hfuel : (A.flatMap SrcBlock.tokens).length + 1 ≤ fuel)
    (ht : _confLex ⟨file, rest, eof⟩ = (t, lx)) :
    (t.type ≠ LEX_TOKEN_ID → t.type ≠ LEX_TOKEN_OBRACE → t.type ≠ LEX_TOKEN_ERROR →
      ∃ w', _confParse host fuel file w = some (none, w') ∧
        w'.errors = w.errors ++ [⟨ConfGetFileName w, t.line,
          Detail.unexpected t (some ty) none⟩]) ∧
    (t.type = LEX_TOKEN_ID → t.semVal.length < BLOCK_BUFSZ → ∀ u lx', _confLex lx = (u, lx') →
      u.type ≠ LEX_TOKEN_OBRACE → u.type ≠ LEX_TOKEN_ERROR →
      ∃ w', _confParse host fuel file w = some (none, w') ∧
        w'.errors = w.errors ++ [⟨ConfGetFileName w, u.line,
          Detail.unexpected u (some t) (some LEX_TOKEN_OBRACE)⟩]) ∧
    (∀ (file2 : String) (fuel2 : Nat) (w2 : World) (tree : List ConfBlock_t) (w' : World),
      _confParse host fuel2 file2 w2 = some (some tree, w') →
      ∀ b ∈ tree, ∃ pre post f x u,
        w'.trace = pre ++ Event.lex f x :: Event.lex f u :: post ∧
        x.type = LEX_TOKEN_ID ∧ b.lineNo = x.line ∧ b.blockType = x.semVal ∧
        ((u.type = LEX_TOKEN_ID ∧ b.blockName = u.semVal) ∨
          (u.type = LEX_TOKEN_OBRACE ∧ b.blockName = "")) ∧
        ((∀ g y, Event.lex g y ∈ w'.trace → y.type = LEX_TOKEN_ID → y.semVal ≠ "") →
          b.blockType ≠ "" ∧ (b.blockName = "" ↔ u.type = LEX_TOKEN_OBRACE))) ∧
    (t.type = LEX_TOKEN_ERROR →
      ∃ w', _confParse host fuel file w = some (none, w') ∧ w'.errors = w.errors) ∧
    (t.type = LEX_TOKEN_ID → t.semVal.length < BLOCK_BUFSZ → ∀ u lx', _confLex lx = (u, lx') →
      u.type = LEX_TOKEN_ERROR →
      ∃ w', _confParse host fuel file w = some (none, w') ∧ w'.errors = w.errors) ∧
    (∀ (n : Nat) (st : parseState_t) (tok : _confToken_t) (v : World) (x : _confToken_t)
      (l1 : lexState_t),
      tok.semVal.length < 256 → _confLex st.lex = (x, l1) →
      (x.type ≠ LEX_TOKEN_ID → x.type ≠ LEX_TOKEN_OBRACE → x.type ≠ LEX_TOKEN_ERROR →
        _parseBlock n st tok v
          = some (none, ⟨l1, some tok⟩,
              ⟨v.fileName, v.head ++ [⟨tok.line, tok.semVal, "", []⟩],
                v.trace ++ [Event.lex st.lex.file x,
                  Event.error ⟨ConfGetFileName v, x.line,
                    Detail.unexpected x (some tok) none⟩]⟩)) ∧
      (x.type = LEX_TOKEN_ERROR →
        _parseBlock n st tok v
          = some (none, ⟨l1, some tok⟩,
              ⟨v.fileName, v.head ++ [⟨tok.line, tok.semVal, "", []⟩],
                v.trace ++ [Event.lex st.lex.file x]⟩)) ∧
      (x.type = LEX_TOKEN_ID → x.semVal.length < BLOCK_BUFSZ →
        ∀ (u : _confToken_t) (l2 : lexState_t), _confLex l1 = (u, l2) →
        (u.type ≠ LEX_TOKEN_OBRACE → u.type ≠ LEX_TOKEN_ERROR →
          _parseBlock n st tok v
            = some (none, ⟨l2, some x⟩,
                ⟨v.fileName, v.head ++ [⟨tok.line, tok.semVal, x.semVal, []⟩],
                  v.trace ++ [Event.lex st.lex.file x, Event.lex l1.file u,
                    Event.error ⟨ConfGetFileName v, u.line,
                      Detail.unexpected u (some x) (some LEX_TOKEN_OBRACE)⟩]⟩)) ∧
        (u.type = LEX_TOKEN_ERROR →
          _parseBlock n st tok v
            = some (none, ⟨l2, some x⟩,
                ⟨v.fileName, v.head ++ [⟨tok.line, tok.semVal, x.semVal, []⟩],
                  v.trace ++ [Event.lex st.lex.file x, Event.lex l1.file u]⟩)))) ∧
    (∀ (file2 : String) (n2 : Nat) (v : World) (r : Option (List ConfBlock_t)) (c : World),
      _confParse host n2 file2 v = some (r, c) →
      ∃ es, c.trace = v.trace ++ es ∧
        ∀ e ∈ es, ((∃ d, e = Event.error d) ∨
            ∃ f tk, e = Event.lex f tk ∧ tk.type = LEX_TOKEN_ERROR) →
          r = none ∧ ∃ qs, es = qs ++ [e] ∧
            ∀ x ∈ qs, (∀ d, x ≠ Event.error d) ∧
              ∀ g tk, x = Event.lex g tk → tk.type ≠ LEX_TOKEN_ERROR) := by
  obtain ⟨h1, h2⟩ := confParse_block_shape host file A ty rest eof fuel w t lx hfile hA hty htl
    hfuel ht
  refine ⟨h1, h2, ?_, ?_, ?_, ?_,
    fun file2 n2 v r c hc => confParse_loud_last host n2 file2 v r c hc⟩
  · intro file2 fuel2 w2 tree w' hrun b hb
    obtain ⟨pre, post, f, x, u, htr, hx, hl, hbt, hname⟩ :=
      declared_confParse host fuel2 file2 w2 tree w' hrun b hb
    refine ⟨pre, post, f, x, u, htr, hx, hl, hbt, hname, fun hne => ?_⟩
    have hxm : Event.lex f x ∈ w'.trace := by rw [htr]; simp
    have hum : Event.lex f u ∈ w'.trace := by rw [htr]; simp
    have hbt' : b.blockType = x.semVal := hbt
    refine ⟨by rw [hbt']; exact hne f x hxm hx, ?_⟩
    rcases hname with ⟨hu, hn⟩ | ⟨hu, hn⟩
    · have hn' : b.blockName = u.semVal := hn
      constructor
      · intro he
        exact absurd (hn'.symm.trans he) (hne f u hum hu)
      · intro ho
        rw [hu] at ho
        exact absurd ho (by decide)
    · exact ⟨fun _ => hu, fun _ => hn⟩
  · intro hte
    obtain ⟨n, rfl, hlen⟩ := fuel_split A 1 fuel hfuel (le_refl 1)
    obtain ⟨lt1, hprop⟩ := confParse_top_fail host file A (ty :: rest) eof (n + 1) w hfile hA hlen
    refine ⟨_, hprop _ (parseInternal_next_block_fail host n file ty rest eof lt1 _ _ _ _ hty
      (parseBlock_header_error n ⟨⟨file, rest, eof⟩, _⟩ ty _ t lx htl ht hte)), ?_⟩
    simp [World.errors, List.filterMap_append, diag_lex, diag_comp_lex, Event.diag]
  · intro hi hil u lx' hu hue
    obtain ⟨n, rfl, hlen⟩ := fuel_split A 1 fuel hfuel (le_refl 1)
    obtain ⟨lt1, hprop⟩ := confParse_top_fail host file A (ty :: rest) eof (n + 1) w hfile hA hlen
    refine ⟨_, hprop _ (parseInternal_next_block_fail host n file ty rest eof lt1 _ _ _ _ hty
      (parseBlock_brace_error n ⟨⟨file, rest, eof⟩, _⟩ ty _ t u lx lx' htl ht hi hil hu hue)), ?_⟩
    simp [World.errors, List.filterMap_append, diag_lex, diag_comp_lex, Event.diag]
  · intro n st tok v x l1 hl hx
    refine ⟨fun a1 a2 a3 => parseBlock_stray n st tok v x l1 hl hx a3 a1 a2,
      fun a1 => parseBlock_header_error n st tok v x l1 hl hx a1,
      fun hi hil u l2 hu => ⟨fun a1 a2 => parseBlock_no_brace n st tok v x u l1 l2 hl hx hi hil
        hu a2 a1, fun a1 => parseBlock_brace_error n st tok v x u l1 l2 hl hx hi hil hu a1⟩⟩

/-- C11, amended, on `shape.cfg`, the input `a : {}`, on `nobrace.cfg`, the
input `a b ;`, on the tree of `root.cfg`, whose blocks `a`, `b` and `c` have
no name, on `typeerror.cfg`, the input `a` and a character that the lexer
rejects, and on `nameerror.cfg`, the input `a b` and such a character. -/
theorem confParse_block_header_witness :
    (∃ w', _confParse testHost 10 "shape.cfg" (_confSetFileName (some "shape.cfg") world0)
        = some (none, w') ∧
      w'.errors = [⟨some "shape.cfg", 1,
        Detail.unexpected (punct LEX_TOKEN_COLON 1) (some ⟨LEX_TOKEN_ID, 1, "a", 0⟩) none⟩]) ∧
    (∃ w', _confParse testHost 10 "nobrace.cfg" (_confSetFileName (some "nobrace.cfg") world0)
        = some (none, w') ∧
      w'.errors = [⟨some "nobrace.cfg", 1,
        Detail.unexpected (punct LEX_TOKEN_SEMICOLON 1) (some ⟨LEX_TOKEN_ID, 1, "b", 0⟩)
          (some LEX_TOKEN_OBRACE)⟩]) ∧
    ((_confParse testHost 20 "root.cfg" world0).map Prod.fst
        = some (some [⟨1, "a", "", []⟩, ⟨1, "b", "", []⟩, ⟨3, "c", "", []⟩]) ∧
      ∀ w', (_confParse testHost 20 "root.cfg" world0).map Prod.snd = some w' →
        ∀ b ∈ [(⟨1, "a", "", []⟩ : ConfBlock_t), ⟨1, "b", "", []⟩, ⟨3, "c", "", []⟩],
          ∃ pre post f x u,
            w'.trace = pre ++ Event.lex f x :: Event.lex f u :: post ∧
            x.type = LEX_TOKEN_ID ∧ b.lineNo = x.line ∧ b.blockType = x.semVal ∧
            ((u.type = LEX_TOKEN_ID ∧ b.blockName = u.semVal) ∨
              (u.type = LEX_TOKEN_OBRACE ∧ b.blockName = "")) ∧
            ((∀ g y, Event.lex g y ∈ w'.trace → y.type = LEX_TOKEN_ID → y.semVal ≠ "") →
              b.blockType ≠ "" ∧ (b.blockName = "" ↔ u.type = LEX_TOKEN_OBRACE))) ∧
    (∃ w', _confParse testHost 10 "typeerror.cfg" (_confSetFileName (some "typeerror.cfg") world0)
        = some (none, w') ∧
      w'.errors = (_confSetFileName (some "typeerror.cfg") world0).errors) ∧
    (∃ w', _confParse testHost 10 "nameerror.cfg" (_confSetFileName (some "nameerror.cfg") world0)
        = some (none, w') ∧
      w'.errors = (_confSetFileName (some "nameerror.cfg") world0).errors) :=
  ⟨(confParse_block_header testHost "shape.cfg" [] ⟨LEX_TOKEN_ID, 1, "a", 0⟩
      [punct LEX_TOKEN_COLON 1, punct LEX_TOKEN_OBRACE 1, punct LEX_TOKEN_EBRACE 1] 2 10
      (_confSetFileName (some "shape.cfg") world0) (punct LEX_TOKEN_COLON 1)
      ⟨"shape.cfg", [punct LEX_TOKEN_OBRACE 1, punct LEX_TOKEN_EBRACE 1], 2⟩
      (by decide) (by decide) rfl (by decide) (by decide) rfl).1
      (by decide) (by decide) (by decide),
   (confParse_block_header testHost "nobrace.cfg" [] ⟨LEX_TOKEN_ID, 1, "a", 0⟩
      [⟨LEX_TOKEN_ID, 1, "b", 0⟩, punct LEX_TOKEN_SEMICOLON 1] 2 10
      (_confSetFileName (some "nobrace.cfg") world0) ⟨LEX_TOKEN_ID, 1, "b", 0⟩
      ⟨"nobrace.cfg", [punct LEX_TOKEN_SEMICOLON 1], 2⟩
      (by decide) (by decide) rfl (by decide) (by decide) rfl).2.1
      rfl (by decide) (punct LEX_TOKEN_SEMICOLON 1) ⟨"nobrace.cfg", [], 2⟩ rfl (by decide)
      (by decide),
   ⟨by decide,
   fun w' hw' => (confParse_block_header testHost "shape.cfg" [] ⟨LEX_TOKEN_ID, 1, "a", 0⟩
      [punct LEX_TOKEN_COLON 1, punct LEX_TOKEN_OBRACE 1, punct LEX_TOKEN_EBRACE 1] 2 10
      world0 (punct LEX_TOKEN_COLON 1)
      ⟨"shape.cfg", [punct LEX_TOKEN_OBRACE 1, punct LEX_TOKEN_EBRACE 1], 2⟩
      (by decide) (by decide) rfl (by decide) (by decide) rfl).2.2.1 "root.cfg" 20 world0
      [⟨1, "a", "", []⟩, ⟨1, "b", "", []⟩, ⟨3, "c", "", []⟩] w' (by
        cases hr : _confParse testHost 20 "root.cfg" world0 with
        | none => simp [hr] at hw'
        | some r =>
          have h1 : (_confParse testHost 20 "root.cfg" world0).map Prod.fst
              = some (some [⟨1, "a", "", []⟩, ⟨1, "b", "", []⟩, ⟨3, "c", "", []⟩]) := by decide
          rw [hr] at h1 hw'
          simp only [Option.map_some', Option.some.injEq] at h1 hw'
          rw [← h1, ← hw'])⟩,
   (confParse_block_header testHost "typeerror.cfg" [] ⟨LEX_TOKEN_ID, 1, "a", 0⟩
      [punct LEX_TOKEN_ERROR 1] 2 10
      (_confSetFileName (some "typeerror.cfg") world0) (punct LEX_TOKEN_ERROR 1)
      ⟨"typeerror.cfg", [], 2⟩
      (by decide) (by decide) rfl (by decide) (by decide) rfl).2.2.2.1 rfl,
   (confParse_block_header testHost "nameerror.cfg" [] ⟨LEX_TOKEN_ID, 1, "a", 0⟩
      [⟨LEX_TOKEN_ID, 1, "b", 0⟩, punct LEX_TOKEN_ERROR 1] 2 10
      (_confSetFileName (some "nameerror.cfg") world0) ⟨LEX_TOKEN_ID, 1, "b", 0⟩
      ⟨"nameerror.cfg", [punct LEX_TOKEN_ERROR 1], 2⟩
      (by decide) (by decide) rfl (by decide) (by decide) rfl).2.2.2.2.1
      rfl (by decide) (punct LEX_TOKEN_ERROR 1) ⟨"nameerror.cfg", [], 2⟩ rfl rfl⟩

/-- C12 (as stated, at a lexer error).  In `valerror.cfg` the token in value
position behind `p:` is neither an identifier nor a string nor a number, it is
the `ERROR` token: the parse fails, and the parser reports no message at
all. -/
theorem confInit_value_lex_error :
    (ConfInit testHost 100 "valerror.cfg" world0).map (fun r => (r.1, r.2.errors))
      = some (none, []) := by
  decide

/-- C12, amended.  Whenever the value loop, in whatever state, reads the token
`x` in value position and `x` is neither an identifier nor a string nor a
number, the loop returns `NULL`: with the one message that names `x` as the
unexpected token after the token before it, with no expected token, or, when
`x` is the `ERROR` token of the lexer, with no message.  Whenever the value in
value position was stored and the token `y` behind it is neither `,` nor `;`,
the loop returns `NULL`: with the one message that names `y` as the unexpected
token after the value, or, when `y` is the `ERROR` token, with no message;
behind `,` the loop goes round again, and behind `;` it ends.  In every call
of `_confParse` that has returned, a message or an `ERROR` token is the last
event, and the call returned `NULL`.  And for a file of well-formed blocks
followed by a block that is well formed up to a property `p :`, the name `p`
shorter than 256 code points, and its first values, each a value followed by
`,`, fewer than 16 of them, with `v` the token in the next value position and
`s` the token behind it, `_confParse` returns `NULL` in these four cases, with
the one message or with none: so for an empty value list and for a trailing
comma, where `v` is `;`, and for two values without a comma between them. -/
theorem confParse_value_list (host : Host) (file : String) (A : List SrcBlock)
    (b : SrcBlock)
    (p c : _confToken_t) (more : List (_confToken_t × _confToken_t))
    (rest : List _confToken_t) (eof : Int) (fuel : Nat) (w : World) (v : _confToken_t)
    (lx : lexState_t)
    (hfile : host.files file
      = some (A.flatMap SrcBlock.tokens ++ (b.opening ++ p :: c :: (sepTokens more ++ rest)), eof))
    (hA : ∀ x ∈ A, x.WF) (hb : b.WF) (hp : p.type = LEX_TOKEN_ID)
    (hpl : p.semVal.length < BLOCK_BUFSZ) (hc : c.type = LEX_TOKEN_COLON)
    (hm : ∀ vc ∈ more, IsValue vc.1 ∧ vc.2.type = LEX_TOKEN_COMMA)
    (hcount : more.length < MAX_PROPVAR)
    (hfuel : (A.flatMap SrcBlock.tokens ++ b.opening).length + more.length + 3 ≤ fuel)
    (hv : _confLex ⟨file, rest, eof⟩ = (v, lx)) :
    (v.type ≠ LEX_TOKEN_STR → v.type ≠ LEX_TOKEN_ID → v.type ≠ LEX_TOKEN_NUM →
      v.type ≠ LEX_TOKEN_ERROR →
      ∃ w', _confParse host fuel file w = some (none, w') ∧
        w'.errors = w.errors ++ [⟨ConfGetFileName w, v.line,
          Detail.unexpected v (some (lastOf c (sepTokens more))) none⟩]) ∧
    (IsValue v → more.length + 1 < MAX_PROPVAR → ∀ s lx', _confLex lx = (s, lx') →
      s.type ≠ LEX_TOKEN_COMMA → s.type ≠ LEX_TOKEN_SEMICOLON → s.type ≠ LEX_TOKEN_ERROR →
      ∃ w', _confParse host fuel file w = some (none, w') ∧
        w'.errors = w.errors ++ [⟨ConfGetFileName w, s.line,
          Detail.unexpected s (some v) none⟩]) ∧
    (v.type = LEX_TOKEN_ERROR →
      ∃ w', _confParse host fuel file w = some (none, w') ∧ w'.errors = w.errors) ∧
    (IsValue v → more.length + 1 < MAX_PROPVAR → ∀ s lx', _confLex lx = (s, lx') →
      s.type = LEX_TOKEN_ERROR →
      ∃ w', _confParse host fuel file w = some (none, w') ∧ w'.errors = w.errors) ∧
    (∀ (n : Nat) (st : parseState_t) (tok : _confToken_t) (u : World) (x : _confToken_t)
      (l1 : lexState_t), _confLex st.lex = (x, l1) →
      (x.type ≠ LEX_TOKEN_STR → x.type ≠ LEX_TOKEN_ID → x.type ≠ LEX_TOKEN_NUM →
        x.type ≠ LEX_TOKEN_ERROR →
        _parseBlock_values (n + 1) st tok u
          = some (none, ⟨l1, some tok⟩,
              { u with trace := u.trace ++ [Event.lex st.lex.file x,
                Event.error ⟨ConfGetFileName u, x.line,
                  Detail.unexpected x (some tok) none⟩] })) ∧
      (x.type = LEX_TOKEN_ERROR →
        _parseBlock_values (n + 1) st tok u
          = some (none, ⟨l1, some tok⟩,
              { u with trace := u.trace ++ [Event.lex st.lex.file x] })) ∧
      (x.type ≠ LEX_TOKEN_ERROR →
        ∀ (u2 : World) (y : _confToken_t) (l2 : lexState_t),
        _parseBlock_value ⟨l1, some tok⟩ x
          { u with trace := u.trace ++ [Event.lex st.lex.file x] } = (true, u2) →
        _confLex l1 = (y, l2) →
        (y.type ≠ LEX_TOKEN_COMMA → y.type ≠ LEX_TOKEN_SEMICOLON → y.type ≠ LEX_TOKEN_ERROR →
          _parseBlock_values (n + 1) st tok u
            = some (none, ⟨l2, some x⟩,
                { u2 with trace := u2.trace ++ [Event.lex l1.file y,
                  Event.error ⟨ConfGetFileName u2, y.line,
                    Detail.unexpected y (some x) none⟩] })) ∧
        (y.type = LEX_TOKEN_ERROR →
          _parseBlock_values (n + 1) st tok u
            = some (none, ⟨l2, some x⟩,
                { u2 with trace := u2.trace ++ [Event.lex l1.file y] })) ∧
        (y.type = LEX_TOKEN_COMMA → _parseBlock_values (n + 1) st tok u
          = _parseBlock_values n ⟨l2, some x⟩ y
              { u2 with trace := u2.trace ++ [Event.lex l1.file y] }) ∧
        (y.type = LEX_TOKEN_SEMICOLON → _parseBlock_values (n + 1) st tok u
          = some (some y, ⟨l2, some x⟩,
              { u2 with trace := u2.trace ++ [Event.lex l1.file y] })))) ∧
    (∀ (file2 : String) (n2 : Nat) (u : World) (r : Option (List ConfBlock_t)) (d : World),
      _confParse host n2 file2 u = some (r, d) →
      ∃ es, d.trace = u.trace ++ es ∧
        ∀ e ∈ es, ((∃ m, e = Event.error m) ∨
            ∃ f tk, e = Event.lex f tk ∧ tk.type = LEX_TOKEN_ERROR) →
          r = none ∧ ∃ qs, es = qs ++ [e] ∧
            ∀ x ∈ qs, (∀ m, x ≠ Event.error m) ∧
              ∀ g tk, x = Event.lex g tk → tk.type ≠ LEX_TOKEN_ERROR) := by
  have hAl := length_le_tokens A
  have hPl : b.props.length ≤ (b.props.flatMap SrcProp.tokens).length := by
    cases hps : b.props with
    | nil => simp
    | cons x xs =>
      have := props_length_le (x :: xs) x (by simp)
      have hx : 1 ≤ x.tokens.length := by simp [SrcProp.tokens]
      omega
  simp only [List.length_append, SrcBlock.opening, List.length_cons] at hfuel
  obtain ⟨j, rfl⟩ : ∃ j, fuel = (((((j + 1) + more.length) + 1) + b.props.length) + 1) + A.length :=
    ⟨fuel - A.length - 1 - b.props.length - 1 - more.length - 1, by omega⟩
  have hlenA : ∀ x ∈ A, x.tokens.length ≤ ((((j + 1) + more.length) + 1) + b.props.length) + 1 := by
    intro x hx
    have := tokens_length_le A x hx
    omega
  have hlenP : ∀ q ∈ b.props, q.more.length < ((j + 1) + more.length) + 1 := by
    intro q hq
    have := props_length_le b.props q hq
    have hq2 : q.tokens.length = 2 * q.more.length + 4 := by
      simp [SrcProp.tokens, sepTokens_length]
    omega
  obtain ⟨lt3, tok3, hprop⟩ := confParse_props_fail host file A b
    (p :: c :: (sepTokens more ++ rest)) eof (((j + 1) + more.length) + 1) w hfile hA hb hlenA hlenP
  obtain ⟨lt4, hreach⟩ := parseBlock_values_reach more rest (j + 1) file eof (some p) c w.fileName
    (A.map SrcBlock.tree) b.type.line b.type.semVal ((b.name.map fun n => n.semVal).getD "")
    (b.props.map SrcProp.tree) p.line p.semVal []
    ((w.trace ++ Event.lexInit file :: ((A.flatMap SrcBlock.tokens).map (Event.lex file)
      ++ b.opening.map (Event.lex file))) ++ [Event.lex file p, Event.lex file c]) hm
    (by simp; omega)
  have hstored : IsValue v → more.length + 1 < MAX_PROPVAR →
      ∃ W3 : World, (_parseBlock_value ⟨lx, some (lastOf c (sepTokens more))⟩ v
      { (⟨w.fileName, A.map SrcBlock.tree ++ [⟨b.type.line, b.type.semVal,
        (b.name.map fun n => n.semVal).getD "", b.props.map SrcProp.tree ++ [⟨p.line, p.semVal,
          slots ([] ++ more.map (fun vc => valueOf vc.1)), ([] : List ConfPropVal_t).length + more.length⟩]⟩],
        (((w.trace ++ Event.lexInit file :: ((A.flatMap SrcBlock.tokens).map (Event.lex file)
          ++ b.opening.map (Event.lex file))) ++ [Event.lex file p, Event.lex file c])
          ++ (sepTokens more).map (Event.lex file))⟩ : World) with trace := (⟨w.fileName, A.map SrcBlock.tree ++ [⟨b.type.line, b.type.semVal,
        (b.name.map fun n => n.semVal).getD "", b.props.map SrcProp.tree ++ [⟨p.line, p.semVal,
          slots ([] ++ more.map (fun vc => valueOf vc.1)), ([] : List ConfPropVal_t).length + more.length⟩]⟩],
        (((w.trace ++ Event.lexInit file :: ((A.flatMap SrcBlock.tokens).map (Event.lex file)
          ++ b.opening.map (Event.lex file))) ++ [Event.lex file p, Event.lex file c])
          ++ (sepTokens more).map (Event.lex file))⟩ : World).trace ++ [Event.lex file v] } = (true, W3)) ∧
        (W3.fileName = w.fileName ∧ W3.errors = w.errors) := by
    intro hval hcount2
    have hstore := parseBlock_value_ok ⟨lx, some (lastOf c (sepTokens more))⟩ v w.fileName
      (A.map SrcBlock.tree) b.type.line b.type.semVal ((b.name.map fun n => n.semVal).getD "")
      (b.props.map SrcProp.tree) p.line p.semVal ([] ++ more.map (fun vc => valueOf vc.1))
      ((((w.trace ++ Event.lexInit file :: ((A.flatMap SrcBlock.tokens).map (Event.lex file)
          ++ b.opening.map (Event.lex file))) ++ [Event.lex file p, Event.lex file c])
          ++ (sepTokens more).map (Event.lex file)) ++ [Event.lex file v]) hval
      (by simp; omega)
    have e0 : ([] ++ more.map (fun vc : _confToken_t × _confToken_t => valueOf vc.1)).length
        = ([] : List ConfPropVal_t).length + more.length := by simp
    rw [e0] at hstore
    exact ⟨_, hstore,
      ⟨rfl, by simp [World.errors, List.filterMap_append, diag_lex, diag_comp_lex, Event.diag]⟩⟩
  refine ⟨?_, ?_, ?_, ?_, ?_, fun file2 n2 u r d hd => confParse_loud_last host n2 file2 u r d hd⟩
  · intro h1 h2 h3 hve
    have hfail := parseBlock_values_stray j ⟨⟨file, rest, eof⟩, lt4⟩ (lastOf c (sepTokens more))
      ⟨w.fileName, A.map SrcBlock.tree ++ [⟨b.type.line, b.type.semVal,
        (b.name.map fun n => n.semVal).getD "", b.props.map SrcProp.tree ++ [⟨p.line, p.semVal,
          slots ([] ++ more.map (fun vc => valueOf vc.1)), ([] : List ConfPropVal_t).length + more.length⟩]⟩],
        ((w.trace ++ Event.lexInit file :: ((A.flatMap SrcBlock.tokens).map (Event.lex file)
          ++ b.opening.map (Event.lex file))) ++ [Event.lex file p, Event.lex file c])
          ++ (sepTokens more).map (Event.lex file)⟩ v lx hv hve h1 h2 h3
    rw [← hreach] at hfail
    refine ⟨_, hprop _ _ (parseBlock_props_values_fail _ file p c _ eof lt3 tok3 _ _ _ _ _ _ _ _ _
      hp hpl hc hfail), ?_⟩
    simp [World.errors, List.filterMap_append, diag_lex, diag_comp_lex, Event.diag,
      ConfGetFileName]
  · intro hval hcount2 s lx' hs h1 h2 hse
    obtain ⟨W3, hx, hW3f, hW3e⟩ := hstored hval hcount2
    have hfail := parseBlock_values_no_sep j ⟨⟨file, rest, eof⟩, lt4⟩ (lastOf c (sepTokens more)) _
      W3 v s lx lx' hv (IsValue.ne_error hval) hx hs hse h1 h2
    rw [← hreach] at hfail
    refine ⟨_, hprop _ _ (parseBlock_props_values_fail _ file p c _ eof lt3 tok3 _ _ _ _ _ _ _ _ _
      hp hpl hc hfail), ?_⟩
    have hW3e' : List.filterMap Event.diag W3.trace = w.errors := hW3e
    simp [World.errors, List.filterMap_append, Event.diag, ConfGetFileName, hW3f, hW3e']
  · intro hve
    have hfail := parseBlock_values_error j ⟨⟨file, rest, eof⟩, lt4⟩ (lastOf c (sepTokens more))
      ⟨w.fileName, A.map SrcBlock.tree ++ [⟨b.type.line, b.type.semVal,
        (b.name.map fun n => n.semVal).getD "", b.props.map SrcProp.tree ++ [⟨p.line, p.semVal,
          slots ([] ++ more.map (fun vc => valueOf vc.1)), ([] : List ConfPropVal_t).length + more.length⟩]⟩],
        ((w.trace ++ Event.lexInit file :: ((A.flatMap SrcBlock.tokens).map (Event.lex file)
          ++ b.opening.map (Event.lex file))) ++ [Event.lex file p, Event.lex file c])
          ++ (sepTokens more).map (Event.lex file)⟩ v lx hv hve
    rw [← hreach] at hfail
    refine ⟨_, hprop _ _ (parseBlock_props_values_fail _ file p c _ eof lt3 tok3 _ _ _ _ _ _ _ _ _
      hp hpl hc hfail), ?_⟩
    simp [World.errors, List.filterMap_append, diag_lex, diag_comp_lex, Event.diag]
  · intro hval hcount2 s lx' hs hse
    obtain ⟨W3, hx, hW3f, hW3e⟩ := hstored hval hcount2
    have hfail := parseBlock_values_sep_error j ⟨⟨file, rest, eof⟩, lt4⟩
      (lastOf c (sepTokens more)) _ W3 v s lx lx' hv (IsValue.ne_error hval) hx hs hse
    rw [← hreach] at hfail
    refine ⟨_, hprop _ _ (parseBlock_props_values_fail _ file p c _ eof lt3 tok3 _ _ _ _ _ _ _ _ _
      hp hpl hc hfail), ?_⟩
    have hW3e' : List.filterMap Event.diag W3.trace = w.errors := hW3e
    simp [World.errors, List.filterMap_append, Event.diag, hW3e']
  · intro n st tok u x l1 hx
    refine ⟨fun a1 a2 a3 a4 => parseBlock_values_stray n st tok u x l1 hx a4 a1 a2 a3,
      fun a1 => parseBlock_values_error n st tok u x l1 hx a1,
      fun hxe u2 y l2 hval hy => ⟨fun a1 a2 a3 =>
        parseBlock_values_no_sep n st tok u u2 x y l1 l2 hx hxe hval hy a3 a1 a2,
        fun a1 => parseBlock_values_sep_error n st tok u u2 x y l1 l2 hx hxe hval hy a1,
        (parseBlock_values_sep n st tok u u2 x y l1 l2 hx hxe hval hy).1,
        (parseBlock_values_sep n st tok u u2 x y l1 l2 hx hxe hval hy).2⟩⟩

/-- C12, amended, on `emptyvals.cfg`, the input `a { p: ; }`, on
`trailing.cfg`, the input `a { p: x, ; }`, on `nocomma.cfg`, the input
`a { p: x y; }`, on `valerror.cfg`, the input `a { p:` and a character that
the lexer rejects, and on `seperror.cfg`, the input `a { p: x` and such a
character. -/
theorem confParse_value_list_witness :
    (∃ w', _confParse testHost 10 "emptyvals.cfg" (_confSetFileName (some "emptyvals.cfg") world0)
        = some (none, w') ∧
      w'.errors = [⟨some "emptyvals.cfg", 1,
        Detail.unexpected (punct LEX_TOKEN_SEMICOLON 1) (some (punct LEX_TOKEN_COLON 1)) none⟩]) ∧
    (∃ w', _confParse testHost 10 "trailing.cfg" (_confSetFileName (some "trailing.cfg") world0)
        = some (none, w') ∧
      w'.errors = [⟨some "trailing.cfg", 1,
        Detail.unexpected (punct LEX_TOKEN_SEMICOLON 1) (some (punct LEX_TOKEN_COMMA 1)) none⟩]) ∧
    (∃ w', _confParse testHost 10 "nocomma.cfg" (_confSetFileName (some "nocomma.cfg") world0)
        = some (none, w') ∧
      w'.errors = [⟨some "nocomma.cfg", 1,
        Detail.unexpected ⟨LEX_TOKEN_ID, 1, "y", 0⟩ (some ⟨LEX_TOKEN_ID, 1, "x", 0⟩) none⟩]) ∧
    (∃ w', _confParse testHost 10 "valerror.cfg" (_confSetFileName (some "valerror.cfg") world0)
        = some (none, w') ∧
      w'.errors = (_confSetFileName (some "valerror.cfg") world0).errors) ∧
    (∃ w', _confParse testHost 10 "seperror.cfg" (_confSetFileName (some "seperror.cfg") world0)
        = some (none, w') ∧
      w'.errors = (_confSetFileName (some "seperror.cfg") world0).errors) :=
  ⟨(confParse_value_list testHost "emptyvals.cfg" [] (emptyBlock "a" 1)
      ⟨LEX_TOKEN_ID, 1, "p", 0⟩
      (punct LEX_TOKEN_COLON 1) [] [punct LEX_TOKEN_SEMICOLON 1, punct LEX_TOKEN_EBRACE 1] 2 10
      (_confSetFileName (some "emptyvals.cfg") world0) (punct LEX_TOKEN_SEMICOLON 1)
      ⟨"emptyvals.cfg", [punct LEX_TOKEN_EBRACE 1], 2⟩
      (by decide) (by decide) (by decide) rfl (by decide) rfl (by decide) (by decide)
      (by decide) rfl).1 (by decide) (by decide) (by decide) (by decide),
   (confParse_value_list testHost "trailing.cfg" [] (emptyBlock "a" 1)
      ⟨LEX_TOKEN_ID, 1, "p", 0⟩
      (punct LEX_TOKEN_COLON 1) [(⟨LEX_TOKEN_ID, 1, "x", 0⟩, punct LEX_TOKEN_COMMA 1)]
      [punct LEX_TOKEN_SEMICOLON 1, punct LEX_TOKEN_EBRACE 1] 2 10
      (_confSetFileName (some "trailing.cfg") world0) (punct LEX_TOKEN_SEMICOLON 1)
      ⟨"trailing.cfg", [punct LEX_TOKEN_EBRACE 1], 2⟩
      (by decide) (by decide) (by decide) rfl (by decide) rfl (by decide) (by decide)
      (by decide) rfl).1 (by decide) (by decide) (by decide) (by decide),
   (confParse_value_list testHost "nocomma.cfg" [] (emptyBlock "a" 1)
      ⟨LEX_TOKEN_ID, 1, "p", 0⟩
      (punct LEX_TOKEN_COLON 1) []
      [⟨LEX_TOKEN_ID, 1, "x", 0⟩, ⟨LEX_TOKEN_ID, 1, "y", 0⟩, punct LEX_TOKEN_SEMICOLON 1,
        punct LEX_TOKEN_EBRACE 1] 2 10
      (_confSetFileName (some "nocomma.cfg") world0) ⟨LEX_TOKEN_ID, 1, "x", 0⟩
      ⟨"nocomma.cfg", [⟨LEX_TOKEN_ID, 1, "y", 0⟩, punct LEX_TOKEN_SEMICOLON 1,
        punct LEX_TOKEN_EBRACE 1], 2⟩
      (by decide) (by decide) (by decide) rfl (by decide) rfl (by decide) (by decide)
      (by decide) rfl).2.1 (by decide) (by decide) ⟨LEX_TOKEN_ID, 1, "y", 0⟩
      ⟨"nocomma.cfg", [punct LEX_TOKEN_SEMICOLON 1, punct LEX_TOKEN_EBRACE 1], 2⟩ rfl
      (by decide) (by decide) (by decide),
   (confParse_value_list testHost "valerror.cfg" [] (emptyBlock "a" 1)
      ⟨LEX_TOKEN_ID, 1, "p", 0⟩
      (punct LEX_TOKEN_COLON 1) [] [punct LEX_TOKEN_ERROR 1] 2 10
      (_confSetFileName (some "valerror.cfg") world0) (punct LEX_TOKEN_ERROR 1)
      ⟨"valerror.cfg", [], 2⟩
      (by decide) (by decide) (by decide) rfl (by decide) rfl (by decide) (by decide)
      (by decide) rfl).2.2.1 rfl,
   (confParse_value_list testHost "seperror.cfg" [] (emptyBlock "a" 1)
      ⟨LEX_TOKEN_ID, 1, "p", 0⟩
      (punct LEX_TOKEN_COLON 1) [] [⟨LEX_TOKEN_ID, 1, "x", 0⟩, punct LEX_TOKEN_ERROR 1] 2 10
      (_confSetFileName (some "seperror.cfg") world0) ⟨LEX_TOKEN_ID, 1, "x", 0⟩
      ⟨"seperror.cfg", [punct LEX_TOKEN_ERROR 1], 2⟩
      (by decide) (by decide) (by decide) rfl (by decide) rfl (by decide) (by decide)
      (by decide) rfl).2.2.2.1 (by decide) (by decide) (punct LEX_TOKEN_ERROR 1)
      ⟨"seperror.cfg", [], 2⟩ rfl rfl⟩

/-- C14 (the code on a parse that fails).  `ConfInit` on `bad.cfg`, the input
`}`, returns `NULL` after these events: the lexer of the file is created, it
gives `}`, and the message is reported; `_confLexDestroy` is not called.
`ConfInit` on `incbad.cfg`, which includes `bad.cfg`, creates two lexers and
destroys none.  Only the calls that return a tree destroy their lexers: in
the events of such a call each lexer created, that of the root file and those
of the included files, is destroyed, the one created last first, and none is
left when the call returns. -/
theorem confInit_lexer_not_destroyed :
    (ConfInit testHost 100 "bad.cfg" world0).map (fun r => (r.1, r.2.trace))
      = some (none, [Event.lexInit "bad.cfg", Event.lex "bad.cfg" (punct LEX_TOKEN_EBRACE 1),
          Event.error ⟨some "bad.cfg", 1,
            Detail.unexpected (punct LEX_TOKEN_EBRACE 1) none none⟩]) ∧
    (ConfInit testHost 100 "incbad.cfg" world0).map (fun r => (r.1, r.2.trace))
      = some (none, [Event.lexInit "incbad.cfg",
          Event.lex "incbad.cfg" (punct LEX_TOKEN_INCLUDE 1),
          Event.lex "incbad.cfg" ⟨LEX_TOKEN_STR, 1, "bad.cfg", 0⟩,
          Event.lexInit "bad.cfg", Event.lex "bad.cfg" (punct LEX_TOKEN_EBRACE 1),
          Event.error ⟨some "bad.cfg", 1,
            Detail.unexpected (punct LEX_TOKEN_EBRACE 1) none none⟩]) ∧
    (∀ (host : Host) (n : Nat) (file : String) (w : World) (tree : List ConfBlock_t)
        (w' : World), ConfInit host n file w = some (some tree, w') →
      ∃ es, w'.trace = w.trace ++ es ∧ replay (fun _ _ => true) [] es = some []) := by
  refine ⟨by decide, by decide, ?_⟩
  intro host n file w tree w' h
  obtain ⟨es, stk1, ht, hr, hs⟩ := follows_confInit host n file w (some tree) w' [] h
  obtain ⟨rfl, -⟩ := hs rfl
  exact ⟨es, ht, replay_weaken allOk _ (fun _ _ _ => rfl) es _ _ hr⟩

/-- C14, the calls that return a tree, on `nest.cfg`, which includes
`root.cfg`, which includes `other.cfg`: the three lexers are destroyed, that of
`other.cfg` first and that of `nest.cfg` last. -/
theorem confInit_lexer_not_destroyed_witness :
    ConfInit testHost 20 "nest.cfg" world0
      = some (some nestTree, ⟨some "nest.cfg", nestTree, nestTrace⟩) ∧
    (∃ es, nestTrace = world0.trace ++ es ∧ replay (fun _ _ => true) [] es = some []) ∧
    nestTrace.filter (fun e => e matches Event.lexInit _ | Event.lexDestroy _)
      = [Event.lexInit "nest.cfg", Event.lexInit "root.cfg", Event.lexInit "other.cfg",
          Event.lexDestroy "other.cfg", Event.lexDestroy "root.cfg",
          Event.lexDestroy "nest.cfg"] :=
  ⟨by decide,
   confInit_lexer_not_destroyed.2.2 testHost 20 "nest.cfg" world0 nestTree
     ⟨some "nest.cfg", nestTree, nestTrace⟩ (by decide),
   by decide⟩

/-- C16.  The lines of the tokens of one file, by the model of the spec, where
`line` is the line of the first character of the file.  There is one line for
each token.  The line of a token is `line` plus the number of newlines among
the characters in front of its first character, those of the tokens before it
and those skipped.  The lines are in non-decreasing order along the whole
stream.  And when a token has a newline in its text, as a string with an
embedded newline has, the line of the token behind it is greater than its
own. -/
theorem tokenLines_monotone (line : Int) (xs : List Lexeme) :
    (tokenLines line xs).length = xs.length ∧
    (∀ pre x post, xs = pre ++ x :: post →
      (tokenLines line xs)[pre.length]?
        = some (line + newlines ((pre.flatMap fun p => p.skipped ++ p.text) ++ x.skipped))) ∧
    (tokenLines line xs).Pairwise (· ≤ ·) ∧
    (∀ pre x y post, xs = pre ++ x :: y :: post → '\n' ∈ x.text →
      ∃ lx ly, (tokenLines line xs)[pre.length]? = some lx ∧
        (tokenLines line xs)[pre.length + 1]? = some ly ∧ lx < ly) := by
  have hget : ∀ pre x post, xs = pre ++ x :: post →
      (tokenLines line xs)[pre.length]?
        = some (line + newlines ((pre.flatMap fun p => p.skipped ++ p.text) ++ x.skipped)) := by
    intro pre x post hxs
    rw [hxs, tokenLines_append_exact, List.getElem?_append_right (by simp [tokenLines_length])]
    simp only [tokenLines_length, Nat.sub_self, tokenLines, List.getElem?_cons_zero,
      newlines_append]
    push_cast
    rw [Int.add_assoc]
  refine ⟨tokenLines_length xs line, hget, tokenLines_sorted xs line, ?_⟩
  intro pre x y post hxs hnl
  have h1 := hget pre x (y :: post) hxs
  have h2 := hget (pre ++ [x]) y post (by simp [hxs])
  simp only [List.length_append, List.length_singleton] at h2
  refine ⟨_, _, h1, h2, ?_⟩
  have hpos : 0 < newlines x.text := by
    simpa [newlines, List.count_pos_iff] using hnl
  simp only [List.flatMap_append, List.flatMap_cons, List.flatMap_nil, List.append_nil,
    newlines_append]
  push_cast
  omega

/-- C16, on a token stream in the manner of the test file of `tests/lex.c`:
the lines are 10 for the first five tokens, then 12, 14, 16, 18, 20 and 22, and
the token behind the last string, which has a newline in it, is on line 23. -/
theorem tokenLines_monotone_witness :
    tokenLines 1 testLexemes = [10, 10, 10, 10, 10, 12, 14, 16, 18, 20, 22, 23] ∧
    (tokenLines 1 testLexemes).Pairwise (· ≤ ·) ∧
    (∃ lx ly, (tokenLines 1 testLexemes)[10]? = some lx ∧
      (tokenLines 1 testLexemes)[10 + 1]? = some ly ∧ lx < ly) :=
  ⟨by decide, (tokenLines_monotone 1 testLexemes).2.2.1,
   (tokenLines_monotone 1 testLexemes).2.2.2 (testLexemes.take 10)
     ⟨"\n\n".data, "\"test string en_US.UTF-8 $ \\\" \ntest\"".data⟩
     ⟨" ".data, "include".data⟩ [] (by decide) (by decide)⟩

set_option maxRecDepth 100000 in
/-- C17 (as stated, at a text of exactly 256 code points).  In `long256.cfg`
the block type has 256 code points, which is not more than 256: the parse
fails with the message `string too long`.  With 255 code points, in
`long255.cfg`, the block is accepted and the text is stored unchanged. -/
theorem confInit_text_of_256 :
    (ConfInit testHost 100 "long256.cfg" world0).map (fun r => (r.1, r.2.errors))
      = some (none, [⟨some "long256.cfg", 1,
          Detail.overflow ⟨LEX_TOKEN_ID, 1, String.mk (List.replicate 256 'a'), 0⟩⟩]) ∧
    (ConfInit testHost 100 "long255.cfg" world0).map (fun r => (r.1, r.2.errors))
      = some (some [⟨1, String.mk (List.replicate 255 'a'), "", []⟩], []) := by
  decide

/-- C17, amended.  The bound of the texts is `BLOCK_BUFSZ`, 256, and a text
fits when it has fewer code points than that, 255 at most.  A text that fits
is copied unchanged, and a file of well-formed blocks, whose texts all fit,
parses to the tree that holds each text unchanged, with no message.  A text
of 256 code points or more makes the parse fail with the message `string too
long` on its token, at each of the four places: the block type, the block
name, the property name, and a value that is an identifier or a string.  And
in the events of a call of `ConfInit` each message `string too long` is about
the token that the lexer gave last, a token whose text has 256 code points or
more. -/
theorem parseBlock_text_bound :
    BLOCK_BUFSZ = 256 ∧
    (∀ s : String, s.length < BLOCK_BUFSZ → c32lcpy s BLOCK_BUFSZ = (s, s.length)) ∧
    (∀ (host : Host) (file : String) (bs : List SrcBlock) (eof : Int) (fuel : Nat) (w : World),
      host.files file = some (bs.flatMap SrcBlock.tokens, eof) → (∀ b ∈ bs, b.WF) →
      (bs.flatMap SrcBlock.tokens).length < fuel →
      ∃ w', _confParse host fuel file w = some (some (bs.map SrcBlock.tree), w') ∧
        w'.errors = w.errors) ∧
    (∀ (n : Nat) (st : parseState_t) (tok : _confToken_t) (w : World),
      BLOCK_BUFSZ ≤ tok.semVal.length →
      ∃ a, _parseBlock n st tok w = some (none, st, a) ∧
        a.errors = w.errors ++ [⟨ConfGetFileName w, tok.line, Detail.overflow tok⟩]) ∧
    (∀ (n : Nat) (st : parseState_t) (tok : _confToken_t) (w : World) (t : _confToken_t)
        (lx : lexState_t), tok.semVal.length < BLOCK_BUFSZ → _confLex st.lex = (t, lx) →
      t.type = LEX_TOKEN_ID → BLOCK_BUFSZ ≤ t.semVal.length →
      ∃ a, _parseBlock n st tok w = some (none, ⟨lx, some tok⟩, a) ∧
        a.errors = w.errors ++ [⟨ConfGetFileName w, t.line, Detail.overflow t⟩]) ∧
    (∀ (n : Nat) (st : parseState_t) (tok : _confToken_t) (w : World) (t : _confToken_t)
        (lx : lexState_t), _confLex st.lex = (t, lx) →
      t.type = LEX_TOKEN_ID → BLOCK_BUFSZ ≤ t.semVal.length →
      ∃ a, _parseBlock_props (n + 1) st tok w = some (none, ⟨lx, some tok⟩, a) ∧
        a.errors = w.errors ++ [⟨ConfGetFileName w, t.line, Detail.overflow t⟩]) ∧
    (∀ (st : parseState_t) (tok : _confToken_t) (w : World),
      tok.type = LEX_TOKEN_ID ∨ tok.type = LEX_TOKEN_STR → BLOCK_BUFSZ ≤ tok.semVal.length →
      ∃ a, _parseBlock_value st tok w = (false, a) ∧
        a.errors = w.errors ++ [⟨ConfGetFileName w, tok.line, Detail.overflow tok⟩]) ∧
    (∀ (host : Host) (n : Nat) (file : String) (w : World) (r : Option (List ConfBlock_t))
        (w' : World), ConfInit host n file w = some (r, w') →
      ∃ es stk1, w'.trace = w.trace ++ es ∧ replay overflowOk [] es = some stk1) := by
  refine ⟨rfl, fun s hs => c32lcpy_fits s _ hs, ?_, ?_, ?_, ?_, ?_, ?_⟩
  · intro host file bs eof fuel w hfile hwf hfuel
    refine ⟨_, confParse_blocks_exact host file bs eof fuel w hfile hwf hfuel, ?_⟩
    simp [World.errors, List.filterMap_append, diag_lex, diag_comp_lex, Event.diag]
  · intro n st tok w hl
    have h0 : (c32lcpy tok.semVal 256).2 ≥ 256 := c32lcpy_long _ _ hl
    simp only [_parseBlock, h0, if_true]
    exact ⟨_, rfl, by simp [World.errors, _parseError, PARSE_ERROR_OVERFLOW, PARSE_ERROR_UNEXPECTED_TOKEN,
      World.updBlock, World.updProp, Event.diag, List.filterMap_append, ConfGetFileName]⟩
  · intro n st tok w t lx hl hlex ht htl
    have hl' : tok.semVal.length < 256 := hl
    have h0 : ¬ (c32lcpy tok.semVal 256).2 ≥ 256 := by simpa [c32lcpy] using hl'
    have h1 : (c32lcpy t.semVal BLOCK_BUFSZ).2 ≥ BLOCK_BUFSZ := c32lcpy_long _ _ htl
    have hte : t.type ≠ LEX_TOKEN_ERROR := by simp [ht]
    simp only [_parseBlock, h0, if_false, parseToken_lex st (some tok) _ t lx hlex hte,
      ht, if_true, h1]
    exact ⟨_, rfl, by simp [World.errors, _parseError, PARSE_ERROR_OVERFLOW, PARSE_ERROR_UNEXPECTED_TOKEN,
      World.updBlock, World.updProp, Event.diag, List.filterMap_append, ConfGetFileName]⟩
  · intro n st tok w t lx hlex ht htl
    have h1 : (c32lcpy t.semVal BLOCK_BUFSZ).2 ≥ BLOCK_BUFSZ := c32lcpy_long _ _ htl
    have hte : t.type ≠ LEX_TOKEN_ERROR := by simp [ht]
    simp only [_parseBlock_props, parseToken_lex st (some tok) _ t lx hlex hte,
      ht, reduceCtorEq, if_false, if_true, h1]
    exact ⟨_, rfl, by simp [World.errors, _parseError, PARSE_ERROR_OVERFLOW, PARSE_ERROR_UNEXPECTED_TOKEN,
      World.updBlock, World.updProp, Event.diag, List.filterMap_append, ConfGetFileName]⟩
  · intro st tok w hty htl
    have h1 : (c32lcpy tok.semVal BLOCK_BUFSZ).2 ≥ BLOCK_BUFSZ := c32lcpy_long _ _ htl
    rcases hty with hty | hty
    · simp only [_parseBlock_value, hty, reduceCtorEq, if_false, if_true, h1]
      exact ⟨_, rfl, by simp [World.errors, _parseError, PARSE_ERROR_OVERFLOW, PARSE_ERROR_UNEXPECTED_TOKEN,
      World.updBlock, World.updProp, Event.diag, List.filterMap_append, ConfGetFileName]⟩
    · simp only [_parseBlock_value, hty, reduceCtorEq, if_false, if_true, h1]
      exact ⟨_, rfl, by simp [World.errors, _parseError, PARSE_ERROR_OVERFLOW, PARSE_ERROR_UNEXPECTED_TOKEN,
      World.updBlock, World.updProp, Event.diag, List.filterMap_append, ConfGetFileName]⟩
  · intro host n file w r w' h
    obtain ⟨es, stk1, ht, hr, -⟩ := follows_confInit host n file w r w' [] h
    exact ⟨es, stk1, ht, replay_weaken allOk overflowOk allOk_overflowOk es _ _ hr⟩

/-- C17, amended, on the test file of `tests/parse.c`, whose texts all fit,
and on a block type of 256 code points. -/
theorem parseBlock_text_bound_witness :
    (∃ w', _confParse testHost 100 "testParse.testxt" world0
        = some (some (testParse.map SrcBlock.tree), w') ∧ w'.errors = world0.errors) ∧
    (∃ a, _parseBlock 5 ⟨⟨"long256.cfg", [punct LEX_TOKEN_OBRACE 1, punct LEX_TOKEN_EBRACE 1], 2⟩,
          none⟩ ⟨LEX_TOKEN_ID, 1, String.mk (List.replicate 256 'a'), 0⟩ world0
        = some (none, ⟨⟨"long256.cfg", [punct LEX_TOKEN_OBRACE 1, punct LEX_TOKEN_EBRACE 1], 2⟩,
          none⟩, a) ∧
      a.errors = world0.errors ++ [⟨ConfGetFileName world0, 1,
        Detail.overflow ⟨LEX_TOKEN_ID, 1, String.mk (List.replicate 256 'a'), 0⟩⟩]) :=
  ⟨parseBlock_text_bound.2.2.1 testHost "testParse.testxt" testParse 21 100 world0 rfl (by decide)
     (by decide),
   parseBlock_text_bound.2.2.2.1 5
     ⟨⟨"long256.cfg", [punct LEX_TOKEN_OBRACE 1, punct LEX_TOKEN_EBRACE 1], 2⟩, none⟩
     ⟨LEX_TOKEN_ID, 1, String.mk (List.replicate 256 'a'), 0⟩ world0
     (by set_option maxRecDepth 1000000 in decide)⟩

/-- C18.  The current file name during and after `ConfInit (file)`.  In the
events of the call, each message has in front the file of the lexer that is
reading when it is reported, the lexer created last among those not yet
destroyed: the included file while an included file is parsed, and the
includer again once the lexer of the included file is destroyed.  When the
call returns a tree, no lexer is left and `ConfGetFileName` gives `file`.  And
whenever `_parseInclude` returns its token, the include having succeeded with
whatever includes inside it, the current file name is what it was before the
include. -/
theorem confInit_file_name (host : Host) (n : Nat) (file : String) (w : World)
    (r : Option (List ConfBlock_t)) (w' : World) (h : ConfInit host n file w = some (r, w')) :
    (∃ es stk1, w'.trace = w.trace ++ es ∧ replay fileOk [] es = some stk1 ∧
      (r.isSome → stk1 = [] ∧ ConfGetFileName w' = some file)) ∧
    (∀ (internal : parseState_t → World → Option (Bool × World)) (st : parseState_t)
        (tok : _confToken_t) (v : World) (x : _confToken_t) (s : parseState_t) (a : World),
      _parseInclude host internal st tok v = some (some x, s, a) →
      ConfGetFileName a = ConfGetFileName v) := by
  constructor
  · obtain ⟨es, stk1, ht, hr, hs⟩ := follows_confInit host n file w r w' [] h
    exact ⟨es, stk1, ht, replay_weaken allOk fileOk allOk_fileOk es _ _ hr, hs⟩
  · intro internal st tok v x s a hi
    exact fileName_parseInclude host internal st tok v x s a hi

/-- C18, on `nest.cfg`, which includes `root.cfg`, which includes `other.cfg`:
the call returns the tree and the current file name is `nest.cfg`; and on
`incnocolon.cfg`, which includes `nocolon.cfg`: the message about the missing
colon has `nocolon.cfg` in front. -/
theorem confInit_file_name_witness :
    (ConfInit testHost 20 "nest.cfg" world0
        = some (some nestTree, ⟨some "nest.cfg", nestTree, nestTrace⟩) ∧
      ∃ es stk1, nestTrace = world0.trace ++ es ∧ replay fileOk [] es = some stk1 ∧
        ((some nestTree).isSome →
          stk1 = [] ∧ ConfGetFileName ⟨some "nest.cfg", nestTree, nestTrace⟩ = some "nest.cfg")) ∧
    (ConfInit testHost 20 "incnocolon.cfg" world0
        = some (none, ⟨some "nocolon.cfg", [], incnocolonTrace⟩) ∧
      (∃ es stk1, incnocolonTrace = world0.trace ++ es ∧ replay fileOk [] es = some stk1 ∧
        ((none : Option (List ConfBlock_t)).isSome →
          stk1 = [] ∧ ConfGetFileName ⟨some "nocolon.cfg", [], incnocolonTrace⟩
            = some "incnocolon.cfg")) ∧
      (World.errors ⟨some "nocolon.cfg", [], incnocolonTrace⟩).map Diag.file
        = [some "nocolon.cfg"]) :=
  ⟨⟨by decide,
    (confInit_file_name testHost 20 "nest.cfg" world0 (some nestTree)
      ⟨some "nest.cfg", nestTree, nestTrace⟩ (by decide)).1⟩,
   ⟨by decide,
    (confInit_file_name testHost 20 "incnocolon.cfg" world0 none
      ⟨some "nocolon.cfg", [], incnocolonTrace⟩ (by decide)).1,
    by decide⟩⟩

/-- C19.  The token named after `after` in a message about an unexpected
token.  In the events of a call of `ConfInit`, each message `unexpected token X
[after token Y] [(expected Z)]` fits the lexer that is reading: `X` is the
token that this lexer gave last and the line of the message is its line; `Y`
is the token that the same lexer gave right before `X`, and the part is left
out exactly when there is no such token, `X` being the first token of its
file; and `Z`, when the part is there, is a type that `X` does not have.  The
message that `_parseError` writes has the retained `lastToken` as `Y` and the
token type handed to it as `Z`, and no part `(expected Z)` when `NULL` is
handed to it.  `_parseExpect`, which requires one token type, hands that type
over: its message has the part `(expected Z)`.  The
places that accept several token types, the top level of a file, the token
behind a block type, a value position and the position behind a value, hand
over nothing: their messages have no such part. -/
theorem confInit_unexpected_after (host : Host) (n : Nat) (file : String) (w : World)
    (r : Option (List ConfBlock_t)) (w' : World) (h : ConfInit host n file w = some (r, w')) :
    (∃ es stk1, w'.trace = w.trace ++ es ∧ replay unexpectedOk [] es = some stk1) ∧
    (∀ (st : parseState_t) (tok : _confToken_t) (v : World),
      (∀ ty, (_parseError st tok PARSE_ERROR_UNEXPECTED_TOKEN (Extra.tokType ty) v).trace
        = v.trace ++ [Event.error ⟨ConfGetFileName v, tok.line,
            Detail.unexpected tok st.lastToken (some ty)⟩]) ∧
      (_parseError st tok PARSE_ERROR_UNEXPECTED_TOKEN Extra.null v).trace
        = v.trace ++ [Event.error ⟨ConfGetFileName v, tok.line,
            Detail.unexpected tok st.lastToken none⟩]) ∧
    (∀ (st : parseState_t) (lt : Option _confToken_t) (ty : TokType) (v : World)
        (t : _confToken_t) (lx : lexState_t), _confLex st.lex = (t, lx) →
      t.type ≠ LEX_TOKEN_ERROR → t.type ≠ ty →
      _parseExpect st lt ty v
        = (none, ⟨lx, lt⟩, { v with trace := v.trace ++ [Event.lex st.lex.file t,
            Event.error ⟨ConfGetFileName v, t.line, Detail.unexpected t lt (some ty)⟩] })) ∧
    (∀ (fuel : Nat) (st : parseState_t) (lt : Option _confToken_t) (tok : _confToken_t)
        (v : World) (t : _confToken_t) (lx : lexState_t), _confLex st.lex = (t, lx) →
      t.type ≠ LEX_TOKEN_ERROR →
      (t.type ≠ LEX_TOKEN_NONE → t.type ≠ LEX_TOKEN_INCLUDE → t.type ≠ LEX_TOKEN_ID →
        _parseInternal_next (_parseInternal_loop host (fuel + 1)) st lt v
          = some (false, { v with trace := v.trace ++ [Event.lex st.lex.file t,
              Event.error ⟨ConfGetFileName v, t.line, Detail.unexpected t lt none⟩] })) ∧
      (tok.semVal.length < 256 → t.type ≠ LEX_TOKEN_ID → t.type ≠ LEX_TOKEN_OBRACE →
        _parseBlock fuel st tok v
          = some (none, ⟨lx, some tok⟩,
              ⟨v.fileName, v.head ++ [⟨tok.line, tok.semVal, "", []⟩],
                v.trace ++ [Event.lex st.lex.file t,
                  Event.error ⟨ConfGetFileName v, t.line,
                    Detail.unexpected t (some tok) none⟩]⟩)) ∧
      (t.type ≠ LEX_TOKEN_STR → t.type ≠ LEX_TOKEN_ID → t.type ≠ LEX_TOKEN_NUM →
        _parseBlock_values (fuel + 1) st tok v
          = some (none, ⟨lx, some tok⟩,
              { v with trace := v.trace ++ [Event.lex st.lex.file t,
                  Event.error ⟨ConfGetFileName v, t.line,
                    Detail.unexpected t (some tok) none⟩] })) ∧
      (∀ (v2 : World) (u : _confToken_t) (lx' : lexState_t),
        _parseBlock_value ⟨lx, some tok⟩ t
          { v with trace := v.trace ++ [Event.lex st.lex.file t] } = (true, v2) →
        _confLex lx = (u, lx') → u.type ≠ LEX_TOKEN_ERROR →
        u.type ≠ LEX_TOKEN_COMMA → u.type ≠ LEX_TOKEN_SEMICOLON →
        _parseBlock_values (fuel + 1) st tok v
          = some (none, ⟨lx', some t⟩,
              { v2 with trace := v2.trace ++ [Event.lex lx.file u,
                  Event.error ⟨ConfGetFileName v2, u.line,
                    Detail.unexpected u (some t) none⟩] }))) := by
  refine ⟨?_, ?_, ?_, ?_⟩
  · obtain ⟨es, stk1, ht, hr, -⟩ := follows_confInit host n file w r w' [] h
    exact ⟨es, stk1, ht, replay_weaken allOk unexpectedOk allOk_unexpectedOk es _ _ hr⟩
  · intro st tok v
    exact ⟨fun ty => rfl, rfl⟩
  · intro st lt ty v t lx hl hte hty
    exact parseExpect_lex st lt ty v t lx hl hte hty
  · intro fuel st lt tok v t lx hl hte
    refine ⟨fun h1 h2 h3 => parseInternal_next_stray host fuel st lt v t lx hl hte h1 h2 h3,
      fun hlen h1 h2 => parseBlock_stray fuel st tok v t lx hlen hl hte h1 h2,
      fun h1 h2 h3 => parseBlock_values_stray fuel st tok v t lx hl hte h1 h2 h3,
      fun v2 u lx' hv hu hue h1 h2 =>
        parseBlock_values_no_sep fuel st tok v v2 t u lx lx' hl hte hv hu hue h1 h2⟩

/-- C19, on `incnocolon.cfg`, where the `;` of the included file comes after
its token `prop` and `:` was expected, and on `incbad.cfg`, where the `}` is
the first token of the included file: the message has no `after` part, though
the includer gave two tokens before. -/
theorem confInit_unexpected_after_witness :
    (ConfInit testHost 20 "incnocolon.cfg" world0
        = some (none, ⟨some "nocolon.cfg", [], incnocolonTrace⟩) ∧
      (∃ es stk1, incnocolonTrace = world0.trace ++ es ∧
        replay unexpectedOk [] es = some stk1) ∧
      World.errors ⟨some "nocolon.cfg", [], incnocolonTrace⟩
        = [⟨some "nocolon.cfg", 1, Detail.unexpected (punct LEX_TOKEN_SEMICOLON 1)
            (some ⟨LEX_TOKEN_ID, 1, "prop", 0⟩) (some LEX_TOKEN_COLON)⟩]) ∧
    (ConfInit testHost 100 "incbad.cfg" world0).map (fun r => (r.1, r.2.errors))
      = some (none, [⟨some "bad.cfg", 1,
          Detail.unexpected (punct LEX_TOKEN_EBRACE 1) none none⟩]) :=
  ⟨⟨by decide,
    (confInit_unexpected_after testHost 20 "incnocolon.cfg" world0 none
      ⟨some "nocolon.cfg", [], incnocolonTrace⟩ (by decide)).1,
    by decide⟩,
   by decide⟩

/-- C20 (as stated, at a lexer error).  In `incerror.cfg` the include keyword
is followed by a token that is no string, the `ERROR` token: the parse fails,
and the parser reports no message at all. -/
theorem confInit_include_lex_error :
    (ConfInit testHost 100 "incerror.cfg" world0).map (fun r => (r.1, r.2.errors))
      = some (none, []) := by
  decide

/-- C20, amended.  Whenever `_parseInternal`, in whatever state, reads the
token `x` at the top level of a file, at the start of the file, behind a block
or behind an include statement, and `x` is neither `END` nor the include
keyword nor an identifier, it returns `false`: with the one message that names
`x` as the unexpected token after the token before it, with no expected token,
or, when `x` is the `ERROR` token of the lexer, with no message.  When `x` is
the include keyword and the token `y` behind it is not a string, it returns
`false`: with the one message that names `y` as the unexpected token after the
keyword, with a string as the expected token, or, when `y` is the `ERROR`
token, with no message.  In every call of `_confParse` that has returned, a
message or an `ERROR` token is the last event, and the call returned `NULL`.
And for a file of well-formed blocks `A` with `t` the token behind them and
`u` the token behind `t`, `_confParse` returns `NULL` in these four cases,
with the one message or with none. -/
theorem confParse_top_level (host : Host) (file : String) (A : List SrcBlock)
    (rest : List _confToken_t) (eof : Int) (fuel : Nat) (w : World) (t : _confToken_t)
    (lx : lexState_t)
    (hfile : host.files file = some (A.flatMap SrcBlock.tokens ++ rest, eof))
    (hA : ∀ x ∈ A, x.WF) (hfuel : (A.flatMap SrcBlock.tokens).length + 1 ≤ fuel)
    (ht : _confLex ⟨file, rest, eof⟩ = (t, lx)) :
    (t.type ≠ LEX_TOKEN_NONE → t.type ≠ LEX_TOKEN_INCLUDE → t.type ≠ LEX_TOKEN_ID →
      t.type ≠ LEX_TOKEN_ERROR →
      ∃ w', _confParse host fuel file w = some (none, w') ∧
        w'.errors = w.errors ++ [⟨ConfGetFileName w, t.line,
          Detail.unexpected t ((A.map fun x => some x.ebrace).getLastD none) none⟩]) ∧
    (t.type = LEX_TOKEN_INCLUDE → ∀ u lx', _confLex lx = (u, lx') →
      u.type ≠ LEX_TOKEN_STR → u.type ≠ LEX_TOKEN_ERROR →
      ∃ w', _confParse host fuel file w = some (none, w') ∧
        w'.errors = w.errors ++ [⟨ConfGetFileName w, u.line,
          Detail.unexpected u (some t) (some LEX_TOKEN_STR)⟩]) ∧
    (t.type = LEX_TOKEN_ERROR →
      ∃ w', _confParse host fuel file w = some (none, w') ∧ w'.errors = w.errors) ∧
    (t.type = LEX_TOKEN_INCLUDE → ∀ u lx', _confLex lx = (u, lx') →
      u.type = LEX_TOKEN_ERROR →
      ∃ w', _confParse host fuel file w = some (none, w') ∧ w'.errors = w.errors) ∧
    (∀ (n : Nat) (parser : parseState_t) (lastTok : Option _confToken_t) (v : World)
      (x : _confToken_t) (l1 : lexState_t), _confLex parser.lex = (x, l1) →
      (x.type ≠ LEX_TOKEN_NONE → x.type ≠ LEX_TOKEN_INCLUDE → x.type ≠ LEX_TOKEN_ID →
        x.type ≠ LEX_TOKEN_ERROR →
        _parseInternal_next (_parseInternal_loop host (n + 1)) parser lastTok v
          = some (false, { v with trace := v.trace ++ [Event.lex parser.lex.file x,
              Event.error ⟨ConfGetFileName v, x.line, Detail.unexpected x lastTok none⟩] })) ∧
      (x.type = LEX_TOKEN_ERROR →
        _parseInternal_next (_parseInternal_loop host (n + 1)) parser lastTok v
          = some (false, { v with trace := v.trace ++ [Event.lex parser.lex.file x] })) ∧
      (x.type = LEX_TOKEN_INCLUDE → ∀ (y : _confToken_t) (l2 : lexState_t),
        _confLex l1 = (y, l2) →
        (y.type ≠ LEX_TOKEN_STR → y.type ≠ LEX_TOKEN_ERROR →
          _parseInternal_next (_parseInternal_loop host (n + 1)) parser lastTok v
            = some (false, { v with trace := v.trace ++ [Event.lex parser.lex.file x,
                Event.lex l1.file y,
                Event.error ⟨ConfGetFileName v, y.line,
                  Detail.unexpected y (some x) (some LEX_TOKEN_STR)⟩] })) ∧
        (y.type = LEX_TOKEN_ERROR →
          _parseInternal_next (_parseInternal_loop host (n + 1)) parser lastTok v
            = some (false, { v with trace := v.trace ++ [Event.lex parser.lex.file x,
                Event.lex l1.file y] })))) ∧
    (∀ (st : parseState_t) (v : World) (fuel2 : Nat),
      _parseInternal host fuel2 st v
        = _parseInternal_next (_parseInternal_loop host fuel2) st none v) ∧
    (∀ (file2 : String) (n2 : Nat) (v : World) (r : Option (List ConfBlock_t)) (c : World),
      _confParse host n2 file2 v = some (r, c) →
      ∃ es, c.trace = v.trace ++ es ∧
        ∀ e ∈ es, ((∃ d, e = Event.error d) ∨
            ∃ f tk, e = Event.lex f tk ∧ tk.type = LEX_TOKEN_ERROR) →
          r = none ∧ ∃ qs, es = qs ++ [e] ∧
            ∀ x ∈ qs, (∀ d, x ≠ Event.error d) ∧
              ∀ g tk, x = Event.lex g tk → tk.type ≠ LEX_TOKEN_ERROR) := by
  obtain ⟨n, rfl, hlen⟩ := fuel_split A 1 fuel hfuel (le_refl 1)
  obtain ⟨lt1, hprop⟩ := confParse_top_fail host file A rest eof (n + 1) w hfile hA hlen
  refine ⟨?_, ?_, ?_, ?_, ?_, fun _ _ _ => rfl,
    fun file2 n2 v r c hc => confParse_loud_last host n2 file2 v r c hc⟩
  · intro h1 h2 h3 hte
    refine ⟨_, hprop _ (parseInternal_next_stray host n ⟨⟨file, rest, eof⟩, lt1⟩ _ _ t lx ht hte
      h1 h2 h3), ?_⟩
    simp [World.errors, List.filterMap_append, diag_lex, diag_comp_lex, Event.diag,
      ConfGetFileName]
  · intro hi u lx' hu hus hue
    refine ⟨_, hprop _ (parseInternal_next_include host n ⟨⟨file, rest, eof⟩, lt1⟩ _ _ t u lx lx'
      ht hi hu hue hus), ?_⟩
    simp [World.errors, List.filterMap_append, diag_lex, diag_comp_lex, Event.diag,
      ConfGetFileName]
  · intro hte
    refine ⟨_, hprop _ (parseInternal_next_error _ ⟨⟨file, rest, eof⟩, lt1⟩ _ _ t lx ht hte), ?_⟩
    simp [World.errors, List.filterMap_append, diag_lex, diag_comp_lex, Event.diag]
  · intro hi u lx' hu hue
    refine ⟨_, hprop _ (parseInternal_next_include_error host n ⟨⟨file, rest, eof⟩, lt1⟩ _ _ t u
      lx lx' ht hi hu hue), ?_⟩
    simp [World.errors, List.filterMap_append, diag_lex, diag_comp_lex, Event.diag]
  · intro m parser lastTok v x l1 hx
    refine ⟨fun a1 a2 a3 a4 => parseInternal_next_stray host m parser lastTok v x l1 hx a4 a1 a2
        a3,
      fun a1 => parseInternal_next_error _ parser lastTok v x l1 hx a1,
      fun hi y l2 hy => ⟨fun a1 a2 => parseInternal_next_include host m parser lastTok v x y l1
        l2 hx hi hy a2 a1,
        fun a1 => parseInternal_next_include_error host m parser lastTok v x y l1 l2 hx hi hy
          a1⟩⟩

/-- C20, amended, on `stray.cfg`, the input `a {} "s" c {}`, on `incnum.cfg`,
the input `a {} include 5`, on `toperror.cfg`, the input `a {}` and a
character that the lexer rejects, and on `incerror.cfg`, the include keyword
and such a character. -/
theorem confParse_top_level_witness :
    (∃ w', _confParse testHost 10 "stray.cfg" (_confSetFileName (some "stray.cfg") world0)
        = some (none, w') ∧
      w'.errors = [⟨some "stray.cfg", 2,
        Detail.unexpected ⟨LEX_TOKEN_STR, 2, "s", 0⟩ (some (punct LEX_TOKEN_EBRACE 1)) none⟩]) ∧
    (∃ w', _confParse testHost 10 "incnum.cfg" (_confSetFileName (some "incnum.cfg") world0)
        = some (none, w') ∧
      w'.errors = [⟨some "incnum.cfg", 2,
        Detail.unexpected ⟨LEX_TOKEN_NUM, 2, "", 5⟩ (some (punct LEX_TOKEN_INCLUDE 2))
          (some LEX_TOKEN_STR)⟩]) ∧
    (∃ w', _confParse testHost 10 "toperror.cfg" (_confSetFileName (some "toperror.cfg") world0)
        = some (none, w') ∧
      w'.errors = (_confSetFileName (some "toperror.cfg") world0).errors) ∧
    (∃ w', _confParse testHost 10 "incerror.cfg" (_confSetFileName (some "incerror.cfg") world0)
        = some (none, w') ∧
      w'.errors = (_confSetFileName (some "incerror.cfg") world0).errors) :=
  ⟨(confParse_top_level testHost "stray.cfg" [emptyBlock "a" 1]
      (⟨LEX_TOKEN_STR, 2, "s", 0⟩ :: (emptyBlock "c" 3).tokens) 4 10
      (_confSetFileName (some "stray.cfg") world0) ⟨LEX_TOKEN_STR, 2, "s", 0⟩
      ⟨"stray.cfg", (emptyBlock "c" 3).tokens, 4⟩
      (by decide) (by decide) (by decide) rfl).1 (by decide) (by decide) (by decide) (by decide),
   (confParse_top_level testHost "incnum.cfg" [emptyBlock "a" 1]
      [punct LEX_TOKEN_INCLUDE 2, ⟨LEX_TOKEN_NUM, 2, "", 5⟩] 3 10
      (_confSetFileName (some "incnum.cfg") world0) (punct LEX_TOKEN_INCLUDE 2)
      ⟨"incnum.cfg", [⟨LEX_TOKEN_NUM, 2, "", 5⟩], 3⟩
      (by decide) (by decide) (by decide) rfl).2.1 rfl ⟨LEX_TOKEN_NUM, 2, "", 5⟩
      ⟨"incnum.cfg", [], 3⟩ rfl (by decide) (by decide),
   (confParse_top_level testHost "toperror.cfg" [emptyBlock "a" 1]
      [punct LEX_TOKEN_ERROR 2] 3 10
      (_confSetFileName (some "toperror.cfg") world0) (punct LEX_TOKEN_ERROR 2)
      ⟨"toperror.cfg", [], 3⟩
      (by decide) (by decide) (by decide) rfl).2.2.1 rfl,
   (confParse_top_level testHost "incerror.cfg" []
      [punct LEX_TOKEN_INCLUDE 1, punct LEX_TOKEN_ERROR 1] 2 10
      (_confSetFileName (some "incerror.cfg") world0) (punct LEX_TOKEN_INCLUDE 1)
      ⟨"incerror.cfg", [punct LEX_TOKEN_ERROR 1], 2⟩
      (by decide) (by decide) (by decide) rfl).2.2.2.1 rfl (punct LEX_TOKEN_ERROR 1)
      ⟨"incerror.cfg", [], 2⟩ rfl rfl⟩

/-- C21.  At most one message in a parse.  In the events of every call of
`_confParse` that has returned, with the calls for the included files inside
it, at most one event is a message of `_parseError`; when there is one, the
call returned `NULL`, the message is the last event of the call, so no lexer
is asked for a token and nothing is reported after it, and no event before it
is a message or an `ERROR` token.  The same holds of every call of
`_parseInternal`, which then returned `false`.  A call of `_parseError` adds
exactly one message, with the file name of the moment and the line of the
token, and the text that belongs to the error code; and where
`_parseBlock_value` fails, it has added exactly one message, about an
unexpected token, an overflow or too many values. -/
theorem confParse_one_diagnostic (host : Host) (n : Nat) (file : String) (w : World)
    (t : Option (List ConfBlock_t)) (a : World) (h : _confParse host n file w = some (t, a)) :
    (∃ es, a.trace = w.trace ++ es ∧ a.errors = w.errors ++ es.filterMap Event.diag ∧
      (es.filterMap Event.diag).length ≤ 1 ∧
      ∀ d, Event.error d ∈ es →
        t = none ∧ es.filterMap Event.diag = [d] ∧
          ∃ qs, es = qs ++ [Event.error d] ∧
            ∀ e ∈ qs, (∀ d1, e ≠ Event.error d1) ∧
              ∀ g tk, e = Event.lex g tk → tk.type ≠ LEX_TOKEN_ERROR) ∧
    (∀ (st : parseState_t) (v : World) (r : Bool) (b : World),
      _parseInternal host n st v = some (r, b) →
      ∃ es, b.trace = v.trace ++ es ∧ b.errors = v.errors ++ es.filterMap Event.diag ∧
        (es.filterMap Event.diag).length ≤ 1 ∧
        ∀ d, Event.error d ∈ es →
          r = false ∧ es.filterMap Event.diag = [d] ∧
            ∃ qs, es = qs ++ [Event.error d] ∧
              ∀ e ∈ qs, (∀ d1, e ≠ Event.error d1) ∧
                ∀ g tk, e = Event.lex g tk → tk.type ≠ LEX_TOKEN_ERROR) ∧
    (∀ (st : parseState_t) (tok : _confToken_t) (err : Nat) (ex : Extra) (v : World),
      ∃ d, (_parseError st tok err ex v).trace = v.trace ++ [Event.error d] ∧
        (_parseError st tok err ex v).errors = v.errors ++ [d] ∧
        d.file = ConfGetFileName v ∧ d.line = tok.line ∧
        (err = PARSE_ERROR_UNEXPECTED_TOKEN →
          ∃ e, d.detail = Detail.unexpected tok st.lastToken e) ∧
        (err = PARSE_ERROR_OVERFLOW → d.detail = Detail.overflow tok) ∧
        (err = PARSE_ERROR_TOO_MANY_PROPS → ∃ s, d.detail = Detail.tooManyProps s)) ∧
    (∀ (st : parseState_t) (tok : _confToken_t) (v b : World),
      _parseBlock_value st tok v = (false, b) →
      ∃ d, b.trace = v.trace ++ [Event.error d] ∧ b.errors = v.errors ++ [d] ∧
        ((∃ lt e, d.detail = Detail.unexpected tok lt e) ∨ d.detail = Detail.overflow tok ∨
          ∃ s, d.detail = Detail.tooManyProps s)) := by
  refine ⟨?_, fun st v r b hr => ?_, parseError_one, parseBlock_value_fail⟩
  · obtain ⟨es, ht, he, hl, hd⟩ := good_diag (good_confParse host n file w t a h)
    refine ⟨es, ht, he, hl, fun d hm => ?_⟩
    obtain ⟨hr, hf, qs, hq, hs⟩ := hd d hm
    exact ⟨by simpa using hr, hf, qs, hq, hs.spec⟩
  · obtain ⟨es, ht, he, hl, hd⟩ := good_diag (good_parseInternal host n st v r b hr)
    refine ⟨es, ht, he, hl, fun d hm => ?_⟩
    obtain ⟨hr, hf, qs, hq, hs⟩ := hd d hm
    exact ⟨hr, hf, qs, hq, hs.spec⟩

set_option maxRecDepth 100000 in
/-- C21, on `incnocolon.cfg`, which includes `nocolon.cfg`, the input
`id { prop ;`: the message about the `;` is the only one and the last event;
the includer adds nothing.  On `values16.cfg` and `long256.cfg` one message is
reported, on `lexerror.cfg` and `incmissing.cfg` none. -/
theorem confParse_one_diagnostic_witness :
    _confParse testHost 20 "incnocolon.cfg" world0
      = some (none, ⟨some "nocolon.cfg", [], incnocolonTrace⟩) ∧
    (∃ es, incnocolonTrace = world0.trace ++ es ∧
      World.errors ⟨some "nocolon.cfg", [], incnocolonTrace⟩
        = world0.errors ++ es.filterMap Event.diag ∧
      (es.filterMap Event.diag).length ≤ 1 ∧
      ∀ d, Event.error d ∈ es →
        (none : Option (List ConfBlock_t)) = none ∧ es.filterMap Event.diag = [d] ∧
          ∃ qs, es = qs ++ [Event.error d] ∧
            ∀ e ∈ qs, (∀ d1, e ≠ Event.error d1) ∧
              ∀ g tk, e = Event.lex g tk → tk.type ≠ LEX_TOKEN_ERROR) ∧
    World.errors ⟨some "nocolon.cfg", [], incnocolonTrace⟩
      = [⟨some "nocolon.cfg", 1, Detail.unexpected (punct LEX_TOKEN_SEMICOLON 1)
          (some ⟨LEX_TOKEN_ID, 1, "prop", 0⟩) (some LEX_TOKEN_COLON)⟩] ∧
    ((ConfInit testHost 100 "values16.cfg" world0).map fun r => (r.1, r.2.errors.length))
      = some (none, 1) ∧
    ((ConfInit testHost 100 "long256.cfg" world0).map fun r => (r.1, r.2.errors.length))
      = some (none, 1) ∧
    ((ConfInit testHost 100 "lexerror.cfg" world0).map fun r => (r.1, r.2.errors.length))
      = some (none, 0) ∧
    ((ConfInit testHost 100 "incmissing.cfg" world0).map fun r => (r.1, r.2.errors.length))
      = some (none, 0) :=
  ⟨by decide,
   (confParse_one_diagnostic testHost 20 "incnocolon.cfg" world0 none
      ⟨some "nocolon.cfg", [], incnocolonTrace⟩ (by decide)).1,
   by decide, by decide, by decide, by decide, by decide⟩

/-- C22.  The bounds of `nextVal` and of the writes into `vals`.  Each write
into the array `vals` is at the index `valLoc = prop->nextVal` of the moment,
and the slot at that index receives the value.  In a call of `_parseBlock`,
whatever the fuel, the state and the token, every index written is below
`MAX_PROPVAR`: between 0 and 15; the same holds of every run of the property
loop, and of every run of the value loop that starts with `nextVal` below
`MAX_PROPVAR`.  A call of `_parseBlock_value` that returns `true` leaves
`nextVal` below `MAX_PROPVAR`.  The value that makes `nextVal` reach
`MAX_PROPVAR` is written at index `MAX_PROPVAR - 1`, and the call reports too
many values and returns `false` with `nextVal = MAX_PROPVAR`.  And in every
world that a call of `_parseBlock` or `_parseInternal` returns, with success
or with failure, each property of the blocks added has `nextVal` at most
`MAX_PROPVAR` and an array of `MAX_PROPVAR` slots.  (A property just
allocated has `nextVal = 0` here; the C code assigns 0 on line 206, before the
field is read for the first time.) -/
theorem parseBlock_value_index (n : Nat) (st : parseState_t) (tok : _confToken_t) (w : World)
    (x : Option _confToken_t) (s : parseState_t) (a : World)
    (h : _parseBlock n st tok w = some (x, s, a)) :
    (∀ i ∈ _parseBlock_valLocs n st tok w, 0 ≤ i ∧ i ≤ 15 ∧ i < MAX_PROPVAR) ∧
    (∃ b, a.head = w.head ++ [b] ∧
      ∀ p ∈ b.props, p.nextVal ≤ MAX_PROPVAR ∧ p.vals.length = MAX_PROPVAR) ∧
    (∀ (fuel : Nat) (st1 : parseState_t) (tok1 : _confToken_t) (v : World),
      (∀ i ∈ _parseBlock_valLocs fuel st1 tok1 v, i < MAX_PROPVAR) ∧
      (∀ i ∈ _parseBlock_props_valLocs fuel st1 tok1 v, i < MAX_PROPVAR) ∧
      (v.curProp.nextVal < MAX_PROPVAR →
        ∀ i ∈ _parseBlock_values_valLocs fuel st1 tok1 v, i < MAX_PROPVAR)) ∧
    (∀ (st1 : parseState_t) (tok1 : _confToken_t) (fn : Option String) (hs : List ConfBlock_t)
      (bl : Int) (bt bn : String) (ps : List ConfProperty_t) (p : ConfProperty_t)
      (tr : List Event),
      (∀ i, _parseBlock_value_valLoc tok1 ⟨fn, hs ++ [⟨bl, bt, bn, ps ++ [p]⟩], tr⟩ = some i →
        i = p.nextVal ∧
        ∃ val, (_parseBlock_value st1 tok1
            ⟨fn, hs ++ [⟨bl, bt, bn, ps ++ [p]⟩], tr⟩).2.curProp.vals
          = p.vals.set i (some val)) ∧
      (_parseBlock_value_valLoc tok1 ⟨fn, hs ++ [⟨bl, bt, bn, ps ++ [p]⟩], tr⟩ = none →
        (_parseBlock_value st1 tok1 ⟨fn, hs ++ [⟨bl, bt, bn, ps ++ [p]⟩], tr⟩).2.head
          = hs ++ [⟨bl, bt, bn, ps ++ [p]⟩])) ∧
    (∀ (st1 : parseState_t) (tok1 : _confToken_t) (v c : World),
      _parseBlock_value st1 tok1 v = (true, c) → c.curProp.nextVal < MAX_PROPVAR) ∧
    (∀ (st1 : parseState_t) (tok1 : _confToken_t) (fn : Option String) (hs : List ConfBlock_t)
      (bl : Int) (bt bn : String) (ps : List ConfProperty_t) (pl : Int) (pn : String)
      (vs : List ConfPropVal_t) (tr : List Event),
      IsValue tok1 → vs.length + 1 = MAX_PROPVAR →
      _parseBlock_value_valLoc tok1
          ⟨fn, hs ++ [⟨bl, bt, bn, ps ++ [⟨pl, pn, slots vs, vs.length⟩]⟩], tr⟩
        = some (MAX_PROPVAR - 1) ∧
      _parseBlock_value st1 tok1
          ⟨fn, hs ++ [⟨bl, bt, bn, ps ++ [⟨pl, pn, slots vs, vs.length⟩]⟩], tr⟩
        = (false, ⟨fn, hs ++ [⟨bl, bt, bn,
            ps ++ [⟨pl, pn, slots (vs ++ [valueOf tok1]), MAX_PROPVAR⟩]⟩],
            tr ++ [Event.error ⟨fn, tok1.line, Detail.tooManyProps pn⟩]⟩)) ∧
    (∀ (host : Host) (fuel : Nat) (st1 : parseState_t) (v : World) (r : Bool) (c : World),
      _parseInternal host fuel st1 v = some (r, c) →
      ∃ bs, c.head = v.head ++ bs ∧
        ∀ b ∈ bs, ∀ p ∈ b.props, p.nextVal ≤ MAX_PROPVAR ∧ p.vals.length = MAX_PROPVAR) := by
  have h16 : MAX_PROPVAR = 16 := rfl
  refine ⟨fun i hi => ?_, ?_, fun fuel st1 tok1 v => ⟨parseBlock_valLocs_lt fuel st1 tok1 v,
    parseBlock_props_valLocs_lt fuel st1 tok1 v, parseBlock_values_valLocs_lt fuel st1 tok1 v⟩,
    parseBlock_value_writes, fun st1 tok1 v c hc => parseBlock_value_lt hc,
    parseBlock_value_last, fun host fuel st1 v r c hc => ?_⟩
  · have := parseBlock_valLocs_lt n st tok w i hi
    exact ⟨Nat.zero_le _, by omega, this⟩
  · obtain ⟨b, hb, -, hr, -⟩ := parseBlock_shape n st tok w x s a h
    exact ⟨b, hb, hr⟩
  · obtain ⟨bs, hb, hr, -⟩ := grown_parseInternal host fuel st1 v r c hc
    exact ⟨bs, hb, hr⟩

/-- C22, on the block of `values16.cfg`, `a { p: 1, ..., 1; }` with 16 values:
the call of `_parseBlock` fails at the 16th value with the message about too
many values; the indices written are 0, 1, ..., 15, and the property is left
with `nextVal = 16` in an array of 16 slots.  On the block of `values15.cfg`
the indices written are 0, 1, ..., 14. -/
theorem parseBlock_value_index_witness :
    _parseBlock 100 ⟨⟨"values16.cfg", (valuesBlock 15).tokens.tail, 2⟩, none⟩
        ⟨LEX_TOKEN_ID, 1, "a", 0⟩ world0
      = some (none, ⟨⟨"values16.cfg", [punct LEX_TOKEN_SEMICOLON 1, punct LEX_TOKEN_EBRACE 1], 2⟩,
            some (punct LEX_TOKEN_COMMA 1)⟩,
          ⟨none, [⟨1, "a", "", [⟨1, "p",
              slots (List.replicate 16 ⟨1, Payload.numVal 1, DATATYPE_NUMBER⟩), 16⟩]⟩],
            ((valuesBlock 15).tokens.tail.take 34).map (Event.lex "values16.cfg")
              ++ [Event.error ⟨none, 1, Detail.tooManyProps "p"⟩]⟩) ∧
    (∀ i ∈ _parseBlock_valLocs 100 ⟨⟨"values16.cfg", (valuesBlock 15).tokens.tail, 2⟩, none⟩
        ⟨LEX_TOKEN_ID, 1, "a", 0⟩ world0, 0 ≤ i ∧ i ≤ 15 ∧ i < MAX_PROPVAR) ∧
    _parseBlock_valLocs 100 ⟨⟨"values16.cfg", (valuesBlock 15).tokens.tail, 2⟩, none⟩
        ⟨LEX_TOKEN_ID, 1, "a", 0⟩ world0 = List.range 16 ∧
    _parseBlock_valLocs 100 ⟨⟨"values15.cfg", (valuesBlock 14).tokens.tail, 2⟩, none⟩
        ⟨LEX_TOKEN_ID, 1, "a", 0⟩ world0 = List.range 15 ∧
    (slots (List.replicate 16 ⟨1, Payload.numVal 1, DATATYPE_NUMBER⟩)).length = 16 :=
  ⟨by decide,
   (parseBlock_value_index 100 ⟨⟨"values16.cfg", (valuesBlock 15).tokens.tail, 2⟩, none⟩
      ⟨LEX_TOKEN_ID, 1, "a", 0⟩ world0 none
      ⟨⟨"values16.cfg", [punct LEX_TOKEN_SEMICOLON 1, punct LEX_TOKEN_EBRACE 1], 2⟩,
        some (punct LEX_TOKEN_COMMA 1)⟩
      ⟨none, [⟨1, "a", "", [⟨1, "p",
          slots (List.replicate 16 ⟨1, Payload.numVal 1, DATATYPE_NUMBER⟩), 16⟩]⟩],
        ((valuesBlock 15).tokens.tail.take 34).map (Event.lex "values16.cfg")
          ++ [Event.error ⟨none, 1, Detail.tooManyProps "p"⟩]⟩ (by decide)).1,
   by decide, by decide, by decide⟩

/-- C23.  The properties of a returned tree.  In the tree that a call of
`_confParse` returns, every property of every block holds at least 1 and at
most 15 values: its `nextVal` is between 1 and `MAX_PROPVAR - 1`, its array
`vals` has `MAX_PROPVAR` slots, and exactly the slots below `nextVal` hold a
value.  The same holds of the tree of `ConfInit`, and of the properties of
the block that a call of `_parseBlock` added when it returned a token.  So no
property of a returned tree has an empty value list, and none has
`MAX_PROPVAR` values. -/
theorem confParse_stored_values (host : Host) (n : Nat) (file : String) (w : World)
    (tree : List ConfBlock_t) (a : World)
    (h : _confParse host n file w = some (some tree, a)) :
    (∀ b ∈ tree, ∀ p ∈ b.props,
      p.Stored ∧ 1 ≤ p.nextVal ∧ p.nextVal ≤ 15 ∧ p.nextVal ≠ 0 ∧ p.nextVal ≠ MAX_PROPVAR) ∧
    (∀ (v : World) (t : List ConfBlock_t) (c : World),
      ConfInit host n file v = some (some t, c) →
      ∀ b ∈ t, ∀ p ∈ b.props, p.Stored ∧ 1 ≤ p.nextVal ∧ p.nextVal ≤ 15) ∧
    (∀ (st : parseState_t) (tok : _confToken_t) (v : World) (x : _confToken_t)
      (s : parseState_t) (c : World),
      _parseBlock n st tok v = some (some x, s, c) →
      ∃ b, c.head = v.head ++ [b] ∧
        ∀ p ∈ b.props, p.Stored ∧ 1 ≤ p.nextVal ∧ p.nextVal ≤ 15) := by
  have key : ∀ p : ConfProperty_t, p.Stored →
      p.Stored ∧ 1 ≤ p.nextVal ∧ p.nextVal ≤ 15 ∧ p.nextVal ≠ 0 ∧ p.nextVal ≠ MAX_PROPVAR := by
    intro p hp
    have hq := hp
    obtain ⟨h1, h2, -, -⟩ := hq
    have h3 : MAX_PROPVAR = 16 := rfl
    exact ⟨hp, h1, by omega, by omega, by omega⟩
  refine ⟨fun b hb p hp => key p ((stored_confParse host n file w tree a h).2 b hb p hp), ?_, ?_⟩
  · intro v t c hc b hb p hp
    have := key p ((stored_confParse host n file _ t c hc).2 b hb p hp)
    exact ⟨this.1, this.2.1, this.2.2.1⟩
  · intro st tok v x s c hc
    obtain ⟨b, hb, -, -, hs⟩ := parseBlock_shape n st tok v _ s c hc
    refine ⟨b, hb, fun p hp => ?_⟩
    have := key p (hs rfl p hp)
    exact ⟨this.1, this.2.1, this.2.2.1⟩

/-- C23, on `values15.cfg`, the block `a { p: 1, ..., 1; }` with 15 values:
the tree is returned and its property has `nextVal = 15`.  The properties of
each block of the test file of `tests/parse.c` hold 3, 1, 1 and 1 values.  On
`values16.cfg`, with 16 values, and on `emptyvals.cfg`, the input
`a { p: ; }`, no tree is returned. -/
theorem confParse_stored_values_witness :
    _confParse testHost 100 "values15.cfg" world0
      = some (some [(valuesBlock 14).tree],
          ⟨none, [(valuesBlock 14).tree],
            Event.lexInit "values15.cfg" ::
              ((valuesBlock 14).tokens ++ [punct LEX_TOKEN_NONE 2]).map
                (Event.lex "values15.cfg") ++ [Event.lexDestroy "values15.cfg"]⟩) ∧
    (∀ b ∈ [(valuesBlock 14).tree], ∀ p ∈ b.props,
      p.Stored ∧ 1 ≤ p.nextVal ∧ p.nextVal ≤ 15 ∧ p.nextVal ≠ 0 ∧ p.nextVal ≠ MAX_PROPVAR) ∧
    [(valuesBlock 14).tree].map (fun b => b.props.map fun p => p.nextVal) = [[15]] ∧
    ((ConfInit testHost 100 "testParse.testxt" world0).map fun r =>
        r.1.map fun t => t.map fun b => b.props.map fun p => p.nextVal)
      = some (some [[3, 1, 1, 1], [3, 1, 1, 1], [3, 1, 1, 1]]) ∧
    (ConfInit testHost 100 "values16.cfg" world0).map Prod.fst = some none ∧
    (ConfInit testHost 100 "emptyvals.cfg" world0).map Prod.fst = some none :=
  ⟨by decide,
   (confParse_stored_values testHost 100 "values15.cfg" world0 [(valuesBlock 14).tree]
      ⟨none, [(valuesBlock 14).tree],
        Event.lexInit "values15.cfg" ::
          ((valuesBlock 14).tokens ++ [punct LEX_TOKEN_NONE 2]).map
            (Event.lex "values15.cfg") ++ [Event.lexDestroy "values15.cfg"]⟩ (by decide)).1,
   by decide, by decide, by decide, by decide⟩

end Libconf
